import Mathlib

/-!
UMAC (RFC 4418): a verification development for `fakeboboliu/umac`

The Go sources `utils.go`, `nh.go`, `uhash.go` and `umac.go` are embedded as pure
functions.  Conventions used throughout:

* a byte, a `uint32`, a `uint64` and an `int` are natural numbers; every Go
  operation that can wrap carries its explicit `% 2^32` / `% 2^64`;
* a Go array or slice of bytes or words is a `List Nat`; a fixed array of two or
  four `uint64` is a pair or a quadruple;
* a method with a pointer receiver takes the receiver and returns the updated
  receiver; `none` stands for a run-time panic (index or slice out of range);
* the host is little-endian, as the build constraint of the sources demands.
-/

namespace Umac

/-! ## Slice helpers (`utils.go` and the Go built-ins) -/

/-- Go `copy(dst[lo:hi], src)`, returning the whole of `dst` afterwards. -/
def copySlice (dst : List Nat) (lo hi : Nat) (src : List Nat) : List Nat :=
  dst.take lo ++ src.take (hi - lo) ++ dst.drop (lo + min src.length (hi - lo))

/-- Go `copy(dst[off:], src)`, returning the whole of `dst` afterwards. -/
def copyAt (dst : List Nat) (off : Nat) (src : List Nat) : List Nat :=
  copySlice dst off dst.length src

/-- The source's `toUint32`: a byte slice viewed as little-endian 32-bit words. -/
def toUint32 : List Nat → List Nat
  | b0 :: b1 :: b2 :: b3 :: rest =>
      (b0 + 2 ^ 8 * b1 + 2 ^ 16 * b2 + 2 ^ 24 * b3) :: toUint32 rest
  | _ => []

/-- The source's `toUint64`: a byte slice viewed as little-endian 64-bit words. -/
def toUint64 : List Nat → List Nat
  | b0 :: b1 :: b2 :: b3 :: b4 :: b5 :: b6 :: b7 :: rest =>
      (b0 + 2 ^ 8 * b1 + 2 ^ 16 * b2 + 2 ^ 24 * b3 + 2 ^ 32 * b4 + 2 ^ 40 * b5
        + 2 ^ 48 * b6 + 2 ^ 56 * b7) :: toUint64 rest
  | _ => []

/-- The four little-endian bytes of a 32-bit word. -/
def bytesOfUint32 (w : Nat) : List Nat :=
  [w % 256, w / 2 ^ 8 % 256, w / 2 ^ 16 % 256, w / 2 ^ 24 % 256]

/-- The eight little-endian bytes of a 64-bit word. -/
def bytesOfUint64 (w : Nat) : List Nat :=
  [w % 256, w / 2 ^ 8 % 256, w / 2 ^ 16 % 256, w / 2 ^ 24 % 256,
   w / 2 ^ 32 % 256, w / 2 ^ 40 % 256, w / 2 ^ 48 % 256, w / 2 ^ 56 % 256]

/-- The source's `toBytes` at `uint64`: the words laid out in memory. -/
def toBytes (u : List Nat) : List Nat :=
  u.flatMap bytesOfUint64

/-- The bytes behind a `[]uint32` view, used when words are stored through it. -/
def bytesOfWords32 (u : List Nat) : List Nat :=
  u.flatMap bytesOfUint32

/-- Go `bits.ReverseBytes32`. -/
def reverseBytes32 (w : Nat) : Nat :=
  w % 256 * 2 ^ 24 + w / 2 ^ 8 % 256 * 2 ^ 16 + w / 2 ^ 16 % 256 * 2 ^ 8 + w / 2 ^ 24 % 256

/-- Go `bits.ReverseBytes64`. -/
def reverseBytes64 (w : Nat) : Nat :=
  w % 256 * 2 ^ 56 + w / 2 ^ 8 % 256 * 2 ^ 48 + w / 2 ^ 16 % 256 * 2 ^ 40
    + w / 2 ^ 24 % 256 * 2 ^ 32 + w / 2 ^ 32 % 256 * 2 ^ 24 + w / 2 ^ 40 % 256 * 2 ^ 16
    + w / 2 ^ 48 % 256 * 2 ^ 8 + w / 2 ^ 56 % 256

/-- Go `binary.BigEndian.Uint64(b)`; it panics on fewer than eight bytes. -/
def bigEndianUint64 (b : List Nat) : Option Nat :=
  match b with
  | b0 :: b1 :: b2 :: b3 :: b4 :: b5 :: b6 :: b7 :: _ =>
      some (b7 + 2 ^ 8 * b6 + 2 ^ 16 * b5 + 2 ^ 24 * b4 + 2 ^ 32 * b3 + 2 ^ 40 * b2
        + 2 ^ 48 * b1 + 2 ^ 56 * b0)
  | _ => none

/-- The four big-endian bytes of a 32-bit word. -/
def bigEndianBytes32 (v : Nat) : List Nat :=
  [v / 2 ^ 24 % 256, v / 2 ^ 16 % 256, v / 2 ^ 8 % 256, v % 256]

/-- Go `binary.BigEndian.PutUint32(out[off:], v)`; it panics when fewer than four
bytes are left. -/
def putUint32 (out : List Nat) (off v : Nat) : Option (List Nat) :=
  if out.length < off + 4 then none
  else some (copySlice out off (off + 4) (bigEndianBytes32 v))

/-- Go `subtle.XORBytes(buf, buf, y)`: the first `min (len buf) (len y)` bytes of
`buf` are XORed with `y`, the others are kept. -/
def xorBytes (buf y : List Nat) : List Nat :=
  List.zipWith (fun a b => a ^^^ b) buf y ++ buf.drop y.length

/-! ## The block cipher (Go `crypto/cipher.Block` and `crypto/aes`)

The cipher is a collaborator of the repository.  `Block` is the interface the
sources program against; `aesNewCipher` is a model of `aes.NewCipher` following
FIPS-197, with the key sizes Go accepts (16, 24 and 32 bytes).  The cipher state is
held as one number of sixteen bytes, so that a round is a handful of arithmetic
operations; `aesCipher_fips197` checks the model against the example vectors of
FIPS-197, Appendix C. -/

/-- A `cipher.Block` with `BlockSize() = 16`: `encrypt src` is what
`Encrypt(dst, src)` stores into `dst[0:16]`. -/
structure Block where
  encrypt : List Nat → List Nat
  size_eq : ∀ src, (encrypt src).length = 16

/-- The AES substitution box (FIPS-197, Figure 7), entry `x` at index `x`. -/
def aesSbox : List Nat :=
  [0x63, 0x7c, 0x77, 0x7b, 0xf2, 0x6b, 0x6f, 0xc5, 0x30, 0x01, 0x67, 0x2b, 0xfe, 0xd7, 0xab, 0x76,
   0xca, 0x82, 0xc9, 0x7d, 0xfa, 0x59, 0x47, 0xf0, 0xad, 0xd4, 0xa2, 0xaf, 0x9c, 0xa4, 0x72, 0xc0,
   0xb7, 0xfd, 0x93, 0x26, 0x36, 0x3f, 0xf7, 0xcc, 0x34, 0xa5, 0xe5, 0xf1, 0x71, 0xd8, 0x31, 0x15,
   0x04, 0xc7, 0x23, 0xc3, 0x18, 0x96, 0x05, 0x9a, 0x07, 0x12, 0x80, 0xe2, 0xeb, 0x27, 0xb2, 0x75,
   0x09, 0x83, 0x2c, 0x1a, 0x1b, 0x6e, 0x5a, 0xa0, 0x52, 0x3b, 0xd6, 0xb3, 0x29, 0xe3, 0x2f, 0x84,
   0x53, 0xd1, 0x00, 0xed, 0x20, 0xfc, 0xb1, 0x5b, 0x6a, 0xcb, 0xbe, 0x39, 0x4a, 0x4c, 0x58, 0xcf,
   0xd0, 0xef, 0xaa, 0xfb, 0x43, 0x4d, 0x33, 0x85, 0x45, 0xf9, 0x02, 0x7f, 0x50, 0x3c, 0x9f, 0xa8,
   0x51, 0xa3, 0x40, 0x8f, 0x92, 0x9d, 0x38, 0xf5, 0xbc, 0xb6, 0xda, 0x21, 0x10, 0xff, 0xf3, 0xd2,
   0xcd, 0x0c, 0x13, 0xec, 0x5f, 0x97, 0x44, 0x17, 0xc4, 0xa7, 0x7e, 0x3d, 0x64, 0x5d, 0x19, 0x73,
   0x60, 0x81, 0x4f, 0xdc, 0x22, 0x2a, 0x90, 0x88, 0x46, 0xee, 0xb8, 0x14, 0xde, 0x5e, 0x0b, 0xdb,
   0xe0, 0x32, 0x3a, 0x0a, 0x49, 0x06, 0x24, 0x5c, 0xc2, 0xd3, 0xac, 0x62, 0x91, 0x95, 0xe4, 0x79,
   0xe7, 0xc8, 0x37, 0x6d, 0x8d, 0xd5, 0x4e, 0xa9, 0x6c, 0x56, 0xf4, 0xea, 0x65, 0x7a, 0xae, 0x08,
   0xba, 0x78, 0x25, 0x2e, 0x1c, 0xa6, 0xb4, 0xc6, 0xe8, 0xdd, 0x74, 0x1f, 0x4b, 0xbd, 0x8b, 0x8a,
   0x70, 0x3e, 0xb5, 0x66, 0x48, 0x03, 0xf6, 0x0e, 0x61, 0x35, 0x57, 0xb9, 0x86, 0xc1, 0x1d, 0x9e,
   0xe1, 0xf8, 0x98, 0x11, 0x69, 0xd9, 0x8e, 0x94, 0x9b, 0x1e, 0x87, 0xe9, 0xce, 0x55, 0x28, 0xdf,
   0x8c, 0xa1, 0x89, 0x0d, 0xbf, 0xe6, 0x42, 0x68, 0x41, 0x99, 0x2d, 0x0f, 0xb0, 0x54, 0xbb, 0x16]

/-- The substitution box as one number, entry `x` in bits `8x` to `8x + 7`. -/
def aesSboxPacked : Nat := aesSbox.foldr (fun b acc => b + 256 * acc) 0

/-- FIPS-197 `SubBytes` on one byte: the entry `x` of the substitution box. -/
def aesSubByte (x : Nat) : Nat := aesSboxPacked / 256 ^ x % 256

/-- A block of up to sixteen bytes as one number, byte `i` in bits `8i` to `8i + 7`.
Byte `4c + r` of a block is row `r` of column `c` of the FIPS-197 state, so a
column is one 32-bit group of the number. -/
def aesPack (bs : List Nat) : Nat := bs.foldr (fun b acc => b % 256 + 256 * acc) 0

/-- The sixteen bytes of a packed block. -/
def aesUnpack (s : Nat) : List Nat := (List.range 16).map (fun i => s / 256 ^ i % 256)

/-- FIPS-197 `ShiftRows`: the position the byte at position `i = 4c + r` comes
from, row `r` of column `c + r`. -/
def aesShiftSource (i : Nat) : Nat := 4 * ((i / 4 + i % 4) % 4) + i % 4

/-- FIPS-197 `SubBytes` followed by `ShiftRows` on a packed state. -/
def aesSubShift (s : Nat) : Nat :=
  (List.range 16).foldl
    (fun acc i => acc + aesSubByte (s / 256 ^ aesShiftSource i % 256) * 256 ^ i) 0

/-- Multiplication by `x` in GF(2^8) modulo `x^8 + x^4 + x^3 + x + 1`, on all sixteen
bytes of a packed state at once: the low seven bits of every byte are doubled
and `0x1b` is added where the high bit was set. -/
def aesXtime (s : Nat) : Nat :=
  ((s &&& 0x7f7f7f7f7f7f7f7f7f7f7f7f7f7f7f7f) * 2)
    ^^^ ((s / 128 &&& 0x01010101010101010101010101010101) * 0x1b)

/-- Every column of a packed state rotated by one row: row `r` takes the byte of
row `r + 1`. -/
def aesRotate (s : Nat) : Nat :=
  (s / 256 &&& 0x00ffffff00ffffff00ffffff00ffffff)
    ||| ((s &&& 0x000000ff000000ff000000ff000000ff) * 2 ^ 24)

/-- FIPS-197 `MixColumns` on a packed state: row `r` of every column becomes
`2·s[r] + 3·s[r+1] + s[r+2] + s[r+3]` in GF(2^8). -/
def aesMixColumns (s : Nat) : Nat :=
  aesXtime s ^^^ aesRotate (aesXtime s ^^^ s) ^^^ aesRotate (aesRotate s)
    ^^^ aesRotate (aesRotate (aesRotate s))

/-- FIPS-197 round constants. -/
def aesRcon : List Nat := [0x01, 0x02, 0x04, 0x08, 0x10, 0x20, 0x40, 0x80, 0x1b, 0x36]

/-- The key split into four-byte words. -/
def aesWords : List Nat → List (List Nat)
  | b0 :: b1 :: b2 :: b3 :: rest => [b0, b1, b2, b3] :: aesWords rest
  | _ => []

/-- FIPS-197 `KeyExpansion`, word `i` from word `i - 1` (`prev`) and word `i - Nk`
(`back`). -/
def aesNextWord (nk i : Nat) (prev back : List Nat) : List Nat :=
  let temp :=
    if i % nk = 0 then
      [aesSubByte (prev.getD 1 0) ^^^ aesRcon.getD (i / nk - 1) 0,
       aesSubByte (prev.getD 2 0), aesSubByte (prev.getD 3 0), aesSubByte (prev.getD 0 0)]
    else if 6 < nk ∧ i % nk = 4 then prev.map aesSubByte
    else prev
  List.zipWith (fun a b => a ^^^ b) back temp

/-- FIPS-197 `KeyExpansion`: `n` more words are appended to the schedule `ws`. -/
def aesExpand (nk : Nat) : Nat → List (List Nat) → List (List Nat)
  | 0, ws => ws
  | n + 1, ws =>
      aesExpand nk n
        (ws ++ [aesNextWord nk ws.length (ws.getD (ws.length - 1) []) (ws.getD (ws.length - nk) [])])

/-- The round keys, sixteen bytes each, from the word schedule. -/
def aesRoundKeys : List (List Nat) → List (List Nat)
  | w0 :: w1 :: w2 :: w3 :: rest => (w0 ++ w1 ++ w2 ++ w3) :: aesRoundKeys rest
  | _ => []

/-- The round keys of a key of `4 * Nk` bytes: `Nk + 7` of them. -/
def aesKeySchedule (key : List Nat) : List (List Nat) :=
  aesRoundKeys (aesExpand (key.length / 4) (4 * (key.length / 4 + 7) - key.length / 4) (aesWords key))

/-- FIPS-197 `Cipher`: the rounds after the initial `AddRoundKey`, on a packed
state with packed round keys; the last round key is used without `MixColumns`. -/
def aesRounds : List Nat → Nat → Nat
  | [], st => st
  | [rk], st => aesSubShift st ^^^ rk
  | rk :: rks, st => aesRounds rks (aesMixColumns (aesSubShift st) ^^^ rk)

/-- FIPS-197 `Cipher` on the first sixteen bytes of `src`, with the round keys
`rks`. -/
def aesEncrypt (rks : List (List Nat)) (src : List Nat) : List Nat :=
  aesUnpack (aesRounds (rks.tail.map aesPack) (aesPack (src.take 16) ^^^ aesPack (rks.headD [])))

/-- The AES block cipher under `key`, as a `cipher.Block`. -/
def aesCipher (key : List Nat) : Block :=
  { encrypt := aesEncrypt (aesKeySchedule key)
    size_eq := fun _ => by simp [aesEncrypt, aesUnpack] }

/-- Go `aes.NewCipher`: an error (`none`) unless the key has 16, 24 or 32 bytes. -/
def aesNewCipher (key : List Nat) : Option Block :=
  if key.length = 16 ∨ key.length = 24 ∨ key.length = 32 then some (aesCipher key) else none

/-! ## `umac.go`: KDF and PDF -/

/-- The counter block of `kdf`: `srcBuf` with `srcBuf[7] = index` and
`srcBuf[15] = uint8(i)`. -/
def kdfBlock (index i : Nat) : List Nat :=
  [0, 0, 0, 0, 0, 0, 0, index, 0, 0, 0, 0, 0, 0, 0, i % 256]

/-- The body of `kdf` after `v` has been computed: `n` passes of the `for` loop
starting at counter `i`, then the final partial-or-full block.  The result is
the content of the buffer behind `dst`. -/
def kdfLoop (cip : Block) (index : Nat) : Nat → Nat → List Nat → List Nat
  | 0, i, dst =>
      if 0 < dst.length then copyAt dst 0 (cip.encrypt (kdfBlock index i)) else dst
  | n + 1, i, dst =>
      (copyAt dst 0 (cip.encrypt (kdfBlock index i))).take 16
        ++ kdfLoop cip index n (i + 1) (dst.drop 16)

/-- The source's `kdf(cip, index, dst)`; `v = ceil(len(dst) / 16)` and the loop runs
for `i = 1, …, v - 1`.  The result is the content of the buffer behind `dst`. -/
def kdf (cip : Block) (index : Nat) (dst : List Nat) : List Nat :=
  kdfLoop cip index ((dst.length + 15) / 16 - 1) 1 dst

/-- The source's `pdfCtx`; `cip = none` is the nil interface value. -/
structure pdfCtx where
  cip : Option Block
  cache : List Nat
  nonce : List Nat

/-- The source's `pdfCtx.init`. -/
def pdfCtx.init (c : pdfCtx) (cip : Block) : Option pdfCtx :=
  let cache := kdf cip 0 c.cache
  match aesNewCipher cache with
  | none => none
  | some k => some { cip := some k, cache := copyAt cache 0 (k.encrypt c.nonce), nonce := c.nonce }

/-- The nonce comparison and cache refresh shared by `genXor8` and `genXor16`:
`t` is the (possibly scrubbed) last four nonce bytes. -/
def pdfCtx.refresh (c : pdfCtx) (nonce t : List Nat) : Option pdfCtx :=
  if t ≠ c.nonce.drop 4 ∨ nonce.take 4 ≠ c.nonce.take 4 then
    match c.cip with
    | none => none
    | some k =>
        let nonce16 := copySlice (copySlice c.nonce 0 4 (nonce.take 4)) 4 8 t
        some { c with nonce := nonce16, cache := copyAt c.cache 0 (k.encrypt nonce16) }
  else some c

/-- The source's `pdfCtx.genXor8`; `nonce` is the `[8]byte` argument. -/
def pdfCtx.genXor8 (c : pdfCtx) (nonce buf : List Nat) : Option (pdfCtx × List Nat) :=
  if buf.length ≤ 7 then none
  else
    let ndx := nonce.getD 7 0 % 2
    let t := (nonce.drop 4).take 4
    let t := t.set 3 (t.getD 3 0 / 2 * 2)
    match c.refresh nonce t with
    | none => none
    | some c1 => some (c1, xorBytes buf (c1.cache.drop (ndx * 8)))

/-- The source's `pdfCtx.genXor16`; `nonce` is the `[8]byte` argument. -/
def pdfCtx.genXor16 (c : pdfCtx) (nonce buf : List Nat) : Option (pdfCtx × List Nat) :=
  if buf.length ≤ 7 then none
  else
    let t := (nonce.drop 4).take 4
    match c.refresh nonce t with
    | none => none
    | some c1 => some (c1, xorBytes buf c1.cache)

/-! ## `nh.go` -/

/-- Addition of two `uint32`. -/
def add32 (a b : Nat) : Nat := (a + b) % 2 ^ 32

/-- The source's `STREAMS8`-wide state array `[2]uint64`. -/
abbrev Words2 := Nat × Nat

/-- The source's `STREAMS16`-wide state array `[4]uint64`. -/
abbrev Words4 := Nat × Nat × Nat × Nat

/-- The `for batches > 0` loop of `nhAux8`, `batches` passes with the current
`kache`, `k`, `d` and `hp`. -/
def nhAux8Loop : Nat → List Nat → List Nat → List Nat → Words2 → Option Words2
  | 0, _, _, _, hp => some hp
  | batches + 1, kache, k, d, hp =>
      if d.length ≤ 7 ∨ k.length ≤ 11 then none
      else
        let hp0 := (hp.1 + (add32 (kache.getD 0 0) (d.getD 0 0) * add32 (k.getD 4 0) (d.getD 4 0)
          + add32 (kache.getD 1 0) (d.getD 1 0) * add32 (k.getD 5 0) (d.getD 5 0)
          + add32 (kache.getD 2 0) (d.getD 2 0) * add32 (k.getD 6 0) (d.getD 6 0)
          + add32 (kache.getD 3 0) (d.getD 3 0) * add32 (k.getD 7 0) (d.getD 7 0)) % 2 ^ 64) % 2 ^ 64
        let hp1 := (hp.2 + (add32 (k.getD 4 0) (d.getD 0 0) * add32 (k.getD 8 0) (d.getD 4 0)
          + add32 (k.getD 5 0) (d.getD 1 0) * add32 (k.getD 9 0) (d.getD 5 0)
          + add32 (k.getD 6 0) (d.getD 2 0) * add32 (k.getD 10 0) (d.getD 6 0)
          + add32 (k.getD 7 0) (d.getD 3 0) * add32 (k.getD 11 0) (d.getD 7 0)) % 2 ^ 64) % 2 ^ 64
        nhAux8Loop batches ((k.drop 8).take 4) (k.drop 8) (d.drop 8) (hp0, hp1)

/-- The source's `nhAux8(k, d, hp, dlen)`; `kache := k[0:4]` panics on fewer than
four key words. -/
def nhAux8 (k d : List Nat) (hp : Words2) (dlen : Nat) : Option Words2 :=
  if k.length < 4 then none
  else nhAux8Loop (dlen / 32) (k.take 4) k d hp

/-- The source's `nhCtx8`. -/
structure nhCtx8 where
  key : List Nat
  data : List Nat
  nextEmpty : Nat
  hashed : Nat
  state : Words2

/-- The source's `nhCtx8.transform`. -/
def nhCtx8.transform (c : nhCtx8) (buf : List Nat) : Option nhCtx8 :=
  if c.key.length < c.hashed then none
  else
    match nhAux8 (toUint32 (c.key.drop c.hashed)) (toUint32 buf) c.state buf.length with
    | none => none
    | some st => some { c with state := st }

/-- The source's `nhCtx8.reset`. -/
def nhCtx8.reset (c : nhCtx8) : nhCtx8 :=
  { c with nextEmpty := 0, hashed := 0, state := (0, 0) }

/-- The source's `nhCtx8.init`: the key is filled by `kdf` and every 32-bit word of
it is byte-reversed in place. -/
def nhCtx8.init (c : nhCtx8) (cip : Block) : nhCtx8 :=
  let key := kdf cip 1 c.key
  let array := toUint32 key
  nhCtx8.reset
    { c with key := bytesOfWords32 (array.map reverseBytes32) ++ key.drop (4 * array.length) }

/-- The source's `nhCtx8.update`. -/
def nhCtx8.update (c : nhCtx8) (buf : List Nat) : Option nhCtx8 :=
  let j := c.nextEmpty
  let n := buf.length
  if j + n ≥ 64 then
    let r1 : Option (nhCtx8 × Nat × List Nat) :=
      if j ≠ 0 then
        if c.data.length < j ∨ 64 < j then none
        else
          let i := 64 - j
          let c1 := { c with data := copyAt c.data j (buf.take i) }
          match c1.transform c1.data with
          | none => none
          | some c2 => some ({ c2 with hashed := c2.hashed + 64 }, n - i, buf.drop i)
      else some (c, n, buf)
    match r1 with
    | none => none
    | some (c, n, buf) =>
      let r2 : Option (nhCtx8 × Nat × List Nat) :=
        if n ≥ 64 then
          let i := n - n % 64
          match c.transform (buf.take i) with
          | none => none
          | some c2 => some ({ c2 with hashed := c2.hashed + i }, n - i, buf.drop i)
        else some (c, n, buf)
      match r2 with
      | none => none
      | some (c, n, buf) => some { c with data := copyAt c.data 0 buf, nextEmpty := 0 + n }
  else
    if c.data.length < j then none
    else some { c with data := copyAt c.data j buf, nextEmpty := j + n }

/-- The source's `nhCtx8.final`; the two result words are returned with the
context. -/
def nhCtx8.final (c : nhCtx8) : Option (nhCtx8 × Words2) :=
  let r : Option nhCtx8 :=
    if c.nextEmpty ≠ 0 then
      let nhLen := (c.nextEmpty + 31) - (c.nextEmpty + 31) % 32
      if c.data.length < c.nextEmpty then none
      else
        let c1 := { c with data := copyAt c.data c.nextEmpty (List.replicate (nhLen - c.nextEmpty) 0) }
        if c1.data.length < nhLen then none
        else
          match c1.transform (c1.data.take nhLen) with
          | none => none
          | some c2 => some { c2 with hashed := c2.hashed + c2.nextEmpty }
    else if c.hashed = 0 then
      let c1 := { c with data := copyAt c.data 0 (List.replicate 32 0) }
      if c1.data.length < 32 then none
      else c1.transform (c1.data.take 32)
    else some c
  match r with
  | none => none
  | some c =>
    let nbits := c.hashed * 8 % 2 ^ 64
    some (c.reset, ((c.state.1 + nbits) % 2 ^ 64, (c.state.2 + nbits) % 2 ^ 64))

/-- The source's `nhCtx8.hash`; the result words are returned. -/
def nhCtx8.hash (c : nhCtx8) (buf : List Nat) (paddedLen unpaddedLen : Nat) : Option Words2 :=
  let nbits := unpaddedLen * 8 % 2 ^ 64
  nhAux8 (toUint32 c.key) (toUint32 buf) (nbits, nbits) paddedLen

/-- The `for batches > 0` loop of `nhAux16`, `batches` passes with the current `k`,
`d` and `hp`. -/
def nhAux16Loop : Nat → List Nat → List Nat → Words4 → Option Words4
  | 0, _, _, hp => some hp
  | batches + 1, k, d, hp =>
      if d.length ≤ 7 ∨ k.length ≤ 19 then none
      else
        let hp0 := (hp.1 + (add32 (k.getD 0 0) (d.getD 0 0) * add32 (k.getD 4 0) (d.getD 4 0)
          + add32 (k.getD 1 0) (d.getD 1 0) * add32 (k.getD 5 0) (d.getD 5 0)
          + add32 (k.getD 2 0) (d.getD 2 0) * add32 (k.getD 6 0) (d.getD 6 0)
          + add32 (k.getD 3 0) (d.getD 3 0) * add32 (k.getD 7 0) (d.getD 7 0)) % 2 ^ 64) % 2 ^ 64
        let hp1 := (hp.2.1 + (add32 (k.getD 4 0) (d.getD 0 0) * add32 (k.getD 8 0) (d.getD 4 0)
          + add32 (k.getD 5 0) (d.getD 1 0) * add32 (k.getD 9 0) (d.getD 5 0)
          + add32 (k.getD 6 0) (d.getD 2 0) * add32 (k.getD 10 0) (d.getD 6 0)
          + add32 (k.getD 7 0) (d.getD 3 0) * add32 (k.getD 11 0) (d.getD 7 0)) % 2 ^ 64) % 2 ^ 64
        let hp2 := (hp.2.2.1 + (add32 (k.getD 8 0) (d.getD 0 0) * add32 (k.getD 12 0) (d.getD 4 0)
          + add32 (k.getD 9 0) (d.getD 1 0) * add32 (k.getD 13 0) (d.getD 5 0)
          + add32 (k.getD 10 0) (d.getD 2 0) * add32 (k.getD 14 0) (d.getD 6 0)
          + add32 (k.getD 11 0) (d.getD 3 0) * add32 (k.getD 15 0) (d.getD 7 0)) % 2 ^ 64) % 2 ^ 64
        let hp3 := (hp.2.2.2 + (add32 (k.getD 12 0) (d.getD 0 0) * add32 (k.getD 16 0) (d.getD 4 0)
          + add32 (k.getD 13 0) (d.getD 1 0) * add32 (k.getD 17 0) (d.getD 5 0)
          + add32 (k.getD 14 0) (d.getD 2 0) * add32 (k.getD 18 0) (d.getD 6 0)
          + add32 (k.getD 15 0) (d.getD 3 0) * add32 (k.getD 19 0) (d.getD 7 0)) % 2 ^ 64) % 2 ^ 64
        nhAux16Loop batches (k.drop 8) (d.drop 8) (hp0, hp1, hp2, hp3)

/-- The source's `nhAux16(k, d, hp, dlen)`. -/
def nhAux16 (k d : List Nat) (hp : Words4) (dlen : Nat) : Option Words4 :=
  nhAux16Loop (dlen / 32) k d hp

/-- The source's `nhCtx16`. -/
structure nhCtx16 where
  key : List Nat
  data : List Nat
  nextEmpty : Nat
  hashed : Nat
  state : Words4

/-- The source's `nhCtx16.transform`. -/
def nhCtx16.transform (c : nhCtx16) (buf : List Nat) : Option nhCtx16 :=
  if c.key.length < c.hashed then none
  else
    match nhAux16 (toUint32 (c.key.drop c.hashed)) (toUint32 buf) c.state buf.length with
    | none => none
    | some st => some { c with state := st }

/-- The source's `nhCtx16.reset`. -/
def nhCtx16.reset (c : nhCtx16) : nhCtx16 :=
  { c with nextEmpty := 0, hashed := 0, state := (0, 0, 0, 0) }

/-- The source's `nhCtx16.init`: the key is filled by `kdf` and every 32-bit word of
it is byte-reversed in place. -/
def nhCtx16.init (c : nhCtx16) (cip : Block) : nhCtx16 :=
  let key := kdf cip 1 c.key
  let array := toUint32 key
  nhCtx16.reset
    { c with key := bytesOfWords32 (array.map reverseBytes32) ++ key.drop (4 * array.length) }

/-- The source's `nhCtx16.update`. -/
def nhCtx16.update (c : nhCtx16) (buf : List Nat) : Option nhCtx16 :=
  let j := c.nextEmpty
  let n := buf.length
  if j + n ≥ 64 then
    let r1 : Option (nhCtx16 × Nat × List Nat) :=
      if j ≠ 0 then
        if c.data.length < j ∨ 64 < j then none
        else
          let i := 64 - j
          let c1 := { c with data := copyAt c.data j (buf.take i) }
          match c1.transform c1.data with
          | none => none
          | some c2 => some ({ c2 with hashed := c2.hashed + 64 }, n - i, buf.drop i)
      else some (c, n, buf)
    match r1 with
    | none => none
    | some (c, n, buf) =>
      let r2 : Option (nhCtx16 × Nat × List Nat) :=
        if n ≥ 64 then
          let i := n - n % 64
          match c.transform (buf.take i) with
          | none => none
          | some c2 => some ({ c2 with hashed := c2.hashed + i }, n - i, buf.drop i)
        else some (c, n, buf)
      match r2 with
      | none => none
      | some (c, n, buf) => some { c with data := copyAt c.data 0 buf, nextEmpty := 0 + n }
  else
    if c.data.length < j then none
    else some { c with data := copyAt c.data j buf, nextEmpty := j + n }

/-- The source's `nhCtx16.final`; the four result words are returned with the
context. -/
def nhCtx16.final (c : nhCtx16) : Option (nhCtx16 × Words4) :=
  let r : Option nhCtx16 :=
    if c.nextEmpty ≠ 0 then
      let nhLen := (c.nextEmpty + 31) - (c.nextEmpty + 31) % 32
      if c.data.length < c.nextEmpty then none
      else
        let c1 := { c with data := copyAt c.data c.nextEmpty (List.replicate (nhLen - c.nextEmpty) 0) }
        if c1.data.length < nhLen then none
        else
          match c1.transform (c1.data.take nhLen) with
          | none => none
          | some c2 => some { c2 with hashed := c2.hashed + c2.nextEmpty }
    else if c.hashed = 0 then
      let c1 := { c with data := copyAt c.data 0 (List.replicate 32 0) }
      if c1.data.length < 32 then none
      else c1.transform (c1.data.take 32)
    else some c
  match r with
  | none => none
  | some c =>
    let nbits := c.hashed * 8 % 2 ^ 64
    some (c.reset, ((c.state.1 + nbits) % 2 ^ 64, (c.state.2.1 + nbits) % 2 ^ 64,
      (c.state.2.2.1 + nbits) % 2 ^ 64, (c.state.2.2.2 + nbits) % 2 ^ 64))

/-- The source's `nhCtx16.hash`; the result words are returned. -/
def nhCtx16.hash (c : nhCtx16) (buf : List Nat) (paddedLen unpaddedLen : Nat) : Option Words4 :=
  let nbits := unpaddedLen * 8 % 2 ^ 64
  nhAux16 (toUint32 c.key) (toUint32 buf) (nbits, nbits, nbits, nbits) paddedLen

/-! ## `uhash.go` -/

/-- The source's `p36`, the prime `2^36 - 5`. -/
def p36 : Nat := 0x0000000FFFFFFFFB

/-- The source's `p64`, the prime `2^64 - 59`. -/
def p64 : Nat := 0xFFFFFFFFFFFFFFC5

/-- The source's `m36`, the low 36 bits. -/
def m36 : Nat := 0x0000000FFFFFFFFF

/-- The source's `poly64(cur, key, data)`. -/
def poly64 (cur key data : Nat) : Nat :=
  let keyHi := key / 2 ^ 32 % 2 ^ 32
  let keyLo := key % 2 ^ 32
  let curHi := cur / 2 ^ 32 % 2 ^ 32
  let curLo := cur % 2 ^ 32
  let x := (keyHi * curLo + curHi * keyLo) % 2 ^ 64
  let xLo := x % 2 ^ 32
  let xHi := x / 2 ^ 32 % 2 ^ 32
  let res := ((keyHi * curHi + xHi) * 59 + keyLo * curLo) % 2 ^ 64
  let t := xLo * 2 ^ 32 % 2 ^ 64
  let res := (res + t) % 2 ^ 64
  let res := if res < t then (res + 59) % 2 ^ 64 else res
  let res := (res + data) % 2 ^ 64
  let res := if res < data then (res + 59) % 2 ^ 64 else res
  res

/-- The exact (unwrapped) value of `x` in `poly64`: `keyHi*curLo + curHi*keyLo`. -/
def poly64X (cur key : Nat) : Nat :=
  (key / 2 ^ 32 % 2 ^ 32) * (cur % 2 ^ 32) + (cur / 2 ^ 32 % 2 ^ 32) * (key % 2 ^ 32)

/-- The exact (unwrapped) value first assigned to `res` in `poly64`:
`(keyHi*curHi + xHi)*59 + keyLo*curLo`. -/
def poly64Res (cur key : Nat) : Nat :=
  ((key / 2 ^ 32 % 2 ^ 32) * (cur / 2 ^ 32 % 2 ^ 32) + poly64X cur key / 2 ^ 32 % 2 ^ 32) * 59
    + (key % 2 ^ 32) * (cur % 2 ^ 32)

/-- The four `t += ipkp[i] * limb` steps of `ipAux` on the key words `ipkp[0..3]`,
every product and sum wrapping at 64 bits; the words are present when `ipAux`
gets here. -/
def ipAuxSteps (t : Nat) (ipkp : List Nat) (data : Nat) : Nat :=
  let t := (t + ipkp.getD 0 0 * (data / 2 ^ 48 % 2 ^ 16) % 2 ^ 64) % 2 ^ 64
  let t := (t + ipkp.getD 1 0 * (data / 2 ^ 32 % 2 ^ 16) % 2 ^ 64) % 2 ^ 64
  let t := (t + ipkp.getD 2 0 * (data / 2 ^ 16 % 2 ^ 16) % 2 ^ 64) % 2 ^ 64
  let t := (t + ipkp.getD 3 0 * (data % 2 ^ 16) % 2 ^ 64) % 2 ^ 64
  t

/-- The source's `ipAux(t, ipkp, data)`; it indexes `ipkp[0]` to `ipkp[3]` and panics
on a slice of fewer than four words. -/
def ipAux (t : Nat) (ipkp : List Nat) (data : Nat) : Option Nat :=
  if ipkp.length < 4 then none else some (ipAuxSteps t ipkp data)

/-- The source's `ipReduceP36(t)`. -/
def ipReduceP36 (t : Nat) : Nat :=
  let ret := (t % 2 ^ 36 + 5 * (t / 2 ^ 36)) % 2 ^ 64
  let ret := if ret ≥ p36 then ret - p36 else ret
  ret % 2 ^ 32

/-- The body of the `for` loop of `polyHash`, for one stream: the new value of
`polyResult[i]` from `polyResult[i]`, `polyKey[i]` and `data64[i]`. -/
def polyHashStep (acc key d : Nat) : Nat :=
  if d / 2 ^ 32 % 2 ^ 32 = 0xffffffff then
    poly64 (poly64 acc key (p64 - 1)) key ((d + 2 ^ 64 - 59) % 2 ^ 64)
  else poly64 acc key d

/-- The reduction `if polyResult[i] >= p64 { polyResult[i] -= p64 }` of `ipLong`. -/
def reduceP64 (r : Nat) : Nat := if r ≥ p64 then r - p64 else r

/-- The source's `uhash8`. -/
structure uhash8 where
  nh : nhCtx8
  polyKey : Words2
  polyResult : Words2
  ipKeys : List Nat
  ipTrans : Words2
  msgLen : Nat

/-- The source's `uhash8.polyHash`. -/
def uhash8.polyHash (u : uhash8) (data64 : Words2) : uhash8 :=
  { u with polyResult := (polyHashStep u.polyResult.1 u.polyKey.1 data64.1,
                          polyHashStep u.polyResult.2 u.polyKey.2 data64.2) }

/-- The source's `uhash8.ipShort(in, out)`; the content of `out` is returned. -/
def uhash8.ipShort (u : uhash8) (inp out : List Nat) : Option (List Nat) :=
  if inp.length ≤ 15 ∨ out.length ≤ 7 then none
  else
    let nhp := toUint64 inp
    match ipAux 0 u.ipKeys (nhp.getD 0 0) with
    | none => none
    | some t =>
      match putUint32 out 0 (ipReduceP36 t ^^^ u.ipTrans.1) with
      | none => none
      | some out =>
        match ipAux 0 (u.ipKeys.drop 4) (nhp.getD 1 0) with
        | none => none
        | some t => putUint32 out 4 (ipReduceP36 t ^^^ u.ipTrans.2)

/-- The source's `uhash8.ipLong(out)`; the content of `out` is returned. -/
def uhash8.ipLong (u : uhash8) (out : List Nat) : Option (uhash8 × List Nat) :=
  if out.length ≤ 7 then none
  else
    let u := { u with polyResult := (reduceP64 u.polyResult.1, reduceP64 u.polyResult.2) }
    match ipAux 0 u.ipKeys u.polyResult.1 with
    | none => none
    | some t =>
      match putUint32 out 0 (ipReduceP36 t ^^^ u.ipTrans.1) with
      | none => none
      | some out =>
        match ipAux 0 (u.ipKeys.drop 4) u.polyResult.2 with
        | none => none
        | some t =>
          match putUint32 out 4 (ipReduceP36 t ^^^ u.ipTrans.2) with
          | none => none
          | some out => some (u, out)

/-- The source's `uhash8.reset`. -/
def uhash8.reset (u : uhash8) : uhash8 :=
  { u with nh := u.nh.reset, msgLen := 0, polyResult := (1, 1) }

/-- The zero value `nhCtx8{}`. -/
def nhCtx8.zero : nhCtx8 :=
  { key := List.replicate 1040 0, data := List.replicate 64 0, nextEmpty := 0, hashed := 0,
    state := (0, 0) }

/-- The mask `0x01ffffff<<32 + 0x01ffffff` of `init`. -/
def polyKeyMask : Nat := 0x01ffffff * 2 ^ 32 + 0x01ffffff

/-- The four IP keys of stream `i` in `init`: the little-endian words at byte offset
`(8*i+4)*8` of `buf`, byte-reversed and reduced modulo `p36`. -/
def ipKeysOfStream (buf : List Nat) (i : Nat) : List Nat :=
  let src := toUint64 (buf.drop ((8 * i + 4) * 8))
  [reverseBytes64 (src.getD 0 0) % p36, reverseBytes64 (src.getD 1 0) % p36,
   reverseBytes64 (src.getD 2 0) % p36, reverseBytes64 (src.getD 3 0) % p36]

/-- The source's `uhash8.init`. -/
def uhash8.init (u : uhash8) (cip : Block) : Option uhash8 :=
  let buf := List.replicate ((8 * 2 + 4) * 8) 0
  let nh := nhCtx8.zero.init cip
  let buf := kdf cip 2 buf
  match bigEndianUint64 buf, bigEndianUint64 (buf.drop 24) with
  | some k0, some k1 =>
    let buf := kdf cip 3 buf
    let ipKeys := ipKeysOfStream buf 0 ++ ipKeysOfStream buf 1
    let src := toUint32 (kdf cip 4 (buf.take (2 * 4)))
    some { u with
      nh := nh
      polyKey := (k0 &&& polyKeyMask, k1 &&& polyKeyMask)
      polyResult := (1, 1)
      ipKeys := ipKeys
      ipTrans := (reverseBytes32 (src.getD 0 0), reverseBytes32 (src.getD 1 0)) }
  | _, _ => none

/-- The `for bufLen >= L1_KEY_LEN` loop of `uhash8.update`, `n` passes. -/
def uhash8.updateLoop : Nat → uhash8 → List Nat → Nat → Option (uhash8 × List Nat × Nat)
  | 0, u, buf, bufLen => some (u, buf, bufLen)
  | n + 1, u, buf, bufLen =>
      match u.nh.hash buf 1024 1024 with
      | none => none
      | some result =>
        if buf.length < 1024 then none
        else
          uhash8.updateLoop n
            (uhash8.polyHash { u with msgLen := (u.msgLen + 1024) % 2 ^ 32 } result)
            (buf.drop 1024) (bufLen - 1024)

/-- The source's `uhash8.update`; the `for bufLen >= L1_KEY_LEN` loop runs
`bufLen / 1024` times. -/
def uhash8.update (u : uhash8) (buf : List Nat) : Option uhash8 :=
  let bufLen := buf.length % 2 ^ 32
  if (u.msgLen + bufLen) % 2 ^ 32 ≤ 1024 then
    match u.nh.update buf with
    | none => none
    | some nh => some { u with nh := nh, msgLen := (u.msgLen + bufLen) % 2 ^ 32 }
  else
    let bytesHashed := if u.msgLen = 1024 then 1024 else u.msgLen % 1024
    let r : Option (uhash8 × List Nat × Nat) :=
      if (bytesHashed + bufLen) % 2 ^ 32 ≥ 1024 then
        let r1 : Option (uhash8 × List Nat × Nat) :=
          if bytesHashed ≠ 0 then
            let bytesRemaining := 1024 - bytesHashed
            if buf.length < bytesRemaining then none
            else
              match u.nh.update (buf.take bytesRemaining) with
              | none => none
              | some nh =>
                match nh.final with
                | none => none
                | some (nh, result) =>
                  some (uhash8.polyHash
                          { u with nh := nh, msgLen := (u.msgLen + bytesRemaining) % 2 ^ 32 } result,
                        buf.drop bytesRemaining, (bufLen + 2 ^ 32 - bytesRemaining) % 2 ^ 32)
          else some (u, buf, bufLen)
        match r1 with
        | none => none
        | some (u, buf, bufLen) => uhash8.updateLoop (bufLen / 1024) u buf bufLen
      else some (u, buf, bufLen)
    match r with
    | none => none
    | some (u, buf, bufLen) =>
      if bufLen ≠ 0 then
        match u.nh.update buf with
        | none => none
        | some nh => some { u with nh := nh, msgLen := (u.msgLen + bufLen) % 2 ^ 32 }
      else some u

/-- The source's `uhash8.final(out)`; the content of `out` is returned. -/
def uhash8.final (u : uhash8) (out : List Nat) : Option (uhash8 × List Nat) :=
  let r : Option (uhash8 × List Nat) :=
    if u.msgLen > 1024 then
      let r1 : Option uhash8 :=
        if u.msgLen % 1024 ≠ 0 then
          match u.nh.final with
          | none => none
          | some (nh, result) => some (uhash8.polyHash { u with nh := nh } result)
        else some u
      match r1 with
      | none => none
      | some u => u.ipLong out
    else
      match u.nh.final with
      | none => none
      | some (nh, result) =>
        let rb := toBytes [result.1, result.2]
        match uhash8.ipShort { u with nh := nh } rb out with
        | none => none
        | some out => some ({ u with nh := nh }, out)
  match r with
  | none => none
  | some (u, out) => some (u.reset, out)

/-- The source's `uhash16`. -/
structure uhash16 where
  nh : nhCtx16
  polyKey : Words4
  polyResult : Words4
  ipKeys : List Nat
  ipTrans : Words4
  msgLen : Nat

/-- The source's `uhash16.polyHash`. -/
def uhash16.polyHash (u : uhash16) (data64 : Words4) : uhash16 :=
  { u with polyResult := (polyHashStep u.polyResult.1 u.polyKey.1 data64.1,
                          polyHashStep u.polyResult.2.1 u.polyKey.2.1 data64.2.1,
                          polyHashStep u.polyResult.2.2.1 u.polyKey.2.2.1 data64.2.2.1,
                          polyHashStep u.polyResult.2.2.2 u.polyKey.2.2.2 data64.2.2.2) }

/-- The source's `uhash16.ipShort(in, out)`; the content of `out` is returned. -/
def uhash16.ipShort (u : uhash16) (inp out : List Nat) : Option (List Nat) :=
  if inp.length ≤ 31 ∨ out.length ≤ 15 then none
  else
    let nhp := toUint64 inp
    match ipAux 0 u.ipKeys (nhp.getD 0 0) with
    | none => none
    | some t =>
      match putUint32 out 0 (ipReduceP36 t ^^^ u.ipTrans.1) with
      | none => none
      | some out =>
        match ipAux 0 (u.ipKeys.drop 4) (nhp.getD 1 0) with
        | none => none
        | some t =>
          match putUint32 out 4 (ipReduceP36 t ^^^ u.ipTrans.2.1) with
          | none => none
          | some out =>
            match ipAux 0 (u.ipKeys.drop 8) (nhp.getD 2 0) with
            | none => none
            | some t =>
              match putUint32 out 8 (ipReduceP36 t ^^^ u.ipTrans.2.2.1) with
              | none => none
              | some out =>
                match ipAux 0 (u.ipKeys.drop 12) (nhp.getD 3 0) with
                | none => none
                | some t => putUint32 out 12 (ipReduceP36 t ^^^ u.ipTrans.2.2.2)

/-- The source's `uhash16.ipLong(out)`; the content of `out` is returned. -/
def uhash16.ipLong (u : uhash16) (out : List Nat) : Option (uhash16 × List Nat) :=
  if out.length ≤ 15 then none
  else
    let u := { u with polyResult := (reduceP64 u.polyResult.1, reduceP64 u.polyResult.2.1,
                                     reduceP64 u.polyResult.2.2.1, reduceP64 u.polyResult.2.2.2) }
    match ipAux 0 u.ipKeys u.polyResult.1 with
    | none => none
    | some t =>
      match putUint32 out 0 (ipReduceP36 t ^^^ u.ipTrans.1) with
      | none => none
      | some out =>
        match ipAux 0 (u.ipKeys.drop 4) u.polyResult.2.1 with
        | none => none
        | some t =>
          match putUint32 out 4 (ipReduceP36 t ^^^ u.ipTrans.2.1) with
          | none => none
          | some out =>
            match ipAux 0 (u.ipKeys.drop 8) u.polyResult.2.2.1 with
            | none => none
            | some t =>
              match putUint32 out 8 (ipReduceP36 t ^^^ u.ipTrans.2.2.1) with
              | none => none
              | some out =>
                match ipAux 0 (u.ipKeys.drop 12) u.polyResult.2.2.2 with
                | none => none
                | some t =>
                  match putUint32 out 12 (ipReduceP36 t ^^^ u.ipTrans.2.2.2) with
                  | none => none
                  | some out => some (u, out)

/-- The source's `uhash16.reset`. -/
def uhash16.reset (u : uhash16) : uhash16 :=
  { u with nh := u.nh.reset, msgLen := 0, polyResult := (1, 1, 1, 1) }

/-- The zero value `nhCtx16{}`. -/
def nhCtx16.zero : nhCtx16 :=
  { key := List.replicate 1072 0, data := List.replicate 64 0, nextEmpty := 0, hashed := 0,
    state := (0, 0, 0, 0) }

/-- The source's `uhash16.init`. -/
def uhash16.init (u : uhash16) (cip : Block) : Option uhash16 :=
  let buf := List.replicate ((8 * 4 + 4) * 8) 0
  let nh := nhCtx16.zero.init cip
  let buf := kdf cip 2 buf
  match bigEndianUint64 buf, bigEndianUint64 (buf.drop 24), bigEndianUint64 (buf.drop 48),
      bigEndianUint64 (buf.drop 72) with
  | some k0, some k1, some k2, some k3 =>
    let buf := kdf cip 3 buf
    let ipKeys := ipKeysOfStream buf 0 ++ ipKeysOfStream buf 1 ++ ipKeysOfStream buf 2
      ++ ipKeysOfStream buf 3
    let src := toUint32 (kdf cip 4 (buf.take (4 * 4)))
    some { u with
      nh := nh
      polyKey := (k0 &&& polyKeyMask, k1 &&& polyKeyMask, k2 &&& polyKeyMask, k3 &&& polyKeyMask)
      polyResult := (1, 1, 1, 1)
      ipKeys := ipKeys
      ipTrans := (reverseBytes32 (src.getD 0 0), reverseBytes32 (src.getD 1 0),
                  reverseBytes32 (src.getD 2 0), reverseBytes32 (src.getD 3 0)) }
  | _, _, _, _ => none

/-- The `for bufLen >= L1_KEY_LEN` loop of `uhash16.update`, `n` passes. -/
def uhash16.updateLoop : Nat → uhash16 → List Nat → Nat → Option (uhash16 × List Nat × Nat)
  | 0, u, buf, bufLen => some (u, buf, bufLen)
  | n + 1, u, buf, bufLen =>
      match u.nh.hash buf 1024 1024 with
      | none => none
      | some result =>
        if buf.length < 1024 then none
        else
          uhash16.updateLoop n
            (uhash16.polyHash { u with msgLen := (u.msgLen + 1024) % 2 ^ 32 } result)
            (buf.drop 1024) (bufLen - 1024)

/-- The source's `uhash16.update`; the `for bufLen >= L1_KEY_LEN` loop runs
`bufLen / 1024` times. -/
def uhash16.update (u : uhash16) (buf : List Nat) : Option uhash16 :=
  let bufLen := buf.length % 2 ^ 32
  if (u.msgLen + bufLen) % 2 ^ 32 ≤ 1024 then
    match u.nh.update buf with
    | none => none
    | some nh => some { u with nh := nh, msgLen := (u.msgLen + bufLen) % 2 ^ 32 }
  else
    let bytesHashed := if u.msgLen = 1024 then 1024 else u.msgLen % 1024
    let r : Option (uhash16 × List Nat × Nat) :=
      if (bytesHashed + bufLen) % 2 ^ 32 ≥ 1024 then
        let r1 : Option (uhash16 × List Nat × Nat) :=
          if bytesHashed ≠ 0 then
            let bytesRemaining := 1024 - bytesHashed
            if buf.length < bytesRemaining then none
            else
              match u.nh.update (buf.take bytesRemaining) with
              | none => none
              | some nh =>
                match nh.final with
                | none => none
                | some (nh, result) =>
                  some (uhash16.polyHash
                          { u with nh := nh, msgLen := (u.msgLen + bytesRemaining) % 2 ^ 32 } result,
                        buf.drop bytesRemaining, (bufLen + 2 ^ 32 - bytesRemaining) % 2 ^ 32)
          else some (u, buf, bufLen)
        match r1 with
        | none => none
        | some (u, buf, bufLen) => uhash16.updateLoop (bufLen / 1024) u buf bufLen
      else some (u, buf, bufLen)
    match r with
    | none => none
    | some (u, buf, bufLen) =>
      if bufLen ≠ 0 then
        match u.nh.update buf with
        | none => none
        | some nh => some { u with nh := nh, msgLen := (u.msgLen + bufLen) % 2 ^ 32 }
      else some u

/-- The source's `uhash16.final(out)`; the content of `out` is returned. -/
def uhash16.final (u : uhash16) (out : List Nat) : Option (uhash16 × List Nat) :=
  let r : Option (uhash16 × List Nat) :=
    if u.msgLen > 1024 then
      let r1 : Option uhash16 :=
        if u.msgLen % 1024 ≠ 0 then
          match u.nh.final with
          | none => none
          | some (nh, result) => some (uhash16.polyHash { u with nh := nh } result)
        else some u
      match r1 with
      | none => none
      | some u => u.ipLong out
    else
      match u.nh.final with
      | none => none
      | some (nh, result) =>
        let rb := toBytes [result.1, result.2.1, result.2.2.1, result.2.2.2]
        match uhash16.ipShort { u with nh := nh } rb out with
        | none => none
        | some out => some ({ u with nh := nh }, out)
  match r with
  | none => none
  | some (u, out) => some (u.reset, out)

/-! ## `umac.go`: the two hash objects -/

/-- The source's `UMAC8`. -/
structure UMAC8 where
  pdf : pdfCtx
  hash : uhash8
  out : List Nat

/-- The zero value `pdfCtx{}`. -/
def pdfCtx.zero : pdfCtx :=
  { cip := none, cache := List.replicate 16 0, nonce := List.replicate 16 0 }

/-- The zero value `UMAC8{}`. -/
def UMAC8.zero : UMAC8 :=
  { pdf := pdfCtx.zero
    hash := { nh := nhCtx8.zero, polyKey := (0, 0), polyResult := (0, 0),
              ipKeys := List.replicate 8 0, ipTrans := (0, 0), msgLen := 0 }
    out := List.replicate 8 0 }

/-- The source's `UMAC8.Write`; the returned count is `len(p)` and the error is
always nil. -/
def UMAC8.Write (u : UMAC8) (p : List Nat) : Option (UMAC8 × Nat) :=
  match u.hash.update p with
  | none => none
  | some h => some ({ u with hash := h }, p.length)

/-- The source's `UMAC8.Sum(b)`: `b` is the nonce, the returned slice is the tag. -/
def UMAC8.Sum (u : UMAC8) (b : List Nat) : Option (UMAC8 × List Nat) :=
  if b.length ≤ 7 then none
  else
    match u.hash.final u.out with
    | none => none
    | some (h, out) =>
      match u.pdf.genXor8 (b.take 8) out with
      | none => none
      | some (pdf, out) => some ({ pdf := pdf, hash := h, out := out }, out)

/-- How a call of a method with a pointer receiver ends. Either it returns, leaving
the receiver `s` and the result `a`; or the statement numbered `stmt` of its body
panics, and `s` is the receiver as that statement found it: what the statements
before it have written is in `s`, and for a statement that writes nothing to the
receiver `s` is the receiver the panic leaves behind. -/
inductive Outcome (σ α : Type) where
  | ret (s : σ) (a : α)
  | panic (stmt : Nat) (s : σ)

/-- The receiver and the result of a call that returned. -/
def Outcome.toOption {σ α : Type} : Outcome σ α → Option (σ × α)
  | Outcome.ret s a => some (s, a)
  | Outcome.panic _ _ => none

/-- The source's `UMAC8.Sum(b)`, statement by statement, with the receiver kept at a
panic. Statement 0 is the bounds check `_ = b[7]`, statement 1 the alias
`out := u.out[:]`, statement 2 the call `u.hash.final(out)`, statement 3 the call
`u.pdf.genXor8([8]byte(b), out)`. -/
def UMAC8.SumOutcome (u : UMAC8) (b : List Nat) : Outcome UMAC8 (List Nat) :=
  if b.length ≤ 7 then Outcome.panic 0 u
  else
    match u.hash.final u.out with
    | none => Outcome.panic 2 u
    | some (h, out) =>
      match u.pdf.genXor8 (b.take 8) out with
      | none => Outcome.panic 3 { u with hash := h, out := out }
      | some (pdf, out) => Outcome.ret { pdf := pdf, hash := h, out := out } out

/-- The source's `UMAC8.Reset`. -/
def UMAC8.Reset (u : UMAC8) : UMAC8 :=
  { u with hash := u.hash.reset }

/-- The source's `UMAC8.Size`. -/
def UMAC8.Size (_u : UMAC8) : Nat := 8

/-- The source's `UMAC8.BlockSize`. -/
def UMAC8.BlockSize (_u : UMAC8) : Nat := 1

/-- The source's `UMAC16`. -/
structure UMAC16 where
  pdf : pdfCtx
  hash : uhash16
  out : List Nat

/-- The zero value `UMAC16{}`. -/
def UMAC16.zero : UMAC16 :=
  { pdf := pdfCtx.zero
    hash := { nh := nhCtx16.zero, polyKey := (0, 0, 0, 0), polyResult := (0, 0, 0, 0),
              ipKeys := List.replicate 16 0, ipTrans := (0, 0, 0, 0), msgLen := 0 }
    out := List.replicate 16 0 }

/-- The source's `UMAC16.Write`; the returned count is `len(p)` and the error is
always nil. -/
def UMAC16.Write (u : UMAC16) (p : List Nat) : Option (UMAC16 × Nat) :=
  match u.hash.update p with
  | none => none
  | some h => some ({ u with hash := h }, p.length)

/-- The source's `UMAC16.Sum(b)`: `b` is the nonce, the returned slice is the tag. -/
def UMAC16.Sum (u : UMAC16) (b : List Nat) : Option (UMAC16 × List Nat) :=
  if b.length ≤ 7 then none
  else
    match u.hash.final u.out with
    | none => none
    | some (h, out) =>
      match u.pdf.genXor16 (b.take 8) out with
      | none => none
      | some (pdf, out) => some ({ pdf := pdf, hash := h, out := out }, out)

/-- The source's `UMAC16.Sum(b)`, statement by statement, with the receiver kept at a
panic. Statement 0 is the bounds check `_ = b[7]`, statement 1 the alias
`out := u.out[:]`, statement 2 the call `u.hash.final(out)`, statement 3 the call
`u.pdf.genXor16([8]byte(b), out)`. -/
def UMAC16.SumOutcome (u : UMAC16) (b : List Nat) : Outcome UMAC16 (List Nat) :=
  if b.length ≤ 7 then Outcome.panic 0 u
  else
    match u.hash.final u.out with
    | none => Outcome.panic 2 u
    | some (h, out) =>
      match u.pdf.genXor16 (b.take 8) out with
      | none => Outcome.panic 3 { u with hash := h, out := out }
      | some (pdf, out) => Outcome.ret { pdf := pdf, hash := h, out := out } out

/-- The source's `UMAC16.Reset`. -/
def UMAC16.Reset (u : UMAC16) : UMAC16 :=
  { u with hash := u.hash.reset }

/-- The source's `UMAC16.Size`. -/
def UMAC16.Size (_u : UMAC16) : Nat := 16

/-- The source's `UMAC16.BlockSize`. -/
def UMAC16.BlockSize (_u : UMAC16) : Nat := 1

/-- The source's `New8(key)`; `none` is the `panic(err)` on a rejected key. -/
def New8 (key : List Nat) : Option UMAC8 :=
  match aesNewCipher key with
  | none => none
  | some cip =>
    let u := UMAC8.zero
    match u.pdf.init cip with
    | none => none
    | some pdf =>
      match u.hash.init cip with
      | none => none
      | some h => some { u with pdf := pdf, hash := h }

/-- The source's `New16(key)`; `none` is the `panic(err)` on a rejected key. -/
def New16 (key : List Nat) : Option UMAC16 :=
  match aesNewCipher key with
  | none => none
  | some cip =>
    let u := UMAC16.zero
    match u.pdf.init cip with
    | none => none
    | some pdf =>
      match u.hash.init cip with
      | none => none
      | some h => some { u with pdf := pdf, hash := h }

/-- A run of `Write` calls, one per element of `ps`, on a `UMAC8`. -/
def UMAC8.writeAll (u : UMAC8) : List (List Nat) → Option UMAC8
  | [] => some u
  | p :: ps =>
      match u.Write p with
      | none => none
      | some (u1, _) => UMAC8.writeAll u1 ps

/-- A run of `Write` calls, one per element of `ps`, on a `UMAC16`. -/
def UMAC16.writeAll (u : UMAC16) : List (List Nat) → Option UMAC16
  | [] => some u
  | p :: ps =>
      match u.Write p with
      | none => none
      | some (u1, _) => UMAC16.writeAll u1 ps

/-! ## Reference definitions

These follow the specification's description of the hash layers, not the control
flow of the sources; the theorems below relate the two. -/

/-- NH of the 32-byte block `b` for stream `j`: the sum over `p < 4` of
`(k[8b+4j+p] + d[8b+p]) · (k[8b+4j+p+4] + d[8b+p+4])`, the additions in 32 bits, the
products and their sum exact. -/
def nhBlock (j : Nat) (k d : List Nat) (b : Nat) : Nat :=
  add32 (k.getD (8 * b + 4 * j) 0) (d.getD (8 * b) 0)
      * add32 (k.getD (8 * b + 4 * j + 4) 0) (d.getD (8 * b + 4) 0)
    + add32 (k.getD (8 * b + 4 * j + 1) 0) (d.getD (8 * b + 1) 0)
      * add32 (k.getD (8 * b + 4 * j + 5) 0) (d.getD (8 * b + 5) 0)
    + add32 (k.getD (8 * b + 4 * j + 2) 0) (d.getD (8 * b + 2) 0)
      * add32 (k.getD (8 * b + 4 * j + 6) 0) (d.getD (8 * b + 6) 0)
    + add32 (k.getD (8 * b + 4 * j + 3) 0) (d.getD (8 * b + 3) 0)
      * add32 (k.getD (8 * b + 4 * j + 7) 0) (d.getD (8 * b + 7) 0)

/-- The exact sum of `nhBlock` over the first `n` blocks. -/
def nhSum (j : Nat) (k d : List Nat) : Nat → Nat
  | 0 => 0
  | n + 1 => nhSum j k d n + nhBlock j k d n

/-- The padded length NH compresses for a message of `n` bytes: the next multiple of
32, and 32 for the empty message. -/
def nhPadLen (n : Nat) : Nat := if n = 0 then 32 else (n + 31) / 32 * 32

/-- The message zero-padded to `nhPadLen`. -/
def nhPad (m : List Nat) : List Nat :=
  m ++ List.replicate (nhPadLen m.length - m.length) 0

/-- The NH output of stream `j` for a message `m` of at most 1024 bytes under the
key bytes `key`: the kernel sum over the padded message plus the bit length. -/
def nhRef (j : Nat) (key m : List Nat) : Nat :=
  (nhSum j (toUint32 key) (toUint32 (nhPad m)) (nhPadLen m.length / 32) + 8 * m.length) % 2 ^ 64

/-- The first `n` chunks of 1024 bytes of a message. -/
def l1Chunks : Nat → List Nat → List (List Nat)
  | 0, _ => []
  | n + 1, m => m.take 1024 :: l1Chunks n (m.drop 1024)

/-- The pieces POLY folds for a message longer than 1024 bytes: every complete
1024-byte chunk in order, then the last partial chunk when there is one. -/
def l1Pieces (m : List Nat) : List (List Nat) :=
  l1Chunks (m.length / 1024) m
    ++ (if m.length % 1024 = 0 then [] else [m.drop (1024 * (m.length / 1024))])

/-- The 32-bit tag slice IP produces from a 64-bit input with the four IP keys
`ipkp[0..3]` and the
stream's translation word, as big-endian bytes. -/
def ipSlice (ipkp : List Nat) (trans data : Nat) : List Nat :=
  bigEndianBytes32 (ipReduceP36 (ipAuxSteps 0 ipkp data) ^^^ trans)

/-- The two NH words of a message for UMAC-64. -/
def nhRef8 (key m : List Nat) : Words2 := (nhRef 0 key m, nhRef 1 key m)

/-- The four NH words of a message for UMAC-128. -/
def nhRef16 (key m : List Nat) : Words4 :=
  (nhRef 0 key m, nhRef 1 key m, nhRef 2 key m, nhRef 3 key m)

/-- POLY folded over a list of inputs for one stream, from accumulator `acc`. -/
def polyFold (key : Nat) (acc : Nat) (ds : List Nat) : Nat :=
  ds.foldl (fun a d => polyHashStep a key d) acc

/-- The hash-layer output (the tag before the pad is applied) of UMAC-64 for the
message `m`, with the keys held by `u`. -/
def uhashRef8 (u : uhash8) (m : List Nat) : List Nat :=
  if m.length ≤ 1024 then
    ipSlice u.ipKeys u.ipTrans.1 (nhRef 0 u.nh.key m)
      ++ ipSlice (u.ipKeys.drop 4) u.ipTrans.2 (nhRef 1 u.nh.key m)
  else
    ipSlice u.ipKeys u.ipTrans.1
        (reduceP64 (polyFold u.polyKey.1 1 ((l1Pieces m).map (nhRef 0 u.nh.key))))
      ++ ipSlice (u.ipKeys.drop 4) u.ipTrans.2
        (reduceP64 (polyFold u.polyKey.2 1 ((l1Pieces m).map (nhRef 1 u.nh.key))))

/-- The hash-layer output (the tag before the pad is applied) of UMAC-128 for the
message `m`, with the keys held by `u`. -/
def uhashRef16 (u : uhash16) (m : List Nat) : List Nat :=
  if m.length ≤ 1024 then
    ipSlice u.ipKeys u.ipTrans.1 (nhRef 0 u.nh.key m)
      ++ ipSlice (u.ipKeys.drop 4) u.ipTrans.2.1 (nhRef 1 u.nh.key m)
      ++ ipSlice (u.ipKeys.drop 8) u.ipTrans.2.2.1 (nhRef 2 u.nh.key m)
      ++ ipSlice (u.ipKeys.drop 12) u.ipTrans.2.2.2 (nhRef 3 u.nh.key m)
  else
    ipSlice u.ipKeys u.ipTrans.1
        (reduceP64 (polyFold u.polyKey.1 1 ((l1Pieces m).map (nhRef 0 u.nh.key))))
      ++ ipSlice (u.ipKeys.drop 4) u.ipTrans.2.1
        (reduceP64 (polyFold u.polyKey.2.1 1 ((l1Pieces m).map (nhRef 1 u.nh.key))))
      ++ ipSlice (u.ipKeys.drop 8) u.ipTrans.2.2.1
        (reduceP64 (polyFold u.polyKey.2.2.1 1 ((l1Pieces m).map (nhRef 2 u.nh.key))))
      ++ ipSlice (u.ipKeys.drop 12) u.ipTrans.2.2.2
        (reduceP64 (polyFold u.polyKey.2.2.2 1 ((l1Pieces m).map (nhRef 3 u.nh.key))))

/-- The block the PDF encrypts for a 64-bit tag: the nonce with the low bit of its
last byte cleared, followed by eight zero bytes. -/
def pdfBlock8 (nonce : List Nat) : List Nat :=
  nonce.take 7 ++ [nonce.getD 7 0 / 2 * 2] ++ List.replicate 8 0

/-- The pad of a 64-bit tag: the half of the encrypted block selected by the low
bit of the last nonce byte. -/
def pad8 (k : Block) (nonce : List Nat) : List Nat :=
  ((k.encrypt (pdfBlock8 nonce)).drop (nonce.getD 7 0 % 2 * 8)).take 8

/-- The pad of a 128-bit tag: the encryption of the nonce followed by eight zero
bytes. -/
def pad16 (k : Block) (nonce : List Nat) : List Nat :=
  k.encrypt (nonce.take 8 ++ List.replicate 8 0)

/-- Bytewise XOR of two byte strings of equal length. -/
def xorTag (a b : List Nat) : List Nat := List.zipWith (fun x y => x ^^^ y) a b

/-! ## Invariants -/

/-- The NH accumulators of UMAC-64 after the first `h` bytes of `m` have been
compressed under the key bytes `key`. -/
def nhState8 (key m : List Nat) (h : Nat) : Words2 :=
  (nhSum 0 (toUint32 key) (toUint32 m) (h / 32) % 2 ^ 64,
   nhSum 1 (toUint32 key) (toUint32 m) (h / 32) % 2 ^ 64)

/-- The NH accumulators of UMAC-128 after the first `h` bytes of `m` have been
compressed under the key bytes `key`. -/
def nhState16 (key m : List Nat) (h : Nat) : Words4 :=
  (nhSum 0 (toUint32 key) (toUint32 m) (h / 32) % 2 ^ 64,
   nhSum 1 (toUint32 key) (toUint32 m) (h / 32) % 2 ^ 64,
   nhSum 2 (toUint32 key) (toUint32 m) (h / 32) % 2 ^ 64,
   nhSum 3 (toUint32 key) (toUint32 m) (h / 32) % 2 ^ 64)

/-- The context `c` has been fed exactly the bytes `m` since its last reset: whole
64-byte blocks are compressed, the rest is staged at the front of `data`. -/
def nhCtx8.Absorbed (c : nhCtx8) (m : List Nat) : Prop :=
  c.key.length = 1040 ∧ c.data.length = 64 ∧ c.hashed = m.length / 64 * 64 ∧
  c.nextEmpty = m.length % 64 ∧ c.data.take c.nextEmpty = m.drop c.hashed ∧
  c.state = nhState8 c.key m c.hashed

/-- The context `c` has been fed exactly the bytes `m` since its last reset: whole
64-byte blocks are compressed, the rest is staged at the front of `data`. -/
def nhCtx16.Absorbed (c : nhCtx16) (m : List Nat) : Prop :=
  c.key.length = 1072 ∧ c.data.length = 64 ∧ c.hashed = m.length / 64 * 64 ∧
  c.nextEmpty = m.length % 64 ∧ c.data.take c.nextEmpty = m.drop c.hashed ∧
  c.state = nhState16 c.key m c.hashed

/-- The hash state `u2` holds the same keys as `u`. -/
def uhash8.SameKeys (u2 u : uhash8) : Prop :=
  u2.nh.key = u.nh.key ∧ u2.polyKey = u.polyKey ∧ u2.ipKeys = u.ipKeys ∧ u2.ipTrans = u.ipTrans

/-- The hash state `u2` holds the same keys as `u`. -/
def uhash16.SameKeys (u2 u : uhash16) : Prop :=
  u2.nh.key = u.nh.key ∧ u2.polyKey = u.polyKey ∧ u2.ipKeys = u.ipKeys ∧ u2.ipTrans = u.ipTrans

/-- The POLY accumulators of UMAC-64 after the first `n` chunks of `m`. -/
def polyState8 (u : uhash8) (m : List Nat) (n : Nat) : Words2 :=
  (polyFold u.polyKey.1 1 ((l1Chunks n m).map (nhRef 0 u.nh.key)),
   polyFold u.polyKey.2 1 ((l1Chunks n m).map (nhRef 1 u.nh.key)))

/-- The POLY accumulators of UMAC-128 after the first `n` chunks of `m`. -/
def polyState16 (u : uhash16) (m : List Nat) (n : Nat) : Words4 :=
  (polyFold u.polyKey.1 1 ((l1Chunks n m).map (nhRef 0 u.nh.key)),
   polyFold u.polyKey.2.1 1 ((l1Chunks n m).map (nhRef 1 u.nh.key)),
   polyFold u.polyKey.2.2.1 1 ((l1Chunks n m).map (nhRef 2 u.nh.key)),
   polyFold u.polyKey.2.2.2 1 ((l1Chunks n m).map (nhRef 3 u.nh.key)))

/-- The hash state `u` has been fed exactly the bytes `m` since its last reset: up
to 1024 bytes all sit in the NH context; beyond that every complete 1024-byte
chunk is folded into POLY and the NH context holds the rest. -/
def uhash8.Hashed (u : uhash8) (m : List Nat) : Prop :=
  u.msgLen = m.length ∧
  if m.length ≤ 1024 then u.nh.Absorbed m ∧ u.polyResult = (1, 1)
  else u.nh.Absorbed (m.drop (m.length / 1024 * 1024)) ∧
    u.polyResult = polyState8 u m (m.length / 1024)

/-- The hash state `u` has been fed exactly the bytes `m` since its last reset: up
to 1024 bytes all sit in the NH context; beyond that every complete 1024-byte
chunk is folded into POLY and the NH context holds the rest. -/
def uhash16.Hashed (u : uhash16) (m : List Nat) : Prop :=
  u.msgLen = m.length ∧
  if m.length ≤ 1024 then u.nh.Absorbed m ∧ u.polyResult = (1, 1, 1, 1)
  else u.nh.Absorbed (m.drop (m.length / 1024 * 1024)) ∧
    u.polyResult = polyState16 u m (m.length / 1024)

/-- Inside `update`, between two chunks: the first `p` bytes of `x`, a multiple of
1024, are folded into POLY and the NH context is empty. -/
def uhash8.Folded (u : uhash8) (x : List Nat) (p : Nat) : Prop :=
  p % 1024 = 0 ∧ p ≤ x.length ∧ u.msgLen = p ∧ u.nh.Absorbed [] ∧
  u.polyResult = polyState8 u x (p / 1024)

/-- Inside `update`, between two chunks: the first `p` bytes of `x`, a multiple of
1024, are folded into POLY and the NH context is empty. -/
def uhash16.Folded (u : uhash16) (x : List Nat) (p : Nat) : Prop :=
  p % 1024 = 0 ∧ p ≤ x.length ∧ u.msgLen = p ∧ u.nh.Absorbed [] ∧
  u.polyResult = polyState16 u x (p / 1024)

/-- The parts of a `UMAC8` outside the hash state are well formed: the output buffer
has eight bytes, the PDF holds the cipher `k`, and its nonce block has sixteen
bytes of which the last eight are zero. -/
def UMAC8.Ready (u : UMAC8) (k : Block) : Prop :=
  u.out.length = 8 ∧ u.pdf.cip = some k ∧ u.pdf.cache.length = 16 ∧
  u.pdf.nonce.length = 16 ∧ u.pdf.nonce.drop 8 = List.replicate 8 0

/-- The parts of a `UMAC16` outside the hash state are well formed: the output
buffer has sixteen bytes, the PDF holds the cipher `k`, and its nonce block has
sixteen bytes of which the last eight are zero. -/
def UMAC16.Ready (u : UMAC16) (k : Block) : Prop :=
  u.out.length = 16 ∧ u.pdf.cip = some k ∧ u.pdf.cache.length = 16 ∧
  u.pdf.nonce.length = 16 ∧ u.pdf.nonce.drop 8 = List.replicate 8 0

/-- The states of a `UMAC8` built by `New8(key)` and driven by any sequence of
`Write`, `Sum` and `Reset` calls that return. -/
inductive UMAC8.Reachable (key : List Nat) : UMAC8 → Prop
  | fresh (u : UMAC8) : New8 key = some u → UMAC8.Reachable key u
  | write (u u2 : UMAC8) (p : List Nat) (n : Nat) :
      UMAC8.Reachable key u → u.Write p = some (u2, n) → UMAC8.Reachable key u2
  | sum (u u2 : UMAC8) (b tag : List Nat) :
      UMAC8.Reachable key u → u.Sum b = some (u2, tag) → UMAC8.Reachable key u2
  | reset (u : UMAC8) : UMAC8.Reachable key u → UMAC8.Reachable key u.Reset

/-- The states of a `UMAC16` built by `New16(key)` and driven by any sequence of
`Write`, `Sum` and `Reset` calls that return. -/
inductive UMAC16.Reachable (key : List Nat) : UMAC16 → Prop
  | fresh (u : UMAC16) : New16 key = some u → UMAC16.Reachable key u
  | write (u u2 : UMAC16) (p : List Nat) (n : Nat) :
      UMAC16.Reachable key u → u.Write p = some (u2, n) → UMAC16.Reachable key u2
  | sum (u u2 : UMAC16) (b tag : List Nat) :
      UMAC16.Reachable key u → u.Sum b = some (u2, tag) → UMAC16.Reachable key u2
  | reset (u : UMAC16) : UMAC16.Reachable key u → UMAC16.Reachable key u.Reset

/-- Two NH contexts agree on everything the code can observe: all fields but the
stale bytes of the staging buffer beyond `nextEmpty`. -/
def nhCtx8.Equiv (c1 c2 : nhCtx8) : Prop :=
  c1.key = c2.key ∧ c1.nextEmpty = c2.nextEmpty ∧ c1.hashed = c2.hashed ∧
  c1.state = c2.state ∧ c1.data.length = 64 ∧ c2.data.length = 64 ∧
  c1.data.take c1.nextEmpty = c2.data.take c1.nextEmpty

/-- Two NH contexts agree on everything the code can observe: all fields but the
stale bytes of the staging buffer beyond `nextEmpty`. -/
def nhCtx16.Equiv (c1 c2 : nhCtx16) : Prop :=
  c1.key = c2.key ∧ c1.nextEmpty = c2.nextEmpty ∧ c1.hashed = c2.hashed ∧
  c1.state = c2.state ∧ c1.data.length = 64 ∧ c2.data.length = 64 ∧
  c1.data.take c1.nextEmpty = c2.data.take c1.nextEmpty

/-- Two hash states agree up to the stale bytes of the NH staging buffer. -/
def uhash8.Equiv (u1 u2 : uhash8) : Prop :=
  u1.nh.Equiv u2.nh ∧ u1.polyKey = u2.polyKey ∧ u1.polyResult = u2.polyResult ∧
  u1.ipKeys = u2.ipKeys ∧ u1.ipTrans = u2.ipTrans ∧ u1.msgLen = u2.msgLen

/-- Two hash states agree up to the stale bytes of the NH staging buffer. -/
def uhash16.Equiv (u1 u2 : uhash16) : Prop :=
  u1.nh.Equiv u2.nh ∧ u1.polyKey = u2.polyKey ∧ u1.polyResult = u2.polyResult ∧
  u1.ipKeys = u2.ipKeys ∧ u1.ipTrans = u2.ipTrans ∧ u1.msgLen = u2.msgLen

/-- Two instances agree up to what earlier messages left behind: the stale bytes of
the NH staging buffer, the output buffer and the PDF nonce and cache. -/
def UMAC8.Equiv (k : Block) (u1 u2 : UMAC8) : Prop :=
  u1.hash.Equiv u2.hash ∧ u1.Ready k ∧ u2.Ready k

/-- Two instances agree up to what earlier messages left behind: the stale bytes of
the NH staging buffer, the output buffer and the PDF nonce and cache. -/
def UMAC16.Equiv (k : Block) (u1 u2 : UMAC16) : Prop :=
  u1.hash.Equiv u2.hash ∧ u1.Ready k ∧ u2.Ready k

/-- The tag of `Write` of every element of `ps` then `Sum(nonce)` on the instance
`u`. -/
def UMAC8.tagOf (u : UMAC8) (ps : List (List Nat)) (nonce : List Nat) : Option (List Nat) :=
  match u.writeAll ps with
  | none => none
  | some u1 =>
    match u1.Sum nonce with
    | none => none
    | some (_, tag) => some tag

/-- The tag of `Write` of every element of `ps` then `Sum(nonce)` on the instance
`u`. -/
def UMAC16.tagOf (u : UMAC16) (ps : List (List Nat)) (nonce : List Nat) : Option (List Nat) :=
  match u.writeAll ps with
  | none => none
  | some u1 =>
    match u1.Sum nonce with
    | none => none
    | some (_, tag) => some tag

/-- The tag of `New8(key)`, `Write` of every element of `ps`, `Sum(nonce)`. -/
def tag8 (key : List Nat) (ps : List (List Nat)) (nonce : List Nat) : Option (List Nat) :=
  match New8 key with
  | none => none
  | some u => u.tagOf ps nonce

/-- The tag of `New16(key)`, `Write` of every element of `ps`, `Sum(nonce)`. -/
def tag16 (key : List Nat) (ps : List (List Nat)) (nonce : List Nat) : Option (List Nat) :=
  match New16 key with
  | none => none
  | some u => u.tagOf ps nonce

/-! ## The inputs of `TestUMAC` -/

/-- The key `"abcdefghijklmnop"` of `TestUMAC`. -/
def testKey : List Nat :=
  [97, 98, 99, 100, 101, 102, 103, 104, 105, 106, 107, 108, 109, 110, 111, 112]

/-- The nonce `"abcdefgh"` of `TestUMAC`. -/
def testNonce : List Nat := [97, 98, 99, 100, 101, 102, 103, 104]

/-- The words of a `[2]uint64` as a list. -/
def words2 (w : Words2) : List Nat := [w.1, w.2]

/-- The words of a `[4]uint64` as a list. -/
def words4 (w : Words4) : List Nat := [w.1, w.2.1, w.2.2.1, w.2.2.2]

/-- What the test vectors need of a UMAC-64 hash state: the NH words of the
messages of 1024, 3 and 0 bytes `'a'`, and the POLY and IP keys. -/
def digest8 (h : uhash8) : List (List Nat) :=
  [words2 (nhRef8 h.nh.key (List.replicate 1024 97)), words2 (nhRef8 h.nh.key (List.replicate 3 97)),
   words2 (nhRef8 h.nh.key (List.replicate 0 97)), words2 h.polyKey, h.ipKeys, words2 h.ipTrans]

/-- What the test vectors need of a UMAC-128 hash state: the NH words of the
messages of 1024, 3 and 0 bytes `'a'`, and the POLY and IP keys. -/
def digest16 (h : uhash16) : List (List Nat) :=
  [words4 (nhRef16 h.nh.key (List.replicate 1024 97)), words4 (nhRef16 h.nh.key (List.replicate 3 97)),
   words4 (nhRef16 h.nh.key (List.replicate 0 97)), words4 h.polyKey, h.ipKeys, words4 h.ipTrans]

/-! ## Reference definitions for the layers below the instance -/

/-- The IP sum over the integers: the four keys times the four 16-bit limbs of `x`,
most significant limb first. -/
def ipSum (ks : List Nat) (x : Nat) : Nat :=
  ks.getD 0 0 * (x / 2 ^ 48 % 2 ^ 16) + ks.getD 1 0 * (x / 2 ^ 32 % 2 ^ 16)
    + ks.getD 2 0 * (x / 2 ^ 16 % 2 ^ 16) + ks.getD 3 0 * (x % 2 ^ 16)

/-- A run of `update` calls on an `nhCtx8`, one per element of `ps`. -/
def nhCtx8.updateAll (c : nhCtx8) : List (List Nat) → Option nhCtx8
  | [] => some c
  | p :: ps =>
      match c.update p with
      | none => none
      | some c1 => nhCtx8.updateAll c1 ps

/-- A run of `update` calls on an `nhCtx16`, one per element of `ps`. -/
def nhCtx16.updateAll (c : nhCtx16) : List (List Nat) → Option nhCtx16
  | [] => some c
  | p :: ps =>
      match c.update p with
      | none => none
      | some c1 => nhCtx16.updateAll c1 ps

/-- The states of an `nhCtx8` reached from the reset of `c0` by `update`, `final`
and `reset` calls that return, with the number of bytes fed since the last reset
(`final` ends with a reset); at most 1024 bytes are fed between two resets. -/
inductive nhCtx8.Fed (c0 : nhCtx8) : nhCtx8 → Nat → Prop
  | start : nhCtx8.Fed c0 c0.reset 0
  | update (c c1 : nhCtx8) (buf : List Nat) (T : Nat) :
      nhCtx8.Fed c0 c T → T + buf.length ≤ 1024 → c.update buf = some c1 →
      nhCtx8.Fed c0 c1 (T + buf.length)
  | final (c c1 : nhCtx8) (r : Words2) (T : Nat) :
      nhCtx8.Fed c0 c T → c.final = some (c1, r) → nhCtx8.Fed c0 c1 0
  | reset (c : nhCtx8) (T : Nat) : nhCtx8.Fed c0 c T → nhCtx8.Fed c0 c.reset 0

/-- The states of an `nhCtx16` reached from the reset of `c0` by `update`, `final`
and `reset` calls that return, with the number of bytes fed since the last reset
(`final` ends with a reset); at most 1024 bytes are fed between two resets. -/
inductive nhCtx16.Fed (c0 : nhCtx16) : nhCtx16 → Nat → Prop
  | start : nhCtx16.Fed c0 c0.reset 0
  | update (c c1 : nhCtx16) (buf : List Nat) (T : Nat) :
      nhCtx16.Fed c0 c T → T + buf.length ≤ 1024 → c.update buf = some c1 →
      nhCtx16.Fed c0 c1 (T + buf.length)
  | final (c c1 : nhCtx16) (r : Words4) (T : Nat) :
      nhCtx16.Fed c0 c T → c.final = some (c1, r) → nhCtx16.Fed c0 c1 0
  | reset (c : nhCtx16) (T : Nat) : nhCtx16.Fed c0 c T → nhCtx16.Fed c0 c.reset 0

/-! ## Reference definitions for key derivation, the pad generator and the keys -/

/-- The counter block `B_c` of the key-derivation function: byte 7 is `index`, byte 15
is `c`, every other byte is zero. -/
def kdfCounter (index c : Nat) : List Nat :=
  [0, 0, 0, 0, 0, 0, 0, index, 0, 0, 0, 0, 0, 0, 0, c]

/-- The key stream `E(B_c) ‖ E(B_(c+1)) ‖ …` of `n` blocks. -/
def kdfStream (cip : Block) (index : Nat) : Nat → Nat → List Nat
  | 0, _ => []
  | n + 1, c => cip.encrypt (kdfCounter index c) ++ kdfStream cip index n (c + 1)

/-- The PDF states reached from `init(cip)` on the zero value by any sequence of
`genXor8` calls that return. -/
inductive pdfCtx.Reachable8 (cip : Block) : pdfCtx → Prop
  | init (c : pdfCtx) : pdfCtx.zero.init cip = some c → pdfCtx.Reachable8 cip c
  | genXor8 (c c1 : pdfCtx) (nonce buf out : List Nat) :
      pdfCtx.Reachable8 cip c → nonce.length = 8 → c.genXor8 nonce buf = some (c1, out) →
      pdfCtx.Reachable8 cip c1

/-- The variant of `genXor8` without the nonce comparison: the nonce block is rebuilt
and encrypted on every call. -/
def pdfCtx.genXor8Always (c : pdfCtx) (nonce buf : List Nat) : Option (pdfCtx × List Nat) :=
  if buf.length ≤ 7 then none
  else
    let ndx := nonce.getD 7 0 % 2
    let t := (nonce.drop 4).take 4
    let t := t.set 3 (t.getD 3 0 / 2 * 2)
    match c.cip with
    | none => none
    | some k =>
        let nonce16 := copySlice (copySlice c.nonce 0 4 (nonce.take 4)) 4 8 t
        let cache := copyAt c.cache 0 (k.encrypt nonce16)
        some ({ c with nonce := nonce16, cache := cache }, xorBytes buf (cache.drop (ndx * 8)))

/-- The block layout with the zero bytes in front: eight zero bytes, then the nonce
with the low bit of its last byte cleared. -/
def pdfBlockLeftPadded (nonce : List Nat) : List Nat :=
  List.replicate 8 0 ++ nonce.take 7 ++ [nonce.getD 7 0 / 2 * 2]

/-- The key invariants of a 64-bit hash state: both 32-bit halves of every POLY key
are at most `0x01FFFFFF` and every IP key is below `p36`. -/
def uhash8.KeysOk (u : uhash8) : Prop :=
  (u.polyKey.1 / 2 ^ 32 ≤ 0x01FFFFFF ∧ u.polyKey.1 % 2 ^ 32 ≤ 0x01FFFFFF) ∧
  (u.polyKey.2 / 2 ^ 32 ≤ 0x01FFFFFF ∧ u.polyKey.2 % 2 ^ 32 ≤ 0x01FFFFFF) ∧
  ∀ x ∈ u.ipKeys, x < p36

/-- The key invariants of a 128-bit hash state: both 32-bit halves of every POLY key
are at most `0x01FFFFFF` and every IP key is below `p36`. -/
def uhash16.KeysOk (u : uhash16) : Prop :=
  (u.polyKey.1 / 2 ^ 32 ≤ 0x01FFFFFF ∧ u.polyKey.1 % 2 ^ 32 ≤ 0x01FFFFFF) ∧
  (u.polyKey.2.1 / 2 ^ 32 ≤ 0x01FFFFFF ∧ u.polyKey.2.1 % 2 ^ 32 ≤ 0x01FFFFFF) ∧
  (u.polyKey.2.2.1 / 2 ^ 32 ≤ 0x01FFFFFF ∧ u.polyKey.2.2.1 % 2 ^ 32 ≤ 0x01FFFFFF) ∧
  (u.polyKey.2.2.2 / 2 ^ 32 ≤ 0x01FFFFFF ∧ u.polyKey.2.2.2 % 2 ^ 32 ≤ 0x01FFFFFF) ∧
  ∀ x ∈ u.ipKeys, x < p36

/-! ## The nonce comparison of the pad generator -/

/-- The `t` of `genXor8`: bytes 4..7 of the nonce with the low bit of the last one
cleared. -/
def scrubbedTail (nonce : List Nat) : List Nat :=
  ((nonce.drop 4).take 4).set 3 (((nonce.drop 4).take 4).getD 3 0 / 2 * 2)

/-- The condition of the `if` in `genXor8` and `genXor16`,
`!bytes.Equal(t[:], c.nonce[4:]) || !bytes.Equal(nonce[:4], c.nonce[:4])`: the
comparison of the nonce with the stored block reports a miss. -/
def pdfCtx.miss (c : pdfCtx) (nonce t : List Nat) : Bool :=
  decide (t ≠ c.nonce.drop 4 ∨ nonce.take 4 ≠ c.nonce.take 4)

/-- The number of `cip.Encrypt` calls `genXor8(nonce, buf)` makes in the state `c`:
one on a miss, none on a hit. -/
def pdfCtx.encryptCalls8 (c : pdfCtx) (nonce : List Nat) : Nat :=
  if c.miss nonce (scrubbedTail nonce) then 1 else 0

/-! ## The 64-bit variant as streams 0 and 1 of the 128-bit variant -/

/-- Streams 0 and 1 of a four-stream word array. -/
def lanes2 (w : Words4) : Words2 := (w.1, w.2.1)

/-- The NH context of the 64-bit variant that a 128-bit NH context projects to: the
first 1040 key bytes and streams 0 and 1 of the accumulators. -/
def nhCtx16.proj (c : nhCtx16) : nhCtx8 :=
  { key := c.key.take 1040, data := c.data, nextEmpty := c.nextEmpty, hashed := c.hashed,
    state := lanes2 c.state }

/-- The key array has its full length and `hashed` is a multiple of 64. -/
def nhCtx16.Aligned (c : nhCtx16) : Prop :=
  c.key.length = 1072 ∧ c.hashed % 64 = 0

/-- The hash state of the 64-bit variant that a 128-bit hash state projects to. -/
def uhash16.proj (u : uhash16) : uhash8 :=
  { nh := u.nh.proj, polyKey := lanes2 u.polyKey, polyResult := lanes2 u.polyResult,
    ipKeys := u.ipKeys.take 8, ipTrans := lanes2 u.ipTrans, msgLen := u.msgLen }

/-- The 64-bit instance `u` runs streams 0 and 1 of the 128-bit instance `v`, both
hold the PDF cipher `k`, and `v` holds its sixteen IP keys. -/
def UMAC16.Proj (k : Block) (v : UMAC16) (u : UMAC8) : Prop :=
  u.hash = v.hash.proj ∧ v.hash.nh.Aligned ∧ u.Ready k ∧ v.Ready k ∧
    16 ≤ v.hash.ipKeys.length

/-! ## POLY: one step of the polynomial hash -/

/-- The two carry fix-ups of `poly64`, on abstract 64-bit quantities: every wrap of
an addition is compensated by `+ 59`, so each carry costs exactly `2^64 - 59`. -/
theorem carry_fix (R t x r1 r2 r3 r4 : Nat) (hR : R < 2 ^ 63) (ht : t < 2 ^ 64)
    (hx : x < 2 ^ 64 - 59)
    (h1 : r1 = (R + t) % 2 ^ 64) (h2 : r2 = if r1 < t then (r1 + 59) % 2 ^ 64 else r1)
    (h3 : r3 = (r2 + x) % 2 ^ 64) (h4 : r4 = if r3 < x then (r3 + 59) % 2 ^ 64 else r3) :
    ∃ c, c ≤ 2 ∧ r4 + c * (2 ^ 64 - 59) = R + t + x := by
  by_cases c1 : R + t < 2 ^ 64
  · have e2 : r2 = R + t := by rw [h2, if_neg (by omega)]; omega
    by_cases c2 : R + t + x < 2 ^ 64
    · exact ⟨0, by omega, by rw [h4, if_neg (by omega)]; omega⟩
    · exact ⟨1, by omega, by rw [h4, if_pos (by omega)]; omega⟩
  · have e2 : r2 = R + t - 2 ^ 64 + 59 := by rw [h2, if_pos (by omega)]; omega
    by_cases c2 : R + t - 2 ^ 64 + 59 + x < 2 ^ 64
    · exact ⟨1, by omega, by rw [h4, if_neg (by omega)]; omega⟩
    · exact ⟨2, by omega, by rw [h4, if_pos (by omega)]; omega⟩

/-- Bounds on the two exact intermediate values of `poly64` under the masking
precondition, and the exact value as `cur·key` minus a multiple of `p64`. -/
theorem poly64_exact (A K : Nat) (hA : A < 2 ^ 64)
    (hKh : K / 2 ^ 32 ≤ 0x01FFFFFF) (hKl : K % 2 ^ 32 ≤ 0x01FFFFFF) :
    poly64X A K < 2 ^ 58 ∧ poly64Res A K < 2 ^ 63 ∧
    (∃ q, poly64Res A K + poly64X A K % 2 ^ 32 * 2 ^ 32 + q * p64 = A * K) := by
  have hAd := Nat.div_add_mod A (2^32)
  have hKd := Nat.div_add_mod K (2^32)
  have hah : A / 2^32 < 2^32 := by omega
  have hal : A % 2^32 < 2^32 := Nat.mod_lt _ (by norm_num)
  have hkhm : K / 2^32 % 2^32 = K / 2^32 := Nat.mod_eq_of_lt (by omega)
  have hahm : A / 2^32 % 2^32 = A / 2^32 := Nat.mod_eq_of_lt hah
  unfold poly64Res poly64X
  rw [hkhm, hahm]
  generalize K / 2^32 = kh at *
  generalize K % 2^32 = kl at *
  generalize A / 2^32 = ah at *
  generalize A % 2^32 = al at *
  have b1 : kh * al ≤ 0x01FFFFFF * (2^32 - 1) := Nat.mul_le_mul hKh (by omega)
  have b2 : ah * kl ≤ (2^32 - 1) * 0x01FFFFFF := Nat.mul_le_mul (by omega) hKl
  have b3 : kh * ah ≤ 0x01FFFFFF * (2^32 - 1) := Nat.mul_le_mul hKh (by omega)
  have b4 : kl * al ≤ 0x01FFFFFF * (2^32 - 1) := Nat.mul_le_mul hKl (by omega)
  have hAK : A * K = (kh * ah) * 2^64 + (kh * al + ah * kl) * 2^32 + kl * al := by
    rw [← hAd, ← hKd]; ring
  rw [hAK]
  clear hAK hAd hKd
  have hXb : kh * al + ah * kl < 2 ^ 58 := by omega
  have hPb : kh * ah < 2 ^ 57 := by omega
  have hQb : kl * al < 2 ^ 57 := by omega
  clear b1 b2 b3 b4
  generalize kh * al + ah * kl = X at *
  have hXd := Nat.div_add_mod X (2^32)
  have hxhm : X / 2^32 % 2^32 = X / 2^32 := Nat.mod_eq_of_lt (by omega)
  rw [hxhm]
  generalize kh * ah = P at *
  generalize kl * al = Q at *
  refine ⟨by omega, by omega, P + X / 2^32, ?_⟩
  have e : X * 2^32 = X / 2^32 * 2^64 + X % 2^32 * 2^32 := by
    conv_lhs => rw [← hXd]
    ring
  rw [e]
  simp only [p64]
  ring

/-- The value of `poly64` in terms of the exact intermediate values, when these do
not wrap. -/
theorem poly64_eq (A K x : Nat) (hX : poly64X A K < 2 ^ 64) (hR : poly64Res A K < 2 ^ 64) :
    poly64 A K x =
      (if ((if (poly64Res A K + poly64X A K % 2 ^ 32 * 2 ^ 32) % 2 ^ 64
                < poly64X A K % 2 ^ 32 * 2 ^ 32
            then ((poly64Res A K + poly64X A K % 2 ^ 32 * 2 ^ 32) % 2 ^ 64 + 59) % 2 ^ 64
            else (poly64Res A K + poly64X A K % 2 ^ 32 * 2 ^ 32) % 2 ^ 64) + x) % 2 ^ 64 < x
       then (((if (poly64Res A K + poly64X A K % 2 ^ 32 * 2 ^ 32) % 2 ^ 64
                < poly64X A K % 2 ^ 32 * 2 ^ 32
            then ((poly64Res A K + poly64X A K % 2 ^ 32 * 2 ^ 32) % 2 ^ 64 + 59) % 2 ^ 64
            else (poly64Res A K + poly64X A K % 2 ^ 32 * 2 ^ 32) % 2 ^ 64) + x) % 2 ^ 64 + 59)
              % 2 ^ 64
       else ((if (poly64Res A K + poly64X A K % 2 ^ 32 * 2 ^ 32) % 2 ^ 64
                < poly64X A K % 2 ^ 32 * 2 ^ 32
            then ((poly64Res A K + poly64X A K % 2 ^ 32 * 2 ^ 32) % 2 ^ 64 + 59) % 2 ^ 64
            else (poly64Res A K + poly64X A K % 2 ^ 32 * 2 ^ 32) % 2 ^ 64) + x) % 2 ^ 64) := by
  have ht : poly64X A K % 2 ^ 32 * 2 ^ 32 % 2 ^ 64 = poly64X A K % 2 ^ 32 * 2 ^ 32 := by
    have := Nat.mod_lt (poly64X A K) (show 0 < 2 ^ 32 by norm_num)
    exact Nat.mod_eq_of_lt (by omega)
  have hX' : (K / 2 ^ 32 % 2 ^ 32 * (A % 2 ^ 32) + A / 2 ^ 32 % 2 ^ 32 * (K % 2 ^ 32)) % 2 ^ 64
      = poly64X A K := Nat.mod_eq_of_lt hX
  have hR' : ((K / 2 ^ 32 % 2 ^ 32 * (A / 2 ^ 32 % 2 ^ 32) + poly64X A K / 2 ^ 32 % 2 ^ 32) * 59
      + K % 2 ^ 32 * (A % 2 ^ 32)) % 2 ^ 64 = poly64Res A K := Nat.mod_eq_of_lt hR
  unfold poly64
  simp only [hX', hR', ht]

/-- The arithmetic heart of `poly64`: with a masked key and an input below `p64`, the
first two intermediate values do not wrap, and the result differs from the exact
value `poly64Res + xLo·2^32 + data` by `p64` for each of at most two carries; the
exact value itself is `cur·key` minus a multiple of `p64`. -/
theorem poly64_core (A K x : Nat) (hA : A < 2 ^ 64)
    (hKh : K / 2 ^ 32 ≤ 0x01FFFFFF) (hKl : K % 2 ^ 32 ≤ 0x01FFFFFF) (hx : x < p64) :
    poly64X A K < 2 ^ 58 ∧ poly64Res A K < 2 ^ 63 ∧
    (∃ c, c ≤ 2 ∧
      poly64 A K x + c * p64 = poly64Res A K + poly64X A K % 2 ^ 32 * 2 ^ 32 + x) ∧
    (∃ q, poly64Res A K + poly64X A K % 2 ^ 32 * 2 ^ 32 + q * p64 = A * K) := by
  obtain ⟨hX, hR, hq⟩ := poly64_exact A K hA hKh hKl
  refine ⟨hX, hR, ?_, hq⟩
  have hx' : x < 2 ^ 64 - 59 := hx
  have ht : poly64X A K % 2 ^ 32 * 2 ^ 32 < 2 ^ 64 := by
    have := Nat.mod_lt (poly64X A K) (show 0 < 2 ^ 32 by norm_num)
    omega
  rw [poly64_eq A K x (by omega) (by omega)]
  exact carry_fix _ _ x _ _ _ _ hR ht hx' rfl rfl rfl rfl

/-- The congruence `poly64 A K x ≡ A·K + x (mod p64)` under the masking
precondition. -/
theorem poly64_modEq (A K x : Nat) (hA : A < 2 ^ 64)
    (hKh : K / 2 ^ 32 ≤ 0x01FFFFFF) (hKl : K % 2 ^ 32 ≤ 0x01FFFFFF) (hx : x < p64) :
    poly64 A K x ≡ A * K + x [MOD p64] := by
  obtain ⟨_, _, ⟨c, _, hc⟩, ⟨q, hq⟩⟩ := poly64_core A K x hA hKh hKl hx
  have h1 : poly64 A K x + (c + q) * p64 = A * K + x := by
    rw [Nat.add_mul]; omega
  have h2 : poly64 A K x + (c + q) * p64 ≡ poly64 A K x [MOD p64] := by
    simp [Nat.ModEq]
  rw [← h1]
  exact h2.symm

/-- The result of `poly64` always fits 64 bits. -/
theorem poly64_lt (A K x : Nat) : poly64 A K x < 2 ^ 64 := by
  unfold poly64
  simp only []
  split_ifs <;> exact Nat.mod_lt _ (by norm_num)

/-! ## Slices and word views -/

theorem copySlice_length (dst src : List Nat) (lo hi : Nat) (h1 : lo ≤ hi)
    (h2 : hi ≤ dst.length) : (copySlice dst lo hi src).length = dst.length := by
  simp only [copySlice, List.length_append, List.length_take, List.length_drop]
  omega

theorem copyAt_length (dst src : List Nat) (off : Nat) (h : off ≤ dst.length) :
    (copyAt dst off src).length = dst.length :=
  copySlice_length dst src off dst.length h (Nat.le_refl _)

/-- A copy that fits writes `src` after the first `off` bytes and keeps the rest. -/
theorem copyAt_eq (dst src : List Nat) (off : Nat) (h : off + src.length ≤ dst.length) :
    copyAt dst off src = dst.take off ++ src ++ dst.drop (off + src.length) := by
  have h1 : src.take (dst.length - off) = src := List.take_of_length_le (by omega)
  have h2 : min src.length (dst.length - off) = src.length := by omega
  simp only [copyAt, copySlice, h1, h2]

theorem copyAt_take (dst src : List Nat) (off : Nat) (h : off + src.length ≤ dst.length) :
    (copyAt dst off src).take (off + src.length) = dst.take off ++ src := by
  rw [copyAt_eq dst src off h]
  have hl : (dst.take off ++ src).length = off + src.length := by
    simp only [List.length_append, List.length_take]; omega
  rw [← hl, List.take_left']
  rfl

theorem copyAt_full (dst src : List Nat) (off : Nat) (h : off + src.length = dst.length) :
    copyAt dst off src = dst.take off ++ src := by
  rw [copyAt_eq dst src off (by omega), h, List.drop_length, List.append_nil]

theorem toUint32_length (l : List Nat) : (toUint32 l).length = l.length / 4 := by
  induction l using toUint32.induct with
  | case1 b0 b1 b2 b3 rest ih =>
    simp only [toUint32, List.length_cons, ih]
    omega
  | case2 l h =>
    rw [toUint32]
    · match l, h with
      | [], _ => simp
      | [_], _ => simp
      | [_, _], _ => simp
      | [_, _, _], _ => simp
      | a :: b :: c :: d :: r, h => exact absurd rfl (h a b c d r)
    · exact h

theorem toUint32_append (a b : List Nat) (h : a.length % 4 = 0) :
    toUint32 (a ++ b) = toUint32 a ++ toUint32 b := by
  induction a using toUint32.induct with
  | case1 b0 b1 b2 b3 rest ih =>
    simp only [List.length_cons] at h
    simp only [List.cons_append, toUint32]
    have := ih (by omega)
    simp only [List.append_eq] at this ⊢
    rw [this]
  | case2 l hl =>
    match l, hl, h with
    | [], _, _ => simp [toUint32]
    | [_], _, h => simp at h
    | [_, _], _, h => simp at h
    | [_, _, _], _, h => simp at h
    | a :: b :: c :: d :: r, hl, _ => exact absurd rfl (hl a b c d r)

theorem toUint32_drop (l : List Nat) (k : Nat) :
    toUint32 (l.drop (4 * k)) = (toUint32 l).drop k := by
  induction k generalizing l with
  | zero => simp
  | succ k ih =>
    match l with
    | [] => simp [toUint32]
    | [_] => simp [toUint32]
    | [_, _] => simp [toUint32]
    | [_, _, _] => simp [toUint32]
    | a :: b :: c :: d :: r =>
      have e : 4 * (k + 1) = 4 * k + 1 + 1 + 1 + 1 := by ring
      rw [e]
      simp only [List.drop_succ_cons, toUint32]
      exact ih r

theorem toUint32_take (l : List Nat) (k : Nat) :
    toUint32 (l.take (4 * k)) = (toUint32 l).take k := by
  induction k generalizing l with
  | zero => simp [toUint32]
  | succ k ih =>
    match l with
    | [] => simp [toUint32]
    | [_] => simp [toUint32]
    | [_, _] => simp [toUint32]
    | [_, _, _] => simp [toUint32]
    | a :: b :: c :: d :: r =>
      have e : 4 * (k + 1) = 4 * k + 1 + 1 + 1 + 1 := by ring
      rw [e]
      simp only [List.take_succ_cons, toUint32]
      rw [ih r]

theorem getD_drop_zero (l : List Nat) (n i : Nat) :
    (l.drop n).getD i 0 = l.getD (n + i) 0 := by
  simp [List.getD_eq_getElem?_getD, List.getElem?_drop]

theorem getD_take_zero (l : List Nat) (n i : Nat) (h : i < n) :
    (l.take n).getD i 0 = l.getD i 0 := by
  simp [List.getD_eq_getElem?_getD, List.getElem?_take, h]

/-! ## The NH kernel: the loops of `nhAux8` and `nhAux16` compute `nhSum` -/

theorem nhBlock_drop (j : Nat) (k d : List Nat) (a b : Nat) :
    nhBlock j (k.drop (8 * a)) (d.drop (8 * a)) b = nhBlock j k d (a + b) := by
  simp only [nhBlock, getD_drop_zero]
  have e0 : 8 * a + (8 * b + 4 * j) = 8 * (a + b) + 4 * j := by ring
  have e1 : 8 * a + (8 * b + 4 * j + 1) = 8 * (a + b) + 4 * j + 1 := by ring
  have e2 : 8 * a + (8 * b + 4 * j + 2) = 8 * (a + b) + 4 * j + 2 := by ring
  have e3 : 8 * a + (8 * b + 4 * j + 3) = 8 * (a + b) + 4 * j + 3 := by ring
  have e4 : 8 * a + (8 * b + 4 * j + 4) = 8 * (a + b) + 4 * j + 4 := by ring
  have e5 : 8 * a + (8 * b + 4 * j + 5) = 8 * (a + b) + 4 * j + 5 := by ring
  have e6 : 8 * a + (8 * b + 4 * j + 6) = 8 * (a + b) + 4 * j + 6 := by ring
  have e7 : 8 * a + (8 * b + 4 * j + 7) = 8 * (a + b) + 4 * j + 7 := by ring
  have f0 : 8 * a + 8 * b = 8 * (a + b) := by ring
  have f1 : 8 * a + (8 * b + 1) = 8 * (a + b) + 1 := by ring
  have f2 : 8 * a + (8 * b + 2) = 8 * (a + b) + 2 := by ring
  have f3 : 8 * a + (8 * b + 3) = 8 * (a + b) + 3 := by ring
  have f4 : 8 * a + (8 * b + 4) = 8 * (a + b) + 4 := by ring
  have f5 : 8 * a + (8 * b + 5) = 8 * (a + b) + 5 := by ring
  have f6 : 8 * a + (8 * b + 6) = 8 * (a + b) + 6 := by ring
  have f7 : 8 * a + (8 * b + 7) = 8 * (a + b) + 7 := by ring
  simp only [e0, e1, e2, e3, e4, e5, e6, e7, f0, f1, f2, f3, f4, f5, f6, f7]

theorem nhSum_add (j : Nat) (k d : List Nat) (a n : Nat) :
    nhSum j k d (a + n) = nhSum j k d a + nhSum j (k.drop (8 * a)) (d.drop (8 * a)) n := by
  induction n with
  | zero => simp [nhSum]
  | succ n ih =>
    rw [← Nat.add_assoc, nhSum, ih, nhSum, nhBlock_drop]
    omega

theorem nhSum_succ_left (j : Nat) (k d : List Nat) (n : Nat) :
    nhSum j k d (n + 1) = nhBlock j k d 0 + nhSum j (k.drop 8) (d.drop 8) n := by
  have h := nhSum_add j k d 1 n
  rw [Nat.add_comm 1 n] at h
  rw [h]
  simp [nhSum]

theorem nhBlock_congr (j : Nat) (k d d2 : List Nat) (b : Nat)
    (h : ∀ i, i < 8 * (b + 1) → d.getD i 0 = d2.getD i 0) :
    nhBlock j k d b = nhBlock j k d2 b := by
  simp only [nhBlock]
  rw [h (8 * b) (by omega), h (8 * b + 1) (by omega), h (8 * b + 2) (by omega),
    h (8 * b + 3) (by omega), h (8 * b + 4) (by omega), h (8 * b + 5) (by omega),
    h (8 * b + 6) (by omega), h (8 * b + 7) (by omega)]

/-- The kernel sum over `n` blocks reads only the first `8 n` data words. -/
theorem nhSum_congr (j : Nat) (k d d2 : List Nat) (n : Nat)
    (h : ∀ i, i < 8 * n → d.getD i 0 = d2.getD i 0) :
    nhSum j k d n = nhSum j k d2 n := by
  induction n with
  | zero => rfl
  | succ n ih =>
    rw [nhSum, nhSum, ih (fun i hi => h i (by omega)), nhBlock_congr j k d d2 n h]

theorem nhAux8Loop_eq (n : Nat) (k d : List Nat) (hp : Words2)
    (hd : 8 * n ≤ d.length) (hk : 8 * n + 4 ≤ k.length)
    (h1 : hp.1 < 2 ^ 64) (h2 : hp.2 < 2 ^ 64) :
    nhAux8Loop n (k.take 4) k d hp
      = some ((hp.1 + nhSum 0 k d n) % 2 ^ 64, (hp.2 + nhSum 1 k d n) % 2 ^ 64) := by
  induction n generalizing k d hp with
  | zero =>
    simp only [nhAux8Loop, nhSum, Nat.add_zero, Nat.mod_eq_of_lt h1, Nat.mod_eq_of_lt h2]
  | succ n ih =>
    have c : ¬ (d.length ≤ 7 ∨ k.length ≤ 11) := by omega
    rw [nhAux8Loop, if_neg c]
    simp only []
    rw [ih (k.drop 8) (d.drop 8) _ (by simp only [List.length_drop]; omega)
      (by simp only [List.length_drop]; omega) (Nat.mod_lt _ (by norm_num))
      (Nat.mod_lt _ (by norm_num))]
    rw [nhSum_succ_left, nhSum_succ_left]
    have t0 : (k.take 4).getD 0 0 = k.getD 0 0 := getD_take_zero k 4 0 (by omega)
    have t1 : (k.take 4).getD 1 0 = k.getD 1 0 := getD_take_zero k 4 1 (by omega)
    have t2 : (k.take 4).getD 2 0 = k.getD 2 0 := getD_take_zero k 4 2 (by omega)
    have t3 : (k.take 4).getD 3 0 = k.getD 3 0 := getD_take_zero k 4 3 (by omega)
    simp only [t0, t1, t2, t3, nhBlock, Nat.mul_zero, Nat.zero_add, Nat.mul_one, Nat.reduceAdd, Nat.reduceMul]
    congr 1
    refine Prod.ext ?_ ?_ <;> simp only [] <;> omega

theorem nhAux8_eq (k d : List Nat) (hp : Words2) (dlen : Nat)
    (hd : 8 * (dlen / 32) ≤ d.length) (hk : 8 * (dlen / 32) + 4 ≤ k.length)
    (h1 : hp.1 < 2 ^ 64) (h2 : hp.2 < 2 ^ 64) :
    nhAux8 k d hp dlen
      = some ((hp.1 + nhSum 0 k d (dlen / 32)) % 2 ^ 64,
              (hp.2 + nhSum 1 k d (dlen / 32)) % 2 ^ 64) := by
  rw [nhAux8, if_neg (by omega)]
  exact nhAux8Loop_eq _ k d hp hd hk h1 h2

theorem nhAux16Loop_eq (n : Nat) (k d : List Nat) (hp : Words4)
    (hd : 8 * n ≤ d.length) (hk : 8 * n + 12 ≤ k.length ∨ n = 0)
    (h1 : hp.1 < 2 ^ 64) (h2 : hp.2.1 < 2 ^ 64) (h3 : hp.2.2.1 < 2 ^ 64)
    (h4 : hp.2.2.2 < 2 ^ 64) :
    nhAux16Loop n k d hp
      = some ((hp.1 + nhSum 0 k d n) % 2 ^ 64, (hp.2.1 + nhSum 1 k d n) % 2 ^ 64,
              (hp.2.2.1 + nhSum 2 k d n) % 2 ^ 64, (hp.2.2.2 + nhSum 3 k d n) % 2 ^ 64) := by
  induction n generalizing k d hp with
  | zero =>
    simp only [nhAux16Loop, nhSum, Nat.add_zero, Nat.mod_eq_of_lt h1, Nat.mod_eq_of_lt h2,
      Nat.mod_eq_of_lt h3, Nat.mod_eq_of_lt h4]
  | succ n ih =>
    have c : ¬ (d.length ≤ 7 ∨ k.length ≤ 19) := by omega
    rw [nhAux16Loop, if_neg c]
    simp only []
    rw [ih (k.drop 8) (d.drop 8) _ (by simp only [List.length_drop]; omega)
      (by simp only [List.length_drop]; omega) (Nat.mod_lt _ (by norm_num))
      (Nat.mod_lt _ (by norm_num)) (Nat.mod_lt _ (by norm_num)) (Nat.mod_lt _ (by norm_num))]
    rw [nhSum_succ_left, nhSum_succ_left, nhSum_succ_left, nhSum_succ_left]
    simp only [nhBlock, Nat.mul_zero, Nat.zero_add, Nat.mul_one, Nat.reduceAdd, Nat.reduceMul]
    congr 1
    refine Prod.ext ?_ (Prod.ext ?_ (Prod.ext ?_ ?_)) <;> simp only [] <;> omega

theorem nhAux16_eq (k d : List Nat) (hp : Words4) (dlen : Nat)
    (hd : 8 * (dlen / 32) ≤ d.length) (hk : 8 * (dlen / 32) + 12 ≤ k.length)
    (h1 : hp.1 < 2 ^ 64) (h2 : hp.2.1 < 2 ^ 64) (h3 : hp.2.2.1 < 2 ^ 64)
    (h4 : hp.2.2.2 < 2 ^ 64) :
    nhAux16 k d hp dlen
      = some ((hp.1 + nhSum 0 k d (dlen / 32)) % 2 ^ 64,
              (hp.2.1 + nhSum 1 k d (dlen / 32)) % 2 ^ 64,
              (hp.2.2.1 + nhSum 2 k d (dlen / 32)) % 2 ^ 64,
              (hp.2.2.2 + nhSum 3 k d (dlen / 32)) % 2 ^ 64) :=
  nhAux16Loop_eq _ k d hp hd (Or.inl hk) h1 h2 h3 h4

/-! ## The streaming NH context -/

theorem nhSum_take_data (j : Nat) (k x : List Nat) (n L : Nat) (h : 32 * n ≤ L) (hL : L % 4 = 0) :
    nhSum j k (toUint32 (x.take L)) n = nhSum j k (toUint32 x) n := by
  apply nhSum_congr
  intro i hi
  have e : L = 4 * (L / 4) := by omega
  rw [e, toUint32_take, getD_take_zero _ _ _ (by omega)]

/-- The accumulators after `h` bytes depend on the first `h` bytes only. -/
theorem nhState8_congr (key x y : List Nat) (h : Nat) (h4 : h % 4 = 0)
    (hxy : x.take h = y.take h) : nhState8 key x h = nhState8 key y h := by
  simp only [nhState8]
  rw [← nhSum_take_data 0 _ x (h / 32) h (by omega) h4,
    ← nhSum_take_data 1 _ x (h / 32) h (by omega) h4,
    ← nhSum_take_data 0 _ y (h / 32) h (by omega) h4,
    ← nhSum_take_data 1 _ y (h / 32) h (by omega) h4, hxy]

theorem nhState8_lt (key x : List Nat) (h : Nat) :
    (nhState8 key x h).1 < 2 ^ 64 ∧ (nhState8 key x h).2 < 2 ^ 64 :=
  ⟨Nat.mod_lt _ (by norm_num), Nat.mod_lt _ (by norm_num)⟩

theorem nhSum_block_at (j : Nat) (key x : List Nat) (h L : Nat) (h32 : h % 32 = 0)
    (hx : h + L ≤ x.length) :
    nhSum j (toUint32 key) (toUint32 x) (h / 32)
        + nhSum j (toUint32 (key.drop h)) (toUint32 ((x.drop h).take L)) (L / 32)
      = nhSum j (toUint32 key) (toUint32 x) ((h + L) / 32) := by
  obtain ⟨q, rfl⟩ : ∃ q, h = 32 * q := ⟨h / 32, by omega⟩
  have e0 : 32 * q / 32 = q := by omega
  have e1 : (32 * q + L) / 32 = q + L / 32 := by omega
  have e2 : 4 * (8 * q) = 32 * q := by ring
  rw [e0, e1, nhSum_add]
  congr 1
  have e3 : toUint32 (key.drop (32 * q)) = (toUint32 key).drop (8 * q) := by
    have := toUint32_drop key (8 * q)
    rwa [e2] at this
  have e5 : toUint32 (x.drop (32 * q)) = (toUint32 x).drop (8 * q) := by
    have := toUint32_drop x (8 * q)
    rwa [e2] at this
  have e4 : nhSum j (toUint32 (key.drop (32 * q))) (toUint32 ((x.drop (32 * q)).take L)) (L / 32)
      = nhSum j (toUint32 (key.drop (32 * q))) (toUint32 (x.drop (32 * q))) (L / 32) := by
    have : (x.drop (32 * q)).take L = (x.drop (32 * q)).take (L / 32 * 32) ++
        ((x.drop (32 * q)).take L).drop (L / 32 * 32) := by
      conv_lhs => rw [← List.take_append_drop (L / 32 * 32) ((x.drop (32 * q)).take L)]
      rw [List.take_take, Nat.min_eq_left (by omega)]
    rw [this, toUint32_append _ _ (by
      simp only [List.length_take, List.length_drop]; omega)]
    rw [nhSum_congr j _ _ (toUint32 ((x.drop (32 * q)).take (L / 32 * 32))) (L / 32) (by
      intro i hi
      rw [List.getD_append _ _ _ _ (by
        rw [toUint32_length]; simp only [List.length_take, List.length_drop]; omega)])]
    exact nhSum_take_data j _ _ _ _ (by omega) (by omega)
  rw [e4, e3, e5]

/-- One `transform` of the `L` bytes of `x` that follow the `hashed` bytes already
compressed. -/
theorem nhCtx8_transform_eq (c : nhCtx8) (x : List Nat) (L : Nat)
    (hk : c.key.length = 1040) (h32 : c.hashed % 32 = 0)
    (hb : c.hashed + L ≤ 1024) (hx : c.hashed + L ≤ x.length)
    (hs : c.state = nhState8 c.key x c.hashed) :
    c.transform ((x.drop c.hashed).take L)
      = some { c with state := nhState8 c.key x (c.hashed + L) } := by
  have hlen : ((x.drop c.hashed).take L).length = L := by
    simp only [List.length_take, List.length_drop]; omega
  rw [nhCtx8.transform, if_neg (by omega), hlen]
  rw [nhAux8_eq _ _ _ _ (by rw [toUint32_length, hlen]; omega)
    (by rw [toUint32_length]; simp only [List.length_drop]; omega)
    (by rw [hs]; exact (nhState8_lt _ _ _).1) (by rw [hs]; exact (nhState8_lt _ _ _).2)]
  simp only [hs, nhState8, Nat.mod_add_mod]
  rw [nhSum_block_at 0 c.key x c.hashed L h32 hx, nhSum_block_at 1 c.key x c.hashed L h32 hx]

/-- The second half of `update`: whole 64-byte blocks are compressed straight from
the input and the rest is staged. -/
theorem nhCtx8_update_tail (cA : nhCtx8) (x b : List Nat) (n : Nat)
    (hk : cA.key.length = 1040) (hd : cA.data.length = 64) (h64 : cA.hashed % 64 = 0)
    (hle : cA.hashed ≤ x.length) (hx : x.length ≤ 1024)
    (hs : cA.state = nhState8 cA.key x cA.hashed)
    (hb : b = x.drop cA.hashed) (hn : n = b.length) :
    ∃ c2 : nhCtx8,
      (match
          (if n ≥ 64 then
            match cA.transform (List.take (n - n % 64) b) with
            | none => none
            | some c2 =>
              some
                ({ c2 with hashed := c2.hashed + (n - n % 64) }, n - (n - n % 64),
                  List.drop (n - n % 64) b)
          else some (cA, n, b) : Option (nhCtx8 × Nat × List Nat)) with
        | none => none
        | some (c, n, buf) =>
          some { c with data := copyAt c.data 0 buf, nextEmpty := 0 + n }) = some c2 ∧
      c2.Absorbed x ∧ c2.key = cA.key := by
  have hbl : b.length = x.length - cA.hashed := by rw [hb, List.length_drop]
  by_cases hc : n ≥ 64
  · have ht := nhCtx8_transform_eq cA x (n - n % 64) hk (by omega) (by omega) (by omega) hs
    rw [← hb] at ht
    simp only [hc, if_true, ht]
    refine ⟨_, rfl, ?_, rfl⟩
    have hdl : (List.drop (n - n % 64) b).length = n % 64 := by
      rw [List.length_drop]; omega
    have hlt : n % 64 < 64 := Nat.mod_lt _ (by norm_num)
    refine ⟨hk, ?_, ?_, ?_, ?_, ?_⟩
    · simp only []
      rw [copyAt_length _ _ _ (by omega)]; exact hd
    · simp only []; omega
    · simp only []; omega
    · simp only []
      have := copyAt_take cA.data (List.drop (n - n % 64) b) 0 (by omega)
      rw [Nat.zero_add, hdl, List.take_zero, List.nil_append] at this
      rw [Nat.zero_add, Nat.sub_sub_self (Nat.mod_le _ _), this, hb, List.drop_drop]
    · simp only []
  · simp only [hc, if_false]
    refine ⟨_, rfl, ?_, rfl⟩
    refine ⟨hk, ?_, ?_, ?_, ?_, ?_⟩
    · simp only []
      rw [copyAt_length _ _ _ (by omega)]; exact hd
    · simp only []; omega
    · simp only []; omega
    · simp only []
      have := copyAt_take cA.data b 0 (by omega)
      rw [Nat.zero_add, List.take_zero, List.nil_append] at this
      rw [Nat.zero_add, hn, this, hb]
    · simp only []; exact hs

theorem nhCtx8_update_absorbed (c : nhCtx8) (m buf : List Nat) (ha : c.Absorbed m)
    (hb : m.length + buf.length ≤ 1024) :
    ∃ c2, c.update buf = some c2 ∧ c2.Absorbed (m ++ buf) ∧ c2.key = c.key := by
  obtain ⟨hk, hd, hh, hn, hdat, hs⟩ := ha
  have hxl : (m ++ buf).length = m.length + buf.length := List.length_append _ _
  have hsx : c.state = nhState8 c.key (m ++ buf) c.hashed := by
    rw [hs]
    apply nhState8_congr _ _ _ _ (by omega)
    rw [List.take_append_of_le_length (by omega)]
  by_cases hc : c.nextEmpty + buf.length ≥ 64
  · by_cases hj : c.nextEmpty = 0
    · unfold nhCtx8.update
      simp only [hc, if_true]
      simp only [hj, ne_eq, not_true_eq_false, if_false]
      have hm : m.length = c.hashed := by omega
      have h1 : c.hashed % 64 = 0 := by omega
      have h2 : c.hashed ≤ (m ++ buf).length := by omega
      have h3 : (m ++ buf).length ≤ 1024 := by omega
      have h4 : buf = (m ++ buf).drop c.hashed := by rw [← hm, List.drop_left]
      exact nhCtx8_update_tail c (m ++ buf) buf buf.length hk hd h1 h2 h3 hsx h4 rfl
    · unfold nhCtx8.update
      simp only [hc, if_true, hj, ne_eq, not_false_eq_true]
      rw [if_neg (by omega)]
      have hml : (m.drop c.hashed).length = c.nextEmpty := by
        rw [List.length_drop]; omega
      have hcp : copyAt c.data c.nextEmpty (List.take (64 - c.nextEmpty) buf)
          = ((m ++ buf).drop c.hashed).take 64 := by
        have hl : (List.take (64 - c.nextEmpty) buf).length = 64 - c.nextEmpty := by
          rw [List.length_take]; omega
        have e : List.take 64 (List.drop c.hashed m) = List.drop c.hashed m :=
          List.take_of_length_le (by omega)
        rw [copyAt_full _ _ _ (by rw [hl]; omega), hdat,
          List.drop_append_of_le_length (by omega), List.take_append_eq_append_take, hml, e]
      rw [hcp]
      have ht := nhCtx8_transform_eq
        { c with data := List.take 64 (List.drop c.hashed (m ++ buf)) } (m ++ buf) 64 hk
        (by simp only []; omega) (by simp only []; omega) (by simp only []; omega) hsx
      simp only [] at ht
      simp only [ht]
      have hdd : List.drop (64 - c.nextEmpty) buf = (m ++ buf).drop (c.hashed + 64) := by
        have e : c.hashed + 64 = m.length + (64 - c.nextEmpty) := by omega
        rw [e, List.drop_append]
      exact nhCtx8_update_tail _ (m ++ buf) _ _ hk
        (by simp only [List.length_take, List.length_drop]; omega)
        (by simp only []; omega) (by simp only []; omega) (by omega) rfl hdd
        (by rw [List.length_drop])
  · unfold nhCtx8.update
    simp only [hc, if_false]
    rw [if_neg (by omega)]
    refine ⟨_, rfl, ⟨hk, ?_, ?_, ?_, ?_, ?_⟩, rfl⟩
    · simp only []
      rw [copyAt_length _ _ _ (by omega)]; exact hd
    · simp only []; omega
    · simp only []; omega
    · simp only []
      rw [copyAt_take _ _ _ (by omega), hdat, List.drop_append_of_le_length (by omega)]
    · simp only []
      exact hsx

theorem nhPad_length (m : List Nat) : (nhPad m).length = nhPadLen m.length := by
  simp only [nhPad, List.length_append, List.length_replicate, nhPadLen]
  split <;> omega

theorem nhRef_eq (j : Nat) (key m : List Nat) (s h : Nat) (hh : h = m.length)
    (hs : s = nhSum j (toUint32 key) (toUint32 (nhPad m)) (nhPadLen m.length / 32) % 2 ^ 64) :
    (s + h * 8 % 2 ^ 64) % 2 ^ 64 = nhRef j key m := by
  rw [nhRef, hs, hh]
  omega

theorem nhCtx8_reset_absorbed (c2 : nhCtx8) (h1 : c2.key.length = 1040)
    (h2 : c2.data.length = 64) : (c2.reset).Absorbed [] :=
  ⟨h1, h2, rfl, rfl, rfl, by simp [nhCtx8.reset, nhState8, nhSum]⟩

theorem nhCtx8_final_absorbed_aux (c : nhCtx8) (m : List Nat) (ha : c.Absorbed m)
    (hm : m.length ≤ 1024) :
    ∃ c2 r, c.final = some (c2, r) ∧ r = nhRef8 c.key m ∧ c2.Absorbed [] ∧ c2.key = c.key := by
  obtain ⟨hk, hd, hh, hn, hdat, hs⟩ := ha
  have hpl := nhPad_length m
  have hsx : c.state = nhState8 c.key (nhPad m) c.hashed := by
    rw [hs]
    apply nhState8_congr _ _ _ _ (by omega)
    rw [nhPad, List.take_append_of_le_length (by omega)]
  by_cases hj : c.nextEmpty = 0
  · have cj : (c.nextEmpty ≠ 0) = False := by simp [hj]
    by_cases hz : c.hashed = 0
    · have hm0 : m = [] := by
        have : m.length = 0 := by omega
        exact List.length_eq_zero.mp this
      subst hm0
      unfold nhCtx8.final
      have cz : (c.hashed = 0) = True := by simp [hz]
      simp only [cj, cz, if_false, if_true]
      rw [if_neg (by rw [copyAt_length _ _ _ (by omega)]; omega)]
      have hcp : List.take 32 (copyAt c.data 0 (List.replicate 32 0))
          = ((nhPad []).drop c.hashed).take 32 := by
        have := copyAt_take c.data (List.replicate 32 0) 0
          (by simp only [List.length_replicate]; omega)
        simp only [List.length_replicate, Nat.zero_add, List.take_zero, List.nil_append] at this
        rw [this, hz]
        rfl
      rw [hcp]
      have ht := nhCtx8_transform_eq
        { c with data := copyAt c.data 0 (List.replicate 32 0) } (nhPad []) 32 hk
        (by simp only []; omega) (by simp only []; omega)
        (by simp only []; rw [hpl]; simp [nhPadLen]; omega) hsx
      simp only [] at ht
      simp only [ht]
      refine ⟨_, _, rfl, ?_,
        nhCtx8_reset_absorbed _ hk (by simp only []; rw [copyAt_length _ _ _ (by omega)]; exact hd),
        rfl⟩
      simp only [nhRef8, Prod.mk.injEq]
      constructor
      · exact nhRef_eq 0 c.key [] _ _ (by simp only [hz, List.length_nil])
          (by simp only [nhState8, hz, List.length_nil, nhPadLen, if_true])
      · exact nhRef_eq 1 c.key [] _ _ (by simp only [hz, List.length_nil])
          (by simp only [nhState8, hz, List.length_nil, nhPadLen, if_true])
    · have cz : (c.hashed = 0) = False := by simp [hz]
      unfold nhCtx8.final
      simp only [cj, cz, if_false]
      refine ⟨_, _, rfl, ?_, nhCtx8_reset_absorbed _ hk hd, rfl⟩
      have hml : m.length = c.hashed := by omega
      have hp : nhPadLen m.length = c.hashed := by
        rw [nhPadLen, if_neg (by omega)]; omega
      simp only [nhRef8, Prod.mk.injEq]
      constructor
      · exact nhRef_eq 0 c.key m _ _ hml.symm (by rw [hsx, hp]; rfl)
      · exact nhRef_eq 1 c.key m _ _ hml.symm (by rw [hsx, hp]; rfl)
  · have cj : (c.nextEmpty ≠ 0) = True := by simp [hj]
    unfold nhCtx8.final
    simp only [cj, if_true]
    rw [if_neg (by omega)]
    have hjl : c.nextEmpty < 64 := by omega
    have hnl : c.nextEmpty + 31 - (c.nextEmpty + 31) % 32 ≤ 64 := by omega
    have hnl2 : c.nextEmpty ≤ c.nextEmpty + 31 - (c.nextEmpty + 31) % 32 := by omega
    generalize hN : c.nextEmpty + 31 - (c.nextEmpty + 31) % 32 = nhLen at *
    have hrl : (List.replicate (nhLen - c.nextEmpty) 0).length = nhLen - c.nextEmpty :=
      List.length_replicate _ _
    rw [if_neg (by rw [copyAt_length _ _ _ (by omega)]; omega)]
    have hp : nhPadLen m.length = c.hashed + nhLen := by
      rw [nhPadLen, if_neg (by omega)]; omega
    have hcp : List.take nhLen (copyAt c.data c.nextEmpty (List.replicate (nhLen - c.nextEmpty) 0))
        = ((nhPad m).drop c.hashed).take nhLen := by
      have := copyAt_take c.data (List.replicate (nhLen - c.nextEmpty) 0) c.nextEmpty
        (by rw [hrl]; omega)
      rw [hrl, Nat.add_sub_cancel' hnl2] at this
      rw [this, hdat, nhPad, List.drop_append_of_le_length (by omega), hp]
      have e1 : c.hashed + nhLen - m.length = nhLen - c.nextEmpty := by omega
      rw [e1, List.take_of_length_le]
      simp only [List.length_append, List.length_drop, List.length_replicate]
      omega
    rw [hcp]
    have ht := nhCtx8_transform_eq
      { c with data := copyAt c.data c.nextEmpty (List.replicate (nhLen - c.nextEmpty) 0) }
      (nhPad m) nhLen hk
      (by simp only []; omega) (by simp only []; omega)
      (by simp only []; rw [hpl, hp]) hsx
    simp only [] at ht
    simp only [ht]
    refine ⟨_, _, rfl, ?_,
      nhCtx8_reset_absorbed _ hk (by simp only []; rw [copyAt_length _ _ _ (by omega)]; exact hd),
      rfl⟩
    simp only [nhRef8, Prod.mk.injEq]
    constructor
    · exact nhRef_eq 0 c.key m _ _ (by omega) (by rw [hp]; rfl)
    · exact nhRef_eq 1 c.key m _ _ (by omega) (by rw [hp]; rfl)

/-- `final` on a context that absorbed `m` returns the reference NH words of `m` and
leaves the context reset. -/
theorem nhCtx8_final_absorbed (c : nhCtx8) (m : List Nat) (ha : c.Absorbed m)
    (hm : m.length ≤ 1024) :
    ∃ c2, c.final = some (c2, nhRef8 c.key m) ∧ c2.Absorbed [] ∧ c2.key = c.key := by
  obtain ⟨c2, r, h1, rfl, h3, h4⟩ := nhCtx8_final_absorbed_aux c m ha hm
  exact ⟨c2, h1, h3, h4⟩

/-! ## The L1 chunking of `uhash8` -/

theorem nhPad_full (m : List Nat) (h0 : m.length ≠ 0) (h : m.length % 32 = 0) : nhPad m = m := by
  have : nhPadLen m.length = m.length := by
    rw [nhPadLen, if_neg h0]; omega
  rw [nhPad, this, Nat.sub_self, List.replicate_zero, List.append_nil]

/-- The fixed-input helper on a buffer of at least 1024 bytes returns the reference
NH words of its first 1024 bytes. -/
theorem nhCtx8_hash_eq (c : nhCtx8) (buf : List Nat) (hk : c.key.length = 1040)
    (hb : 1024 ≤ buf.length) :
    c.hash buf 1024 1024 = some (nhRef8 c.key (buf.take 1024)) := by
  have hl : (buf.take 1024).length = 1024 := by rw [List.length_take]; omega
  rw [nhCtx8.hash]
  rw [nhAux8_eq _ _ _ _ (by rw [toUint32_length]; omega) (by rw [toUint32_length]; omega)
    (Nat.mod_lt _ (by norm_num)) (Nat.mod_lt _ (by norm_num))]
  simp only [nhRef8, nhRef, hl, nhPad_full (buf.take 1024) (by omega) (by omega)]
  have e : nhPadLen 1024 = 1024 := by simp [nhPadLen]
  rw [e]
  rw [nhSum_take_data 0 _ buf (1024 / 32) 1024 (by norm_num) (by norm_num),
    nhSum_take_data 1 _ buf (1024 / 32) 1024 (by norm_num) (by norm_num)]
  refine congrArg some (Prod.ext ?_ ?_) <;> simp only [] <;> omega

theorem l1Chunks_succ (n : Nat) (x : List Nat) :
    l1Chunks (n + 1) x = l1Chunks n x ++ [(x.drop (1024 * n)).take 1024] := by
  induction n generalizing x with
  | zero => simp [l1Chunks]
  | succ n ih =>
    rw [l1Chunks, ih (x.drop 1024), l1Chunks, List.drop_drop]
    have e : 1024 + 1024 * n = 1024 * (n + 1) := by ring
    rw [e, List.cons_append]

theorem l1Chunks_append (n : Nat) (m buf : List Nat) (h : 1024 * n ≤ m.length) :
    l1Chunks n (m ++ buf) = l1Chunks n m := by
  induction n generalizing m with
  | zero => rfl
  | succ n ih =>
    rw [l1Chunks, l1Chunks, List.take_append_of_le_length (by omega),
      List.drop_append_of_le_length (by omega), ih _ (by rw [List.length_drop]; omega)]

theorem polyFold_snoc (key acc : Nat) (ds : List Nat) (d : Nat) :
    polyFold key acc (ds ++ [d]) = polyHashStep (polyFold key acc ds) key d := by
  simp [polyFold, List.foldl_append]

theorem polyState8_succ (u : uhash8) (x : List Nat) (n : Nat) :
    polyState8 u x (n + 1)
      = (polyHashStep (polyState8 u x n).1 u.polyKey.1
            (nhRef 0 u.nh.key ((x.drop (1024 * n)).take 1024)),
         polyHashStep (polyState8 u x n).2 u.polyKey.2
            (nhRef 1 u.nh.key ((x.drop (1024 * n)).take 1024))) := by
  simp only [polyState8, l1Chunks_succ, List.map_append, List.map_cons, List.map_nil,
    polyFold_snoc]

theorem polyState8_keys (u u2 : uhash8) (x : List Nat) (n : Nat) (h : u2.SameKeys u) :
    polyState8 u2 x n = polyState8 u x n := by
  obtain ⟨h1, h2, _, _⟩ := h
  simp only [polyState8, h1, h2]

theorem polyState8_append (u : uhash8) (m buf : List Nat) (n : Nat) (h : 1024 * n ≤ m.length) :
    polyState8 u (m ++ buf) n = polyState8 u m n := by
  simp only [polyState8, l1Chunks_append n m buf h]

theorem uhash8_SameKeys_refl (u : uhash8) : u.SameKeys u := ⟨rfl, rfl, rfl, rfl⟩

theorem uhash8_SameKeys_trans {a b c : uhash8} (h1 : a.SameKeys b) (h2 : b.SameKeys c) :
    a.SameKeys c :=
  ⟨h1.1.trans h2.1, h1.2.1.trans h2.2.1, h1.2.2.1.trans h2.2.2.1, h1.2.2.2.trans h2.2.2.2⟩

/-- The chunk loop of `update`: `n` more chunks of `x` are folded. -/
theorem uhash8_updateLoop_folded (n : Nat) (u : uhash8) (x : List Nat) (p bl : Nat)
    (hf : u.Folded x p) (hn : p + 1024 * n ≤ x.length) (h32 : x.length < 2 ^ 32) :
    ∃ u2, uhash8.updateLoop n u (x.drop p) bl
        = some (u2, x.drop (p + 1024 * n), bl - 1024 * n) ∧
      u2.Folded x (p + 1024 * n) ∧ u2.SameKeys u := by
  induction n generalizing u p bl with
  | zero => exact ⟨u, rfl, hf, uhash8_SameKeys_refl u⟩
  | succ n ih =>
    obtain ⟨hp, hpx, hml, hab, hpr⟩ := hf
    have hk : u.nh.key.length = 1040 := hab.1
    have hbl : 1024 ≤ (x.drop p).length := by rw [List.length_drop]; omega
    rw [uhash8.updateLoop, nhCtx8_hash_eq _ _ hk hbl]
    simp only []
    rw [if_neg (by omega)]
    have hf1 : (uhash8.polyHash { u with msgLen := (u.msgLen + 1024) % 2 ^ 32 }
        (nhRef8 u.nh.key ((x.drop p).take 1024))).Folded x (p + 1024) := by
      refine ⟨by omega, by omega, ?_, hab, ?_⟩
      · simp only [uhash8.polyHash, hml]; omega
      · have e : (p + 1024) / 1024 = p / 1024 + 1 := by omega
        have e2 : 1024 * (p / 1024) = p := by omega
        have hk2 := polyState8_keys u (uhash8.polyHash
          { u with msgLen := (u.msgLen + 1024) % 2 ^ 32 }
          (nhRef8 u.nh.key ((x.drop p).take 1024))) x (p / 1024 + 1) ⟨rfl, rfl, rfl, rfl⟩
        rw [e, hk2, polyState8_succ, e2, ← hpr]
        rfl
    obtain ⟨u2, h1, h2, h3⟩ := ih _ (p + 1024) (bl - 1024) hf1 (by omega)
    refine ⟨u2, ?_, ?_, (uhash8_SameKeys_trans h3 ⟨rfl, rfl, rfl, rfl⟩)⟩
    · rw [List.drop_drop]
      have e2 : p + 1024 + 1024 * n = p + 1024 * (n + 1) := by omega
      have e3 : bl - 1024 - 1024 * n = bl - 1024 * (n + 1) := by omega
      rw [h1, e2, e3]
    · have e2 : p + 1024 + 1024 * n = p + 1024 * (n + 1) := by omega
      rw [← e2]; exact h2

/-- The last step of `update`: the bytes left after the chunk loop are staged in the
NH context. -/
theorem uhash8_update_rest (uA : uhash8) (cur bufA : List Nat) (blA : Nat)
    (ha : uA.nh.Absorbed cur) (hbl : blA = bufA.length)
    (hle : cur.length + bufA.length ≤ 1024) (h32 : uA.msgLen + blA < 2 ^ 32) :
    ∃ u2 : uhash8,
      (if blA ≠ 0 then
        match uA.nh.update bufA with
        | none => none
        | some nh => some { uA with nh := nh, msgLen := (uA.msgLen + blA) % 2 ^ 32 }
      else some uA) = some u2 ∧
      u2.nh.Absorbed (cur ++ bufA) ∧ u2.msgLen = uA.msgLen + blA ∧
      u2.polyResult = uA.polyResult ∧ u2.SameKeys uA := by
  by_cases h0 : blA = 0
  · have hb : bufA = [] := List.length_eq_zero.mp (by omega)
    rw [if_neg (by simp [h0])]
    refine ⟨uA, rfl, ?_, by omega, rfl, uhash8_SameKeys_refl uA⟩
    rw [hb, List.append_nil]; exact ha
  · obtain ⟨c2, h1, h2, h3⟩ := nhCtx8_update_absorbed uA.nh cur bufA ha hle
    rw [if_pos h0, h1]
    refine ⟨_, rfl, h2, ?_, rfl, ⟨h3, rfl, rfl, rfl⟩⟩
    simp only []
    exact Nat.mod_eq_of_lt h32

theorem polyState8_zero (u : uhash8) (m : List Nat) : polyState8 u m 0 = (1, 1) := rfl

/-- The chunk loop and the last step of `update`, from a chunk boundary `p1`. -/
theorem uhash8_update_chunks (u1 : uhash8) (x b1 : List Nat) (p1 bl1 : Nat)
    (hf : u1.Folded x p1) (hx32 : x.length < 2 ^ 32) (hx : 1024 < x.length)
    (hb : b1 = x.drop p1) (hbl : bl1 = x.length - p1) :
    ∃ u2 : uhash8,
      (match uhash8.updateLoop (bl1 / 1024) u1 b1 bl1 with
        | none => none
        | some (u, buf, bufLen) =>
          if bufLen ≠ 0 then
            match u.nh.update buf with
            | none => none
            | some nh => some { u with nh := nh, msgLen := (u.msgLen + bufLen) % 2 ^ 32 }
          else some u) = some u2 ∧
      u2.Hashed x ∧ u2.SameKeys u1 := by
  have hp1 := hf.1
  have hp1x := hf.2.1
  obtain ⟨uL, h1, h2, h3⟩ := uhash8_updateLoop_folded (bl1 / 1024) u1 x p1 bl1 hf
    (by omega) hx32
  rw [hb, h1]
  simp only []
  obtain ⟨hq, hqx, hqm, hqa, hqp⟩ := h2
  have hlen : (x.drop (p1 + 1024 * (bl1 / 1024))).length = bl1 - 1024 * (bl1 / 1024) := by
    rw [List.length_drop]; omega
  obtain ⟨u2, g1, g2, g3, g4, g5⟩ := uhash8_update_rest uL [] _ _ hqa hlen.symm
    (by rw [hlen]; simp only [List.length_nil]; omega) (by omega)
  refine ⟨u2, g1, ⟨?_, ?_⟩, (uhash8_SameKeys_trans g5 h3)⟩
  · rw [g3, hqm]; omega
  · rw [if_neg (by omega)]
    have e : x.length / 1024 * 1024 = p1 + 1024 * (bl1 / 1024) := by omega
    have e2 : (p1 + 1024 * (bl1 / 1024)) / 1024 = x.length / 1024 := by omega
    rw [e]
    refine ⟨by simpa using g2, ?_⟩
    rw [g4, hqp, e2]
    exact (polyState8_keys uL u2 x _ g5).symm

theorem uhash8_update_hashed (u : uhash8) (m buf : List Nat) (hh : u.Hashed m)
    (h32 : m.length + buf.length < 2 ^ 32) :
    ∃ u2, u.update buf = some u2 ∧ u2.Hashed (m ++ buf) ∧ u2.SameKeys u := by
  obtain ⟨hml, hst⟩ := hh
  have hxl : (m ++ buf).length = m.length + buf.length := List.length_append _ _
  have hbm : buf.length % 2 ^ 32 = buf.length := Nat.mod_eq_of_lt (by omega)
  by_cases hc : m.length + buf.length ≤ 1024
  · rw [if_pos (by omega)] at hst
    obtain ⟨ha, hp⟩ := hst
    obtain ⟨c2, h1, h2, h3⟩ := nhCtx8_update_absorbed u.nh m buf ha hc
    unfold uhash8.update
    simp only [hbm, hml]
    rw [if_pos (by rw [Nat.mod_eq_of_lt h32]; exact hc), h1]
    refine ⟨_, rfl, ⟨?_, ?_⟩, ⟨h3, rfl, rfl, rfl⟩⟩
    · simp only []; rw [Nat.mod_eq_of_lt h32, hxl]
    · rw [if_pos (by omega)]
      exact ⟨h2, hp⟩
  · unfold uhash8.update
    simp only [hbm, hml]
    rw [if_neg (by rw [Nat.mod_eq_of_lt h32]; exact hc)]
    generalize hbh : (if m.length = 1024 then 1024 else m.length % 1024) = bh
    have hcur : ∃ cur p0, u.nh.Absorbed cur ∧ cur.length = bh ∧ p0 % 1024 = 0 ∧
        p0 + bh = m.length ∧ m.drop p0 = cur ∧ u.polyResult = polyState8 u m (p0 / 1024) := by
      by_cases hm : m.length ≤ 1024
      · rw [if_pos hm] at hst
        refine ⟨m, 0, hst.1, ?_, rfl, ?_, rfl, hst.2⟩
        · rw [← hbh]; split <;> omega
        · rw [← hbh]; split <;> omega
      · rw [if_neg hm] at hst
        have hb2 : bh = m.length % 1024 := by rw [← hbh, if_neg (by omega)]
        refine ⟨_, m.length / 1024 * 1024, hst.1, ?_, by omega, by omega, rfl, ?_⟩
        · rw [List.length_drop]; omega
        · have e : m.length / 1024 * 1024 / 1024 = m.length / 1024 := by omega
          rw [e]; exact hst.2
    obtain ⟨cur, p0, hca, hcl, hp0, hp0m, hmd, hpr⟩ := hcur
    have hbh1 : bh ≤ 1024 := by rw [← hbh]; split <;> omega
    have hmx : (m ++ buf).drop p0 = cur ++ buf := by
      rw [List.drop_append_of_le_length (by omega), hmd]
    have hprx : u.polyResult = polyState8 u (m ++ buf) (p0 / 1024) := by
      rw [hpr, polyState8_append u m buf _ (by omega)]
    by_cases hA : bh + buf.length ≥ 1024
    · have cA : ((bh + buf.length) % 2 ^ 32 ≥ 1024) = True := by
        rw [Nat.mod_eq_of_lt (by omega)]; exact eq_true hA
      simp only [cA, if_true]
      by_cases h0 : bh = 0
      · have c0 : (bh ≠ 0) = False := by simp [h0]
        simp only [c0, if_false]
        have hcn : cur = [] := List.length_eq_zero.mp (by omega)
        have hf : u.Folded (m ++ buf) p0 :=
          ⟨hp0, by omega, by omega, by rw [← hcn]; exact hca, hprx⟩
        exact uhash8_update_chunks u (m ++ buf) buf p0 buf.length hf (by omega) (by omega)
          (by rw [hmx, hcn, List.nil_append]) (by omega)
      · have c0 : (bh ≠ 0) = True := by simp [h0]
        simp only [c0, if_true]
        rw [if_neg (by omega)]
        have htl : (buf.take (1024 - bh)).length = 1024 - bh := by
          rw [List.length_take]; omega
        obtain ⟨c2, h1, h2, h3⟩ := nhCtx8_update_absorbed u.nh cur (buf.take (1024 - bh)) hca
          (by omega)
        obtain ⟨c3, k1, k2, k3⟩ := nhCtx8_final_absorbed c2 _ h2
          (by rw [List.length_append]; omega)
        rw [h1]
        simp only []
        rw [k1]
        simp only []
        have hchunk : ((m ++ buf).drop p0).take 1024 = cur ++ buf.take (1024 - bh) := by
          rw [hmx, List.take_append_eq_append_take, hcl,
            List.take_of_length_le (by omega)]
        have hf : (uhash8.polyHash
            { u with nh := c3, msgLen := (m.length + (1024 - bh)) % 2 ^ 32 }
            (nhRef8 c2.key (cur ++ buf.take (1024 - bh)))).Folded (m ++ buf) (p0 + 1024) := by
          refine ⟨by omega, by omega, ?_, k2, ?_⟩
          · simp only [uhash8.polyHash]; omega
          · have e : (p0 + 1024) / 1024 = p0 / 1024 + 1 := by omega
            have e2 : 1024 * (p0 / 1024) = p0 := by omega
            have hk2 := polyState8_keys u (uhash8.polyHash
              { u with nh := c3, msgLen := (m.length + (1024 - bh)) % 2 ^ 32 }
              (nhRef8 c2.key (cur ++ buf.take (1024 - bh)))) (m ++ buf) (p0 / 1024 + 1)
              ⟨k3.trans h3, rfl, rfl, rfl⟩
            rw [e, hk2, polyState8_succ, e2, ← hprx, hchunk, h3]
            rfl
        obtain ⟨u2, r1, r2, r3⟩ := uhash8_update_chunks _ (m ++ buf)
          (buf.drop (1024 - bh)) (p0 + 1024)
          ((buf.length + 2 ^ 32 - (1024 - bh)) % 2 ^ 32) hf (by omega) (by omega)
          (by
            have e : p0 + 1024 = m.length + (1024 - bh) := by omega
            rw [e, List.drop_append]) (by omega)
        exact ⟨u2, r1, r2, (uhash8_SameKeys_trans r3 ⟨k3.trans h3, rfl, rfl, rfl⟩)⟩
    · have cA : ((bh + buf.length) % 2 ^ 32 ≥ 1024) = False := by
        rw [Nat.mod_eq_of_lt (by omega)]; exact eq_false hA
      simp only [cA, if_false]
      obtain ⟨u2, g1, g2, g3, g4, g5⟩ := uhash8_update_rest u cur buf buf.length hca rfl
        (by omega) (by omega)
      refine ⟨u2, g1, ⟨by omega, ?_⟩, g5⟩
      rw [if_neg (by omega)]
      have e : (m ++ buf).length / 1024 * 1024 = p0 := by omega
      have e2 : (m ++ buf).length / 1024 = p0 / 1024 := by omega
      rw [e, hmx, e2]
      refine ⟨g2, ?_⟩
      rw [g4, hprx]
      exact (polyState8_keys u u2 _ _ g5).symm

/-! ## `final`: IP over the NH words or the POLY accumulators -/

theorem putUint32_eq (out : List Nat) (off v : Nat) (h : off + 4 ≤ out.length) :
    putUint32 out off v = some (out.take off ++ bigEndianBytes32 v ++ out.drop (off + 4)) := by
  rw [putUint32, if_neg (by omega)]
  simp [copySlice, bigEndianBytes32]

theorem bigEndianBytes32_length (v : Nat) : (bigEndianBytes32 v).length = 4 := rfl

theorem ipSlice_length (k : List Nat) (t d : Nat) : (ipSlice k t d).length = 4 := rfl

theorem word64_bytes (a : Nat) (h : a < 2 ^ 64) :
    a % 256 + 2 ^ 8 * (a / 2 ^ 8 % 256) + 2 ^ 16 * (a / 2 ^ 16 % 256)
      + 2 ^ 24 * (a / 2 ^ 24 % 256) + 2 ^ 32 * (a / 2 ^ 32 % 256) + 2 ^ 40 * (a / 2 ^ 40 % 256)
      + 2 ^ 48 * (a / 2 ^ 48 % 256) + 2 ^ 56 * (a / 2 ^ 56 % 256) = a := by
  omega

theorem toUint64_toBytes2 (a b : Nat) (ha : a < 2 ^ 64) (hb : b < 2 ^ 64) :
    toUint64 (toBytes [a, b]) = [a, b] := by
  simp only [toBytes, List.flatMap_cons, List.flatMap_nil, bytesOfUint64, List.cons_append,
    List.nil_append, List.append_nil, toUint64, word64_bytes a ha, word64_bytes b hb]

theorem nhRef_lt (j : Nat) (key m : List Nat) : nhRef j key m < 2 ^ 64 :=
  Nat.mod_lt _ (by norm_num)

/-- Both tag slices written into an eight-byte output buffer. -/
theorem put_two (out : List Nat) (v0 v1 : Nat) (h : out.length = 8) :
    (match putUint32 out 0 v0 with
      | none => none
      | some out => putUint32 out 4 v1) = some (bigEndianBytes32 v0 ++ bigEndianBytes32 v1) := by
  rw [putUint32_eq out 0 v0 (by omega)]
  simp only []
  rw [putUint32_eq _ 4 v1 (by
    simp only [List.take_zero, List.nil_append, List.length_append, bigEndianBytes32_length,
      List.length_drop]; omega)]
  simp only [List.take_zero, List.nil_append, Nat.zero_add]
  rw [List.take_append_of_le_length (by rw [bigEndianBytes32_length]),
    List.take_of_length_le (by rw [bigEndianBytes32_length]),
    List.drop_append_eq_append_drop, List.drop_of_length_le (by rw [bigEndianBytes32_length]; omega)]
  simp only [bigEndianBytes32_length, List.nil_append, List.drop_drop]
  rw [List.drop_of_length_le (by omega), List.append_nil]

theorem ipAux_some (t : Nat) (ks : List Nat) (d : Nat) (h : 4 ≤ ks.length) :
    ipAux t ks d = some (ipAuxSteps t ks d) := by
  rw [ipAux, if_neg (by omega)]

theorem ipAux_none (t : Nat) (ks : List Nat) (d : Nat) (h : ks.length < 4) :
    ipAux t ks d = none := by
  rw [ipAux, if_pos h]

/-- With an eight-byte output buffer `ipShort` panics exactly when IP keys are
missing. -/
theorem uhash8_ipShort_if (u : uhash8) (r : Words2) (out : List Nat) (h : out.length = 8)
    (h1 : r.1 < 2 ^ 64) (h2 : r.2 < 2 ^ 64) :
    u.ipShort (toBytes [r.1, r.2]) out
      = if 8 ≤ u.ipKeys.length then
          some (ipSlice u.ipKeys u.ipTrans.1 r.1 ++ ipSlice (u.ipKeys.drop 4) u.ipTrans.2 r.2)
        else none := by
  rw [uhash8.ipShort, if_neg (by simp [toBytes, bytesOfUint64]; omega),
    toUint64_toBytes2 _ _ h1 h2]
  simp only []
  by_cases hk : 8 ≤ u.ipKeys.length
  · rw [if_pos hk, ipAux_some _ _ _ (by omega),
      ipAux_some _ (u.ipKeys.drop 4) _ (by rw [List.length_drop]; omega)]
    simp only []
    have := put_two out (ipReduceP36 (ipAuxSteps 0 u.ipKeys ([r.1, r.2].getD 0 0)) ^^^ u.ipTrans.1)
      (ipReduceP36 (ipAuxSteps 0 (u.ipKeys.drop 4) ([r.1, r.2].getD 1 0)) ^^^ u.ipTrans.2) h
    revert this
    cases putUint32 out 0
      (ipReduceP36 (ipAuxSteps 0 u.ipKeys ([r.1, r.2].getD 0 0)) ^^^ u.ipTrans.1) with
    | none => intro h; simp at h
    | some o1 =>
      simp only []
      intro h
      rw [h]
      rfl
  · rw [if_neg hk]
    by_cases hk4 : 4 ≤ u.ipKeys.length
    · rw [ipAux_some _ _ _ hk4, ipAux_none _ (u.ipKeys.drop 4) _ (by rw [List.length_drop]; omega)]
      simp only []
      cases putUint32 out 0
        (ipReduceP36 (ipAuxSteps 0 u.ipKeys ([r.1, r.2].getD 0 0)) ^^^ u.ipTrans.1) <;> rfl
    · rw [ipAux_none _ _ _ (by omega)]

theorem uhash8_ipShort_eq (u : uhash8) (r : Words2) (out : List Nat) (h : out.length = 8)
    (h1 : r.1 < 2 ^ 64) (h2 : r.2 < 2 ^ 64) (hk : 8 ≤ u.ipKeys.length) :
    u.ipShort (toBytes [r.1, r.2]) out
      = some (ipSlice u.ipKeys u.ipTrans.1 r.1 ++ ipSlice (u.ipKeys.drop 4) u.ipTrans.2 r.2) := by
  rw [uhash8_ipShort_if u r out h h1 h2, if_pos hk]

/-- With an eight-byte output buffer `ipLong` panics exactly when IP keys are
missing. -/
theorem uhash8_ipLong_if (u : uhash8) (out : List Nat) (h : out.length = 8) :
    u.ipLong out
      = if 8 ≤ u.ipKeys.length then
          some ({ u with polyResult := (reduceP64 u.polyResult.1, reduceP64 u.polyResult.2) },
            ipSlice u.ipKeys u.ipTrans.1 (reduceP64 u.polyResult.1)
              ++ ipSlice (u.ipKeys.drop 4) u.ipTrans.2 (reduceP64 u.polyResult.2))
        else none := by
  rw [uhash8.ipLong, if_neg (by omega)]
  simp only []
  by_cases hk : 8 ≤ u.ipKeys.length
  · rw [if_pos hk, ipAux_some _ _ _ (by omega),
      ipAux_some _ (u.ipKeys.drop 4) _ (by rw [List.length_drop]; omega)]
    simp only []
    have := put_two out
      (ipReduceP36 (ipAuxSteps 0 u.ipKeys (reduceP64 u.polyResult.1)) ^^^ u.ipTrans.1)
      (ipReduceP36 (ipAuxSteps 0 (u.ipKeys.drop 4) (reduceP64 u.polyResult.2)) ^^^ u.ipTrans.2) h
    revert this
    cases putUint32 out 0
      (ipReduceP36 (ipAuxSteps 0 u.ipKeys (reduceP64 u.polyResult.1)) ^^^ u.ipTrans.1) with
    | none => intro h; simp at h
    | some o1 =>
      simp only []
      intro h
      rw [h]
      rfl
  · rw [if_neg hk]
    by_cases hk4 : 4 ≤ u.ipKeys.length
    · rw [ipAux_some _ _ _ hk4, ipAux_none _ (u.ipKeys.drop 4) _ (by rw [List.length_drop]; omega)]
      simp only []
      cases putUint32 out 0
        (ipReduceP36 (ipAuxSteps 0 u.ipKeys (reduceP64 u.polyResult.1)) ^^^ u.ipTrans.1) <;> rfl
    · rw [ipAux_none _ _ _ (by omega)]

theorem uhash8_ipLong_eq (u : uhash8) (out : List Nat) (h : out.length = 8)
    (hk : 8 ≤ u.ipKeys.length) :
    u.ipLong out
      = some ({ u with polyResult := (reduceP64 u.polyResult.1, reduceP64 u.polyResult.2) },
          ipSlice u.ipKeys u.ipTrans.1 (reduceP64 u.polyResult.1)
            ++ ipSlice (u.ipKeys.drop 4) u.ipTrans.2 (reduceP64 u.polyResult.2)) := by
  rw [uhash8_ipLong_if u out h, if_pos hk]

theorem uhash8_reset_hashed (u : uhash8) (hk : u.nh.key.length = 1040)
    (hd : u.nh.data.length = 64) : (u.reset).Hashed [] ∧ (u.reset).SameKeys u := by
  refine ⟨⟨rfl, ?_⟩, ⟨rfl, rfl, rfl, rfl⟩⟩
  rw [if_pos (by simp)]
  exact ⟨nhCtx8_reset_absorbed _ hk hd, rfl⟩

theorem polyFold_pieces (key : Nat) (j : Nat) (nk m : List Nat) (hm : m.length % 1024 ≠ 0) :
    polyFold key 1 ((l1Pieces m).map (nhRef j nk))
      = polyHashStep (polyFold key 1 ((l1Chunks (m.length / 1024) m).map (nhRef j nk))) key
          (nhRef j nk (m.drop (m.length / 1024 * 1024))) := by
  rw [l1Pieces, if_neg hm, List.map_append, List.map_cons, List.map_nil, polyFold_snoc,
    Nat.mul_comm 1024]

theorem polyFold_pieces_full (key : Nat) (j : Nat) (nk m : List Nat) (hm : m.length % 1024 = 0) :
    polyFold key 1 ((l1Pieces m).map (nhRef j nk))
      = polyFold key 1 ((l1Chunks (m.length / 1024) m).map (nhRef j nk)) := by
  rw [l1Pieces, if_pos hm, List.append_nil]

theorem uhash8_final_hashed_aux (u : uhash8) (m out : List Nat) (hh : u.Hashed m)
    (ho : out.length = 8) (hik : 8 ≤ u.ipKeys.length) :
    ∃ u2 r, u.final out = some (u2, r) ∧ r = uhashRef8 u m ∧ u2.Hashed [] ∧ u2.SameKeys u := by
  obtain ⟨hml, hst⟩ := hh
  by_cases hm : m.length ≤ 1024
  · rw [if_pos hm] at hst
    obtain ⟨c2, h1, h2, h3⟩ := nhCtx8_final_absorbed u.nh m hst.1 hm
    unfold uhash8.final
    simp only []
    rw [if_neg (by omega), h1]
    simp only []
    rw [uhash8_ipShort_eq _ _ _ ho (nhRef_lt _ _ _) (nhRef_lt _ _ _) (by exact hik)]
    simp only []
    refine ⟨_, _, rfl, ?_, (uhash8_reset_hashed _ h2.1 h2.2.1).1,
      (uhash8_SameKeys_trans (uhash8_reset_hashed _ h2.1 h2.2.1).2 ⟨h3, rfl, rfl, rfl⟩)⟩
    rw [uhashRef8, if_pos hm]
    rfl
  · rw [if_neg hm] at hst
    unfold uhash8.final
    simp only []
    rw [if_pos (by omega)]
    by_cases ht : m.length % 1024 = 0
    · rw [if_neg (by rw [hml]; simpa using ht)]
      simp only []
      rw [uhash8_ipLong_eq _ _ ho (by exact hik)]
      simp only []
      refine ⟨_, _, rfl, ?_, (uhash8_reset_hashed _ hst.1.1 hst.1.2.1).1,
        (uhash8_SameKeys_trans (uhash8_reset_hashed _ hst.1.1 hst.1.2.1).2 ⟨rfl, rfl, rfl, rfl⟩)⟩
      rw [uhashRef8, if_neg hm, polyFold_pieces_full _ _ _ _ ht,
        polyFold_pieces_full _ _ _ _ ht, hst.2]
      rfl
    · rw [if_pos (by rw [hml]; exact ht)]
      obtain ⟨c2, h1, h2, h3⟩ := nhCtx8_final_absorbed u.nh _ hst.1
        (by rw [List.length_drop]; omega)
      rw [h1]
      simp only []
      rw [uhash8_ipLong_eq _ _ ho (by exact hik)]
      simp only []
      refine ⟨_, _, rfl, ?_, (uhash8_reset_hashed _ h2.1 h2.2.1).1,
        (uhash8_SameKeys_trans (uhash8_reset_hashed _ h2.1 h2.2.1).2 ⟨h3, rfl, rfl, rfl⟩)⟩
      rw [uhashRef8, if_neg hm, polyFold_pieces _ _ _ _ ht, polyFold_pieces _ _ _ _ ht]
      simp only [uhash8.polyHash, hst.2, polyState8, nhRef8]

/-- `final` on a state that hashed `m` returns the reference hash output of `m` and
leaves the state reset. -/
theorem uhash8_final_hashed (u : uhash8) (m out : List Nat) (hh : u.Hashed m)
    (ho : out.length = 8) (hik : 8 ≤ u.ipKeys.length) :
    ∃ u2, u.final out = some (u2, uhashRef8 u m) ∧ u2.Hashed [] ∧ u2.SameKeys u := by
  obtain ⟨u2, r, h1, rfl, h3, h4⟩ := uhash8_final_hashed_aux u m out hh ho hik
  exact ⟨u2, h1, h3, h4⟩

/-! ## The pad generator -/

theorem list_length_eight (l : List Nat) (h : l.length = 8) :
    ∃ a b c d e f g i, l = [a, b, c, d, e, f, g, i] := by
  match l, h with
  | [a, b, c, d, e, f, g, i], _ => exact ⟨a, b, c, d, e, f, g, i, rfl⟩

theorem list_length_sixteen_zero (l : List Nat) (h : l.length = 16)
    (hz : l.drop 8 = List.replicate 8 0) :
    ∃ a b c d e f g i, l = [a, b, c, d, e, f, g, i, 0, 0, 0, 0, 0, 0, 0, 0] := by
  match l, h with
  | [a, b, c, d, e, f, g, i, j, k, l, m, n, o, p, q], _ =>
    simp only [List.drop_succ_cons, List.drop_zero, List.replicate, List.cons.injEq,
      and_true] at hz
    obtain ⟨rfl, rfl, rfl, rfl, rfl, rfl, rfl, rfl⟩ := hz
    exact ⟨a, b, c, d, e, f, g, i, rfl⟩

theorem copyAt_zero_full (dst src : List Nat) (h : src.length = dst.length) :
    copyAt dst 0 src = src := by
  rw [copyAt_full dst src 0 (by omega), List.take_zero, List.nil_append]

/-- With a sixteen-byte nonce block the comparison of `genXor8` never reports a hit:
the block is rebuilt from the nonce and encrypted again. -/
theorem pdfCtx_refresh8_eq (c : pdfCtx) (k : Block) (nonce : List Nat) (hc : c.cip = some k)
    (hcl : c.cache.length = 16) (hnl : c.nonce.length = 16)
    (hz : c.nonce.drop 8 = List.replicate 8 0) (hn : nonce.length = 8) :
    c.refresh nonce (((nonce.drop 4).take 4).set 3 (((nonce.drop 4).take 4).getD 3 0 / 2 * 2))
      = some { c with nonce := pdfBlock8 nonce, cache := k.encrypt (pdfBlock8 nonce) } := by
  obtain ⟨a, b, c1, d, e, f, g, i, rfl⟩ := list_length_eight nonce hn
  obtain ⟨a2, b2, c2, d2, e2, f2, g2, i2, hnn⟩ := list_length_sixteen_zero c.nonce hnl hz
  have hne : ((([a, b, c1, d, e, f, g, i].drop 4).take 4).set 3
      ((([a, b, c1, d, e, f, g, i].drop 4).take 4).getD 3 0 / 2 * 2)) ≠ c.nonce.drop 4 := by
    intro h
    have := congrArg List.length h
    rw [hnn] at this
    simp at this
  rw [pdfCtx.refresh, if_pos (Or.inl hne), hc]
  simp only []
  have hb : copySlice (copySlice c.nonce 0 4 (List.take 4 [a, b, c1, d, e, f, g, i])) 4 8
      ((([a, b, c1, d, e, f, g, i].drop 4).take 4).set 3
        ((([a, b, c1, d, e, f, g, i].drop 4).take 4).getD 3 0 / 2 * 2))
      = pdfBlock8 [a, b, c1, d, e, f, g, i] := by
    rw [hnn]
    rfl
  rw [hb, copyAt_zero_full _ _ (by rw [k.size_eq, hcl])]

theorem zipWith_take_right (f : Nat → Nat → Nat) (l y : List Nat) :
    List.zipWith f l (y.take l.length) = List.zipWith f l y := by
  induction l generalizing y with
  | nil => simp
  | cons a l ih =>
    cases y with
    | nil => simp
    | cons b y => simp [ih]

theorem xorBytes_eq (buf y : List Nat) (h : buf.length ≤ y.length) :
    xorBytes buf y = xorTag buf (y.take buf.length) := by
  rw [xorBytes, xorTag, zipWith_take_right, List.drop_of_length_le h, List.append_nil]

theorem pdfCtx_genXor8_eq (c : pdfCtx) (k : Block) (nonce buf : List Nat) (hc : c.cip = some k)
    (hcl : c.cache.length = 16) (hnl : c.nonce.length = 16)
    (hz : c.nonce.drop 8 = List.replicate 8 0) (hn : nonce.length = 8) (hb : buf.length = 8) :
    c.genXor8 nonce buf
      = some ({ c with nonce := pdfBlock8 nonce, cache := k.encrypt (pdfBlock8 nonce) },
          xorTag buf (pad8 k nonce)) := by
  rw [pdfCtx.genXor8, if_neg (by omega)]
  simp only []
  rw [pdfCtx_refresh8_eq c k nonce hc hcl hnl hz hn]
  simp only []
  have hm : nonce.getD 7 0 % 2 * 8 ≤ 8 := by
    have := Nat.mod_lt (nonce.getD 7 0) (show 0 < 2 by norm_num)
    omega
  rw [xorBytes_eq _ _ (by rw [List.length_drop, k.size_eq]; omega), hb]
  rfl

theorem pdfCtx_refresh16_eq (c : pdfCtx) (k : Block) (nonce : List Nat) (hc : c.cip = some k)
    (hcl : c.cache.length = 16) (hnl : c.nonce.length = 16)
    (hz : c.nonce.drop 8 = List.replicate 8 0) (hn : nonce.length = 8) :
    c.refresh nonce ((nonce.drop 4).take 4)
      = some { c with nonce := nonce.take 8 ++ List.replicate 8 0,
                      cache := k.encrypt (nonce.take 8 ++ List.replicate 8 0) } := by
  obtain ⟨a, b, c1, d, e, f, g, i, rfl⟩ := list_length_eight nonce hn
  obtain ⟨a2, b2, c2, d2, e2, f2, g2, i2, hnn⟩ := list_length_sixteen_zero c.nonce hnl hz
  have hne : (([a, b, c1, d, e, f, g, i].drop 4).take 4) ≠ c.nonce.drop 4 := by
    intro h
    have := congrArg List.length h
    rw [hnn] at this
    simp at this
  rw [pdfCtx.refresh, if_pos (Or.inl hne), hc]
  simp only []
  have hb : copySlice (copySlice c.nonce 0 4 (List.take 4 [a, b, c1, d, e, f, g, i])) 4 8
      (([a, b, c1, d, e, f, g, i].drop 4).take 4)
      = [a, b, c1, d, e, f, g, i].take 8 ++ List.replicate 8 0 := by
    rw [hnn]
    rfl
  rw [hb, copyAt_zero_full _ _ (by rw [k.size_eq, hcl])]

theorem pdfCtx_genXor16_eq (c : pdfCtx) (k : Block) (nonce buf : List Nat) (hc : c.cip = some k)
    (hcl : c.cache.length = 16) (hnl : c.nonce.length = 16)
    (hz : c.nonce.drop 8 = List.replicate 8 0) (hn : nonce.length = 8) (hb : buf.length = 16) :
    c.genXor16 nonce buf
      = some ({ c with nonce := nonce.take 8 ++ List.replicate 8 0,
                       cache := k.encrypt (nonce.take 8 ++ List.replicate 8 0) },
          xorTag buf (pad16 k nonce)) := by
  rw [pdfCtx.genXor16, if_neg (by omega)]
  simp only []
  rw [pdfCtx_refresh16_eq c k nonce hc hcl hnl hz hn]
  simp only []
  have e : ∀ src, List.take 16 (k.encrypt src) = k.encrypt src :=
    fun src => List.take_of_length_le (by rw [k.size_eq])
  rw [xorBytes_eq _ _ (by rw [k.size_eq]; omega), hb, pad16, e]

theorem pdfBlock8_take (b : List Nat) : pdfBlock8 (b.take 8) = pdfBlock8 b := by
  simp only [pdfBlock8, List.take_take]
  congr 2
  · simp [List.getD_eq_getElem?_getD, List.getElem?_take]

theorem pad8_take (k : Block) (b : List Nat) : pad8 k (b.take 8) = pad8 k b := by
  simp only [pad8, pdfBlock8_take]
  congr 3
  simp [List.getD_eq_getElem?_getD, List.getElem?_take]

theorem pad16_take (k : Block) (b : List Nat) : pad16 k (b.take 8) = pad16 k b := by
  simp only [pad16, List.take_take, Nat.min_self]

/-! ## Construction: `kdf`, `init`, `New8` -/

theorem kdfLoop_length (cip : Block) (index : Nat) (n i : Nat) (dst : List Nat)
    (h : 16 * n ≤ dst.length) : (kdfLoop cip index n i dst).length = dst.length := by
  induction n generalizing i dst with
  | zero =>
    rw [kdfLoop]
    split
    · exact copyAt_length _ _ _ (by omega)
    · rfl
  | succ n ih =>
    rw [kdfLoop, List.length_append, List.length_take, copyAt_length _ _ _ (by omega),
      ih _ _ (by rw [List.length_drop]; omega), List.length_drop]
    omega

theorem kdf_length (cip : Block) (index : Nat) (dst : List Nat) :
    (kdf cip index dst).length = dst.length :=
  kdfLoop_length cip index _ 1 dst (by omega)

theorem bytesOfWords32_length (u : List Nat) : (bytesOfWords32 u).length = 4 * u.length := by
  induction u with
  | nil => rfl
  | cons a u ih =>
    simp only [bytesOfWords32, List.flatMap_cons, List.length_append, List.length_cons] at ih ⊢
    rw [ih]
    simp [bytesOfUint32]
    omega

theorem bigEndianUint64_some (b : List Nat) (h : 8 ≤ b.length) :
    ∃ v, bigEndianUint64 b = some v := by
  match b, h with
  | b0 :: b1 :: b2 :: b3 :: b4 :: b5 :: b6 :: b7 :: _, _ => exact ⟨_, rfl⟩

theorem aesNewCipher_some (key : List Nat)
    (h : key.length = 16 ∨ key.length = 24 ∨ key.length = 32) :
    ∃ cip, aesNewCipher key = some cip := by
  unfold aesNewCipher
  rw [if_pos h]
  exact ⟨_, rfl⟩

theorem aesNewCipher_none (key : List Nat)
    (h : ¬ (key.length = 16 ∨ key.length = 24 ∨ key.length = 32)) :
    aesNewCipher key = none := by
  unfold aesNewCipher
  rw [if_neg h]

theorem nhCtx8_init_props (cip : Block) :
    (nhCtx8.zero.init cip).key.length = 1040 ∧ (nhCtx8.zero.init cip).data.length = 64 ∧
    (nhCtx8.zero.init cip).nextEmpty = 0 ∧ (nhCtx8.zero.init cip).hashed = 0 ∧
    (nhCtx8.zero.init cip).state = (0, 0) := by
  refine ⟨?_, ?_, rfl, rfl, rfl⟩
  · simp only [nhCtx8.init, nhCtx8.reset, nhCtx8.zero, List.length_append,
      bytesOfWords32_length, List.length_map, toUint32_length, kdf_length, List.length_drop,
      List.length_replicate]
  · simp only [nhCtx8.init, nhCtx8.reset, nhCtx8.zero, List.length_replicate]

theorem pdfCtx_init_ok (cip : Block) :
    ∃ p k, pdfCtx.zero.init cip = some p ∧ p.cip = some k ∧ p.cache.length = 16 ∧
      p.nonce.length = 16 ∧ p.nonce.drop 8 = List.replicate 8 0 := by
  have hl : (kdf cip 0 pdfCtx.zero.cache).length = 16 := by
    rw [kdf_length]; rfl
  obtain ⟨k, hk⟩ := aesNewCipher_some _ (Or.inl hl)
  have hi : pdfCtx.zero.init cip = some
      { cip := some k,
        cache := copyAt (kdf cip 0 pdfCtx.zero.cache) 0 (k.encrypt pdfCtx.zero.nonce),
        nonce := pdfCtx.zero.nonce } := by
    rw [pdfCtx.init]
    rw [hk]
  refine ⟨_, k, hi, rfl, ?_, rfl, rfl⟩
  simp only []
  rw [copyAt_length _ _ _ (by omega), hl]

theorem uhash8_init_ok (u : uhash8) (cip : Block) (hm : u.msgLen = 0) :
    ∃ h, u.init cip = some h ∧ h.Hashed [] := by
  have hl : (kdf cip 2 (List.replicate ((8 * 2 + 4) * 8) 0)).length = 160 := by
    rw [kdf_length, List.length_replicate]
  obtain ⟨k0, hk0⟩ := bigEndianUint64_some (kdf cip 2 (List.replicate ((8 * 2 + 4) * 8) 0))
    (by omega)
  obtain ⟨k1, hk1⟩ := bigEndianUint64_some
    ((kdf cip 2 (List.replicate ((8 * 2 + 4) * 8) 0)).drop 24)
    (by rw [List.length_drop]; omega)
  obtain ⟨n1, n2, n3, n4, n5⟩ := nhCtx8_init_props cip
  have hi : ∃ h, u.init cip = some h ∧ h.nh = nhCtx8.zero.init cip ∧ h.polyResult = (1, 1) ∧
      h.msgLen = u.msgLen := by
    unfold uhash8.init
    simp only [hk0, hk1]
    exact ⟨_, rfl, rfl, rfl, rfl⟩
  obtain ⟨h, h1, h2, h3, h4⟩ := hi
  refine ⟨h, h1, by rw [h4, hm]; rfl, ?_⟩
  rw [if_pos (by simp), h2]
  refine ⟨⟨n1, n2, ?_, ?_, ?_, ?_⟩, h3⟩
  · simpa using n4
  · simpa using n3
  · rw [n3, n4]; rfl
  · rw [n5, n4]; simp [nhState8, nhSum]

theorem uhash8_init_ipKeys (u h : uhash8) (cip : Block) (hi : u.init cip = some h) :
    h.ipKeys.length = 8 := by
  unfold uhash8.init at hi
  simp only [] at hi
  split at hi
  · simp only [Option.some.injEq] at hi
    rw [← hi]
    rfl
  · simp at hi

theorem New8_ipKeys (key : List Nat) (u : UMAC8) (h : New8 key = some u) :
    u.hash.ipKeys.length = 8 := by
  unfold New8 at h
  split at h
  · simp at h
  · simp only [] at h
    split at h
    · simp at h
    · split at h
      · simp at h
      · rename_i hh hi
        simp only [Option.some.injEq] at h
        rw [← h]
        exact uhash8_init_ipKeys _ _ _ hi

/-- `New8` succeeds exactly on the key sizes `aes.NewCipher` accepts, and returns an
instance that has hashed nothing. -/
theorem New8_ok (key : List Nat) (h : key.length = 16 ∨ key.length = 24 ∨ key.length = 32) :
    ∃ u k, New8 key = some u ∧ u.Ready k ∧ u.hash.Hashed [] := by
  obtain ⟨cip, hc⟩ := aesNewCipher_some key h
  obtain ⟨p, k, hp, p1, p2, p3, p4⟩ := pdfCtx_init_ok cip
  obtain ⟨hh, hi, hhh⟩ := uhash8_init_ok UMAC8.zero.hash cip rfl
  refine ⟨{ UMAC8.zero with pdf := p, hash := hh }, k, ?_, ⟨?_, p1, p2, p3, p4⟩, hhh⟩
  · rw [New8, hc]
    simp only []
    have : UMAC8.zero.pdf = pdfCtx.zero := rfl
    rw [this, hp]
    simp only []
    rw [hi]
  · rfl

theorem New8_none (key : List Nat)
    (h : ¬ (key.length = 16 ∨ key.length = 24 ∨ key.length = 32)) : New8 key = none := by
  rw [New8, aesNewCipher_none key h]

theorem ipSlice_two_length (k1 k2 : List Nat) (t1 t2 d1 d2 : Nat) :
    (ipSlice k1 t1 d1 ++ ipSlice k2 t2 d2).length = 8 := rfl

theorem uhashRef8_length (u : uhash8) (m : List Nat) : (uhashRef8 u m).length = 8 := by
  rw [uhashRef8]
  split <;> rfl

theorem uhashRef8_keys (u2 u : uhash8) (m : List Nat) (h : u2.SameKeys u) :
    uhashRef8 u2 m = uhashRef8 u m := by
  obtain ⟨h1, h2, h3, h4⟩ := h
  simp only [uhashRef8, h1, h2, h3, h4]

theorem UMAC8_write_hashed (u : UMAC8) (m p : List Nat) (hh : u.hash.Hashed m)
    (h32 : m.length + p.length < 2 ^ 32) :
    ∃ u2, u.Write p = some (u2, p.length) ∧ u2.hash.Hashed (m ++ p) ∧
      u2.hash.SameKeys u.hash ∧ u2.pdf = u.pdf ∧ u2.out = u.out := by
  obtain ⟨h2, e1, e2, e3⟩ := uhash8_update_hashed u.hash m p hh h32
  refine ⟨{ u with hash := h2 }, ?_, e2, e3, rfl, rfl⟩
  rw [UMAC8.Write, e1]

theorem UMAC8_writeAll_hashed (ps : List (List Nat)) (u : UMAC8) (m : List Nat)
    (hh : u.hash.Hashed m) (h32 : m.length + ps.flatten.length < 2 ^ 32) :
    ∃ u2, u.writeAll ps = some u2 ∧ u2.hash.Hashed (m ++ ps.flatten) ∧
      u2.hash.SameKeys u.hash ∧ u2.pdf = u.pdf ∧ u2.out = u.out := by
  induction ps generalizing u m with
  | nil =>
    refine ⟨u, rfl, ?_, uhash8_SameKeys_refl _, rfl, rfl⟩
    simpa using hh
  | cons p ps ih =>
    simp only [List.flatten_cons, List.length_append] at h32
    obtain ⟨u1, e1, e2, e3, e4, e5⟩ := UMAC8_write_hashed u m p hh (by omega)
    obtain ⟨u2, f1, f2, f3, f4, f5⟩ := ih u1 (m ++ p) e2
      (by rw [List.length_append]; omega)
    refine ⟨u2, ?_, ?_, (uhash8_SameKeys_trans f3 e3), f4.trans e4, f5.trans e5⟩
    · rw [UMAC8.writeAll, e1]
      exact f1
    · simpa [List.append_assoc] using f2

theorem UMAC8_sum_hashed (u : UMAC8) (k : Block) (m b : List Nat) (hh : u.hash.Hashed m)
    (hr : u.Ready k) (hb : 8 ≤ b.length) (hik : 8 ≤ u.hash.ipKeys.length) :
    ∃ u2, u.Sum b = some (u2, xorTag (uhashRef8 u.hash m) (pad8 k b)) ∧ u2.hash.Hashed [] ∧
      u2.hash.SameKeys u.hash ∧ u2.Ready k := by
  obtain ⟨r1, r2, r3, r4, r5⟩ := hr
  obtain ⟨h2, e1, e2, e3⟩ := uhash8_final_hashed u.hash m u.out hh r1 hik
  have hx := pdfCtx_genXor8_eq u.pdf k (b.take 8) (uhashRef8 u.hash m) r2 r3 r4 r5
    (by rw [List.length_take]; omega) (uhashRef8_length _ _)
  rw [pad8_take] at hx
  refine ⟨{ pdf := { u.pdf with
                       nonce := pdfBlock8 (b.take 8)
                       cache := k.encrypt (pdfBlock8 (b.take 8)) }
            hash := h2
            out := xorTag (uhashRef8 u.hash m) (pad8 k b) }, ?_, e2, e3, ?_⟩
  · rw [UMAC8.Sum, if_neg (by omega), e1]
    simp only []
    rw [hx]
  · refine ⟨?_, r2, ?_, ?_, ?_⟩
    · simp only [xorTag, List.length_zipWith, uhashRef8_length, pad8, List.length_take,
        List.length_drop, k.size_eq]
      have := Nat.mod_lt (b.getD 7 0) (show 0 < 2 by norm_num)
      omega
    · simp only []; exact k.size_eq _
    · simp only [pdfBlock8, List.length_append, List.length_take, List.length_cons,
        List.length_nil, List.length_replicate]
      omega
    · simp only [pdfBlock8]
      have : (List.take 7 (b.take 8) ++ [(b.take 8).getD 7 0 / 2 * 2]).length = 8 := by
        simp only [List.length_append, List.length_take, List.length_cons, List.length_nil]
        omega
      exact List.drop_left' this

/-! ## Frame: what the operations leave unchanged, in every state -/

/-- The `transform` of a context only replaces the accumulators, by a value that
depends on the key, the offset, the accumulators and the input. -/
theorem nhCtx8_transform_def (c : nhCtx8) (buf : List Nat) :
    c.transform buf
      = Option.map (fun st => ({ c with state := st } : nhCtx8))
          (if c.key.length < c.hashed then none
           else nhAux8 (toUint32 (c.key.drop c.hashed)) (toUint32 buf) c.state buf.length) := by
  unfold nhCtx8.transform
  split
  · rfl
  · cases nhAux8 (toUint32 (c.key.drop c.hashed)) (toUint32 buf) c.state buf.length <;> rfl

theorem nhCtx8_transform_frame (c c2 : nhCtx8) (buf : List Nat) (h : c.transform buf = some c2) :
    c2.key = c.key ∧ c2.data = c.data ∧ c2.nextEmpty = c.nextEmpty ∧ c2.hashed = c.hashed := by
  rw [nhCtx8_transform_def] at h
  cases hc : (if c.key.length < c.hashed then none
           else nhAux8 (toUint32 (c.key.drop c.hashed)) (toUint32 buf) c.state buf.length) with
  | none => rw [hc] at h; simp at h
  | some st =>
    rw [hc] at h
    simp only [Option.map_some', Option.some.injEq] at h
    subst h
    exact ⟨rfl, rfl, rfl, rfl⟩

theorem nhCtx8_update_frame (c c2 : nhCtx8) (buf : List Nat) (h : c.update buf = some c2) :
    c2.key = c.key ∧ c2.data.length = c.data.length := by
  unfold nhCtx8.update at h
  simp only [] at h
  split at h
  · split at h
    · simp at h
    · rename_i r1 cA nA bA hr1
      split at h
      · simp at h
      · rename_i r2 cB nB bB hr2
        simp only [Option.some.injEq] at h
        subst h
        have hA : cA.key = c.key ∧ cA.data.length = c.data.length := by
          split at hr1
          · split at hr1
            · simp at hr1
            · split at hr1
              · simp at hr1
              · rename_i c3 ht
                simp only [Option.some.injEq, Prod.mk.injEq] at hr1
                obtain ⟨t1, t2, t3, t4⟩ := nhCtx8_transform_frame _ _ _ ht
                rw [← hr1.1]
                refine ⟨t1, ?_⟩
                simp only [t2]
                exact copyAt_length _ _ _ (by omega)
          · simp only [Option.some.injEq, Prod.mk.injEq] at hr1
            rw [← hr1.1]; exact ⟨rfl, rfl⟩
        have hB : cB.key = cA.key ∧ cB.data.length = cA.data.length := by
          split at hr2
          · split at hr2
            · simp at hr2
            · rename_i c3 ht
              simp only [Option.some.injEq, Prod.mk.injEq] at hr2
              obtain ⟨t1, t2, t3, t4⟩ := nhCtx8_transform_frame _ _ _ ht
              rw [← hr2.1]
              exact ⟨t1, by simp only [t2]⟩
          · simp only [Option.some.injEq, Prod.mk.injEq] at hr2
            rw [← hr2.1]; exact ⟨rfl, rfl⟩
        refine ⟨hB.1.trans hA.1, ?_⟩
        simp only []
        rw [copyAt_length _ _ _ (by omega), hB.2, hA.2]
  · split at h
    · simp at h
    · simp only [Option.some.injEq] at h
      subst h
      exact ⟨rfl, copyAt_length _ _ _ (by omega)⟩

theorem nhCtx8_final_frame (c c2 : nhCtx8) (r : Words2) (h : c.final = some (c2, r)) :
    c2.key = c.key ∧ c2.data.length = c.data.length ∧ c2.nextEmpty = 0 ∧ c2.hashed = 0 ∧
      c2.state = (0, 0) ∧ r.1 < 2 ^ 64 ∧ r.2 < 2 ^ 64 := by
  unfold nhCtx8.final at h
  simp only [] at h
  split at h
  · simp at h
  · rename_i r1 cA hr1
    simp only [Option.some.injEq, Prod.mk.injEq] at h
    obtain ⟨h1, h2⟩ := h
    subst h1 h2
    have hA : cA.key = c.key ∧ cA.data.length = c.data.length := by
      split at hr1
      · split at hr1
        · simp at hr1
        · split at hr1
          · simp at hr1
          · split at hr1
            · simp at hr1
            · rename_i c3 ht
              simp only [Option.some.injEq] at hr1
              obtain ⟨t1, t2, t3, t4⟩ := nhCtx8_transform_frame _ _ _ ht
              rw [← hr1]
              refine ⟨t1, ?_⟩
              simp only [t2]
              exact copyAt_length _ _ _ (by omega)
      · split at hr1
        · split at hr1
          · simp at hr1
          · obtain ⟨t1, t2, t3, t4⟩ := nhCtx8_transform_frame _ _ _ hr1
            refine ⟨t1, ?_⟩
            rw [t2]
            exact copyAt_length _ _ _ (by omega)
        · simp only [Option.some.injEq] at hr1
          rw [← hr1]; exact ⟨rfl, rfl⟩
    exact ⟨hA.1, hA.2, rfl, rfl, rfl, Nat.mod_lt _ (by norm_num), Nat.mod_lt _ (by norm_num)⟩

theorem nhCtx8_reset_frame (c : nhCtx8) :
    c.reset.key = c.key ∧ c.reset.data = c.data := ⟨rfl, rfl⟩

theorem uhash8_updateLoop_frame (n : Nat) (u u2 : uhash8) (buf b2 : List Nat) (bl bl2 : Nat)
    (h : uhash8.updateLoop n u buf bl = some (u2, b2, bl2)) :
    u2.SameKeys u ∧ u2.nh = u.nh := by
  induction n generalizing u buf bl with
  | zero =>
    simp only [uhash8.updateLoop, Option.some.injEq, Prod.mk.injEq] at h
    rw [← h.1]; exact ⟨uhash8_SameKeys_refl u, rfl⟩
  | succ n ih =>
    rw [uhash8.updateLoop] at h
    split at h
    · simp at h
    · split at h
      · simp at h
      · obtain ⟨h1, h2⟩ := ih _ _ _ h
        exact ⟨(uhash8_SameKeys_trans h1 ⟨rfl, rfl, rfl, rfl⟩), h2⟩

theorem uhash8_update_frame (u u2 : uhash8) (buf : List Nat) (h : u.update buf = some u2) :
    u2.SameKeys u ∧ u2.nh.data.length = u.nh.data.length := by
  unfold uhash8.update at h
  simp only [] at h
  generalize (if u.msgLen = 1024 then 1024 else u.msgLen % 1024) = bh at h
  have tail : ∀ (uA : uhash8) (bA : List Nat) (blA : Nat),
      (if blA ≠ 0 then
        match uA.nh.update bA with
        | none => none
        | some nh => some { uA with nh := nh, msgLen := (uA.msgLen + blA) % 2 ^ 32 }
      else some uA) = some u2 →
      u2.SameKeys uA ∧ u2.nh.data.length = uA.nh.data.length := by
    intro uA bA blA h
    split at h
    · split at h
      · simp at h
      · rename_i nh hn
        simp only [Option.some.injEq] at h
        subst h
        obtain ⟨t1, t2⟩ := nhCtx8_update_frame _ _ _ hn
        exact ⟨⟨t1, rfl, rfl, rfl⟩, t2⟩
    · simp only [Option.some.injEq] at h
      subst h
      exact ⟨uhash8_SameKeys_refl _, rfl⟩
  split at h
  · split at h
    · simp at h
    · rename_i nh hn
      simp only [Option.some.injEq] at h
      subst h
      obtain ⟨t1, t2⟩ := nhCtx8_update_frame _ _ _ hn
      exact ⟨⟨t1, rfl, rfl, rfl⟩, t2⟩
  · split at h
    · simp at h
    · rename_i r uA bA blA hr
      obtain ⟨g1, g2⟩ := tail _ _ _ h
      have hA : uA.SameKeys u ∧ uA.nh.data.length = u.nh.data.length := by
        split at hr
        · split at hr
          · simp at hr
          · rename_i r1 uB bB blB hr1
            obtain ⟨l1, l2⟩ := uhash8_updateLoop_frame _ _ _ _ _ _ _ hr
            have hB : uB.SameKeys u ∧ uB.nh.data.length = u.nh.data.length := by
              split at hr1
              · split at hr1
                · simp at hr1
                · split at hr1
                  · simp at hr1
                  · rename_i nh1 hn1
                    split at hr1
                    · simp at hr1
                    · rename_i nh2 res hn2
                      simp only [Option.some.injEq, Prod.mk.injEq] at hr1
                      obtain ⟨t1, t2⟩ := nhCtx8_update_frame _ _ _ hn1
                      obtain ⟨s1, s2, _⟩ := nhCtx8_final_frame _ _ _ hn2
                      rw [← hr1.1]
                      exact ⟨⟨s1.trans t1, rfl, rfl, rfl⟩, s2.trans t2⟩
              · simp only [Option.some.injEq, Prod.mk.injEq] at hr1
                rw [← hr1.1]; exact ⟨uhash8_SameKeys_refl u, rfl⟩
            exact ⟨(uhash8_SameKeys_trans l1 hB.1), by rw [l2]; exact hB.2⟩
        · simp only [Option.some.injEq, Prod.mk.injEq] at hr
          rw [← hr.1]; exact ⟨uhash8_SameKeys_refl u, rfl⟩
      exact ⟨(uhash8_SameKeys_trans g1 hA.1), g2.trans hA.2⟩

theorem uhash8_ipShort_length (u : uhash8) (inp out o : List Nat) (ho : out.length = 8)
    (h : u.ipShort inp out = some o) : o.length = 8 := by
  unfold uhash8.ipShort at h
  split at h
  · simp at h
  · simp only [] at h
    split at h
    · simp at h
    · split at h
      · simp at h
      · rename_i t1 _ _ o1 h1
        split at h
        · simp at h
        · rename_i t2 _
          have h2 := put_two out (ipReduceP36 t1 ^^^ u.ipTrans.1)
            (ipReduceP36 t2 ^^^ u.ipTrans.2) ho
          rw [h1] at h2
          simp only [] at h2
          rw [h] at h2
          simp only [Option.some.injEq] at h2
          rw [h2]
          rfl

theorem uhash8_ipLong_frame (u v : uhash8) (out o : List Nat)
    (h : u.ipLong out = some (v, o)) :
    v = { u with polyResult := (reduceP64 u.polyResult.1, reduceP64 u.polyResult.2) } ∧
      (out.length = 8 → o.length = 8) := by
  constructor
  · unfold uhash8.ipLong at h
    split at h
    · simp at h
    · simp only [] at h
      split at h
      · simp at h
      · split at h
        · simp at h
        · split at h
          · simp at h
          · split at h
            · simp at h
            · simp only [Option.some.injEq, Prod.mk.injEq] at h
              rw [← h.1]
  · intro h8
    rw [uhash8_ipLong_if u out h8] at h
    split at h
    · simp only [Option.some.injEq, Prod.mk.injEq] at h
      rw [← h.2]
      rfl
    · simp at h

/-- Whenever `final` returns, it returns a reset state with the keys it was given. -/
theorem uhash8_final_frame (u u2 : uhash8) (out o : List Nat) (h : u.final out = some (u2, o)) :
    ∃ v : uhash8, u2 = v.reset ∧ v.SameKeys u ∧ v.nh.data.length = u.nh.data.length ∧
      (out.length = 8 → o.length = 8) := by
  unfold uhash8.final at h
  simp only [] at h
  split at h
  · simp at h
  · rename_i r v o2 hr
    simp only [Option.some.injEq, Prod.mk.injEq] at h
    obtain ⟨h1, h2⟩ := h
    subst h1 h2
    refine ⟨v, rfl, ?_⟩
    split at hr
    · split at hr
      · simp at hr
      · rename_i r1 w hr1
        have hw : w.SameKeys u ∧ w.nh.data.length = u.nh.data.length := by
          split at hr1
          · split at hr1
            · simp at hr1
            · rename_i nh res hn
              simp only [Option.some.injEq] at hr1
              obtain ⟨s1, s2, _⟩ := nhCtx8_final_frame _ _ _ hn
              rw [← hr1]
              exact ⟨⟨s1, rfl, rfl, rfl⟩, s2⟩
          · simp only [Option.some.injEq] at hr1
            rw [← hr1]; exact ⟨uhash8_SameKeys_refl u, rfl⟩
        obtain ⟨f1, f2⟩ := uhash8_ipLong_frame w v out o2 hr
        rw [f1]
        exact ⟨⟨hw.1.1, hw.1.2.1, hw.1.2.2.1, hw.1.2.2.2⟩, hw.2, f2⟩
    · split at hr
      · simp at hr
      · rename_i nh res hn
        split at hr
        · simp at hr
        · rename_i o3 hs
          simp only [Option.some.injEq, Prod.mk.injEq] at hr
          obtain ⟨s1, s2, _⟩ := nhCtx8_final_frame _ _ _ hn
          rw [← hr.1, ← hr.2]
          exact ⟨⟨s1, rfl, rfl, rfl⟩, s2, fun h8 => uhash8_ipShort_length _ _ _ _ h8 hs⟩

/-! ## Stale bytes are never observed -/

theorem nhCtx8_Equiv_refl (c : nhCtx8) (h : c.data.length = 64) : c.Equiv c :=
  ⟨rfl, rfl, rfl, rfl, h, h, rfl⟩

theorem nhCtx8_update_equiv (c1 c2 : nhCtx8) (buf : List Nat) (he : c1.Equiv c2) :
    (c1.update buf = none ∧ c2.update buf = none) ∨
      ∃ a b, c1.update buf = some a ∧ c2.update buf = some b ∧ a.Equiv b := by
  obtain ⟨k, d1, j, h, st⟩ := c1
  obtain ⟨k2, d2, j2, h2, st2⟩ := c2
  obtain ⟨e1, e2, e3, e4, l1, l2, e5⟩ := he
  simp only at e1 e2 e3 e4 l1 l2 e5
  subst e1 e2 e3 e4
  by_cases hc : j + buf.length ≥ 64
  · by_cases hj : j = 0
    · subst hj
      by_cases hn : buf.length ≥ 64
      · have t1 := nhCtx8_transform_def ⟨k, d1, 0, h, st⟩ (buf.take (buf.length - buf.length % 64))
        have t2 := nhCtx8_transform_def ⟨k, d2, 0, h, st⟩ (buf.take (buf.length - buf.length % 64))
        simp only [] at t1 t2
        unfold nhCtx8.update
        simp only [hc, if_true, ne_eq, not_true_eq_false, if_false, hn, t1, t2]
        cases (if k.length < h then none
          else nhAux8 (toUint32 (k.drop h)) (toUint32 (buf.take (buf.length - buf.length % 64)))
            st (buf.take (buf.length - buf.length % 64)).length) with
        | none => left; exact ⟨rfl, rfl⟩
        | some s =>
          right
          refine ⟨_, _, rfl, rfl, rfl, rfl, rfl, rfl, ?_, ?_, ?_⟩
          · simp only []; rw [copyAt_length _ _ _ (by omega)]; exact l1
          · simp only []; rw [copyAt_length _ _ _ (by omega)]; exact l2
          · simp only []
            have hl : (List.drop (buf.length - buf.length % 64) buf).length
                = buf.length - (buf.length - buf.length % 64) := List.length_drop _ _
            have hlt := Nat.mod_lt buf.length (show 0 < 64 by norm_num)
            have a1 := copyAt_take d1 (List.drop (buf.length - buf.length % 64) buf) 0 (by omega)
            have a2 := copyAt_take d2 (List.drop (buf.length - buf.length % 64) buf) 0 (by omega)
            rw [Nat.zero_add, hl] at a1 a2
            rw [Nat.zero_add, a1, a2, e5]
      · unfold nhCtx8.update
        simp only [hc, if_true, ne_eq, not_true_eq_false, if_false, hn]
        right
        refine ⟨_, _, rfl, rfl, rfl, rfl, rfl, rfl, ?_, ?_, ?_⟩
        · simp only []; rw [copyAt_length _ _ _ (by omega)]; exact l1
        · simp only []; rw [copyAt_length _ _ _ (by omega)]; exact l2
        · simp only []
          have a1 := copyAt_take d1 buf 0 (by omega)
          have a2 := copyAt_take d2 buf 0 (by omega)
          rw [Nat.zero_add] at a1 a2
          rw [Nat.zero_add, a1, a2, e5]
    · by_cases hj64 : 64 < j
      · left
        unfold nhCtx8.update
        simp only [hc, if_true, ne_eq, hj, not_false_eq_true, l1, l2, hj64, or_true]
        exact ⟨trivial, trivial⟩
      · have hl : (buf.take (64 - j)).length = 64 - j := by rw [List.length_take]; omega
        have hd : copyAt d2 j (buf.take (64 - j)) = copyAt d1 j (buf.take (64 - j)) := by
          rw [copyAt_full _ _ _ (by omega), copyAt_full _ _ _ (by omega), e5]
        have he : nhCtx8.update ⟨k, d2, j, h, st⟩ buf = nhCtx8.update ⟨k, d1, j, h, st⟩ buf := by
          unfold nhCtx8.update
          simp only [hc, if_true, ne_eq, hj, not_false_eq_true, l1, l2, hj64, or_false, hd,
            Nat.lt_irrefl, if_false]
        rw [he]
        cases hu : nhCtx8.update ⟨k, d1, j, h, st⟩ buf with
        | none => left; exact ⟨rfl, rfl⟩
        | some a =>
          right
          exact ⟨a, a, rfl, rfl, nhCtx8_Equiv_refl a
            (by rw [(nhCtx8_update_frame _ _ _ hu).2]; exact l1)⟩
  · right
    unfold nhCtx8.update
    simp only [hc, if_false]
    rw [if_neg (by omega), if_neg (by omega)]
    refine ⟨_, _, rfl, rfl, rfl, rfl, rfl, rfl, ?_, ?_, ?_⟩
    · simp only []; rw [copyAt_length _ _ _ (by omega)]; exact l1
    · simp only []; rw [copyAt_length _ _ _ (by omega)]; exact l2
    · simp only []
      rw [copyAt_take d1 buf j (by omega), copyAt_take d2 buf j (by omega), e5]

theorem nhCtx8_final_equiv (c1 c2 : nhCtx8) (he : c1.Equiv c2) :
    (c1.final = none ∧ c2.final = none) ∨
      ∃ a b r, c1.final = some (a, r) ∧ c2.final = some (b, r) ∧ a.Equiv b := by
  obtain ⟨k, d1, j, h, st⟩ := c1
  obtain ⟨k2, d2, j2, h2, st2⟩ := c2
  obtain ⟨e1, e2, e3, e4, l1, l2, e5⟩ := he
  simp only at e1 e2 e3 e4 l1 l2 e5
  subst e1 e2 e3 e4
  by_cases hj : j = 0
  · subst hj
    by_cases hh : h = 0
    · subst hh
      have hz1 : List.take 32 (copyAt d1 0 (List.replicate 32 0)) = List.replicate 32 0 := by
        have := copyAt_take d1 (List.replicate 32 0) 0 (by simp only [List.length_replicate]; omega)
        simpa using this
      have hz2 : List.take 32 (copyAt d2 0 (List.replicate 32 0)) = List.replicate 32 0 := by
        have := copyAt_take d2 (List.replicate 32 0) 0 (by simp only [List.length_replicate]; omega)
        simpa using this
      have t1 := nhCtx8_transform_def ⟨k, copyAt d1 0 (List.replicate 32 0), 0, 0, st⟩
        (List.replicate 32 0)
      have t2 := nhCtx8_transform_def ⟨k, copyAt d2 0 (List.replicate 32 0), 0, 0, st⟩
        (List.replicate 32 0)
      simp only [] at t1 t2
      have cl1 : ¬ (copyAt d1 0 (List.replicate 32 0)).length < 32 := by
        rw [copyAt_length _ _ _ (by omega)]; omega
      have cl2 : ¬ (copyAt d2 0 (List.replicate 32 0)).length < 32 := by
        rw [copyAt_length _ _ _ (by omega)]; omega
      unfold nhCtx8.final
      simp only [ne_eq, not_true_eq_false, if_false, if_true, cl1, cl2, hz1, hz2, t1, t2]
      cases (if k.length < 0 then none
          else nhAux8 (toUint32 (k.drop 0)) (toUint32 (List.replicate 32 0)) st
            (List.replicate 32 0).length) with
      | none => left; exact ⟨rfl, rfl⟩
      | some s =>
        right
        refine ⟨_, _, _, rfl, rfl, rfl, rfl, rfl, rfl, ?_, ?_, rfl⟩
        · simp only [nhCtx8.reset]; rw [copyAt_length _ _ _ (by omega)]; exact l1
        · simp only [nhCtx8.reset]; rw [copyAt_length _ _ _ (by omega)]; exact l2
    · right
      unfold nhCtx8.final
      simp only [ne_eq, not_true_eq_false, if_false, hh]
      exact ⟨_, _, _, rfl, rfl, rfl, rfl, rfl, rfl, l1, l2, rfl⟩
  · by_cases hj64 : 64 < j
    · left
      unfold nhCtx8.final
      simp only [ne_eq, hj, not_false_eq_true, if_true, l1, l2, hj64]
      exact ⟨trivial, trivial⟩
    · generalize hN : j + 31 - (j + 31) % 32 = nhLen
      have hn1 : j ≤ nhLen := by omega
      have hn2 : nhLen ≤ 64 := by omega
      have hrl : (List.replicate (nhLen - j) 0).length = nhLen - j := List.length_replicate _ _
      have hz1 : List.take nhLen (copyAt d1 j (List.replicate (nhLen - j) 0))
          = d1.take j ++ List.replicate (nhLen - j) 0 := by
        have := copyAt_take d1 (List.replicate (nhLen - j) 0) j (by rw [hrl]; omega)
        rwa [hrl, Nat.add_sub_cancel' hn1] at this
      have hz2 : List.take nhLen (copyAt d2 j (List.replicate (nhLen - j) 0))
          = d1.take j ++ List.replicate (nhLen - j) 0 := by
        have := copyAt_take d2 (List.replicate (nhLen - j) 0) j (by rw [hrl]; omega)
        rwa [hrl, Nat.add_sub_cancel' hn1, ← e5] at this
      have t1 := nhCtx8_transform_def ⟨k, copyAt d1 j (List.replicate (nhLen - j) 0), j, h, st⟩
        (d1.take j ++ List.replicate (nhLen - j) 0)
      have t2 := nhCtx8_transform_def ⟨k, copyAt d2 j (List.replicate (nhLen - j) 0), j, h, st⟩
        (d1.take j ++ List.replicate (nhLen - j) 0)
      simp only [] at t1 t2
      have cl1 : ¬ (copyAt d1 j (List.replicate (nhLen - j) 0)).length < nhLen := by
        rw [copyAt_length _ _ _ (by omega)]; omega
      have cl2 : ¬ (copyAt d2 j (List.replicate (nhLen - j) 0)).length < nhLen := by
        rw [copyAt_length _ _ _ (by omega)]; omega
      have cj1 : ¬ d1.length < j := by omega
      have cj2 : ¬ d2.length < j := by omega
      unfold nhCtx8.final
      simp only [ne_eq, hj, not_false_eq_true, if_true, hN, cj1, cj2, if_false, cl1, cl2, hz1,
        hz2, t1, t2]
      cases (if k.length < h then none
          else nhAux8 (toUint32 (k.drop h)) (toUint32 (d1.take j ++ List.replicate (nhLen - j) 0))
            st (d1.take j ++ List.replicate (nhLen - j) 0).length) with
      | none => left; exact ⟨rfl, rfl⟩
      | some s =>
        right
        refine ⟨_, _, _, rfl, rfl, rfl, rfl, rfl, rfl, ?_, ?_, rfl⟩
        · simp only [nhCtx8.reset]; rw [copyAt_length _ _ _ (by omega)]; exact l1
        · simp only [nhCtx8.reset]; rw [copyAt_length _ _ _ (by omega)]; exact l2

theorem nhCtx8_hash_equiv (c1 c2 : nhCtx8) (buf : List Nat) (a b : Nat) (he : c1.Equiv c2) :
    c1.hash buf a b = c2.hash buf a b := by
  unfold nhCtx8.hash
  rw [he.1]

theorem uhash8_polyHash_equiv (u1 u2 : uhash8) (r : Words2) (he : u1.Equiv u2) :
    (u1.polyHash r).Equiv (u2.polyHash r) := by
  obtain ⟨e1, e2, e3, e4, e5, e6⟩ := he
  refine ⟨e1, e2, ?_, e4, e5, e6⟩
  simp only [uhash8.polyHash, e2, e3]

theorem uhash8_rest_equiv (uA uB : uhash8) (bA : List Nat) (blA : Nat) (he : uA.Equiv uB) :
    ((if blA ≠ 0 then
        match uA.nh.update bA with
        | none => none
        | some nh => some { uA with nh := nh, msgLen := (uA.msgLen + blA) % 2 ^ 32 }
      else some uA) = none ∧
     (if blA ≠ 0 then
        match uB.nh.update bA with
        | none => none
        | some nh => some { uB with nh := nh, msgLen := (uB.msgLen + blA) % 2 ^ 32 }
      else some uB) = none) ∨
    ∃ a b : uhash8,
      (if blA ≠ 0 then
        match uA.nh.update bA with
        | none => none
        | some nh => some { uA with nh := nh, msgLen := (uA.msgLen + blA) % 2 ^ 32 }
      else some uA) = some a ∧
      (if blA ≠ 0 then
        match uB.nh.update bA with
        | none => none
        | some nh => some { uB with nh := nh, msgLen := (uB.msgLen + blA) % 2 ^ 32 }
      else some uB) = some b ∧ a.Equiv b := by
  by_cases h0 : blA ≠ 0
  · rw [if_pos h0, if_pos h0]
    obtain ⟨e1, e2, e3, e4, e5, e6⟩ := he
    obtain (⟨h1, h2⟩ | ⟨a, b, h1, h2, hab⟩) := nhCtx8_update_equiv uA.nh uB.nh bA e1
    · left; rw [h1, h2]; exact ⟨rfl, rfl⟩
    · right; rw [h1, h2]
      exact ⟨_, _, rfl, rfl, hab, e2, e3, e4, e5, by simp only [e6]⟩
  · rw [if_neg h0, if_neg h0]
    right
    exact ⟨_, _, rfl, rfl, he⟩

theorem uhash8_updateLoop_equiv (n : Nat) (u1 u2 : uhash8) (buf : List Nat) (bl : Nat)
    (he : u1.Equiv u2) :
    (uhash8.updateLoop n u1 buf bl = none ∧ uhash8.updateLoop n u2 buf bl = none) ∨
    ∃ a b x y, uhash8.updateLoop n u1 buf bl = some (a, x, y) ∧
      uhash8.updateLoop n u2 buf bl = some (b, x, y) ∧ a.Equiv b := by
  induction n generalizing u1 u2 buf bl with
  | zero => right; exact ⟨u1, u2, buf, bl, rfl, rfl, he⟩
  | succ n ih =>
    rw [uhash8.updateLoop, uhash8.updateLoop, nhCtx8_hash_equiv u1.nh u2.nh buf 1024 1024 he.1]
    cases u2.nh.hash buf 1024 1024 with
    | none => left; exact ⟨rfl, rfl⟩
    | some r =>
      simp only []
      by_cases hb : buf.length < 1024
      · left; simp only [hb, if_true]; exact ⟨trivial, trivial⟩
      · simp only [hb, if_false]
        apply ih
        apply uhash8_polyHash_equiv
        obtain ⟨e1, e2, e3, e4, e5, e6⟩ := he
        exact ⟨e1, e2, e3, e4, e5, by simp only [e6]⟩

theorem uhash8_update_equiv (u1 u2 : uhash8) (buf : List Nat) (he : u1.Equiv u2) :
    (u1.update buf = none ∧ u2.update buf = none) ∨
      ∃ a b, u1.update buf = some a ∧ u2.update buf = some b ∧ a.Equiv b := by
  obtain ⟨nh1, pk, pr, ik, it, ml⟩ := u1
  obtain ⟨nh2, pk2, pr2, ik2, it2, ml2⟩ := u2
  obtain ⟨e1, e2, e3, e4, e5, e6⟩ := he
  simp only at e1 e2 e3 e4 e5 e6
  subst e2 e3 e4 e5 e6
  unfold uhash8.update
  simp only []
  generalize (if ml = 1024 then 1024 else ml % 1024) = bh
  by_cases c1 : (ml + buf.length % 2 ^ 32) % 2 ^ 32 ≤ 1024
  · rw [if_pos c1, if_pos c1]
    obtain (⟨h1, h2⟩ | ⟨a, b, h1, h2, hab⟩) := nhCtx8_update_equiv nh1 nh2 buf e1
    · left; rw [h1, h2]; exact ⟨rfl, rfl⟩
    · right; rw [h1, h2]
      exact ⟨_, _, rfl, rfl, hab, rfl, rfl, rfl, rfl, rfl⟩
  · rw [if_neg c1, if_neg c1]
    by_cases cA : (bh + buf.length % 2 ^ 32) % 2 ^ 32 ≥ 1024
    · rw [if_pos cA, if_pos cA]
      by_cases c0 : bh ≠ 0
      · rw [if_pos c0, if_pos c0]
        by_cases cl : buf.length < 1024 - bh
        · left; rw [if_pos cl, if_pos cl]; exact ⟨rfl, rfl⟩
        · rw [if_neg cl, if_neg cl]
          obtain (⟨h1, h2⟩ | ⟨a, b, h1, h2, hab⟩) :=
            nhCtx8_update_equiv nh1 nh2 (buf.take (1024 - bh)) e1
          · left; rw [h1, h2]; exact ⟨rfl, rfl⟩
          · rw [h1, h2]
            simp only []
            obtain (⟨g1, g2⟩ | ⟨a2, b2, r, g1, g2, hab2⟩) := nhCtx8_final_equiv a b hab
            · left; rw [g1, g2]; exact ⟨rfl, rfl⟩
            · rw [g1, g2]
              simp only []
              have hp : (uhash8.polyHash ⟨a2, pk, pr, ik, it, (ml + (1024 - bh)) % 2 ^ 32⟩ r).Equiv
                  (uhash8.polyHash ⟨b2, pk, pr, ik, it, (ml + (1024 - bh)) % 2 ^ 32⟩ r) :=
                uhash8_polyHash_equiv _ _ r ⟨hab2, rfl, rfl, rfl, rfl, rfl⟩
              obtain (⟨l1, l2⟩ | ⟨a3, b3, x, y, l1, l2, hab3⟩) := uhash8_updateLoop_equiv
                ((buf.length % 2 ^ 32 + 2 ^ 32 - (1024 - bh)) % 2 ^ 32 / 1024) _ _
                (buf.drop (1024 - bh)) ((buf.length % 2 ^ 32 + 2 ^ 32 - (1024 - bh)) % 2 ^ 32) hp
              · left; rw [l1, l2]; exact ⟨rfl, rfl⟩
              · rw [l1, l2]
                exact uhash8_rest_equiv a3 b3 x y hab3
      · rw [if_neg c0, if_neg c0]
        simp only []
        obtain (⟨l1, l2⟩ | ⟨a3, b3, x, y, l1, l2, hab3⟩) := uhash8_updateLoop_equiv
          (buf.length % 2 ^ 32 / 1024) ⟨nh1, pk, pr, ik, it, ml⟩ ⟨nh2, pk, pr, ik, it, ml⟩
          buf (buf.length % 2 ^ 32) ⟨e1, rfl, rfl, rfl, rfl, rfl⟩
        · left; rw [l1, l2]; exact ⟨rfl, rfl⟩
        · rw [l1, l2]
          exact uhash8_rest_equiv a3 b3 x y hab3
    · rw [if_neg cA, if_neg cA]
      exact uhash8_rest_equiv ⟨nh1, pk, pr, ik, it, ml⟩ ⟨nh2, pk, pr, ik, it, ml⟩ buf
        (buf.length % 2 ^ 32) ⟨e1, rfl, rfl, rfl, rfl, rfl⟩

theorem uhash8_reset_equiv (u1 u2 : uhash8) (he : u1.Equiv u2) : u1.reset.Equiv u2.reset := by
  obtain ⟨⟨k1, k2, k3, k4, k5, k6, k7⟩, e2, e3, e4, e5, e6⟩ := he
  exact ⟨⟨k1, rfl, rfl, rfl, k5, k6, rfl⟩, e2, rfl, e4, e5, rfl⟩

theorem uhash8_ipLong_equiv (u1 u2 : uhash8) (o1 o2 : List Nat) (he : u1.Equiv u2)
    (h1 : o1.length = 8) (h2 : o2.length = 8) :
    (u1.ipLong o1 = none ∧ u2.ipLong o2 = none) ∨
      ∃ a b o, u1.ipLong o1 = some (a, o) ∧ u2.ipLong o2 = some (b, o) ∧ a.Equiv b ∧
        o.length = 8 := by
  rw [uhash8_ipLong_if _ _ h1, uhash8_ipLong_if _ _ h2]
  obtain ⟨e1, e2, e3, e4, e5, e6⟩ := he
  rw [← e4]
  by_cases hk : 8 ≤ u1.ipKeys.length
  · right
    rw [if_pos hk, if_pos hk]
    refine ⟨{ u1 with polyResult := (reduceP64 u1.polyResult.1, reduceP64 u1.polyResult.2) },
      { u2 with polyResult := (reduceP64 u2.polyResult.1, reduceP64 u2.polyResult.2) },
      _, rfl, ?_, ⟨e1, e2, ?_, e4, e5, e6⟩, rfl⟩
    · simp only [e3, e4, e5]
    · simp only [e3]
  · left
    rw [if_neg hk, if_neg hk]
    exact ⟨rfl, rfl⟩

theorem uhash8_final_equiv (u1 u2 : uhash8) (o1 o2 : List Nat) (he : u1.Equiv u2)
    (h1 : o1.length = 8) (h2 : o2.length = 8) :
    (u1.final o1 = none ∧ u2.final o2 = none) ∨
      ∃ a b o, u1.final o1 = some (a, o) ∧ u2.final o2 = some (b, o) ∧ a.Equiv b ∧
        o.length = 8 := by
  obtain ⟨nh1, pk, pr, ik, it, ml⟩ := u1
  obtain ⟨nh2, pk2, pr2, ik2, it2, ml2⟩ := u2
  obtain ⟨e1, e2, e3, e4, e5, e6⟩ := he
  simp only at e1 e2 e3 e4 e5 e6
  subst e2 e3 e4 e5 e6
  unfold uhash8.final
  simp only []
  by_cases c1 : ml > 1024
  · rw [if_pos c1, if_pos c1]
    by_cases c2 : ml % 1024 ≠ 0
    · rw [if_pos c2, if_pos c2]
      obtain (⟨g1, g2⟩ | ⟨a2, b2, r, g1, g2, hab2⟩) := nhCtx8_final_equiv nh1 nh2 e1
      · left; rw [g1, g2]; exact ⟨rfl, rfl⟩
      · rw [g1, g2]
        simp only []
        obtain (⟨k1, k2⟩ | ⟨a, b, o, k1, k2, k3, k4⟩) := uhash8_ipLong_equiv
          (uhash8.polyHash ⟨a2, pk, pr, ik, it, ml⟩ r) (uhash8.polyHash ⟨b2, pk, pr, ik, it, ml⟩ r)
          o1 o2 (uhash8_polyHash_equiv _ _ r ⟨hab2, rfl, rfl, rfl, rfl, rfl⟩) h1 h2
        · left
          rw [k1, k2]
          exact ⟨rfl, rfl⟩
        · right
          rw [k1, k2]
          exact ⟨_, _, _, rfl, rfl, uhash8_reset_equiv _ _ k3, k4⟩
    · rw [if_neg c2, if_neg c2]
      simp only []
      obtain (⟨k1, k2⟩ | ⟨a, b, o, k1, k2, k3, k4⟩) := uhash8_ipLong_equiv
        ⟨nh1, pk, pr, ik, it, ml⟩ ⟨nh2, pk, pr, ik, it, ml⟩ o1 o2
        ⟨e1, rfl, rfl, rfl, rfl, rfl⟩ h1 h2
      · left
        rw [k1, k2]
        exact ⟨rfl, rfl⟩
      · right
        rw [k1, k2]
        exact ⟨_, _, _, rfl, rfl, uhash8_reset_equiv _ _ k3, k4⟩
  · rw [if_neg c1, if_neg c1]
    obtain (⟨g1, g2⟩ | ⟨a2, b2, r, g1, g2, hab2⟩) := nhCtx8_final_equiv nh1 nh2 e1
    · left; rw [g1, g2]; exact ⟨rfl, rfl⟩
    · rw [g1, g2]
      simp only []
      obtain ⟨_, _, _, _, _, hr1, hr2⟩ := nhCtx8_final_frame _ _ _ g1
      rw [uhash8_ipShort_if _ _ _ h1 hr1 hr2, uhash8_ipShort_if _ _ _ h2 hr1 hr2]
      by_cases hk : 8 ≤ ik.length
      · right
        simp only [hk, if_true]
        exact ⟨_, _, _, rfl, rfl, uhash8_reset_equiv _ _ ⟨hab2, rfl, rfl, rfl, rfl, rfl⟩, rfl⟩
      · left
        simp only [hk, if_false]
        exact ⟨trivial, trivial⟩

/-! ## The instance level: `Write`, `Sum`, `Reset` in every reachable state -/

theorem UMAC8_write_frame (u u2 : UMAC8) (p : List Nat) (n : Nat)
    (h : u.Write p = some (u2, n)) :
    u2.pdf = u.pdf ∧ u2.out = u.out ∧ u2.hash.SameKeys u.hash ∧
      u2.hash.nh.data.length = u.hash.nh.data.length ∧ n = p.length := by
  unfold UMAC8.Write at h
  split at h
  · simp at h
  · rename_i hh hu
    simp only [Option.some.injEq, Prod.mk.injEq] at h
    obtain ⟨h1, h2⟩ := h
    subst h1
    obtain ⟨f1, f2⟩ := uhash8_update_frame _ _ _ hu
    exact ⟨rfl, rfl, f1, f2, h2.symm⟩

theorem pad8_length (k : Block) (b : List Nat) : (pad8 k b).length = 8 := by
  simp only [pad8, List.length_take, List.length_drop, k.size_eq]
  have := Nat.mod_lt (b.getD 7 0) (show 0 < 2 by norm_num)
  omega

theorem pdfBlock8_props (b : List Nat) (hb : 8 ≤ b.length) :
    (pdfBlock8 b).length = 16 ∧ (pdfBlock8 b).drop 8 = List.replicate 8 0 := by
  have : (List.take 7 b ++ [b.getD 7 0 / 2 * 2]).length = 8 := by
    simp only [List.length_append, List.length_take, List.length_cons, List.length_nil]
    omega
  constructor
  · simp only [pdfBlock8, List.length_append, List.length_replicate, this]
  · exact List.drop_left' this

/-- Whenever `Sum` returns in a well-formed state: the nonce had eight bytes, the
tag is the output of `final` XOR the pad of the nonce, and the new state is well
formed with a reset hash state. -/
theorem UMAC8_sum_frame (u u2 : UMAC8) (k : Block) (b tag : List Nat) (hr : u.Ready k)
    (h : u.Sum b = some (u2, tag)) :
    8 ≤ b.length ∧ u2.Ready k ∧
    ∃ hu o, u.hash.final u.out = some (hu, o) ∧ o.length = 8 ∧ tag = xorTag o (pad8 k b) ∧
      u2.hash = hu := by
  obtain ⟨r1, r2, r3, r4, r5⟩ := hr
  unfold UMAC8.Sum at h
  split at h
  · simp at h
  · rename_i hb
    split at h
    · simp at h
    · rename_i hu o hf
      obtain ⟨v, _, _, _, ho⟩ := uhash8_final_frame _ _ _ _ hf
      have ho8 := ho r1
      have hx := pdfCtx_genXor8_eq u.pdf k (b.take 8) o r2 r3 r4 r5
        (by rw [List.length_take]; omega) ho8
      rw [hx] at h
      simp only [Option.some.injEq, Prod.mk.injEq] at h
      obtain ⟨h1, h2⟩ := h
      subst h1
      rw [pad8_take] at h2
      have hp := pdfBlock8_props (b.take 8) (by rw [List.length_take]; omega)
      refine ⟨by omega, ⟨?_, r2, k.size_eq _, hp.1, hp.2⟩, hu, o, hf, ho8, h2.symm, rfl⟩
      simp only [xorTag, List.length_zipWith, ho8, pad8_length]
      rfl

theorem UMAC8_write_equiv (k : Block) (u1 u2 : UMAC8) (p : List Nat) (he : UMAC8.Equiv k u1 u2) :
    (u1.Write p = none ∧ u2.Write p = none) ∨
      ∃ a b n, u1.Write p = some (a, n) ∧ u2.Write p = some (b, n) ∧ UMAC8.Equiv k a b := by
  obtain ⟨e1, e2, e3⟩ := he
  unfold UMAC8.Write
  obtain (⟨h1, h2⟩ | ⟨a, b, h1, h2, hab⟩) := uhash8_update_equiv u1.hash u2.hash p e1
  · left; rw [h1, h2]; exact ⟨rfl, rfl⟩
  · right; rw [h1, h2]
    exact ⟨_, _, _, rfl, rfl, hab, e2, e3⟩

theorem UMAC8_writeAll_equiv (k : Block) (ps : List (List Nat)) (u1 u2 : UMAC8)
    (he : UMAC8.Equiv k u1 u2) :
    (u1.writeAll ps = none ∧ u2.writeAll ps = none) ∨
      ∃ a b, u1.writeAll ps = some a ∧ u2.writeAll ps = some b ∧ UMAC8.Equiv k a b := by
  induction ps generalizing u1 u2 with
  | nil => right; exact ⟨u1, u2, rfl, rfl, he⟩
  | cons p ps ih =>
    rw [UMAC8.writeAll, UMAC8.writeAll]
    obtain (⟨h1, h2⟩ | ⟨a, b, n, h1, h2, hab⟩) := UMAC8_write_equiv k u1 u2 p he
    · left; rw [h1, h2]; exact ⟨rfl, rfl⟩
    · rw [h1, h2]
      exact ih a b hab

theorem UMAC8_sum_equiv (k : Block) (u1 u2 : UMAC8) (b : List Nat) (he : UMAC8.Equiv k u1 u2) :
    (u1.Sum b = none ∧ u2.Sum b = none) ∨
      ∃ a c tag, u1.Sum b = some (a, tag) ∧ u2.Sum b = some (c, tag) ∧ UMAC8.Equiv k a c := by
  obtain ⟨e1, e2, e3⟩ := he
  by_cases hb : b.length ≤ 7
  · left
    unfold UMAC8.Sum
    rw [if_pos hb, if_pos hb]
    exact ⟨rfl, rfl⟩
  · obtain (⟨h1, h2⟩ | ⟨a, c, o, h1, h2, hac, ho⟩) :=
      uhash8_final_equiv u1.hash u2.hash u1.out u2.out e1 e2.1 e3.1
    · left
      unfold UMAC8.Sum
      rw [if_neg hb, if_neg hb, h1, h2]
      exact ⟨rfl, rfl⟩
    · right
      have hx1 := pdfCtx_genXor8_eq u1.pdf k (b.take 8) o e2.2.1 e2.2.2.1 e2.2.2.2.1 e2.2.2.2.2
        (by rw [List.length_take]; omega) ho
      have hx2 := pdfCtx_genXor8_eq u2.pdf k (b.take 8) o e3.2.1 e3.2.2.1 e3.2.2.2.1 e3.2.2.2.2
        (by rw [List.length_take]; omega) ho
      have hp := pdfBlock8_props (b.take 8) (by rw [List.length_take]; omega)
      have hl : (xorTag o (pad8 k (b.take 8))).length = 8 := by
        simp only [xorTag, List.length_zipWith, ho, pad8_length]
        rfl
      unfold UMAC8.Sum
      rw [if_neg hb, if_neg hb, h1, h2]
      simp only []
      rw [hx1, hx2]
      exact ⟨_, _, _, rfl, rfl, hac, ⟨hl, e2.2.1, k.size_eq _, hp.1, hp.2⟩,
        ⟨hl, e3.2.1, k.size_eq _, hp.1, hp.2⟩⟩

/-- Equivalent instances return the same tag, or both panic, for every run of
`Write` calls followed by `Sum`. -/
theorem UMAC8_tagOf_equiv (k : Block) (u1 u2 : UMAC8) (ps : List (List Nat)) (b : List Nat)
    (he : UMAC8.Equiv k u1 u2) : u1.tagOf ps b = u2.tagOf ps b := by
  unfold UMAC8.tagOf
  obtain (⟨h1, h2⟩ | ⟨a, c, h1, h2, hac⟩) := UMAC8_writeAll_equiv k ps u1 u2 he
  · rw [h1, h2]
  · rw [h1, h2]
    simp only []
    obtain (⟨g1, g2⟩ | ⟨a2, c2, tag, g1, g2, _⟩) := UMAC8_sum_equiv k a c b hac
    · rw [g1, g2]
    · rw [g1, g2]

theorem New8_some_iff (key : List Nat) (u : UMAC8) (h : New8 key = some u) :
    key.length = 16 ∨ key.length = 24 ∨ key.length = 32 := by
  by_cases hk : key.length = 16 ∨ key.length = 24 ∨ key.length = 32
  · exact hk
  · rw [New8_none key hk] at h
    simp at h

theorem UMAC8_reachable_inv (key : List Nat) (u : UMAC8) (h : UMAC8.Reachable key u) :
    ∃ u0 k, New8 key = some u0 ∧ u0.Ready k ∧ u0.hash.Hashed [] ∧ u.Ready k ∧
      u.hash.SameKeys u0.hash ∧ u.hash.nh.data.length = 64 := by
  induction h with
  | fresh u hn =>
    obtain ⟨u0, k, h1, h2, h3⟩ := New8_ok key (New8_some_iff key u hn)
    rw [hn] at h1
    simp only [Option.some.injEq] at h1
    subst h1
    exact ⟨u, k, hn, h2, h3, h2, uhash8_SameKeys_refl _, h3.2.1.2.1⟩
  | write u u2 p n _ hw ih =>
    obtain ⟨u0, k, h1, h2, h3, h4, h5, h6⟩ := ih
    obtain ⟨f1, f2, f3, f4, _⟩ := UMAC8_write_frame u u2 p n hw
    refine ⟨u0, k, h1, h2, h3, ?_, (uhash8_SameKeys_trans f3 h5), f4.trans h6⟩
    unfold UMAC8.Ready
    rw [f1, f2]
    exact h4
  | sum u u2 b tag _ hs ih =>
    obtain ⟨u0, k, h1, h2, h3, h4, h5, h6⟩ := ih
    obtain ⟨_, g1, hu, o, g2, _, _, g3⟩ := UMAC8_sum_frame u u2 k b tag h4 hs
    obtain ⟨v, v1, v2, v3, _⟩ := uhash8_final_frame _ _ _ _ g2
    refine ⟨u0, k, h1, h2, h3, g1, ?_, ?_⟩
    · rw [g3, v1]
      exact (uhash8_SameKeys_trans (uhash8_SameKeys_trans ⟨rfl, rfl, rfl, rfl⟩ v2) h5)
    · rw [g3, v1]
      exact v3.trans h6
  | reset u _ ih =>
    obtain ⟨u0, k, h1, h2, h3, h4, h5, h6⟩ := ih
    exact ⟨u0, k, h1, h2, h3, h4, uhash8_SameKeys_trans ⟨rfl, rfl, rfl, rfl⟩ h5, h6⟩

/-- After `Reset`, a reachable instance is equivalent to the fresh one. -/
theorem UMAC8_reset_equiv_fresh (key : List Nat) (u u0 : UMAC8) (h : UMAC8.Reachable key u)
    (h0 : New8 key = some u0) : ∃ k, UMAC8.Equiv k u.Reset u0 := by
  obtain ⟨u1, k, h1, h2, h3, h4, h5, h6⟩ := UMAC8_reachable_inv key u h
  rw [h0] at h1
  simp only [Option.some.injEq] at h1
  subst h1
  obtain ⟨m0, ⟨a1, a2, a3, a4, a5, a6⟩, hp⟩ := h3
  refine ⟨k, ⟨⟨h5.1, ?_, ?_, ?_, h6, a2, ?_⟩, h5.2.1, ?_, h5.2.2.1, h5.2.2.2, ?_⟩, h4, h2⟩
  · simp only [UMAC8.Reset, uhash8.reset, nhCtx8.reset]
    rw [a4]; rfl
  · simp only [UMAC8.Reset, uhash8.reset, nhCtx8.reset]
    rw [a3]; rfl
  · simp only [UMAC8.Reset, uhash8.reset, nhCtx8.reset]
    rw [a6, a3]
    simp [nhState8, nhSum]
  · simp only [UMAC8.Reset, uhash8.reset, nhCtx8.reset, List.take_zero]
  · simp only [UMAC8.Reset, uhash8.reset]
    rw [hp]
  · simp only [UMAC8.Reset, uhash8.reset]
    rw [m0]; rfl

/-- The tag of a run of `Write` calls and `Sum` on an instance that has hashed
nothing, in closed form. -/
theorem UMAC8_tagOf_hashed (u : UMAC8) (k : Block) (ps : List (List Nat)) (b : List Nat)
    (hh : u.hash.Hashed []) (hr : u.Ready k) (h32 : ps.flatten.length < 2 ^ 32)
    (hb : 8 ≤ b.length) (hik : 8 ≤ u.hash.ipKeys.length) :
    u.tagOf ps b = some (xorTag (uhashRef8 u.hash ps.flatten) (pad8 k b)) := by
  obtain ⟨u1, e1, e2, e3, e4, e5⟩ := UMAC8_writeAll_hashed ps u [] hh
    (by simpa using h32)
  have hr1 : u1.Ready k := by
    unfold UMAC8.Ready
    rw [e4, e5]; exact hr
  obtain ⟨u2, f1, _⟩ := UMAC8_sum_hashed u1 k _ b e2 hr1 hb (by rw [e3.2.2.1]; exact hik)
  unfold UMAC8.tagOf
  rw [e1]
  simp only []
  rw [f1]
  simp only [List.nil_append]
  rw [uhashRef8_keys _ _ _ e3]

theorem tag8_eq (key : List Nat) (ps : List (List Nat)) (b : List Nat)
    (hk : key.length = 16 ∨ key.length = 24 ∨ key.length = 32)
    (h32 : ps.flatten.length < 2 ^ 32) (hb : 8 ≤ b.length) :
    ∃ u k, New8 key = some u ∧ u.Ready k ∧ u.hash.Hashed [] ∧
      tag8 key ps b = some (xorTag (uhashRef8 u.hash ps.flatten) (pad8 k b)) := by
  obtain ⟨u, k, h1, h2, h3⟩ := New8_ok key hk
  refine ⟨u, k, h1, h2, h3, ?_⟩
  rw [tag8, h1]
  exact UMAC8_tagOf_hashed u k ps b h3 h2 h32 hb (New8_ipKeys key u h1).ge

/-- The accumulators after `h` bytes depend on the first `h` bytes only. -/
theorem nhState16_congr (key x y : List Nat) (h : Nat) (h4 : h % 4 = 0)
    (hxy : x.take h = y.take h) : nhState16 key x h = nhState16 key y h := by
  simp only [nhState16]
  rw [← nhSum_take_data 0 _ x (h / 32) h (by omega) h4,
    ← nhSum_take_data 1 _ x (h / 32) h (by omega) h4,
    ← nhSum_take_data 2 _ x (h / 32) h (by omega) h4,
    ← nhSum_take_data 3 _ x (h / 32) h (by omega) h4,
    ← nhSum_take_data 0 _ y (h / 32) h (by omega) h4,
    ← nhSum_take_data 1 _ y (h / 32) h (by omega) h4,
    ← nhSum_take_data 2 _ y (h / 32) h (by omega) h4,
    ← nhSum_take_data 3 _ y (h / 32) h (by omega) h4, hxy]

theorem nhState16_lt (key x : List Nat) (h : Nat) :
    (nhState16 key x h).1 < 2 ^ 64 ∧ (nhState16 key x h).2.1 < 2 ^ 64 ∧
    (nhState16 key x h).2.2.1 < 2 ^ 64 ∧ (nhState16 key x h).2.2.2 < 2 ^ 64 :=
  ⟨Nat.mod_lt _ (by norm_num), Nat.mod_lt _ (by norm_num), Nat.mod_lt _ (by norm_num),
    Nat.mod_lt _ (by norm_num)⟩

/-- One `transform` of the `L` bytes of `x` that follow the `hashed` bytes already
compressed. -/
theorem nhCtx16_transform_eq (c : nhCtx16) (x : List Nat) (L : Nat)
    (hk : c.key.length = 1072) (h32 : c.hashed % 32 = 0)
    (hb : c.hashed + L ≤ 1024) (hx : c.hashed + L ≤ x.length)
    (hs : c.state = nhState16 c.key x c.hashed) :
    c.transform ((x.drop c.hashed).take L)
      = some { c with state := nhState16 c.key x (c.hashed + L) } := by
  have hlen : ((x.drop c.hashed).take L).length = L := by
    simp only [List.length_take, List.length_drop]; omega
  rw [nhCtx16.transform, if_neg (by omega), hlen]
  rw [nhAux16_eq _ _ _ _ (by rw [toUint32_length, hlen]; omega)
    (by rw [toUint32_length]; simp only [List.length_drop]; omega)
    (by rw [hs]; exact (nhState16_lt _ _ _).1) (by rw [hs]; exact (nhState16_lt _ _ _).2.1)
    (by rw [hs]; exact (nhState16_lt _ _ _).2.2.1) (by rw [hs]; exact (nhState16_lt _ _ _).2.2.2)]
  simp only [hs, nhState16, Nat.mod_add_mod]
  rw [nhSum_block_at 0 c.key x c.hashed L h32 hx, nhSum_block_at 1 c.key x c.hashed L h32 hx,
    nhSum_block_at 2 c.key x c.hashed L h32 hx, nhSum_block_at 3 c.key x c.hashed L h32 hx]

/-- The second half of `update`: whole 64-byte blocks are compressed straight from
the input and the rest is staged. -/
theorem nhCtx16_update_tail (cA : nhCtx16) (x b : List Nat) (n : Nat)
    (hk : cA.key.length = 1072) (hd : cA.data.length = 64) (h64 : cA.hashed % 64 = 0)
    (hle : cA.hashed ≤ x.length) (hx : x.length ≤ 1024)
    (hs : cA.state = nhState16 cA.key x cA.hashed)
    (hb : b = x.drop cA.hashed) (hn : n = b.length) :
    ∃ c2 : nhCtx16,
      (match
          (if n ≥ 64 then
            match cA.transform (List.take (n - n % 64) b) with
            | none => none
            | some c2 =>
              some
                ({ c2 with hashed := c2.hashed + (n - n % 64) }, n - (n - n % 64),
                  List.drop (n - n % 64) b)
          else some (cA, n, b) : Option (nhCtx16 × Nat × List Nat)) with
        | none => none
        | some (c, n, buf) =>
          some { c with data := copyAt c.data 0 buf, nextEmpty := 0 + n }) = some c2 ∧
      c2.Absorbed x ∧ c2.key = cA.key := by
  have hbl : b.length = x.length - cA.hashed := by rw [hb, List.length_drop]
  by_cases hc : n ≥ 64
  · have ht := nhCtx16_transform_eq cA x (n - n % 64) hk (by omega) (by omega) (by omega) hs
    rw [← hb] at ht
    simp only [hc, if_true, ht]
    refine ⟨_, rfl, ?_, rfl⟩
    have hdl : (List.drop (n - n % 64) b).length = n % 64 := by
      rw [List.length_drop]; omega
    have hlt : n % 64 < 64 := Nat.mod_lt _ (by norm_num)
    refine ⟨hk, ?_, ?_, ?_, ?_, ?_⟩
    · simp only []
      rw [copyAt_length _ _ _ (by omega)]; exact hd
    · simp only []; omega
    · simp only []; omega
    · simp only []
      have := copyAt_take cA.data (List.drop (n - n % 64) b) 0 (by omega)
      rw [Nat.zero_add, hdl, List.take_zero, List.nil_append] at this
      rw [Nat.zero_add, Nat.sub_sub_self (Nat.mod_le _ _), this, hb, List.drop_drop]
    · simp only []
  · simp only [hc, if_false]
    refine ⟨_, rfl, ?_, rfl⟩
    refine ⟨hk, ?_, ?_, ?_, ?_, ?_⟩
    · simp only []
      rw [copyAt_length _ _ _ (by omega)]; exact hd
    · simp only []; omega
    · simp only []; omega
    · simp only []
      have := copyAt_take cA.data b 0 (by omega)
      rw [Nat.zero_add, List.take_zero, List.nil_append] at this
      rw [Nat.zero_add, hn, this, hb]
    · simp only []; exact hs

theorem nhCtx16_update_absorbed (c : nhCtx16) (m buf : List Nat) (ha : c.Absorbed m)
    (hb : m.length + buf.length ≤ 1024) :
    ∃ c2, c.update buf = some c2 ∧ c2.Absorbed (m ++ buf) ∧ c2.key = c.key := by
  obtain ⟨hk, hd, hh, hn, hdat, hs⟩ := ha
  have hxl : (m ++ buf).length = m.length + buf.length := List.length_append _ _
  have hsx : c.state = nhState16 c.key (m ++ buf) c.hashed := by
    rw [hs]
    apply nhState16_congr _ _ _ _ (by omega)
    rw [List.take_append_of_le_length (by omega)]
  by_cases hc : c.nextEmpty + buf.length ≥ 64
  · by_cases hj : c.nextEmpty = 0
    · unfold nhCtx16.update
      simp only [hc, if_true]
      simp only [hj, ne_eq, not_true_eq_false, if_false]
      have hm : m.length = c.hashed := by omega
      have h1 : c.hashed % 64 = 0 := by omega
      have h2 : c.hashed ≤ (m ++ buf).length := by omega
      have h3 : (m ++ buf).length ≤ 1024 := by omega
      have h4 : buf = (m ++ buf).drop c.hashed := by rw [← hm, List.drop_left]
      exact nhCtx16_update_tail c (m ++ buf) buf buf.length hk hd h1 h2 h3 hsx h4 rfl
    · unfold nhCtx16.update
      simp only [hc, if_true, hj, ne_eq, not_false_eq_true]
      rw [if_neg (by omega)]
      have hml : (m.drop c.hashed).length = c.nextEmpty := by
        rw [List.length_drop]; omega
      have hcp : copyAt c.data c.nextEmpty (List.take (64 - c.nextEmpty) buf)
          = ((m ++ buf).drop c.hashed).take 64 := by
        have hl : (List.take (64 - c.nextEmpty) buf).length = 64 - c.nextEmpty := by
          rw [List.length_take]; omega
        have e : List.take 64 (List.drop c.hashed m) = List.drop c.hashed m :=
          List.take_of_length_le (by omega)
        rw [copyAt_full _ _ _ (by rw [hl]; omega), hdat,
          List.drop_append_of_le_length (by omega), List.take_append_eq_append_take, hml, e]
      rw [hcp]
      have ht := nhCtx16_transform_eq
        { c with data := List.take 64 (List.drop c.hashed (m ++ buf)) } (m ++ buf) 64 hk
        (by simp only []; omega) (by simp only []; omega) (by simp only []; omega) hsx
      simp only [] at ht
      simp only [ht]
      have hdd : List.drop (64 - c.nextEmpty) buf = (m ++ buf).drop (c.hashed + 64) := by
        have e : c.hashed + 64 = m.length + (64 - c.nextEmpty) := by omega
        rw [e, List.drop_append]
      exact nhCtx16_update_tail _ (m ++ buf) _ _ hk
        (by simp only [List.length_take, List.length_drop]; omega)
        (by simp only []; omega) (by simp only []; omega) (by omega) rfl hdd
        (by rw [List.length_drop])
  · unfold nhCtx16.update
    simp only [hc, if_false]
    rw [if_neg (by omega)]
    refine ⟨_, rfl, ⟨hk, ?_, ?_, ?_, ?_, ?_⟩, rfl⟩
    · simp only []
      rw [copyAt_length _ _ _ (by omega)]; exact hd
    · simp only []; omega
    · simp only []; omega
    · simp only []
      rw [copyAt_take _ _ _ (by omega), hdat, List.drop_append_of_le_length (by omega)]
    · simp only []
      exact hsx

theorem nhCtx16_reset_absorbed (c2 : nhCtx16) (h1 : c2.key.length = 1072)
    (h2 : c2.data.length = 64) : (c2.reset).Absorbed [] :=
  ⟨h1, h2, rfl, rfl, rfl, by simp [nhCtx16.reset, nhState16, nhSum]⟩

theorem nhCtx16_final_absorbed_aux (c : nhCtx16) (m : List Nat) (ha : c.Absorbed m)
    (hm : m.length ≤ 1024) :
    ∃ c2 r, c.final = some (c2, r) ∧ r = nhRef16 c.key m ∧ c2.Absorbed [] ∧ c2.key = c.key := by
  obtain ⟨hk, hd, hh, hn, hdat, hs⟩ := ha
  have hpl := nhPad_length m
  have hsx : c.state = nhState16 c.key (nhPad m) c.hashed := by
    rw [hs]
    apply nhState16_congr _ _ _ _ (by omega)
    rw [nhPad, List.take_append_of_le_length (by omega)]
  by_cases hj : c.nextEmpty = 0
  · have cj : (c.nextEmpty ≠ 0) = False := by simp [hj]
    by_cases hz : c.hashed = 0
    · have hm0 : m = [] := by
        have : m.length = 0 := by omega
        exact List.length_eq_zero.mp this
      subst hm0
      unfold nhCtx16.final
      have cz : (c.hashed = 0) = True := by simp [hz]
      simp only [cj, cz, if_false, if_true]
      rw [if_neg (by rw [copyAt_length _ _ _ (by omega)]; omega)]
      have hcp : List.take 32 (copyAt c.data 0 (List.replicate 32 0))
          = ((nhPad []).drop c.hashed).take 32 := by
        have := copyAt_take c.data (List.replicate 32 0) 0
          (by simp only [List.length_replicate]; omega)
        simp only [List.length_replicate, Nat.zero_add, List.take_zero, List.nil_append] at this
        rw [this, hz]
        rfl
      rw [hcp]
      have ht := nhCtx16_transform_eq
        { c with data := copyAt c.data 0 (List.replicate 32 0) } (nhPad []) 32 hk
        (by simp only []; omega) (by simp only []; omega)
        (by simp only []; rw [hpl]; simp [nhPadLen]; omega) hsx
      simp only [] at ht
      simp only [ht]
      refine ⟨_, _, rfl, ?_,
        nhCtx16_reset_absorbed _ hk (by simp only []; rw [copyAt_length _ _ _ (by omega)]; exact hd),
        rfl⟩
      simp only [nhRef16, Prod.mk.injEq]
      refine ⟨?_, ?_, ?_, ?_⟩
      · exact nhRef_eq 0 c.key [] _ _ (by simp only [hz, List.length_nil])
          (by simp only [nhState16, hz, List.length_nil, nhPadLen, if_true])
      · exact nhRef_eq 1 c.key [] _ _ (by simp only [hz, List.length_nil])
          (by simp only [nhState16, hz, List.length_nil, nhPadLen, if_true])
      · exact nhRef_eq 2 c.key [] _ _ (by simp only [hz, List.length_nil])
          (by simp only [nhState16, hz, List.length_nil, nhPadLen, if_true])
      · exact nhRef_eq 3 c.key [] _ _ (by simp only [hz, List.length_nil])
          (by simp only [nhState16, hz, List.length_nil, nhPadLen, if_true])
    · have cz : (c.hashed = 0) = False := by simp [hz]
      unfold nhCtx16.final
      simp only [cj, cz, if_false]
      refine ⟨_, _, rfl, ?_, nhCtx16_reset_absorbed _ hk hd, rfl⟩
      have hml : m.length = c.hashed := by omega
      have hp : nhPadLen m.length = c.hashed := by
        rw [nhPadLen, if_neg (by omega)]; omega
      simp only [nhRef16, Prod.mk.injEq]
      refine ⟨?_, ?_, ?_, ?_⟩
      · exact nhRef_eq 0 c.key m _ _ hml.symm (by rw [hsx, hp]; rfl)
      · exact nhRef_eq 1 c.key m _ _ hml.symm (by rw [hsx, hp]; rfl)
      · exact nhRef_eq 2 c.key m _ _ hml.symm (by rw [hsx, hp]; rfl)
      · exact nhRef_eq 3 c.key m _ _ hml.symm (by rw [hsx, hp]; rfl)
  · have cj : (c.nextEmpty ≠ 0) = True := by simp [hj]
    unfold nhCtx16.final
    simp only [cj, if_true]
    rw [if_neg (by omega)]
    have hjl : c.nextEmpty < 64 := by omega
    have hnl : c.nextEmpty + 31 - (c.nextEmpty + 31) % 32 ≤ 64 := by omega
    have hnl2 : c.nextEmpty ≤ c.nextEmpty + 31 - (c.nextEmpty + 31) % 32 := by omega
    generalize hN : c.nextEmpty + 31 - (c.nextEmpty + 31) % 32 = nhLen at *
    have hrl : (List.replicate (nhLen - c.nextEmpty) 0).length = nhLen - c.nextEmpty :=
      List.length_replicate _ _
    rw [if_neg (by rw [copyAt_length _ _ _ (by omega)]; omega)]
    have hp : nhPadLen m.length = c.hashed + nhLen := by
      rw [nhPadLen, if_neg (by omega)]; omega
    have hcp : List.take nhLen (copyAt c.data c.nextEmpty (List.replicate (nhLen - c.nextEmpty) 0))
        = ((nhPad m).drop c.hashed).take nhLen := by
      have := copyAt_take c.data (List.replicate (nhLen - c.nextEmpty) 0) c.nextEmpty
        (by rw [hrl]; omega)
      rw [hrl, Nat.add_sub_cancel' hnl2] at this
      rw [this, hdat, nhPad, List.drop_append_of_le_length (by omega), hp]
      have e1 : c.hashed + nhLen - m.length = nhLen - c.nextEmpty := by omega
      rw [e1, List.take_of_length_le]
      simp only [List.length_append, List.length_drop, List.length_replicate]
      omega
    rw [hcp]
    have ht := nhCtx16_transform_eq
      { c with data := copyAt c.data c.nextEmpty (List.replicate (nhLen - c.nextEmpty) 0) }
      (nhPad m) nhLen hk
      (by simp only []; omega) (by simp only []; omega)
      (by simp only []; rw [hpl, hp]) hsx
    simp only [] at ht
    simp only [ht]
    refine ⟨_, _, rfl, ?_,
      nhCtx16_reset_absorbed _ hk (by simp only []; rw [copyAt_length _ _ _ (by omega)]; exact hd),
      rfl⟩
    simp only [nhRef16, Prod.mk.injEq]
    refine ⟨?_, ?_, ?_, ?_⟩
    · exact nhRef_eq 0 c.key m _ _ (by omega) (by rw [hp]; rfl)
    · exact nhRef_eq 1 c.key m _ _ (by omega) (by rw [hp]; rfl)
    · exact nhRef_eq 2 c.key m _ _ (by omega) (by rw [hp]; rfl)
    · exact nhRef_eq 3 c.key m _ _ (by omega) (by rw [hp]; rfl)

/-- `final` on a context that absorbed `m` returns the reference NH words of `m` and
leaves the context reset. -/
theorem nhCtx16_final_absorbed (c : nhCtx16) (m : List Nat) (ha : c.Absorbed m)
    (hm : m.length ≤ 1024) :
    ∃ c2, c.final = some (c2, nhRef16 c.key m) ∧ c2.Absorbed [] ∧ c2.key = c.key := by
  obtain ⟨c2, r, h1, rfl, h3, h4⟩ := nhCtx16_final_absorbed_aux c m ha hm
  exact ⟨c2, h1, h3, h4⟩

/-- The fixed-input helper on a buffer of at least 1024 bytes returns the reference
NH words of its first 1024 bytes. -/
theorem nhCtx16_hash_eq (c : nhCtx16) (buf : List Nat) (hk : c.key.length = 1072)
    (hb : 1024 ≤ buf.length) :
    c.hash buf 1024 1024 = some (nhRef16 c.key (buf.take 1024)) := by
  have hl : (buf.take 1024).length = 1024 := by rw [List.length_take]; omega
  rw [nhCtx16.hash]
  rw [nhAux16_eq _ _ _ _ (by rw [toUint32_length]; omega) (by rw [toUint32_length]; omega)
    (Nat.mod_lt _ (by norm_num)) (Nat.mod_lt _ (by norm_num))
    (Nat.mod_lt _ (by norm_num)) (Nat.mod_lt _ (by norm_num))]
  simp only [nhRef16, nhRef, hl, nhPad_full (buf.take 1024) (by omega) (by omega)]
  have e : nhPadLen 1024 = 1024 := by simp [nhPadLen]
  rw [e]
  rw [nhSum_take_data 0 _ buf (1024 / 32) 1024 (by norm_num) (by norm_num),
    nhSum_take_data 1 _ buf (1024 / 32) 1024 (by norm_num) (by norm_num),
    nhSum_take_data 2 _ buf (1024 / 32) 1024 (by norm_num) (by norm_num),
    nhSum_take_data 3 _ buf (1024 / 32) 1024 (by norm_num) (by norm_num)]
  refine congrArg some (Prod.ext ?_ (Prod.ext ?_ (Prod.ext ?_ ?_))) <;> simp only [] <;> omega

theorem polyState16_succ (u : uhash16) (x : List Nat) (n : Nat) :
    polyState16 u x (n + 1)
      = (polyHashStep (polyState16 u x n).1 u.polyKey.1
            (nhRef 0 u.nh.key ((x.drop (1024 * n)).take 1024)),
         polyHashStep (polyState16 u x n).2.1 u.polyKey.2.1
            (nhRef 1 u.nh.key ((x.drop (1024 * n)).take 1024)),
         polyHashStep (polyState16 u x n).2.2.1 u.polyKey.2.2.1
            (nhRef 2 u.nh.key ((x.drop (1024 * n)).take 1024)),
         polyHashStep (polyState16 u x n).2.2.2 u.polyKey.2.2.2
            (nhRef 3 u.nh.key ((x.drop (1024 * n)).take 1024))) := by
  simp only [polyState16, l1Chunks_succ, List.map_append, List.map_cons, List.map_nil,
    polyFold_snoc]

theorem polyState16_keys (u u2 : uhash16) (x : List Nat) (n : Nat) (h : u2.SameKeys u) :
    polyState16 u2 x n = polyState16 u x n := by
  obtain ⟨h1, h2, _, _⟩ := h
  simp only [polyState16, h1, h2]

theorem polyState16_append (u : uhash16) (m buf : List Nat) (n : Nat) (h : 1024 * n ≤ m.length) :
    polyState16 u (m ++ buf) n = polyState16 u m n := by
  simp only [polyState16, l1Chunks_append n m buf h]

theorem uhash16_SameKeys_refl (u : uhash16) : u.SameKeys u := ⟨rfl, rfl, rfl, rfl⟩

theorem uhash16_SameKeys_trans {a b c : uhash16} (h1 : a.SameKeys b) (h2 : b.SameKeys c) :
    a.SameKeys c :=
  ⟨h1.1.trans h2.1, h1.2.1.trans h2.2.1, h1.2.2.1.trans h2.2.2.1, h1.2.2.2.trans h2.2.2.2⟩

/-- The chunk loop of `update`: `n` more chunks of `x` are folded. -/
theorem uhash16_updateLoop_folded (n : Nat) (u : uhash16) (x : List Nat) (p bl : Nat)
    (hf : u.Folded x p) (hn : p + 1024 * n ≤ x.length) (h32 : x.length < 2 ^ 32) :
    ∃ u2, uhash16.updateLoop n u (x.drop p) bl
        = some (u2, x.drop (p + 1024 * n), bl - 1024 * n) ∧
      u2.Folded x (p + 1024 * n) ∧ u2.SameKeys u := by
  induction n generalizing u p bl with
  | zero => exact ⟨u, rfl, hf, uhash16_SameKeys_refl u⟩
  | succ n ih =>
    obtain ⟨hp, hpx, hml, hab, hpr⟩ := hf
    have hk : u.nh.key.length = 1072 := hab.1
    have hbl : 1024 ≤ (x.drop p).length := by rw [List.length_drop]; omega
    rw [uhash16.updateLoop, nhCtx16_hash_eq _ _ hk hbl]
    simp only []
    rw [if_neg (by omega)]
    have hf1 : (uhash16.polyHash { u with msgLen := (u.msgLen + 1024) % 2 ^ 32 }
        (nhRef16 u.nh.key ((x.drop p).take 1024))).Folded x (p + 1024) := by
      refine ⟨by omega, by omega, ?_, hab, ?_⟩
      · simp only [uhash16.polyHash, hml]; omega
      · have e : (p + 1024) / 1024 = p / 1024 + 1 := by omega
        have e2 : 1024 * (p / 1024) = p := by omega
        have hk2 := polyState16_keys u (uhash16.polyHash
          { u with msgLen := (u.msgLen + 1024) % 2 ^ 32 }
          (nhRef16 u.nh.key ((x.drop p).take 1024))) x (p / 1024 + 1) ⟨rfl, rfl, rfl, rfl⟩
        rw [e, hk2, polyState16_succ, e2, ← hpr]
        rfl
    obtain ⟨u2, h1, h2, h3⟩ := ih _ (p + 1024) (bl - 1024) hf1 (by omega)
    refine ⟨u2, ?_, ?_, (uhash16_SameKeys_trans h3 ⟨rfl, rfl, rfl, rfl⟩)⟩
    · rw [List.drop_drop]
      have e2 : p + 1024 + 1024 * n = p + 1024 * (n + 1) := by omega
      have e3 : bl - 1024 - 1024 * n = bl - 1024 * (n + 1) := by omega
      rw [h1, e2, e3]
    · have e2 : p + 1024 + 1024 * n = p + 1024 * (n + 1) := by omega
      rw [← e2]; exact h2

/-- The last step of `update`: the bytes left after the chunk loop are staged in the
NH context. -/
theorem uhash16_update_rest (uA : uhash16) (cur bufA : List Nat) (blA : Nat)
    (ha : uA.nh.Absorbed cur) (hbl : blA = bufA.length)
    (hle : cur.length + bufA.length ≤ 1024) (h32 : uA.msgLen + blA < 2 ^ 32) :
    ∃ u2 : uhash16,
      (if blA ≠ 0 then
        match uA.nh.update bufA with
        | none => none
        | some nh => some { uA with nh := nh, msgLen := (uA.msgLen + blA) % 2 ^ 32 }
      else some uA) = some u2 ∧
      u2.nh.Absorbed (cur ++ bufA) ∧ u2.msgLen = uA.msgLen + blA ∧
      u2.polyResult = uA.polyResult ∧ u2.SameKeys uA := by
  by_cases h0 : blA = 0
  · have hb : bufA = [] := List.length_eq_zero.mp (by omega)
    rw [if_neg (by simp [h0])]
    refine ⟨uA, rfl, ?_, by omega, rfl, uhash16_SameKeys_refl uA⟩
    rw [hb, List.append_nil]; exact ha
  · obtain ⟨c2, h1, h2, h3⟩ := nhCtx16_update_absorbed uA.nh cur bufA ha hle
    rw [if_pos h0, h1]
    refine ⟨_, rfl, h2, ?_, rfl, ⟨h3, rfl, rfl, rfl⟩⟩
    simp only []
    exact Nat.mod_eq_of_lt h32

theorem polyState16_zero (u : uhash16) (m : List Nat) : polyState16 u m 0 = (1, 1, 1, 1) := rfl

/-- The chunk loop and the last step of `update`, from a chunk boundary `p1`. -/
theorem uhash16_update_chunks (u1 : uhash16) (x b1 : List Nat) (p1 bl1 : Nat)
    (hf : u1.Folded x p1) (hx32 : x.length < 2 ^ 32) (hx : 1024 < x.length)
    (hb : b1 = x.drop p1) (hbl : bl1 = x.length - p1) :
    ∃ u2 : uhash16,
      (match uhash16.updateLoop (bl1 / 1024) u1 b1 bl1 with
        | none => none
        | some (u, buf, bufLen) =>
          if bufLen ≠ 0 then
            match u.nh.update buf with
            | none => none
            | some nh => some { u with nh := nh, msgLen := (u.msgLen + bufLen) % 2 ^ 32 }
          else some u) = some u2 ∧
      u2.Hashed x ∧ u2.SameKeys u1 := by
  have hp1 := hf.1
  have hp1x := hf.2.1
  obtain ⟨uL, h1, h2, h3⟩ := uhash16_updateLoop_folded (bl1 / 1024) u1 x p1 bl1 hf
    (by omega) hx32
  rw [hb, h1]
  simp only []
  obtain ⟨hq, hqx, hqm, hqa, hqp⟩ := h2
  have hlen : (x.drop (p1 + 1024 * (bl1 / 1024))).length = bl1 - 1024 * (bl1 / 1024) := by
    rw [List.length_drop]; omega
  obtain ⟨u2, g1, g2, g3, g4, g5⟩ := uhash16_update_rest uL [] _ _ hqa hlen.symm
    (by rw [hlen]; simp only [List.length_nil]; omega) (by omega)
  refine ⟨u2, g1, ⟨?_, ?_⟩, (uhash16_SameKeys_trans g5 h3)⟩
  · rw [g3, hqm]; omega
  · rw [if_neg (by omega)]
    have e : x.length / 1024 * 1024 = p1 + 1024 * (bl1 / 1024) := by omega
    have e2 : (p1 + 1024 * (bl1 / 1024)) / 1024 = x.length / 1024 := by omega
    rw [e]
    refine ⟨by simpa using g2, ?_⟩
    rw [g4, hqp, e2]
    exact (polyState16_keys uL u2 x _ g5).symm

theorem uhash16_update_hashed (u : uhash16) (m buf : List Nat) (hh : u.Hashed m)
    (h32 : m.length + buf.length < 2 ^ 32) :
    ∃ u2, u.update buf = some u2 ∧ u2.Hashed (m ++ buf) ∧ u2.SameKeys u := by
  obtain ⟨hml, hst⟩ := hh
  have hxl : (m ++ buf).length = m.length + buf.length := List.length_append _ _
  have hbm : buf.length % 2 ^ 32 = buf.length := Nat.mod_eq_of_lt (by omega)
  by_cases hc : m.length + buf.length ≤ 1024
  · rw [if_pos (by omega)] at hst
    obtain ⟨ha, hp⟩ := hst
    obtain ⟨c2, h1, h2, h3⟩ := nhCtx16_update_absorbed u.nh m buf ha hc
    unfold uhash16.update
    simp only [hbm, hml]
    rw [if_pos (by rw [Nat.mod_eq_of_lt h32]; exact hc), h1]
    refine ⟨_, rfl, ⟨?_, ?_⟩, ⟨h3, rfl, rfl, rfl⟩⟩
    · simp only []; rw [Nat.mod_eq_of_lt h32, hxl]
    · rw [if_pos (by omega)]
      exact ⟨h2, hp⟩
  · unfold uhash16.update
    simp only [hbm, hml]
    rw [if_neg (by rw [Nat.mod_eq_of_lt h32]; exact hc)]
    generalize hbh : (if m.length = 1024 then 1024 else m.length % 1024) = bh
    have hcur : ∃ cur p0, u.nh.Absorbed cur ∧ cur.length = bh ∧ p0 % 1024 = 0 ∧
        p0 + bh = m.length ∧ m.drop p0 = cur ∧ u.polyResult = polyState16 u m (p0 / 1024) := by
      by_cases hm : m.length ≤ 1024
      · rw [if_pos hm] at hst
        refine ⟨m, 0, hst.1, ?_, rfl, ?_, rfl, hst.2⟩
        · rw [← hbh]; split <;> omega
        · rw [← hbh]; split <;> omega
      · rw [if_neg hm] at hst
        have hb2 : bh = m.length % 1024 := by rw [← hbh, if_neg (by omega)]
        refine ⟨_, m.length / 1024 * 1024, hst.1, ?_, by omega, by omega, rfl, ?_⟩
        · rw [List.length_drop]; omega
        · have e : m.length / 1024 * 1024 / 1024 = m.length / 1024 := by omega
          rw [e]; exact hst.2
    obtain ⟨cur, p0, hca, hcl, hp0, hp0m, hmd, hpr⟩ := hcur
    have hbh1 : bh ≤ 1024 := by rw [← hbh]; split <;> omega
    have hmx : (m ++ buf).drop p0 = cur ++ buf := by
      rw [List.drop_append_of_le_length (by omega), hmd]
    have hprx : u.polyResult = polyState16 u (m ++ buf) (p0 / 1024) := by
      rw [hpr, polyState16_append u m buf _ (by omega)]
    by_cases hA : bh + buf.length ≥ 1024
    · have cA : ((bh + buf.length) % 2 ^ 32 ≥ 1024) = True := by
        rw [Nat.mod_eq_of_lt (by omega)]; exact eq_true hA
      simp only [cA, if_true]
      by_cases h0 : bh = 0
      · have c0 : (bh ≠ 0) = False := by simp [h0]
        simp only [c0, if_false]
        have hcn : cur = [] := List.length_eq_zero.mp (by omega)
        have hf : u.Folded (m ++ buf) p0 :=
          ⟨hp0, by omega, by omega, by rw [← hcn]; exact hca, hprx⟩
        exact uhash16_update_chunks u (m ++ buf) buf p0 buf.length hf (by omega) (by omega)
          (by rw [hmx, hcn, List.nil_append]) (by omega)
      · have c0 : (bh ≠ 0) = True := by simp [h0]
        simp only [c0, if_true]
        rw [if_neg (by omega)]
        have htl : (buf.take (1024 - bh)).length = 1024 - bh := by
          rw [List.length_take]; omega
        obtain ⟨c2, h1, h2, h3⟩ := nhCtx16_update_absorbed u.nh cur (buf.take (1024 - bh)) hca
          (by omega)
        obtain ⟨c3, k1, k2, k3⟩ := nhCtx16_final_absorbed c2 _ h2
          (by rw [List.length_append]; omega)
        rw [h1]
        simp only []
        rw [k1]
        simp only []
        have hchunk : ((m ++ buf).drop p0).take 1024 = cur ++ buf.take (1024 - bh) := by
          rw [hmx, List.take_append_eq_append_take, hcl,
            List.take_of_length_le (by omega)]
        have hf : (uhash16.polyHash
            { u with nh := c3, msgLen := (m.length + (1024 - bh)) % 2 ^ 32 }
            (nhRef16 c2.key (cur ++ buf.take (1024 - bh)))).Folded (m ++ buf) (p0 + 1024) := by
          refine ⟨by omega, by omega, ?_, k2, ?_⟩
          · simp only [uhash16.polyHash]; omega
          · have e : (p0 + 1024) / 1024 = p0 / 1024 + 1 := by omega
            have e2 : 1024 * (p0 / 1024) = p0 := by omega
            have hk2 := polyState16_keys u (uhash16.polyHash
              { u with nh := c3, msgLen := (m.length + (1024 - bh)) % 2 ^ 32 }
              (nhRef16 c2.key (cur ++ buf.take (1024 - bh)))) (m ++ buf) (p0 / 1024 + 1)
              ⟨k3.trans h3, rfl, rfl, rfl⟩
            rw [e, hk2, polyState16_succ, e2, ← hprx, hchunk, h3]
            rfl
        obtain ⟨u2, r1, r2, r3⟩ := uhash16_update_chunks _ (m ++ buf)
          (buf.drop (1024 - bh)) (p0 + 1024)
          ((buf.length + 2 ^ 32 - (1024 - bh)) % 2 ^ 32) hf (by omega) (by omega)
          (by
            have e : p0 + 1024 = m.length + (1024 - bh) := by omega
            rw [e, List.drop_append]) (by omega)
        exact ⟨u2, r1, r2, (uhash16_SameKeys_trans r3 ⟨k3.trans h3, rfl, rfl, rfl⟩)⟩
    · have cA : ((bh + buf.length) % 2 ^ 32 ≥ 1024) = False := by
        rw [Nat.mod_eq_of_lt (by omega)]; exact eq_false hA
      simp only [cA, if_false]
      obtain ⟨u2, g1, g2, g3, g4, g5⟩ := uhash16_update_rest u cur buf buf.length hca rfl
        (by omega) (by omega)
      refine ⟨u2, g1, ⟨by omega, ?_⟩, g5⟩
      rw [if_neg (by omega)]
      have e : (m ++ buf).length / 1024 * 1024 = p0 := by omega
      have e2 : (m ++ buf).length / 1024 = p0 / 1024 := by omega
      rw [e, hmx, e2]
      refine ⟨g2, ?_⟩
      rw [g4, hprx]
      exact (polyState16_keys u u2 _ _ g5).symm

theorem putUint32_app (pre rest : List Nat) (v : Nat) (h : 4 ≤ rest.length) :
    putUint32 (pre ++ rest) pre.length v = some (pre ++ bigEndianBytes32 v ++ rest.drop 4) := by
  rw [putUint32_eq _ _ _ (by rw [List.length_append]; omega), List.take_left,
    ← List.drop_drop, List.drop_left]

/-- The four tag slices written one after the other into a sixteen-byte output
buffer. -/
theorem put_steps (out : List Nat) (v0 v1 v2 v3 : Nat) (h : out.length = 16) :
    putUint32 out 0 v0 = some (bigEndianBytes32 v0 ++ out.drop 4) ∧
    putUint32 (bigEndianBytes32 v0 ++ out.drop 4) 4 v1
      = some (bigEndianBytes32 v0 ++ bigEndianBytes32 v1 ++ out.drop 8) ∧
    putUint32 (bigEndianBytes32 v0 ++ bigEndianBytes32 v1 ++ out.drop 8) 8 v2
      = some (bigEndianBytes32 v0 ++ bigEndianBytes32 v1 ++ bigEndianBytes32 v2
          ++ out.drop 12) ∧
    putUint32 (bigEndianBytes32 v0 ++ bigEndianBytes32 v1 ++ bigEndianBytes32 v2
        ++ out.drop 12) 12 v3
      = some (bigEndianBytes32 v0 ++ bigEndianBytes32 v1 ++ bigEndianBytes32 v2
          ++ bigEndianBytes32 v3) := by
  refine ⟨?_, ?_, ?_, ?_⟩
  · have := putUint32_app [] out v0 (by omega)
    simpa using this
  · have := putUint32_app (bigEndianBytes32 v0) (out.drop 4) v1
      (by rw [List.length_drop]; omega)
    rw [List.drop_drop] at this
    exact this
  · have := putUint32_app (bigEndianBytes32 v0 ++ bigEndianBytes32 v1) (out.drop 8) v2
      (by rw [List.length_drop]; omega)
    rw [List.drop_drop] at this
    exact this
  · have := putUint32_app (bigEndianBytes32 v0 ++ bigEndianBytes32 v1 ++ bigEndianBytes32 v2)
      (out.drop 12) v3 (by rw [List.length_drop]; omega)
    rw [List.drop_drop, List.drop_of_length_le (show out.length ≤ 12 + 4 by omega), List.append_nil] at this
    exact this

theorem toUint64_toBytes4 (a b c d : Nat) (ha : a < 2 ^ 64) (hb : b < 2 ^ 64)
    (hc : c < 2 ^ 64) (hd : d < 2 ^ 64) :
    toUint64 (toBytes [a, b, c, d]) = [a, b, c, d] := by
  simp only [toBytes, List.flatMap_cons, List.flatMap_nil, bytesOfUint64, List.cons_append,
    List.nil_append, List.append_nil, toUint64, word64_bytes a ha, word64_bytes b hb,
    word64_bytes c hc, word64_bytes d hd]

theorem ipAux_if (t : Nat) (ks : List Nat) (d : Nat) :
    ipAux t ks d = if 4 ≤ ks.length then some (ipAuxSteps t ks d) else none := by
  by_cases h : 4 ≤ ks.length
  · rw [if_pos h, ipAux_some _ _ _ h]
  · rw [if_neg h, ipAux_none _ _ _ (by omega)]

theorem ipAux_drop_if (t : Nat) (ks : List Nat) (n d : Nat) :
    ipAux t (ks.drop n) d
      = if n + 4 ≤ ks.length then some (ipAuxSteps t (ks.drop n) d) else none := by
  by_cases h : n + 4 ≤ ks.length
  · rw [if_pos h, ipAux_some _ _ _ (by rw [List.length_drop]; omega)]
  · rw [if_neg h, ipAux_none _ _ _ (by rw [List.length_drop]; omega)]

/-- With a sixteen-byte output buffer `ipShort` panics exactly when IP keys are
missing. -/
theorem uhash16_ipShort_if (u : uhash16) (r : Words4) (out : List Nat) (h : out.length = 16)
    (h1 : r.1 < 2 ^ 64) (h2 : r.2.1 < 2 ^ 64) (h3 : r.2.2.1 < 2 ^ 64)
    (h4 : r.2.2.2 < 2 ^ 64) :
    u.ipShort (toBytes [r.1, r.2.1, r.2.2.1, r.2.2.2]) out
      = if 16 ≤ u.ipKeys.length then
          some (ipSlice u.ipKeys u.ipTrans.1 r.1 ++ ipSlice (u.ipKeys.drop 4) u.ipTrans.2.1 r.2.1
            ++ ipSlice (u.ipKeys.drop 8) u.ipTrans.2.2.1 r.2.2.1
            ++ ipSlice (u.ipKeys.drop 12) u.ipTrans.2.2.2 r.2.2.2)
        else none := by
  rw [uhash16.ipShort, if_neg (by simp [toBytes, bytesOfUint64]; omega),
    toUint64_toBytes4 _ _ _ _ h1 h2 h3 h4]
  obtain ⟨e0, e1, e2, e3⟩ := put_steps out
    (ipReduceP36 (ipAuxSteps 0 u.ipKeys r.1) ^^^ u.ipTrans.1)
    (ipReduceP36 (ipAuxSteps 0 (u.ipKeys.drop 4) r.2.1) ^^^ u.ipTrans.2.1)
    (ipReduceP36 (ipAuxSteps 0 (u.ipKeys.drop 8) r.2.2.1) ^^^ u.ipTrans.2.2.1)
    (ipReduceP36 (ipAuxSteps 0 (u.ipKeys.drop 12) r.2.2.2) ^^^ u.ipTrans.2.2.2) h
  simp only [List.getD_cons_zero, List.getD_cons_succ, ipAux_if 0 u.ipKeys, ipAux_drop_if]
  by_cases hk : 16 ≤ u.ipKeys.length
  · simp only [if_pos hk, if_pos (show 4 ≤ u.ipKeys.length by omega),
      if_pos (show 4 + 4 ≤ u.ipKeys.length by omega),
      if_pos (show 8 + 4 ≤ u.ipKeys.length by omega),
      if_pos (show 12 + 4 ≤ u.ipKeys.length by omega), e0, e1, e2, e3, ipSlice]
  · rw [if_neg hk, if_neg (show ¬ 12 + 4 ≤ u.ipKeys.length by omega)]
    by_cases k4 : 4 ≤ u.ipKeys.length
    · rw [if_pos k4]
      simp only [e0]
      by_cases k8 : 4 + 4 ≤ u.ipKeys.length
      · rw [if_pos k8]
        simp only [e1]
        by_cases k12 : 8 + 4 ≤ u.ipKeys.length
        · rw [if_pos k12]
          simp only [e2]
        · rw [if_neg k12]
      · rw [if_neg k8]
    · rw [if_neg k4]

theorem uhash16_ipShort_eq (u : uhash16) (r : Words4) (out : List Nat) (h : out.length = 16)
    (h1 : r.1 < 2 ^ 64) (h2 : r.2.1 < 2 ^ 64) (h3 : r.2.2.1 < 2 ^ 64)
    (h4 : r.2.2.2 < 2 ^ 64) (hk : 16 ≤ u.ipKeys.length) :
    u.ipShort (toBytes [r.1, r.2.1, r.2.2.1, r.2.2.2]) out
      = some (ipSlice u.ipKeys u.ipTrans.1 r.1 ++ ipSlice (u.ipKeys.drop 4) u.ipTrans.2.1 r.2.1
          ++ ipSlice (u.ipKeys.drop 8) u.ipTrans.2.2.1 r.2.2.1
          ++ ipSlice (u.ipKeys.drop 12) u.ipTrans.2.2.2 r.2.2.2) := by
  rw [uhash16_ipShort_if u r out h h1 h2 h3 h4, if_pos hk]

/-- With a sixteen-byte output buffer `ipLong` panics exactly when IP keys are
missing. -/
theorem uhash16_ipLong_if (u : uhash16) (out : List Nat) (h : out.length = 16) :
    u.ipLong out
      = if 16 ≤ u.ipKeys.length then
          some ({ u with polyResult := (reduceP64 u.polyResult.1, reduceP64 u.polyResult.2.1,
                  reduceP64 u.polyResult.2.2.1, reduceP64 u.polyResult.2.2.2) },
          ipSlice u.ipKeys u.ipTrans.1 (reduceP64 u.polyResult.1)
            ++ ipSlice (u.ipKeys.drop 4) u.ipTrans.2.1 (reduceP64 u.polyResult.2.1)
            ++ ipSlice (u.ipKeys.drop 8) u.ipTrans.2.2.1 (reduceP64 u.polyResult.2.2.1)
            ++ ipSlice (u.ipKeys.drop 12) u.ipTrans.2.2.2 (reduceP64 u.polyResult.2.2.2))
        else none := by
  rw [uhash16.ipLong, if_neg (by omega)]
  obtain ⟨e0, e1, e2, e3⟩ := put_steps out
    (ipReduceP36 (ipAuxSteps 0 u.ipKeys (reduceP64 u.polyResult.1)) ^^^ u.ipTrans.1)
    (ipReduceP36 (ipAuxSteps 0 (u.ipKeys.drop 4) (reduceP64 u.polyResult.2.1)) ^^^ u.ipTrans.2.1)
    (ipReduceP36 (ipAuxSteps 0 (u.ipKeys.drop 8) (reduceP64 u.polyResult.2.2.1)) ^^^ u.ipTrans.2.2.1)
    (ipReduceP36 (ipAuxSteps 0 (u.ipKeys.drop 12) (reduceP64 u.polyResult.2.2.2)) ^^^ u.ipTrans.2.2.2) h
  simp only [ipAux_if 0 u.ipKeys, ipAux_drop_if]
  by_cases hk : 16 ≤ u.ipKeys.length
  · simp only [if_pos hk, if_pos (show 4 ≤ u.ipKeys.length by omega),
      if_pos (show 4 + 4 ≤ u.ipKeys.length by omega),
      if_pos (show 8 + 4 ≤ u.ipKeys.length by omega),
      if_pos (show 12 + 4 ≤ u.ipKeys.length by omega), e0, e1, e2, e3, ipSlice]
  · rw [if_neg hk, if_neg (show ¬ 12 + 4 ≤ u.ipKeys.length by omega)]
    by_cases k4 : 4 ≤ u.ipKeys.length
    · rw [if_pos k4]
      simp only [e0]
      by_cases k8 : 4 + 4 ≤ u.ipKeys.length
      · rw [if_pos k8]
        simp only [e1]
        by_cases k12 : 8 + 4 ≤ u.ipKeys.length
        · rw [if_pos k12]
          simp only [e2]
        · rw [if_neg k12]
      · rw [if_neg k8]
    · rw [if_neg k4]

theorem uhash16_ipLong_eq (u : uhash16) (out : List Nat) (h : out.length = 16)
    (hk : 16 ≤ u.ipKeys.length) :
    u.ipLong out
      = some ({ u with polyResult := (reduceP64 u.polyResult.1, reduceP64 u.polyResult.2.1,
                  reduceP64 u.polyResult.2.2.1, reduceP64 u.polyResult.2.2.2) },
          ipSlice u.ipKeys u.ipTrans.1 (reduceP64 u.polyResult.1)
            ++ ipSlice (u.ipKeys.drop 4) u.ipTrans.2.1 (reduceP64 u.polyResult.2.1)
            ++ ipSlice (u.ipKeys.drop 8) u.ipTrans.2.2.1 (reduceP64 u.polyResult.2.2.1)
            ++ ipSlice (u.ipKeys.drop 12) u.ipTrans.2.2.2 (reduceP64 u.polyResult.2.2.2)) := by
  rw [uhash16_ipLong_if u out h, if_pos hk]

theorem uhash16_reset_hashed (u : uhash16) (hk : u.nh.key.length = 1072)
    (hd : u.nh.data.length = 64) : (u.reset).Hashed [] ∧ (u.reset).SameKeys u := by
  refine ⟨⟨rfl, ?_⟩, ⟨rfl, rfl, rfl, rfl⟩⟩
  rw [if_pos (by simp)]
  exact ⟨nhCtx16_reset_absorbed _ hk hd, rfl⟩

theorem uhash16_final_hashed_aux (u : uhash16) (m out : List Nat) (hh : u.Hashed m)
    (ho : out.length = 16) (hik : 16 ≤ u.ipKeys.length) :
    ∃ u2 r, u.final out = some (u2, r) ∧ r = uhashRef16 u m ∧ u2.Hashed [] ∧ u2.SameKeys u := by
  obtain ⟨hml, hst⟩ := hh
  by_cases hm : m.length ≤ 1024
  · rw [if_pos hm] at hst
    obtain ⟨c2, h1, h2, h3⟩ := nhCtx16_final_absorbed u.nh m hst.1 hm
    unfold uhash16.final
    simp only []
    rw [if_neg (by omega), h1]
    simp only []
    rw [uhash16_ipShort_eq _ _ _ ho (nhRef_lt _ _ _) (nhRef_lt _ _ _) (nhRef_lt _ _ _) (nhRef_lt _ _ _)
      (by exact hik)]
    simp only []
    refine ⟨_, _, rfl, ?_, (uhash16_reset_hashed _ h2.1 h2.2.1).1,
      (uhash16_SameKeys_trans (uhash16_reset_hashed _ h2.1 h2.2.1).2 ⟨h3, rfl, rfl, rfl⟩)⟩
    rw [uhashRef16, if_pos hm]
    rfl
  · rw [if_neg hm] at hst
    unfold uhash16.final
    simp only []
    rw [if_pos (by omega)]
    by_cases ht : m.length % 1024 = 0
    · rw [if_neg (by rw [hml]; simpa using ht)]
      simp only []
      rw [uhash16_ipLong_eq _ _ ho (by exact hik)]
      simp only []
      refine ⟨_, _, rfl, ?_, (uhash16_reset_hashed _ hst.1.1 hst.1.2.1).1,
        (uhash16_SameKeys_trans (uhash16_reset_hashed _ hst.1.1 hst.1.2.1).2 ⟨rfl, rfl, rfl, rfl⟩)⟩
      rw [uhashRef16, if_neg hm, polyFold_pieces_full _ _ _ _ ht,
        polyFold_pieces_full _ _ _ _ ht,
        polyFold_pieces_full _ _ _ _ ht, polyFold_pieces_full _ _ _ _ ht, hst.2]
      rfl
    · rw [if_pos (by rw [hml]; exact ht)]
      obtain ⟨c2, h1, h2, h3⟩ := nhCtx16_final_absorbed u.nh _ hst.1
        (by rw [List.length_drop]; omega)
      rw [h1]
      simp only []
      rw [uhash16_ipLong_eq _ _ ho (by exact hik)]
      simp only []
      refine ⟨_, _, rfl, ?_, (uhash16_reset_hashed _ h2.1 h2.2.1).1,
        (uhash16_SameKeys_trans (uhash16_reset_hashed _ h2.1 h2.2.1).2 ⟨h3, rfl, rfl, rfl⟩)⟩
      rw [uhashRef16, if_neg hm, polyFold_pieces _ _ _ _ ht, polyFold_pieces _ _ _ _ ht,
        polyFold_pieces _ _ _ _ ht, polyFold_pieces _ _ _ _ ht]
      simp only [uhash16.polyHash, hst.2, polyState16, nhRef16]

/-- `final` on a state that hashed `m` returns the reference hash output of `m` and
leaves the state reset. -/
theorem uhash16_final_hashed (u : uhash16) (m out : List Nat) (hh : u.Hashed m)
    (ho : out.length = 16) (hik : 16 ≤ u.ipKeys.length) :
    ∃ u2, u.final out = some (u2, uhashRef16 u m) ∧ u2.Hashed [] ∧ u2.SameKeys u := by
  obtain ⟨u2, r, h1, rfl, h3, h4⟩ := uhash16_final_hashed_aux u m out hh ho hik
  exact ⟨u2, h1, h3, h4⟩

theorem nhCtx16_init_props (cip : Block) :
    (nhCtx16.zero.init cip).key.length = 1072 ∧ (nhCtx16.zero.init cip).data.length = 64 ∧
    (nhCtx16.zero.init cip).nextEmpty = 0 ∧ (nhCtx16.zero.init cip).hashed = 0 ∧
    (nhCtx16.zero.init cip).state = (0, 0, 0, 0) := by
  refine ⟨?_, ?_, rfl, rfl, rfl⟩
  · simp only [nhCtx16.init, nhCtx16.reset, nhCtx16.zero, List.length_append,
      bytesOfWords32_length, List.length_map, toUint32_length, kdf_length, List.length_drop,
      List.length_replicate]
  · simp only [nhCtx16.init, nhCtx16.reset, nhCtx16.zero, List.length_replicate]

theorem uhash16_init_ok (u : uhash16) (cip : Block) (hm : u.msgLen = 0) :
    ∃ h, u.init cip = some h ∧ h.Hashed [] := by
  have hl : (kdf cip 2 (List.replicate ((8 * 4 + 4) * 8) 0)).length = 288 := by
    rw [kdf_length, List.length_replicate]
  obtain ⟨k0, hk0⟩ := bigEndianUint64_some (kdf cip 2 (List.replicate ((8 * 4 + 4) * 8) 0))
    (by omega)
  obtain ⟨k1, hk1⟩ := bigEndianUint64_some
    ((kdf cip 2 (List.replicate ((8 * 4 + 4) * 8) 0)).drop 24)
    (by rw [List.length_drop]; omega)
  obtain ⟨k2, hk2⟩ := bigEndianUint64_some
    ((kdf cip 2 (List.replicate ((8 * 4 + 4) * 8) 0)).drop 48)
    (by rw [List.length_drop]; omega)
  obtain ⟨k3, hk3⟩ := bigEndianUint64_some
    ((kdf cip 2 (List.replicate ((8 * 4 + 4) * 8) 0)).drop 72)
    (by rw [List.length_drop]; omega)
  obtain ⟨n1, n2, n3, n4, n5⟩ := nhCtx16_init_props cip
  have hi : ∃ h, u.init cip = some h ∧ h.nh = nhCtx16.zero.init cip ∧ h.polyResult = (1, 1, 1, 1) ∧
      h.msgLen = u.msgLen := by
    unfold uhash16.init
    simp only [hk0, hk1, hk2, hk3]
    exact ⟨_, rfl, rfl, rfl, rfl⟩
  obtain ⟨h, h1, h2, h3, h4⟩ := hi
  refine ⟨h, h1, by rw [h4, hm]; rfl, ?_⟩
  rw [if_pos (by simp), h2]
  refine ⟨⟨n1, n2, ?_, ?_, ?_, ?_⟩, h3⟩
  · simpa using n4
  · simpa using n3
  · rw [n3, n4]; rfl
  · rw [n5, n4]; simp [nhState16, nhSum]

theorem uhash16_init_ipKeys (u h : uhash16) (cip : Block) (hi : u.init cip = some h) :
    h.ipKeys.length = 16 := by
  unfold uhash16.init at hi
  simp only [] at hi
  split at hi
  · simp only [Option.some.injEq] at hi
    rw [← hi]
    rfl
  · simp at hi

theorem New16_ipKeys (key : List Nat) (u : UMAC16) (h : New16 key = some u) :
    u.hash.ipKeys.length = 16 := by
  unfold New16 at h
  split at h
  · simp at h
  · simp only [] at h
    split at h
    · simp at h
    · split at h
      · simp at h
      · rename_i hh hi
        simp only [Option.some.injEq] at h
        rw [← h]
        exact uhash16_init_ipKeys _ _ _ hi

/-- `New16` succeeds exactly on the key sizes `aes.NewCipher` accepts, and returns an
instance that has hashed nothing. -/
theorem New16_ok (key : List Nat) (h : key.length = 16 ∨ key.length = 24 ∨ key.length = 32) :
    ∃ u k, New16 key = some u ∧ u.Ready k ∧ u.hash.Hashed [] := by
  obtain ⟨cip, hc⟩ := aesNewCipher_some key h
  obtain ⟨p, k, hp, p1, p2, p3, p4⟩ := pdfCtx_init_ok cip
  obtain ⟨hh, hi, hhh⟩ := uhash16_init_ok UMAC16.zero.hash cip rfl
  refine ⟨{ UMAC16.zero with pdf := p, hash := hh }, k, ?_, ⟨?_, p1, p2, p3, p4⟩, hhh⟩
  · rw [New16, hc]
    simp only []
    have : UMAC16.zero.pdf = pdfCtx.zero := rfl
    rw [this, hp]
    simp only []
    rw [hi]
  · rfl

theorem New16_none (key : List Nat)
    (h : ¬ (key.length = 16 ∨ key.length = 24 ∨ key.length = 32)) : New16 key = none := by
  rw [New16, aesNewCipher_none key h]

theorem ipSlice_four_length (k1 k2 k3 k4 : List Nat) (t1 t2 t3 t4 d1 d2 d3 d4 : Nat) :
    (ipSlice k1 t1 d1 ++ ipSlice k2 t2 d2 ++ ipSlice k3 t3 d3 ++ ipSlice k4 t4 d4).length
      = 16 := rfl

theorem uhashRef16_length (u : uhash16) (m : List Nat) : (uhashRef16 u m).length = 16 := by
  rw [uhashRef16]
  split <;> rfl

theorem uhashRef16_keys (u2 u : uhash16) (m : List Nat) (h : u2.SameKeys u) :
    uhashRef16 u2 m = uhashRef16 u m := by
  obtain ⟨h1, h2, h3, h4⟩ := h
  simp only [uhashRef16, h1, h2, h3, h4]

theorem UMAC16_write_hashed (u : UMAC16) (m p : List Nat) (hh : u.hash.Hashed m)
    (h32 : m.length + p.length < 2 ^ 32) :
    ∃ u2, u.Write p = some (u2, p.length) ∧ u2.hash.Hashed (m ++ p) ∧
      u2.hash.SameKeys u.hash ∧ u2.pdf = u.pdf ∧ u2.out = u.out := by
  obtain ⟨h2, e1, e2, e3⟩ := uhash16_update_hashed u.hash m p hh h32
  refine ⟨{ u with hash := h2 }, ?_, e2, e3, rfl, rfl⟩
  rw [UMAC16.Write, e1]

theorem UMAC16_writeAll_hashed (ps : List (List Nat)) (u : UMAC16) (m : List Nat)
    (hh : u.hash.Hashed m) (h32 : m.length + ps.flatten.length < 2 ^ 32) :
    ∃ u2, u.writeAll ps = some u2 ∧ u2.hash.Hashed (m ++ ps.flatten) ∧
      u2.hash.SameKeys u.hash ∧ u2.pdf = u.pdf ∧ u2.out = u.out := by
  induction ps generalizing u m with
  | nil =>
    refine ⟨u, rfl, ?_, uhash16_SameKeys_refl _, rfl, rfl⟩
    simpa using hh
  | cons p ps ih =>
    simp only [List.flatten_cons, List.length_append] at h32
    obtain ⟨u1, e1, e2, e3, e4, e5⟩ := UMAC16_write_hashed u m p hh (by omega)
    obtain ⟨u2, f1, f2, f3, f4, f5⟩ := ih u1 (m ++ p) e2
      (by rw [List.length_append]; omega)
    refine ⟨u2, ?_, ?_, (uhash16_SameKeys_trans f3 e3), f4.trans e4, f5.trans e5⟩
    · rw [UMAC16.writeAll, e1]
      exact f1
    · simpa [List.append_assoc] using f2

theorem UMAC16_sum_hashed (u : UMAC16) (k : Block) (m b : List Nat) (hh : u.hash.Hashed m)
    (hr : u.Ready k) (hb : 8 ≤ b.length) (hik : 16 ≤ u.hash.ipKeys.length) :
    ∃ u2, u.Sum b = some (u2, xorTag (uhashRef16 u.hash m) (pad16 k b)) ∧ u2.hash.Hashed [] ∧
      u2.hash.SameKeys u.hash ∧ u2.Ready k := by
  obtain ⟨r1, r2, r3, r4, r5⟩ := hr
  obtain ⟨h2, e1, e2, e3⟩ := uhash16_final_hashed u.hash m u.out hh r1 hik
  have hx := pdfCtx_genXor16_eq u.pdf k (b.take 8) (uhashRef16 u.hash m) r2 r3 r4 r5
    (by rw [List.length_take]; omega) (uhashRef16_length _ _)
  rw [pad16_take] at hx
  refine ⟨{ pdf := { u.pdf with
                       nonce := (b.take 8).take 8 ++ List.replicate 8 0
                       cache := k.encrypt ((b.take 8).take 8 ++ List.replicate 8 0) }
            hash := h2
            out := xorTag (uhashRef16 u.hash m) (pad16 k b) }, ?_, e2, e3, ?_⟩
  · rw [UMAC16.Sum, if_neg (by omega), e1]
    simp only []
    rw [hx]
  · refine ⟨?_, r2, ?_, ?_, ?_⟩
    · simp only [xorTag, List.length_zipWith, uhashRef16_length, pad16, k.size_eq]
      omega
    · simp only []; exact k.size_eq _
    · simp only [List.length_append, List.length_take, List.length_replicate]
      omega
    · have : ((b.take 8).take 8).length = 8 := by
        simp only [List.length_take]
        omega
      exact List.drop_left' this

/-- The `transform` of a context only replaces the accumulators, by a value that
depends on the key, the offset, the accumulators and the input. -/
theorem nhCtx16_transform_def (c : nhCtx16) (buf : List Nat) :
    c.transform buf
      = Option.map (fun st => ({ c with state := st } : nhCtx16))
          (if c.key.length < c.hashed then none
           else nhAux16 (toUint32 (c.key.drop c.hashed)) (toUint32 buf) c.state buf.length) := by
  unfold nhCtx16.transform
  split
  · rfl
  · cases nhAux16 (toUint32 (c.key.drop c.hashed)) (toUint32 buf) c.state buf.length <;> rfl

theorem nhCtx16_transform_frame (c c2 : nhCtx16) (buf : List Nat) (h : c.transform buf = some c2) :
    c2.key = c.key ∧ c2.data = c.data ∧ c2.nextEmpty = c.nextEmpty ∧ c2.hashed = c.hashed := by
  rw [nhCtx16_transform_def] at h
  cases hc : (if c.key.length < c.hashed then none
           else nhAux16 (toUint32 (c.key.drop c.hashed)) (toUint32 buf) c.state buf.length) with
  | none => rw [hc] at h; simp at h
  | some st =>
    rw [hc] at h
    simp only [Option.map_some', Option.some.injEq] at h
    subst h
    exact ⟨rfl, rfl, rfl, rfl⟩

theorem nhCtx16_update_frame (c c2 : nhCtx16) (buf : List Nat) (h : c.update buf = some c2) :
    c2.key = c.key ∧ c2.data.length = c.data.length := by
  unfold nhCtx16.update at h
  simp only [] at h
  split at h
  · split at h
    · simp at h
    · rename_i r1 cA nA bA hr1
      split at h
      · simp at h
      · rename_i r2 cB nB bB hr2
        simp only [Option.some.injEq] at h
        subst h
        have hA : cA.key = c.key ∧ cA.data.length = c.data.length := by
          split at hr1
          · split at hr1
            · simp at hr1
            · split at hr1
              · simp at hr1
              · rename_i c3 ht
                simp only [Option.some.injEq, Prod.mk.injEq] at hr1
                obtain ⟨t1, t2, t3, t4⟩ := nhCtx16_transform_frame _ _ _ ht
                rw [← hr1.1]
                refine ⟨t1, ?_⟩
                simp only [t2]
                exact copyAt_length _ _ _ (by omega)
          · simp only [Option.some.injEq, Prod.mk.injEq] at hr1
            rw [← hr1.1]; exact ⟨rfl, rfl⟩
        have hB : cB.key = cA.key ∧ cB.data.length = cA.data.length := by
          split at hr2
          · split at hr2
            · simp at hr2
            · rename_i c3 ht
              simp only [Option.some.injEq, Prod.mk.injEq] at hr2
              obtain ⟨t1, t2, t3, t4⟩ := nhCtx16_transform_frame _ _ _ ht
              rw [← hr2.1]
              exact ⟨t1, by simp only [t2]⟩
          · simp only [Option.some.injEq, Prod.mk.injEq] at hr2
            rw [← hr2.1]; exact ⟨rfl, rfl⟩
        refine ⟨hB.1.trans hA.1, ?_⟩
        simp only []
        rw [copyAt_length _ _ _ (by omega), hB.2, hA.2]
  · split at h
    · simp at h
    · simp only [Option.some.injEq] at h
      subst h
      exact ⟨rfl, copyAt_length _ _ _ (by omega)⟩

theorem nhCtx16_final_frame (c c2 : nhCtx16) (r : Words4) (h : c.final = some (c2, r)) :
    c2.key = c.key ∧ c2.data.length = c.data.length ∧ c2.nextEmpty = 0 ∧ c2.hashed = 0 ∧
      c2.state = (0, 0, 0, 0) ∧ r.1 < 2 ^ 64 ∧ r.2.1 < 2 ^ 64 ∧ r.2.2.1 < 2 ^ 64 ∧
      r.2.2.2 < 2 ^ 64 := by
  unfold nhCtx16.final at h
  simp only [] at h
  split at h
  · simp at h
  · rename_i r1 cA hr1
    simp only [Option.some.injEq, Prod.mk.injEq] at h
    obtain ⟨h1, h2⟩ := h
    subst h1 h2
    have hA : cA.key = c.key ∧ cA.data.length = c.data.length := by
      split at hr1
      · split at hr1
        · simp at hr1
        · split at hr1
          · simp at hr1
          · split at hr1
            · simp at hr1
            · rename_i c3 ht
              simp only [Option.some.injEq] at hr1
              obtain ⟨t1, t2, t3, t4⟩ := nhCtx16_transform_frame _ _ _ ht
              rw [← hr1]
              refine ⟨t1, ?_⟩
              simp only [t2]
              exact copyAt_length _ _ _ (by omega)
      · split at hr1
        · split at hr1
          · simp at hr1
          · obtain ⟨t1, t2, t3, t4⟩ := nhCtx16_transform_frame _ _ _ hr1
            refine ⟨t1, ?_⟩
            rw [t2]
            exact copyAt_length _ _ _ (by omega)
        · simp only [Option.some.injEq] at hr1
          rw [← hr1]; exact ⟨rfl, rfl⟩
    exact ⟨hA.1, hA.2, rfl, rfl, rfl, Nat.mod_lt _ (by norm_num), Nat.mod_lt _ (by norm_num),
      Nat.mod_lt _ (by norm_num), Nat.mod_lt _ (by norm_num)⟩

theorem nhCtx16_reset_frame (c : nhCtx16) :
    c.reset.key = c.key ∧ c.reset.data = c.data := ⟨rfl, rfl⟩

theorem uhash16_updateLoop_frame (n : Nat) (u u2 : uhash16) (buf b2 : List Nat) (bl bl2 : Nat)
    (h : uhash16.updateLoop n u buf bl = some (u2, b2, bl2)) :
    u2.SameKeys u ∧ u2.nh = u.nh := by
  induction n generalizing u buf bl with
  | zero =>
    simp only [uhash16.updateLoop, Option.some.injEq, Prod.mk.injEq] at h
    rw [← h.1]; exact ⟨uhash16_SameKeys_refl u, rfl⟩
  | succ n ih =>
    rw [uhash16.updateLoop] at h
    split at h
    · simp at h
    · split at h
      · simp at h
      · obtain ⟨h1, h2⟩ := ih _ _ _ h
        exact ⟨(uhash16_SameKeys_trans h1 ⟨rfl, rfl, rfl, rfl⟩), h2⟩

theorem uhash16_update_frame (u u2 : uhash16) (buf : List Nat) (h : u.update buf = some u2) :
    u2.SameKeys u ∧ u2.nh.data.length = u.nh.data.length := by
  unfold uhash16.update at h
  simp only [] at h
  generalize (if u.msgLen = 1024 then 1024 else u.msgLen % 1024) = bh at h
  have tail : ∀ (uA : uhash16) (bA : List Nat) (blA : Nat),
      (if blA ≠ 0 then
        match uA.nh.update bA with
        | none => none
        | some nh => some { uA with nh := nh, msgLen := (uA.msgLen + blA) % 2 ^ 32 }
      else some uA) = some u2 →
      u2.SameKeys uA ∧ u2.nh.data.length = uA.nh.data.length := by
    intro uA bA blA h
    split at h
    · split at h
      · simp at h
      · rename_i nh hn
        simp only [Option.some.injEq] at h
        subst h
        obtain ⟨t1, t2⟩ := nhCtx16_update_frame _ _ _ hn
        exact ⟨⟨t1, rfl, rfl, rfl⟩, t2⟩
    · simp only [Option.some.injEq] at h
      subst h
      exact ⟨uhash16_SameKeys_refl _, rfl⟩
  split at h
  · split at h
    · simp at h
    · rename_i nh hn
      simp only [Option.some.injEq] at h
      subst h
      obtain ⟨t1, t2⟩ := nhCtx16_update_frame _ _ _ hn
      exact ⟨⟨t1, rfl, rfl, rfl⟩, t2⟩
  · split at h
    · simp at h
    · rename_i r uA bA blA hr
      obtain ⟨g1, g2⟩ := tail _ _ _ h
      have hA : uA.SameKeys u ∧ uA.nh.data.length = u.nh.data.length := by
        split at hr
        · split at hr
          · simp at hr
          · rename_i r1 uB bB blB hr1
            obtain ⟨l1, l2⟩ := uhash16_updateLoop_frame _ _ _ _ _ _ _ hr
            have hB : uB.SameKeys u ∧ uB.nh.data.length = u.nh.data.length := by
              split at hr1
              · split at hr1
                · simp at hr1
                · split at hr1
                  · simp at hr1
                  · rename_i nh1 hn1
                    split at hr1
                    · simp at hr1
                    · rename_i nh2 res hn2
                      simp only [Option.some.injEq, Prod.mk.injEq] at hr1
                      obtain ⟨t1, t2⟩ := nhCtx16_update_frame _ _ _ hn1
                      obtain ⟨s1, s2, _⟩ := nhCtx16_final_frame _ _ _ hn2
                      rw [← hr1.1]
                      exact ⟨⟨s1.trans t1, rfl, rfl, rfl⟩, s2.trans t2⟩
              · simp only [Option.some.injEq, Prod.mk.injEq] at hr1
                rw [← hr1.1]; exact ⟨uhash16_SameKeys_refl u, rfl⟩
            exact ⟨(uhash16_SameKeys_trans l1 hB.1), by rw [l2]; exact hB.2⟩
        · simp only [Option.some.injEq, Prod.mk.injEq] at hr
          rw [← hr.1]; exact ⟨uhash16_SameKeys_refl u, rfl⟩
      exact ⟨(uhash16_SameKeys_trans g1 hA.1), g2.trans hA.2⟩

/-- The four tag slices written into a sixteen-byte output buffer. -/
theorem put_four (out : List Nat) (v0 v1 v2 v3 : Nat) (h : out.length = 16) :
    (match putUint32 out 0 v0 with
      | none => none
      | some out =>
        match putUint32 out 4 v1 with
        | none => none
        | some out =>
          match putUint32 out 8 v2 with
          | none => none
          | some out => putUint32 out 12 v3)
      = some (bigEndianBytes32 v0 ++ bigEndianBytes32 v1 ++ bigEndianBytes32 v2
          ++ bigEndianBytes32 v3) := by
  obtain ⟨e0, e1, e2, e3⟩ := put_steps out v0 v1 v2 v3 h
  simp only [e0, e1, e2, e3]

theorem putUint32_length (out o : List Nat) (off v : Nat) (h : putUint32 out off v = some o) :
    o.length = out.length := by
  by_cases c : off + 4 ≤ out.length
  · rw [putUint32_eq _ _ _ c] at h
    simp only [Option.some.injEq] at h
    rw [← h]
    simp only [List.length_append, List.length_take, bigEndianBytes32_length, List.length_drop]
    omega
  · rw [putUint32, if_pos (by omega)] at h
    simp at h

theorem uhash16_ipShort_length (u : uhash16) (inp out o : List Nat) (ho : out.length = 16)
    (h : u.ipShort inp out = some o) : o.length = 16 := by
  unfold uhash16.ipShort at h
  split at h
  · simp at h
  · simp only [] at h
    split at h
    · simp at h
    · split at h
      · simp at h
      · rename_i o1 h1
        split at h
        · simp at h
        · split at h
          · simp at h
          · rename_i o2 h2
            split at h
            · simp at h
            · split at h
              · simp at h
              · rename_i o3 h3
                split at h
                · simp at h
                · rw [putUint32_length _ _ _ _ h, putUint32_length _ _ _ _ h3,
                    putUint32_length _ _ _ _ h2, putUint32_length _ _ _ _ h1, ho]

theorem uhash16_ipLong_frame (u u2 : uhash16) (out o : List Nat)
    (h : u.ipLong out = some (u2, o)) :
    u2.SameKeys u ∧ u2.nh = u.nh ∧ (out.length = 16 → o.length = 16) := by
  have hv : u2 = { u with polyResult := (reduceP64 u.polyResult.1, reduceP64 u.polyResult.2.1,
      reduceP64 u.polyResult.2.2.1, reduceP64 u.polyResult.2.2.2) } := by
    unfold uhash16.ipLong at h
    split at h
    · simp at h
    · simp only [] at h
      split at h
      · simp at h
      · split at h
        · simp at h
        · split at h
          · simp at h
          · split at h
            · simp at h
            · split at h
              · simp at h
              · split at h
                · simp at h
                · split at h
                  · simp at h
                  · split at h
                    · simp at h
                    · simp only [Option.some.injEq, Prod.mk.injEq] at h
                      rw [← h.1]
  refine ⟨?_, ?_, ?_⟩
  · rw [hv]
    exact ⟨rfl, rfl, rfl, rfl⟩
  · rw [hv]
  · intro h16
    rw [uhash16_ipLong_if u out h16] at h
    split at h
    · simp only [Option.some.injEq, Prod.mk.injEq] at h
      rw [← h.2]
      rfl
    · simp at h

/-- Whenever `final` returns, it returns a reset state with the keys it was given. -/
theorem uhash16_final_frame (u u2 : uhash16) (out o : List Nat) (h : u.final out = some (u2, o)) :
    ∃ v : uhash16, u2 = v.reset ∧ v.SameKeys u ∧ v.nh.data.length = u.nh.data.length ∧
      (out.length = 16 → o.length = 16) := by
  unfold uhash16.final at h
  simp only [] at h
  split at h
  · simp at h
  · rename_i r v o2 hr
    simp only [Option.some.injEq, Prod.mk.injEq] at h
    obtain ⟨h1, h2⟩ := h
    subst h1 h2
    refine ⟨v, rfl, ?_⟩
    split at hr
    · split at hr
      · simp at hr
      · rename_i r1 w hr1
        have hw : w.SameKeys u ∧ w.nh.data.length = u.nh.data.length := by
          split at hr1
          · split at hr1
            · simp at hr1
            · rename_i nh res hn
              simp only [Option.some.injEq] at hr1
              obtain ⟨s1, s2, _⟩ := nhCtx16_final_frame _ _ _ hn
              rw [← hr1]
              exact ⟨⟨s1, rfl, rfl, rfl⟩, s2⟩
          · simp only [Option.some.injEq] at hr1
            rw [← hr1]; exact ⟨uhash16_SameKeys_refl u, rfl⟩
        obtain ⟨f1, f2, f3⟩ := uhash16_ipLong_frame _ _ _ _ hr
        exact ⟨(uhash16_SameKeys_trans f1 hw.1), by rw [f2]; exact hw.2, f3⟩
    · split at hr
      · simp at hr
      · rename_i nh res hn
        split at hr
        · simp at hr
        · rename_i o3 hs
          simp only [Option.some.injEq, Prod.mk.injEq] at hr
          obtain ⟨s1, s2, _⟩ := nhCtx16_final_frame _ _ _ hn
          rw [← hr.1, ← hr.2]
          exact ⟨⟨s1, rfl, rfl, rfl⟩, s2, fun h8 => uhash16_ipShort_length _ _ _ _ h8 hs⟩

theorem nhCtx16_Equiv_refl (c : nhCtx16) (h : c.data.length = 64) : c.Equiv c :=
  ⟨rfl, rfl, rfl, rfl, h, h, rfl⟩

theorem nhCtx16_update_equiv (c1 c2 : nhCtx16) (buf : List Nat) (he : c1.Equiv c2) :
    (c1.update buf = none ∧ c2.update buf = none) ∨
      ∃ a b, c1.update buf = some a ∧ c2.update buf = some b ∧ a.Equiv b := by
  obtain ⟨k, d1, j, h, st⟩ := c1
  obtain ⟨k2, d2, j2, h2, st2⟩ := c2
  obtain ⟨e1, e2, e3, e4, l1, l2, e5⟩ := he
  simp only at e1 e2 e3 e4 l1 l2 e5
  subst e1 e2 e3 e4
  by_cases hc : j + buf.length ≥ 64
  · by_cases hj : j = 0
    · subst hj
      by_cases hn : buf.length ≥ 64
      · have t1 := nhCtx16_transform_def ⟨k, d1, 0, h, st⟩ (buf.take (buf.length - buf.length % 64))
        have t2 := nhCtx16_transform_def ⟨k, d2, 0, h, st⟩ (buf.take (buf.length - buf.length % 64))
        simp only [] at t1 t2
        unfold nhCtx16.update
        simp only [hc, if_true, ne_eq, not_true_eq_false, if_false, hn, t1, t2]
        cases (if k.length < h then none
          else nhAux16 (toUint32 (k.drop h)) (toUint32 (buf.take (buf.length - buf.length % 64)))
            st (buf.take (buf.length - buf.length % 64)).length) with
        | none => left; exact ⟨rfl, rfl⟩
        | some s =>
          right
          refine ⟨_, _, rfl, rfl, rfl, rfl, rfl, rfl, ?_, ?_, ?_⟩
          · simp only []; rw [copyAt_length _ _ _ (by omega)]; exact l1
          · simp only []; rw [copyAt_length _ _ _ (by omega)]; exact l2
          · simp only []
            have hl : (List.drop (buf.length - buf.length % 64) buf).length
                = buf.length - (buf.length - buf.length % 64) := List.length_drop _ _
            have hlt := Nat.mod_lt buf.length (show 0 < 64 by norm_num)
            have a1 := copyAt_take d1 (List.drop (buf.length - buf.length % 64) buf) 0 (by omega)
            have a2 := copyAt_take d2 (List.drop (buf.length - buf.length % 64) buf) 0 (by omega)
            rw [Nat.zero_add, hl] at a1 a2
            rw [Nat.zero_add, a1, a2, e5]
      · unfold nhCtx16.update
        simp only [hc, if_true, ne_eq, not_true_eq_false, if_false, hn]
        right
        refine ⟨_, _, rfl, rfl, rfl, rfl, rfl, rfl, ?_, ?_, ?_⟩
        · simp only []; rw [copyAt_length _ _ _ (by omega)]; exact l1
        · simp only []; rw [copyAt_length _ _ _ (by omega)]; exact l2
        · simp only []
          have a1 := copyAt_take d1 buf 0 (by omega)
          have a2 := copyAt_take d2 buf 0 (by omega)
          rw [Nat.zero_add] at a1 a2
          rw [Nat.zero_add, a1, a2, e5]
    · by_cases hj64 : 64 < j
      · left
        unfold nhCtx16.update
        simp only [hc, if_true, ne_eq, hj, not_false_eq_true, l1, l2, hj64, or_true]
        exact ⟨trivial, trivial⟩
      · have hl : (buf.take (64 - j)).length = 64 - j := by rw [List.length_take]; omega
        have hd : copyAt d2 j (buf.take (64 - j)) = copyAt d1 j (buf.take (64 - j)) := by
          rw [copyAt_full _ _ _ (by omega), copyAt_full _ _ _ (by omega), e5]
        have he : nhCtx16.update ⟨k, d2, j, h, st⟩ buf = nhCtx16.update ⟨k, d1, j, h, st⟩ buf := by
          unfold nhCtx16.update
          simp only [hc, if_true, ne_eq, hj, not_false_eq_true, l1, l2, hj64, or_false, hd,
            Nat.lt_irrefl, if_false]
        rw [he]
        cases hu : nhCtx16.update ⟨k, d1, j, h, st⟩ buf with
        | none => left; exact ⟨rfl, rfl⟩
        | some a =>
          right
          exact ⟨a, a, rfl, rfl, nhCtx16_Equiv_refl a
            (by rw [(nhCtx16_update_frame _ _ _ hu).2]; exact l1)⟩
  · right
    unfold nhCtx16.update
    simp only [hc, if_false]
    rw [if_neg (by omega), if_neg (by omega)]
    refine ⟨_, _, rfl, rfl, rfl, rfl, rfl, rfl, ?_, ?_, ?_⟩
    · simp only []; rw [copyAt_length _ _ _ (by omega)]; exact l1
    · simp only []; rw [copyAt_length _ _ _ (by omega)]; exact l2
    · simp only []
      rw [copyAt_take d1 buf j (by omega), copyAt_take d2 buf j (by omega), e5]

theorem nhCtx16_final_equiv (c1 c2 : nhCtx16) (he : c1.Equiv c2) :
    (c1.final = none ∧ c2.final = none) ∨
      ∃ a b r, c1.final = some (a, r) ∧ c2.final = some (b, r) ∧ a.Equiv b := by
  obtain ⟨k, d1, j, h, st⟩ := c1
  obtain ⟨k2, d2, j2, h2, st2⟩ := c2
  obtain ⟨e1, e2, e3, e4, l1, l2, e5⟩ := he
  simp only at e1 e2 e3 e4 l1 l2 e5
  subst e1 e2 e3 e4
  by_cases hj : j = 0
  · subst hj
    by_cases hh : h = 0
    · subst hh
      have hz1 : List.take 32 (copyAt d1 0 (List.replicate 32 0)) = List.replicate 32 0 := by
        have := copyAt_take d1 (List.replicate 32 0) 0 (by simp only [List.length_replicate]; omega)
        simpa using this
      have hz2 : List.take 32 (copyAt d2 0 (List.replicate 32 0)) = List.replicate 32 0 := by
        have := copyAt_take d2 (List.replicate 32 0) 0 (by simp only [List.length_replicate]; omega)
        simpa using this
      have t1 := nhCtx16_transform_def ⟨k, copyAt d1 0 (List.replicate 32 0), 0, 0, st⟩
        (List.replicate 32 0)
      have t2 := nhCtx16_transform_def ⟨k, copyAt d2 0 (List.replicate 32 0), 0, 0, st⟩
        (List.replicate 32 0)
      simp only [] at t1 t2
      have cl1 : ¬ (copyAt d1 0 (List.replicate 32 0)).length < 32 := by
        rw [copyAt_length _ _ _ (by omega)]; omega
      have cl2 : ¬ (copyAt d2 0 (List.replicate 32 0)).length < 32 := by
        rw [copyAt_length _ _ _ (by omega)]; omega
      unfold nhCtx16.final
      simp only [ne_eq, not_true_eq_false, if_false, if_true, cl1, cl2, hz1, hz2, t1, t2]
      cases (if k.length < 0 then none
          else nhAux16 (toUint32 (k.drop 0)) (toUint32 (List.replicate 32 0)) st
            (List.replicate 32 0).length) with
      | none => left; exact ⟨rfl, rfl⟩
      | some s =>
        right
        refine ⟨_, _, _, rfl, rfl, rfl, rfl, rfl, rfl, ?_, ?_, rfl⟩
        · simp only [nhCtx16.reset]; rw [copyAt_length _ _ _ (by omega)]; exact l1
        · simp only [nhCtx16.reset]; rw [copyAt_length _ _ _ (by omega)]; exact l2
    · right
      unfold nhCtx16.final
      simp only [ne_eq, not_true_eq_false, if_false, hh]
      exact ⟨_, _, _, rfl, rfl, rfl, rfl, rfl, rfl, l1, l2, rfl⟩
  · by_cases hj64 : 64 < j
    · left
      unfold nhCtx16.final
      simp only [ne_eq, hj, not_false_eq_true, if_true, l1, l2, hj64]
      exact ⟨trivial, trivial⟩
    · generalize hN : j + 31 - (j + 31) % 32 = nhLen
      have hn1 : j ≤ nhLen := by omega
      have hn2 : nhLen ≤ 64 := by omega
      have hrl : (List.replicate (nhLen - j) 0).length = nhLen - j := List.length_replicate _ _
      have hz1 : List.take nhLen (copyAt d1 j (List.replicate (nhLen - j) 0))
          = d1.take j ++ List.replicate (nhLen - j) 0 := by
        have := copyAt_take d1 (List.replicate (nhLen - j) 0) j (by rw [hrl]; omega)
        rwa [hrl, Nat.add_sub_cancel' hn1] at this
      have hz2 : List.take nhLen (copyAt d2 j (List.replicate (nhLen - j) 0))
          = d1.take j ++ List.replicate (nhLen - j) 0 := by
        have := copyAt_take d2 (List.replicate (nhLen - j) 0) j (by rw [hrl]; omega)
        rwa [hrl, Nat.add_sub_cancel' hn1, ← e5] at this
      have t1 := nhCtx16_transform_def ⟨k, copyAt d1 j (List.replicate (nhLen - j) 0), j, h, st⟩
        (d1.take j ++ List.replicate (nhLen - j) 0)
      have t2 := nhCtx16_transform_def ⟨k, copyAt d2 j (List.replicate (nhLen - j) 0), j, h, st⟩
        (d1.take j ++ List.replicate (nhLen - j) 0)
      simp only [] at t1 t2
      have cl1 : ¬ (copyAt d1 j (List.replicate (nhLen - j) 0)).length < nhLen := by
        rw [copyAt_length _ _ _ (by omega)]; omega
      have cl2 : ¬ (copyAt d2 j (List.replicate (nhLen - j) 0)).length < nhLen := by
        rw [copyAt_length _ _ _ (by omega)]; omega
      have cj1 : ¬ d1.length < j := by omega
      have cj2 : ¬ d2.length < j := by omega
      unfold nhCtx16.final
      simp only [ne_eq, hj, not_false_eq_true, if_true, hN, cj1, cj2, if_false, cl1, cl2, hz1,
        hz2, t1, t2]
      cases (if k.length < h then none
          else nhAux16 (toUint32 (k.drop h)) (toUint32 (d1.take j ++ List.replicate (nhLen - j) 0))
            st (d1.take j ++ List.replicate (nhLen - j) 0).length) with
      | none => left; exact ⟨rfl, rfl⟩
      | some s =>
        right
        refine ⟨_, _, _, rfl, rfl, rfl, rfl, rfl, rfl, ?_, ?_, rfl⟩
        · simp only [nhCtx16.reset]; rw [copyAt_length _ _ _ (by omega)]; exact l1
        · simp only [nhCtx16.reset]; rw [copyAt_length _ _ _ (by omega)]; exact l2

theorem nhCtx16_hash_equiv (c1 c2 : nhCtx16) (buf : List Nat) (a b : Nat) (he : c1.Equiv c2) :
    c1.hash buf a b = c2.hash buf a b := by
  unfold nhCtx16.hash
  rw [he.1]

theorem uhash16_polyHash_equiv (u1 u2 : uhash16) (r : Words4) (he : u1.Equiv u2) :
    (u1.polyHash r).Equiv (u2.polyHash r) := by
  obtain ⟨e1, e2, e3, e4, e5, e6⟩ := he
  refine ⟨e1, e2, ?_, e4, e5, e6⟩
  simp only [uhash16.polyHash, e2, e3]

theorem uhash16_rest_equiv (uA uB : uhash16) (bA : List Nat) (blA : Nat) (he : uA.Equiv uB) :
    ((if blA ≠ 0 then
        match uA.nh.update bA with
        | none => none
        | some nh => some { uA with nh := nh, msgLen := (uA.msgLen + blA) % 2 ^ 32 }
      else some uA) = none ∧
     (if blA ≠ 0 then
        match uB.nh.update bA with
        | none => none
        | some nh => some { uB with nh := nh, msgLen := (uB.msgLen + blA) % 2 ^ 32 }
      else some uB) = none) ∨
    ∃ a b : uhash16,
      (if blA ≠ 0 then
        match uA.nh.update bA with
        | none => none
        | some nh => some { uA with nh := nh, msgLen := (uA.msgLen + blA) % 2 ^ 32 }
      else some uA) = some a ∧
      (if blA ≠ 0 then
        match uB.nh.update bA with
        | none => none
        | some nh => some { uB with nh := nh, msgLen := (uB.msgLen + blA) % 2 ^ 32 }
      else some uB) = some b ∧ a.Equiv b := by
  by_cases h0 : blA ≠ 0
  · rw [if_pos h0, if_pos h0]
    obtain ⟨e1, e2, e3, e4, e5, e6⟩ := he
    obtain (⟨h1, h2⟩ | ⟨a, b, h1, h2, hab⟩) := nhCtx16_update_equiv uA.nh uB.nh bA e1
    · left; rw [h1, h2]; exact ⟨rfl, rfl⟩
    · right; rw [h1, h2]
      exact ⟨_, _, rfl, rfl, hab, e2, e3, e4, e5, by simp only [e6]⟩
  · rw [if_neg h0, if_neg h0]
    right
    exact ⟨_, _, rfl, rfl, he⟩

theorem uhash16_updateLoop_equiv (n : Nat) (u1 u2 : uhash16) (buf : List Nat) (bl : Nat)
    (he : u1.Equiv u2) :
    (uhash16.updateLoop n u1 buf bl = none ∧ uhash16.updateLoop n u2 buf bl = none) ∨
    ∃ a b x y, uhash16.updateLoop n u1 buf bl = some (a, x, y) ∧
      uhash16.updateLoop n u2 buf bl = some (b, x, y) ∧ a.Equiv b := by
  induction n generalizing u1 u2 buf bl with
  | zero => right; exact ⟨u1, u2, buf, bl, rfl, rfl, he⟩
  | succ n ih =>
    rw [uhash16.updateLoop, uhash16.updateLoop, nhCtx16_hash_equiv u1.nh u2.nh buf 1024 1024 he.1]
    cases u2.nh.hash buf 1024 1024 with
    | none => left; exact ⟨rfl, rfl⟩
    | some r =>
      simp only []
      by_cases hb : buf.length < 1024
      · left; simp only [hb, if_true]; exact ⟨trivial, trivial⟩
      · simp only [hb, if_false]
        apply ih
        apply uhash16_polyHash_equiv
        obtain ⟨e1, e2, e3, e4, e5, e6⟩ := he
        exact ⟨e1, e2, e3, e4, e5, by simp only [e6]⟩

theorem uhash16_update_equiv (u1 u2 : uhash16) (buf : List Nat) (he : u1.Equiv u2) :
    (u1.update buf = none ∧ u2.update buf = none) ∨
      ∃ a b, u1.update buf = some a ∧ u2.update buf = some b ∧ a.Equiv b := by
  obtain ⟨nh1, pk, pr, ik, it, ml⟩ := u1
  obtain ⟨nh2, pk2, pr2, ik2, it2, ml2⟩ := u2
  obtain ⟨e1, e2, e3, e4, e5, e6⟩ := he
  simp only at e1 e2 e3 e4 e5 e6
  subst e2 e3 e4 e5 e6
  unfold uhash16.update
  simp only []
  generalize (if ml = 1024 then 1024 else ml % 1024) = bh
  by_cases c1 : (ml + buf.length % 2 ^ 32) % 2 ^ 32 ≤ 1024
  · rw [if_pos c1, if_pos c1]
    obtain (⟨h1, h2⟩ | ⟨a, b, h1, h2, hab⟩) := nhCtx16_update_equiv nh1 nh2 buf e1
    · left; rw [h1, h2]; exact ⟨rfl, rfl⟩
    · right; rw [h1, h2]
      exact ⟨_, _, rfl, rfl, hab, rfl, rfl, rfl, rfl, rfl⟩
  · rw [if_neg c1, if_neg c1]
    by_cases cA : (bh + buf.length % 2 ^ 32) % 2 ^ 32 ≥ 1024
    · rw [if_pos cA, if_pos cA]
      by_cases c0 : bh ≠ 0
      · rw [if_pos c0, if_pos c0]
        by_cases cl : buf.length < 1024 - bh
        · left; rw [if_pos cl, if_pos cl]; exact ⟨rfl, rfl⟩
        · rw [if_neg cl, if_neg cl]
          obtain (⟨h1, h2⟩ | ⟨a, b, h1, h2, hab⟩) :=
            nhCtx16_update_equiv nh1 nh2 (buf.take (1024 - bh)) e1
          · left; rw [h1, h2]; exact ⟨rfl, rfl⟩
          · rw [h1, h2]
            simp only []
            obtain (⟨g1, g2⟩ | ⟨a2, b2, r, g1, g2, hab2⟩) := nhCtx16_final_equiv a b hab
            · left; rw [g1, g2]; exact ⟨rfl, rfl⟩
            · rw [g1, g2]
              simp only []
              have hp : (uhash16.polyHash ⟨a2, pk, pr, ik, it, (ml + (1024 - bh)) % 2 ^ 32⟩ r).Equiv
                  (uhash16.polyHash ⟨b2, pk, pr, ik, it, (ml + (1024 - bh)) % 2 ^ 32⟩ r) :=
                uhash16_polyHash_equiv _ _ r ⟨hab2, rfl, rfl, rfl, rfl, rfl⟩
              obtain (⟨l1, l2⟩ | ⟨a3, b3, x, y, l1, l2, hab3⟩) := uhash16_updateLoop_equiv
                ((buf.length % 2 ^ 32 + 2 ^ 32 - (1024 - bh)) % 2 ^ 32 / 1024) _ _
                (buf.drop (1024 - bh)) ((buf.length % 2 ^ 32 + 2 ^ 32 - (1024 - bh)) % 2 ^ 32) hp
              · left; rw [l1, l2]; exact ⟨rfl, rfl⟩
              · rw [l1, l2]
                exact uhash16_rest_equiv a3 b3 x y hab3
      · rw [if_neg c0, if_neg c0]
        simp only []
        obtain (⟨l1, l2⟩ | ⟨a3, b3, x, y, l1, l2, hab3⟩) := uhash16_updateLoop_equiv
          (buf.length % 2 ^ 32 / 1024) ⟨nh1, pk, pr, ik, it, ml⟩ ⟨nh2, pk, pr, ik, it, ml⟩
          buf (buf.length % 2 ^ 32) ⟨e1, rfl, rfl, rfl, rfl, rfl⟩
        · left; rw [l1, l2]; exact ⟨rfl, rfl⟩
        · rw [l1, l2]
          exact uhash16_rest_equiv a3 b3 x y hab3
    · rw [if_neg cA, if_neg cA]
      exact uhash16_rest_equiv ⟨nh1, pk, pr, ik, it, ml⟩ ⟨nh2, pk, pr, ik, it, ml⟩ buf
        (buf.length % 2 ^ 32) ⟨e1, rfl, rfl, rfl, rfl, rfl⟩

theorem uhash16_reset_equiv (u1 u2 : uhash16) (he : u1.Equiv u2) : u1.reset.Equiv u2.reset := by
  obtain ⟨⟨k1, k2, k3, k4, k5, k6, k7⟩, e2, e3, e4, e5, e6⟩ := he
  exact ⟨⟨k1, rfl, rfl, rfl, k5, k6, rfl⟩, e2, rfl, e4, e5, rfl⟩

theorem uhash16_ipLong_equiv (u1 u2 : uhash16) (o1 o2 : List Nat) (he : u1.Equiv u2)
    (h1 : o1.length = 16) (h2 : o2.length = 16) :
    (u1.ipLong o1 = none ∧ u2.ipLong o2 = none) ∨
      ∃ a b o, u1.ipLong o1 = some (a, o) ∧ u2.ipLong o2 = some (b, o) ∧ a.Equiv b ∧
        o.length = 16 := by
  rw [uhash16_ipLong_if _ _ h1, uhash16_ipLong_if _ _ h2]
  obtain ⟨e1, e2, e3, e4, e5, e6⟩ := he
  rw [← e4]
  by_cases hk : 16 ≤ u1.ipKeys.length
  · right
    rw [if_pos hk, if_pos hk]
    refine ⟨{ u1 with polyResult := (reduceP64 u1.polyResult.1, reduceP64 u1.polyResult.2.1,
        reduceP64 u1.polyResult.2.2.1, reduceP64 u1.polyResult.2.2.2) },
      { u2 with polyResult := (reduceP64 u2.polyResult.1, reduceP64 u2.polyResult.2.1,
        reduceP64 u2.polyResult.2.2.1, reduceP64 u2.polyResult.2.2.2) },
      _, rfl, ?_, ⟨e1, e2, ?_, e4, e5, e6⟩, rfl⟩
    · simp only [e3, e4, e5]
    · simp only [e3]
  · left
    rw [if_neg hk, if_neg hk]
    exact ⟨rfl, rfl⟩

theorem uhash16_final_equiv (u1 u2 : uhash16) (o1 o2 : List Nat) (he : u1.Equiv u2)
    (h1 : o1.length = 16) (h2 : o2.length = 16) :
    (u1.final o1 = none ∧ u2.final o2 = none) ∨
      ∃ a b o, u1.final o1 = some (a, o) ∧ u2.final o2 = some (b, o) ∧ a.Equiv b ∧
        o.length = 16 := by
  obtain ⟨nh1, pk, pr, ik, it, ml⟩ := u1
  obtain ⟨nh2, pk2, pr2, ik2, it2, ml2⟩ := u2
  obtain ⟨e1, e2, e3, e4, e5, e6⟩ := he
  simp only at e1 e2 e3 e4 e5 e6
  subst e2 e3 e4 e5 e6
  unfold uhash16.final
  simp only []
  by_cases c1 : ml > 1024
  · rw [if_pos c1, if_pos c1]
    by_cases c2 : ml % 1024 ≠ 0
    · rw [if_pos c2, if_pos c2]
      obtain (⟨g1, g2⟩ | ⟨a2, b2, r, g1, g2, hab2⟩) := nhCtx16_final_equiv nh1 nh2 e1
      · left; rw [g1, g2]; exact ⟨rfl, rfl⟩
      · rw [g1, g2]
        simp only []
        obtain (⟨k1, k2⟩ | ⟨a, b, o, k1, k2, k3, k4⟩) := uhash16_ipLong_equiv
          (uhash16.polyHash ⟨a2, pk, pr, ik, it, ml⟩ r) (uhash16.polyHash ⟨b2, pk, pr, ik, it, ml⟩ r)
          o1 o2 (uhash16_polyHash_equiv _ _ r ⟨hab2, rfl, rfl, rfl, rfl, rfl⟩) h1 h2
        · left
          rw [k1, k2]
          exact ⟨rfl, rfl⟩
        · right
          rw [k1, k2]
          exact ⟨_, _, _, rfl, rfl, uhash16_reset_equiv _ _ k3, k4⟩
    · rw [if_neg c2, if_neg c2]
      simp only []
      obtain (⟨k1, k2⟩ | ⟨a, b, o, k1, k2, k3, k4⟩) := uhash16_ipLong_equiv
        ⟨nh1, pk, pr, ik, it, ml⟩ ⟨nh2, pk, pr, ik, it, ml⟩ o1 o2
        ⟨e1, rfl, rfl, rfl, rfl, rfl⟩ h1 h2
      · left
        rw [k1, k2]
        exact ⟨rfl, rfl⟩
      · right
        rw [k1, k2]
        exact ⟨_, _, _, rfl, rfl, uhash16_reset_equiv _ _ k3, k4⟩
  · rw [if_neg c1, if_neg c1]
    obtain (⟨g1, g2⟩ | ⟨a2, b2, r, g1, g2, hab2⟩) := nhCtx16_final_equiv nh1 nh2 e1
    · left; rw [g1, g2]; exact ⟨rfl, rfl⟩
    · rw [g1, g2]
      simp only []
      obtain ⟨_, _, _, _, _, hr1, hr2, hr3, hr4⟩ := nhCtx16_final_frame _ _ _ g1
      rw [uhash16_ipShort_if _ _ _ h1 hr1 hr2 hr3 hr4, uhash16_ipShort_if _ _ _ h2 hr1 hr2 hr3 hr4]
      by_cases hk : 16 ≤ ik.length
      · right
        simp only [hk, if_true]
        exact ⟨_, _, _, rfl, rfl, uhash16_reset_equiv _ _ ⟨hab2, rfl, rfl, rfl, rfl, rfl⟩, rfl⟩
      · left
        simp only [hk, if_false]
        exact ⟨trivial, trivial⟩

theorem UMAC16_write_frame (u u2 : UMAC16) (p : List Nat) (n : Nat)
    (h : u.Write p = some (u2, n)) :
    u2.pdf = u.pdf ∧ u2.out = u.out ∧ u2.hash.SameKeys u.hash ∧
      u2.hash.nh.data.length = u.hash.nh.data.length ∧ n = p.length := by
  unfold UMAC16.Write at h
  split at h
  · simp at h
  · rename_i hh hu
    simp only [Option.some.injEq, Prod.mk.injEq] at h
    obtain ⟨h1, h2⟩ := h
    subst h1
    obtain ⟨f1, f2⟩ := uhash16_update_frame _ _ _ hu
    exact ⟨rfl, rfl, f1, f2, h2.symm⟩

theorem pad16_length (k : Block) (b : List Nat) : (pad16 k b).length = 16 := by
  simp only [pad16, k.size_eq]

theorem pdfBlock16_props (b : List Nat) (hb : 8 ≤ b.length) :
    (b.take 8 ++ List.replicate 8 0).length = 16 ∧
      (b.take 8 ++ List.replicate 8 0).drop 8 = List.replicate 8 0 := by
  have : (List.take 8 b).length = 8 := by
    simp only [List.length_take]
    omega
  constructor
  · simp only [List.length_append, List.length_replicate, this]
  · exact List.drop_left' this

/-- Whenever `Sum` returns in a well-formed state: the nonce had eight bytes, the
tag is the output of `final` XOR the pad of the nonce, and the new state is well
formed with a reset hash state. -/
theorem UMAC16_sum_frame (u u2 : UMAC16) (k : Block) (b tag : List Nat) (hr : u.Ready k)
    (h : u.Sum b = some (u2, tag)) :
    8 ≤ b.length ∧ u2.Ready k ∧
    ∃ hu o, u.hash.final u.out = some (hu, o) ∧ o.length = 16 ∧ tag = xorTag o (pad16 k b) ∧
      u2.hash = hu := by
  obtain ⟨r1, r2, r3, r4, r5⟩ := hr
  unfold UMAC16.Sum at h
  split at h
  · simp at h
  · rename_i hb
    split at h
    · simp at h
    · rename_i hu o hf
      obtain ⟨v, _, _, _, ho⟩ := uhash16_final_frame _ _ _ _ hf
      have ho8 := ho r1
      have hx := pdfCtx_genXor16_eq u.pdf k (b.take 8) o r2 r3 r4 r5
        (by rw [List.length_take]; omega) ho8
      rw [hx] at h
      simp only [Option.some.injEq, Prod.mk.injEq] at h
      obtain ⟨h1, h2⟩ := h
      subst h1
      rw [pad16_take] at h2
      have hp := pdfBlock16_props (b.take 8) (by rw [List.length_take]; omega)
      refine ⟨by omega, ⟨?_, r2, k.size_eq _, hp.1, hp.2⟩, hu, o, hf, ho8, h2.symm, rfl⟩
      simp only [xorTag, List.length_zipWith, ho8, pad16_length]
      rfl

theorem UMAC16_write_equiv (k : Block) (u1 u2 : UMAC16) (p : List Nat) (he : UMAC16.Equiv k u1 u2) :
    (u1.Write p = none ∧ u2.Write p = none) ∨
      ∃ a b n, u1.Write p = some (a, n) ∧ u2.Write p = some (b, n) ∧ UMAC16.Equiv k a b := by
  obtain ⟨e1, e2, e3⟩ := he
  unfold UMAC16.Write
  obtain (⟨h1, h2⟩ | ⟨a, b, h1, h2, hab⟩) := uhash16_update_equiv u1.hash u2.hash p e1
  · left; rw [h1, h2]; exact ⟨rfl, rfl⟩
  · right; rw [h1, h2]
    exact ⟨_, _, _, rfl, rfl, hab, e2, e3⟩

theorem UMAC16_writeAll_equiv (k : Block) (ps : List (List Nat)) (u1 u2 : UMAC16)
    (he : UMAC16.Equiv k u1 u2) :
    (u1.writeAll ps = none ∧ u2.writeAll ps = none) ∨
      ∃ a b, u1.writeAll ps = some a ∧ u2.writeAll ps = some b ∧ UMAC16.Equiv k a b := by
  induction ps generalizing u1 u2 with
  | nil => right; exact ⟨u1, u2, rfl, rfl, he⟩
  | cons p ps ih =>
    rw [UMAC16.writeAll, UMAC16.writeAll]
    obtain (⟨h1, h2⟩ | ⟨a, b, n, h1, h2, hab⟩) := UMAC16_write_equiv k u1 u2 p he
    · left; rw [h1, h2]; exact ⟨rfl, rfl⟩
    · rw [h1, h2]
      exact ih a b hab

theorem UMAC16_sum_equiv (k : Block) (u1 u2 : UMAC16) (b : List Nat) (he : UMAC16.Equiv k u1 u2) :
    (u1.Sum b = none ∧ u2.Sum b = none) ∨
      ∃ a c tag, u1.Sum b = some (a, tag) ∧ u2.Sum b = some (c, tag) ∧ UMAC16.Equiv k a c := by
  obtain ⟨e1, e2, e3⟩ := he
  by_cases hb : b.length ≤ 7
  · left
    unfold UMAC16.Sum
    rw [if_pos hb, if_pos hb]
    exact ⟨rfl, rfl⟩
  · obtain (⟨h1, h2⟩ | ⟨a, c, o, h1, h2, hac, ho⟩) :=
      uhash16_final_equiv u1.hash u2.hash u1.out u2.out e1 e2.1 e3.1
    · left
      unfold UMAC16.Sum
      rw [if_neg hb, if_neg hb, h1, h2]
      exact ⟨rfl, rfl⟩
    · right
      have hx1 := pdfCtx_genXor16_eq u1.pdf k (b.take 8) o e2.2.1 e2.2.2.1 e2.2.2.2.1 e2.2.2.2.2
        (by rw [List.length_take]; omega) ho
      have hx2 := pdfCtx_genXor16_eq u2.pdf k (b.take 8) o e3.2.1 e3.2.2.1 e3.2.2.2.1 e3.2.2.2.2
        (by rw [List.length_take]; omega) ho
      have hp := pdfBlock16_props (b.take 8) (by rw [List.length_take]; omega)
      have hl : (xorTag o (pad16 k (b.take 8))).length = 16 := by
        simp only [xorTag, List.length_zipWith, ho, pad16_length]
        rfl
      unfold UMAC16.Sum
      rw [if_neg hb, if_neg hb, h1, h2]
      simp only []
      rw [hx1, hx2]
      exact ⟨_, _, _, rfl, rfl, hac, ⟨hl, e2.2.1, k.size_eq _, hp.1, hp.2⟩,
        ⟨hl, e3.2.1, k.size_eq _, hp.1, hp.2⟩⟩

/-- Equivalent instances return the same tag, or both panic, for every run of
`Write` calls followed by `Sum`. -/
theorem UMAC16_tagOf_equiv (k : Block) (u1 u2 : UMAC16) (ps : List (List Nat)) (b : List Nat)
    (he : UMAC16.Equiv k u1 u2) : u1.tagOf ps b = u2.tagOf ps b := by
  unfold UMAC16.tagOf
  obtain (⟨h1, h2⟩ | ⟨a, c, h1, h2, hac⟩) := UMAC16_writeAll_equiv k ps u1 u2 he
  · rw [h1, h2]
  · rw [h1, h2]
    simp only []
    obtain (⟨g1, g2⟩ | ⟨a2, c2, tag, g1, g2, _⟩) := UMAC16_sum_equiv k a c b hac
    · rw [g1, g2]
    · rw [g1, g2]

theorem New16_some_iff (key : List Nat) (u : UMAC16) (h : New16 key = some u) :
    key.length = 16 ∨ key.length = 24 ∨ key.length = 32 := by
  by_cases hk : key.length = 16 ∨ key.length = 24 ∨ key.length = 32
  · exact hk
  · rw [New16_none key hk] at h
    simp at h

theorem UMAC16_reachable_inv (key : List Nat) (u : UMAC16) (h : UMAC16.Reachable key u) :
    ∃ u0 k, New16 key = some u0 ∧ u0.Ready k ∧ u0.hash.Hashed [] ∧ u.Ready k ∧
      u.hash.SameKeys u0.hash ∧ u.hash.nh.data.length = 64 := by
  induction h with
  | fresh u hn =>
    obtain ⟨u0, k, h1, h2, h3⟩ := New16_ok key (New16_some_iff key u hn)
    rw [hn] at h1
    simp only [Option.some.injEq] at h1
    subst h1
    exact ⟨u, k, hn, h2, h3, h2, uhash16_SameKeys_refl _, h3.2.1.2.1⟩
  | write u u2 p n _ hw ih =>
    obtain ⟨u0, k, h1, h2, h3, h4, h5, h6⟩ := ih
    obtain ⟨f1, f2, f3, f4, _⟩ := UMAC16_write_frame u u2 p n hw
    refine ⟨u0, k, h1, h2, h3, ?_, (uhash16_SameKeys_trans f3 h5), f4.trans h6⟩
    unfold UMAC16.Ready
    rw [f1, f2]
    exact h4
  | sum u u2 b tag _ hs ih =>
    obtain ⟨u0, k, h1, h2, h3, h4, h5, h6⟩ := ih
    obtain ⟨_, g1, hu, o, g2, _, _, g3⟩ := UMAC16_sum_frame u u2 k b tag h4 hs
    obtain ⟨v, v1, v2, v3, _⟩ := uhash16_final_frame _ _ _ _ g2
    refine ⟨u0, k, h1, h2, h3, g1, ?_, ?_⟩
    · rw [g3, v1]
      exact (uhash16_SameKeys_trans (uhash16_SameKeys_trans ⟨rfl, rfl, rfl, rfl⟩ v2) h5)
    · rw [g3, v1]
      exact v3.trans h6
  | reset u _ ih =>
    obtain ⟨u0, k, h1, h2, h3, h4, h5, h6⟩ := ih
    exact ⟨u0, k, h1, h2, h3, h4, uhash16_SameKeys_trans ⟨rfl, rfl, rfl, rfl⟩ h5, h6⟩

/-- After `Reset`, a reachable instance is equivalent to the fresh one. -/
theorem UMAC16_reset_equiv_fresh (key : List Nat) (u u0 : UMAC16) (h : UMAC16.Reachable key u)
    (h0 : New16 key = some u0) : ∃ k, UMAC16.Equiv k u.Reset u0 := by
  obtain ⟨u1, k, h1, h2, h3, h4, h5, h6⟩ := UMAC16_reachable_inv key u h
  rw [h0] at h1
  simp only [Option.some.injEq] at h1
  subst h1
  obtain ⟨m0, ⟨a1, a2, a3, a4, a5, a6⟩, hp⟩ := h3
  refine ⟨k, ⟨⟨h5.1, ?_, ?_, ?_, h6, a2, ?_⟩, h5.2.1, ?_, h5.2.2.1, h5.2.2.2, ?_⟩, h4, h2⟩
  · simp only [UMAC16.Reset, uhash16.reset, nhCtx16.reset]
    rw [a4]; rfl
  · simp only [UMAC16.Reset, uhash16.reset, nhCtx16.reset]
    rw [a3]; rfl
  · simp only [UMAC16.Reset, uhash16.reset, nhCtx16.reset]
    rw [a6, a3]
    simp [nhState16, nhSum]
  · simp only [UMAC16.Reset, uhash16.reset, nhCtx16.reset, List.take_zero]
  · simp only [UMAC16.Reset, uhash16.reset]
    rw [hp]
  · simp only [UMAC16.Reset, uhash16.reset]
    rw [m0]; rfl

/-- The tag of a run of `Write` calls and `Sum` on an instance that has hashed
nothing, in closed form. -/
theorem UMAC16_tagOf_hashed (u : UMAC16) (k : Block) (ps : List (List Nat)) (b : List Nat)
    (hh : u.hash.Hashed []) (hr : u.Ready k) (h32 : ps.flatten.length < 2 ^ 32)
    (hb : 8 ≤ b.length) (hik : 16 ≤ u.hash.ipKeys.length) :
    u.tagOf ps b = some (xorTag (uhashRef16 u.hash ps.flatten) (pad16 k b)) := by
  obtain ⟨u1, e1, e2, e3, e4, e5⟩ := UMAC16_writeAll_hashed ps u [] hh
    (by simpa using h32)
  have hr1 : u1.Ready k := by
    unfold UMAC16.Ready
    rw [e4, e5]; exact hr
  obtain ⟨u2, f1, _⟩ := UMAC16_sum_hashed u1 k _ b e2 hr1 hb (by rw [e3.2.2.1]; exact hik)
  unfold UMAC16.tagOf
  rw [e1]
  simp only []
  rw [f1]
  simp only [List.nil_append]
  rw [uhashRef16_keys _ _ _ e3]

theorem tag16_eq (key : List Nat) (ps : List (List Nat)) (b : List Nat)
    (hk : key.length = 16 ∨ key.length = 24 ∨ key.length = 32)
    (h32 : ps.flatten.length < 2 ^ 32) (hb : 8 ≤ b.length) :
    ∃ u k, New16 key = some u ∧ u.Ready k ∧ u.hash.Hashed [] ∧
      tag16 key ps b = some (xorTag (uhashRef16 u.hash ps.flatten) (pad16 k b)) := by
  obtain ⟨u, k, h1, h2, h3⟩ := New16_ok key hk
  refine ⟨u, k, h1, h2, h3, ?_⟩
  rw [tag16, h1]
  exact UMAC16_tagOf_hashed u k ps b h3 h2 h32 hb (New16_ipKeys key u h1).ge

/-! ## Messages of 2^32 bytes and more: the 32-bit length counter wraps -/

/-- The NH loop panics when it is asked for more passes than the key has words for. -/
theorem nhAux8Loop_none (n : Nat) (kache k d : List Nat) (hp : Words2) (hn : 1 ≤ n)
    (hk : k.length < 8 * n + 4) : nhAux8Loop n kache k d hp = none := by
  induction n generalizing kache k d hp with
  | zero => omega
  | succ n ih =>
    rw [nhAux8Loop]
    split
    · rfl
    · rename_i hc
      simp only []
      exact ih _ _ _ _ (by omega) (by rw [List.length_drop]; omega)

/-- The NH loop panics when it is asked for more passes than the key has words for. -/
theorem nhAux16Loop_none (n : Nat) (k d : List Nat) (hp : Words4) (hn : 1 ≤ n)
    (hk : k.length < 8 * n + 12) : nhAux16Loop n k d hp = none := by
  induction n generalizing k d hp with
  | zero => omega
  | succ n ih =>
    rw [nhAux16Loop]
    split
    · rfl
    · rename_i hc
      simp only []
      exact ih _ _ _ (by omega) (by rw [List.length_drop]; omega)

/-- An empty NH context cannot take more than the 1024 bytes its key covers in one
`update`: the call panics. -/
theorem nhCtx8_update_none (c : nhCtx8) (buf : List Nat) (hk : c.key.length = 1040)
    (hj : c.nextEmpty = 0) (hh : c.hashed = 0) (hb : 1088 ≤ buf.length) :
    c.update buf = none := by
  have ht : c.transform (buf.take (buf.length - buf.length % 64)) = none := by
    rw [nhCtx8.transform, if_neg (by omega), nhAux8, if_neg (by
      rw [toUint32_length, List.length_drop]; omega)]
    rw [nhAux8Loop_none _ _ _ _ _ (by rw [List.length_take]; omega) (by
      rw [toUint32_length, List.length_drop, List.length_take]; omega)]
  unfold nhCtx8.update
  simp only []
  rw [if_pos (by omega), if_neg (by omega)]
  simp only []
  rw [if_pos (by omega), ht]

/-- An empty NH context cannot take more than the 1024 bytes its key covers in one
`update`: the call panics. -/
theorem nhCtx16_update_none (c : nhCtx16) (buf : List Nat) (hk : c.key.length = 1072)
    (hj : c.nextEmpty = 0) (hh : c.hashed = 0) (hb : 1088 ≤ buf.length) :
    c.update buf = none := by
  have ht : c.transform (buf.take (buf.length - buf.length % 64)) = none := by
    rw [nhCtx16.transform, if_neg (by omega), nhAux16]
    rw [nhAux16Loop_none _ _ _ _ (by rw [List.length_take]; omega) (by
      rw [toUint32_length, List.length_drop, List.length_take]; omega)]
  unfold nhCtx16.update
  simp only []
  rw [if_pos (by omega), if_neg (by omega)]
  simp only []
  rw [if_pos (by omega), ht]

/-- One `Write` of exactly 2^32 bytes on an instance that has hashed nothing panics:
the length truncated to 32 bits is 0, so the whole buffer goes to the NH context. -/
theorem UMAC8_write_wrap_none (u : UMAC8) (p : List Nat) (hh : u.hash.Hashed [])
    (hp : p.length = 2 ^ 32) : u.Write p = none := by
  obtain ⟨hm, ha⟩ := hh
  rw [if_pos (by simp)] at ha
  obtain ⟨⟨a1, a2, a3, a4, a5, a6⟩, _⟩ := ha
  have hu : u.hash.update p = none := by
    unfold uhash8.update
    simp only []
    rw [if_pos (by rw [hm, hp]; simp),
      nhCtx8_update_none _ _ a1 (by rw [a4]; rfl) (by rw [a3]; rfl) (by rw [hp]; norm_num)]
  rw [UMAC8.Write, hu]

/-- One `Write` of exactly 2^32 bytes on an instance that has hashed nothing panics:
the length truncated to 32 bits is 0, so the whole buffer goes to the NH context. -/
theorem UMAC16_write_wrap_none (u : UMAC16) (p : List Nat) (hh : u.hash.Hashed [])
    (hp : p.length = 2 ^ 32) : u.Write p = none := by
  obtain ⟨hm, ha⟩ := hh
  rw [if_pos (by simp)] at ha
  obtain ⟨⟨a1, a2, a3, a4, a5, a6⟩, _⟩ := ha
  have hu : u.hash.update p = none := by
    unfold uhash16.update
    simp only []
    rw [if_pos (by rw [hm, hp]; simp),
      nhCtx16_update_none _ _ a1 (by rw [a4]; rfl) (by rw [a3]; rfl) (by rw [hp]; norm_num)]
  rw [UMAC16.Write, hu]

/-- `final` on a state whose length counter is at most 1024 takes the short path:
it returns IP of the NH words of what the NH context absorbed. -/
theorem uhash8_final_short (u : uhash8) (m out : List Nat) (hl : u.msgLen ≤ 1024)
    (ha : u.nh.Absorbed m) (hm : m.length ≤ 1024) (ho : out.length = 8)
    (hik : 8 ≤ u.ipKeys.length) :
    ∃ u2, u.final out = some (u2,
      ipSlice u.ipKeys u.ipTrans.1 (nhRef 0 u.nh.key m)
        ++ ipSlice (u.ipKeys.drop 4) u.ipTrans.2 (nhRef 1 u.nh.key m)) := by
  obtain ⟨c2, h1, _, _⟩ := nhCtx8_final_absorbed u.nh m ha hm
  unfold uhash8.final
  simp only []
  rw [if_neg (by omega), h1]
  simp only []
  rw [uhash8_ipShort_eq _ _ _ ho (nhRef_lt _ _ _) (nhRef_lt _ _ _) (by exact hik)]
  exact ⟨_, rfl⟩

/-- A message of 2^32 bytes written as 2^32 - 1024 bytes and then 1024 bytes: the
second `Write` wraps the length counter to 0, and `Sum` returns a tag. -/
theorem UMAC8_split_wrap_some (u : UMAC8) (k : Block) (p1 p2 b : List Nat)
    (hh : u.hash.Hashed []) (hr : u.Ready k) (h1 : p1.length = 2 ^ 32 - 1024)
    (h2 : p2.length = 1024) (hb : 8 ≤ b.length) (hik : 8 ≤ u.hash.ipKeys.length) :
    ∃ t, u.tagOf [p1, p2] b = some t := by
  obtain ⟨u1, e1, e2, e3, e4, e5⟩ := UMAC8_write_hashed u [] p1 hh
    (by rw [h1]; simp)
  rw [List.nil_append] at e2
  obtain ⟨hm, ha⟩ := e2
  rw [if_neg (by rw [h1]; norm_num)] at ha
  have hd : p1.drop (p1.length / 1024 * 1024) = [] := by
    apply List.drop_of_length_le
    rw [h1]; norm_num
  rw [hd] at ha
  obtain ⟨c2, f1, f2, f3⟩ := nhCtx8_update_absorbed u1.hash.nh [] p2 ha.1
    (by rw [h2]; simp)
  rw [List.nil_append] at f2
  have hw : u1.hash.update p2
      = some { u1.hash with nh := c2, msgLen := (u1.hash.msgLen + p2.length % 2 ^ 32) % 2 ^ 32 } := by
    unfold uhash8.update
    simp only []
    rw [if_pos (by rw [hm, h1, h2]; norm_num), f1]
  have hz : (u1.hash.msgLen + p2.length % 2 ^ 32) % 2 ^ 32 = 0 := by
    rw [hm, h1, h2]; norm_num
  rw [hz] at hw
  obtain ⟨r1, r2, r3, r4, r5⟩ := hr
  have hfin : ∃ v o, uhash8.final { u1.hash with nh := c2, msgLen := 0 } u1.out = some (v, o) ∧
      o.length = 8 := by
    obtain ⟨v, hv⟩ := uhash8_final_short
      { u1.hash with nh := c2, msgLen := 0 } p2 u1.out (by simp) f2 (by omega)
      (by rw [e5]; exact r1) (by rw [e3.2.2.1]; exact hik)
    exact ⟨v, _, hv, rfl⟩
  obtain ⟨v, o, hv, ho⟩ := hfin
  have hx := pdfCtx_genXor8_eq u1.pdf k (b.take 8) o (by rw [e4]; exact r2)
    (by rw [e4]; exact r3) (by rw [e4]; exact r4) (by rw [e4]; exact r5)
    (by rw [List.length_take]; omega) ho
  unfold UMAC8.tagOf
  simp only [UMAC8.writeAll]
  rw [e1]
  simp only []
  rw [UMAC8.Write, hw]
  simp only []
  rw [UMAC8.Sum, if_neg (by omega)]
  simp only []
  rw [hv]
  simp only []
  rw [hx]
  exact ⟨_, rfl⟩

/-- A message of 2^32 bytes split into 2^32 - 1024 bytes and 1024 bytes: the split
run returns a tag, the single `Write` panics. -/
theorem tag8_wrap_ne (key p1 p2 b : List Nat)
    (hk : key.length = 16 ∨ key.length = 24 ∨ key.length = 32)
    (h1 : p1.length = 2 ^ 32 - 1024) (h2 : p2.length = 1024) (hb : 8 ≤ b.length) :
    tag8 key [p1, p2] b ≠ tag8 key [p1 ++ p2] b := by
  obtain ⟨u, k, e1, e2, e3⟩ := New8_ok key hk
  obtain ⟨t, ht⟩ := UMAC8_split_wrap_some u k p1 p2 b e3 e2 h1 h2 hb
    (New8_ipKeys key u e1).ge
  have hn : u.Write (p1 ++ p2) = none :=
    UMAC8_write_wrap_none u _ e3 (by rw [List.length_append, h1, h2]; norm_num)
  have hL : tag8 key [p1, p2] b = some t := by
    rw [tag8, e1]
    exact ht
  have hR : tag8 key [p1 ++ p2] b = none := by
    rw [tag8, e1]
    show u.tagOf [p1 ++ p2] b = none
    rw [UMAC8.tagOf, UMAC8.writeAll, hn]
  rw [hL, hR]
  exact Option.some_ne_none t

/-- A single `Write` of 2^32 bytes on a fresh `UMAC16` panics, so no hash output
is ever produced for that message. -/
theorem UMAC16_writeAll_wrap_none (key p : List Nat) (u : UMAC16) (hn : New16 key = some u)
    (hp : p.length = 2 ^ 32) : u.writeAll [p] = none := by
  obtain ⟨v, k, e1, e2, e3⟩ := New16_ok key (New16_some_iff key u hn)
  rw [hn] at e1
  simp only [Option.some.injEq] at e1
  subst e1
  rw [UMAC16.writeAll, UMAC16_write_wrap_none u p e3 hp]

/-! ## Helpers for the instance-level claims -/

theorem xor_cancel_left (x a b : Nat) : (x ^^^ a) ^^^ (x ^^^ b) = a ^^^ b := by
  rw [Nat.xor_comm x a, Nat.xor_assoc, ← Nat.xor_assoc x x b, Nat.xor_self, Nat.zero_xor]

/-- XORing two pads onto the same string and XORing the results leaves the XOR of
the pads. -/
theorem xorTag_cancel (o a b : List Nat) (h1 : o.length = a.length)
    (h2 : o.length = b.length) : xorTag (xorTag o a) (xorTag o b) = xorTag a b := by
  induction o generalizing a b with
  | nil =>
    cases a with
    | nil => rfl
    | cons _ _ => simp at h1
  | cons x o ih =>
    cases a with
    | nil => simp at h1
    | cons y a =>
      cases b with
      | nil => simp at h2
      | cons z b =>
        simp only [List.length_cons, Nat.add_right_cancel_iff] at h1 h2
        have := ih a b h1 h2
        simp only [xorTag, List.zipWith_cons_cons] at this ⊢
        rw [this, xor_cancel_left]

theorem UMAC8_tagOf_some (u : UMAC8) (ps : List (List Nat)) (b t : List Nat)
    (h : u.tagOf ps b = some t) :
    ∃ u1 u2, u.writeAll ps = some u1 ∧ u1.Sum b = some (u2, t) := by
  unfold UMAC8.tagOf at h
  split at h
  · simp at h
  · rename_i u1 h1
    split at h
    · simp at h
    · rename_i u2 t2 h2
      simp only [Option.some.injEq] at h
      subst h
      exact ⟨u1, u2, h1, h2⟩

theorem UMAC8_writeAll_reachable (key : List Nat) (ps : List (List Nat)) (u u1 : UMAC8)
    (hr : UMAC8.Reachable key u) (h : u.writeAll ps = some u1) : UMAC8.Reachable key u1 := by
  induction ps generalizing u with
  | nil =>
    simp only [UMAC8.writeAll, Option.some.injEq] at h
    rw [← h]; exact hr
  | cons p ps ih =>
    rw [UMAC8.writeAll] at h
    split at h
    · simp at h
    · rename_i v n hv
      exact ih v (UMAC8.Reachable.write u v p n hr hv) h

/-- Whenever `Sum` returns, the hash state it leaves is a reset one. -/
theorem UMAC8_sum_resets (u u2 : UMAC8) (b tag : List Nat) (h : u.Sum b = some (u2, tag)) :
    ∃ v : uhash8, u2.hash = v.reset := by
  unfold UMAC8.Sum at h
  split at h
  · simp at h
  · split at h
    · simp at h
    · rename_i hu o hf
      split at h
      · simp at h
      · simp only [Option.some.injEq, Prod.mk.injEq] at h
        obtain ⟨v, hv, _⟩ := uhash8_final_frame _ _ _ _ hf
        rw [← h.1]
        exact ⟨v, hv⟩

/-- Two tags of the same message under two nonces differ by the XOR of the pads. -/
theorem UMAC8_tag_xor (key : List Nat) (u : UMAC8) (ps : List (List Nat))
    (A B tA tB : List Nat) (hn : New8 key = some u) (hA : u.tagOf ps A = some tA)
    (hB : u.tagOf ps B = some tB) :
    ∃ k, u.pdf.cip = some k ∧ xorTag tA tB = xorTag (pad8 k A) (pad8 k B) := by
  obtain ⟨u1, u2, w1, s1⟩ := UMAC8_tagOf_some u ps A tA hA
  obtain ⟨v1, v2, w2, s2⟩ := UMAC8_tagOf_some u ps B tB hB
  rw [w1] at w2
  simp only [Option.some.injEq] at w2
  subst w2
  have hr := UMAC8_writeAll_reachable key ps u u1 (UMAC8.Reachable.fresh u hn) w1
  obtain ⟨u0, k, g1, g2, g3, g4, g5, g6⟩ := UMAC8_reachable_inv key u1 hr
  rw [hn] at g1
  simp only [Option.some.injEq] at g1
  subst g1
  obtain ⟨_, _, hu, o, f1, f2, f3, _⟩ := UMAC8_sum_frame u1 u2 k A tA g4 s1
  obtain ⟨_, _, hu2, o2, f4, f5, f6, _⟩ := UMAC8_sum_frame u1 v2 k B tB g4 s2
  rw [f1] at f4
  simp only [Option.some.injEq, Prod.mk.injEq] at f4
  obtain ⟨_, f7⟩ := f4
  subst f7
  refine ⟨k, g2.2.1, ?_⟩
  rw [f3, f6]
  exact xorTag_cancel o _ _ (by rw [f2, pad8_length]) (by rw [f2, pad8_length])

theorem UMAC16_tagOf_some (u : UMAC16) (ps : List (List Nat)) (b t : List Nat)
    (h : u.tagOf ps b = some t) :
    ∃ u1 u2, u.writeAll ps = some u1 ∧ u1.Sum b = some (u2, t) := by
  unfold UMAC16.tagOf at h
  split at h
  · simp at h
  · rename_i u1 h1
    split at h
    · simp at h
    · rename_i u2 t2 h2
      simp only [Option.some.injEq] at h
      subst h
      exact ⟨u1, u2, h1, h2⟩

theorem UMAC16_writeAll_reachable (key : List Nat) (ps : List (List Nat)) (u u1 : UMAC16)
    (hr : UMAC16.Reachable key u) (h : u.writeAll ps = some u1) : UMAC16.Reachable key u1 := by
  induction ps generalizing u with
  | nil =>
    simp only [UMAC16.writeAll, Option.some.injEq] at h
    rw [← h]; exact hr
  | cons p ps ih =>
    rw [UMAC16.writeAll] at h
    split at h
    · simp at h
    · rename_i v n hv
      exact ih v (UMAC16.Reachable.write u v p n hr hv) h

/-- Whenever `Sum` returns, the hash state it leaves is a reset one. -/
theorem UMAC16_sum_resets (u u2 : UMAC16) (b tag : List Nat) (h : u.Sum b = some (u2, tag)) :
    ∃ v : uhash16, u2.hash = v.reset := by
  unfold UMAC16.Sum at h
  split at h
  · simp at h
  · split at h
    · simp at h
    · rename_i hu o hf
      split at h
      · simp at h
      · simp only [Option.some.injEq, Prod.mk.injEq] at h
        obtain ⟨v, hv, _⟩ := uhash16_final_frame _ _ _ _ hf
        rw [← h.1]
        exact ⟨v, hv⟩

/-- Two tags of the same message under two nonces differ by the XOR of the pads. -/
theorem UMAC16_tag_xor (key : List Nat) (u : UMAC16) (ps : List (List Nat))
    (A B tA tB : List Nat) (hn : New16 key = some u) (hA : u.tagOf ps A = some tA)
    (hB : u.tagOf ps B = some tB) :
    ∃ k, u.pdf.cip = some k ∧ xorTag tA tB = xorTag (pad16 k A) (pad16 k B) := by
  obtain ⟨u1, u2, w1, s1⟩ := UMAC16_tagOf_some u ps A tA hA
  obtain ⟨v1, v2, w2, s2⟩ := UMAC16_tagOf_some u ps B tB hB
  rw [w1] at w2
  simp only [Option.some.injEq] at w2
  subst w2
  have hr := UMAC16_writeAll_reachable key ps u u1 (UMAC16.Reachable.fresh u hn) w1
  obtain ⟨u0, k, g1, g2, g3, g4, g5, g6⟩ := UMAC16_reachable_inv key u1 hr
  rw [hn] at g1
  simp only [Option.some.injEq] at g1
  subst g1
  obtain ⟨_, _, hu, o, f1, f2, f3, _⟩ := UMAC16_sum_frame u1 u2 k A tA g4 s1
  obtain ⟨_, _, hu2, o2, f4, f5, f6, _⟩ := UMAC16_sum_frame u1 v2 k B tB g4 s2
  rw [f1] at f4
  simp only [Option.some.injEq, Prod.mk.injEq] at f4
  obtain ⟨_, f7⟩ := f4
  subst f7
  refine ⟨k, g2.2.1, ?_⟩
  rw [f3, f6]
  exact xorTag_cancel o _ _ (by rw [f2, pad16_length]) (by rw [f2, pad16_length])

/-! ## The keys a fresh instance holds, and long messages of equal chunks -/

/-- The hash keys and the PDF cipher of the instance `New8(key)` returns: the hash
state is `init` under the AES cipher of `key`, the PDF cipher is AES under the
sixteen bytes `kdf` derives with index 0. -/
theorem New8_keys (key : List Nat) (u : UMAC8) (h : New8 key = some u) :
    UMAC8.zero.hash.init (aesCipher key) = some u.hash ∧
    u.pdf.cip = some (aesCipher (kdf (aesCipher key) 0 (List.replicate 16 0))) := by
  have hk := New8_some_iff key u h
  unfold New8 at h
  rw [aesNewCipher, if_pos hk] at h
  simp only [] at h
  have hp : UMAC8.zero.pdf.init (aesCipher key)
      = some { cip := some (aesCipher (kdf (aesCipher key) 0 (List.replicate 16 0)))
               cache := copyAt (kdf (aesCipher key) 0 (List.replicate 16 0)) 0
                 ((aesCipher (kdf (aesCipher key) 0 (List.replicate 16 0))).encrypt
                   (List.replicate 16 0))
               nonce := List.replicate 16 0 } := by
    unfold pdfCtx.init
    simp only []
    have : UMAC8.zero.pdf.cache = List.replicate 16 0 := rfl
    rw [this, aesNewCipher, if_pos (Or.inl (by rw [kdf_length, List.length_replicate]))]
    rfl
  rw [hp] at h
  simp only [] at h
  split at h
  · simp at h
  · rename_i hh hi
    simp only [Option.some.injEq] at h
    subst h
    exact ⟨hi, rfl⟩

theorem l1Chunks_replicate (n k a : Nat) :
    l1Chunks n (List.replicate (1024 * (n + k)) a) = List.replicate n (List.replicate 1024 a) := by
  induction n generalizing k with
  | zero => rfl
  | succ n ih =>
    have e : 1024 * (n + 1 + k) = 1024 + 1024 * (n + k) := by ring
    rw [l1Chunks, e, List.replicate_add, List.take_left' (List.length_replicate _ _),
      List.drop_left' (List.length_replicate _ _), ih k]
    rfl

/-- The pieces of a message of `n` equal chunks. -/
theorem l1Pieces_replicate (N n a : Nat) (hN : N = 1024 * n) :
    l1Pieces (List.replicate N a) = List.replicate n (List.replicate 1024 a) := by
  subst hN
  have h1 : 1024 * n / 1024 = n := Nat.mul_div_cancel_left n (by norm_num)
  have h2 : 1024 * n % 1024 = 0 := Nat.mul_mod_right 1024 n
  rw [l1Pieces, List.length_replicate, h1, if_pos h2, List.append_nil]
  exact l1Chunks_replicate n 0 a

/-- The hash output of UMAC-64 for a message of `n >= 2` equal 1024-byte chunks. -/
theorem uhashRef8_replicate (u : uhash8) (N n a : Nat) (hN : N = 1024 * n) (hn : 2 ≤ n) :
    uhashRef8 u (List.replicate N a)
      = ipSlice u.ipKeys u.ipTrans.1
          (reduceP64 (polyFold u.polyKey.1 1
            (List.replicate n (nhRef 0 u.nh.key (List.replicate 1024 a)))))
        ++ ipSlice (u.ipKeys.drop 4) u.ipTrans.2
          (reduceP64 (polyFold u.polyKey.2 1
            (List.replicate n (nhRef 1 u.nh.key (List.replicate 1024 a))))) := by
  rw [uhashRef8, List.length_replicate, if_neg (by omega), l1Pieces_replicate N n a hN,
    List.map_replicate, List.map_replicate]

/-- The hash keys and the PDF cipher of the instance `New16(key)` returns: the hash
state is `init` under the AES cipher of `key`, the PDF cipher is AES under the
sixteen bytes `kdf` derives with index 0. -/
theorem New16_keys (key : List Nat) (u : UMAC16) (h : New16 key = some u) :
    UMAC16.zero.hash.init (aesCipher key) = some u.hash ∧
    u.pdf.cip = some (aesCipher (kdf (aesCipher key) 0 (List.replicate 16 0))) := by
  have hk := New16_some_iff key u h
  unfold New16 at h
  rw [aesNewCipher, if_pos hk] at h
  simp only [] at h
  have hp : UMAC16.zero.pdf.init (aesCipher key)
      = some { cip := some (aesCipher (kdf (aesCipher key) 0 (List.replicate 16 0)))
               cache := copyAt (kdf (aesCipher key) 0 (List.replicate 16 0)) 0
                 ((aesCipher (kdf (aesCipher key) 0 (List.replicate 16 0))).encrypt
                   (List.replicate 16 0))
               nonce := List.replicate 16 0 } := by
    unfold pdfCtx.init
    simp only []
    have : UMAC16.zero.pdf.cache = List.replicate 16 0 := rfl
    rw [this, aesNewCipher, if_pos (Or.inl (by rw [kdf_length, List.length_replicate]))]
    rfl
  rw [hp] at h
  simp only [] at h
  split at h
  · simp at h
  · rename_i hh hi
    simp only [Option.some.injEq] at h
    subst h
    exact ⟨hi, rfl⟩

/-- The hash output of UMAC-128 for a message of `n >= 2` equal 1024-byte chunks. -/
theorem uhashRef16_replicate (u : uhash16) (N n a : Nat) (hN : N = 1024 * n) (hn : 2 ≤ n) :
    uhashRef16 u (List.replicate N a)
      = ipSlice u.ipKeys u.ipTrans.1
          (reduceP64 (polyFold u.polyKey.1 1
            (List.replicate n (nhRef 0 u.nh.key (List.replicate 1024 a)))))
        ++ ipSlice (u.ipKeys.drop 4) u.ipTrans.2.1
          (reduceP64 (polyFold u.polyKey.2.1 1
            (List.replicate n (nhRef 1 u.nh.key (List.replicate 1024 a)))))
        ++ ipSlice (u.ipKeys.drop 8) u.ipTrans.2.2.1
          (reduceP64 (polyFold u.polyKey.2.2.1 1
            (List.replicate n (nhRef 2 u.nh.key (List.replicate 1024 a)))))
        ++ ipSlice (u.ipKeys.drop 12) u.ipTrans.2.2.2
          (reduceP64 (polyFold u.polyKey.2.2.2 1
            (List.replicate n (nhRef 3 u.nh.key (List.replicate 1024 a))))) := by
  rw [uhashRef16, List.length_replicate, if_neg (by omega), l1Pieces_replicate N n a hN,
    List.map_replicate, List.map_replicate, List.map_replicate, List.map_replicate]

/-! ## The test vectors of `TestUMAC` -/

/-- The packed substitution box holds the table: `SubBytes` of every byte value is
its entry in `aesSbox`. -/
theorem aesSubByte_table : ∀ x < 256, aesSubByte x = aesSbox.getD x 0 := by
  decide!

/-- FIPS-197, Appendix C: the example vectors of AES-128, AES-192 and AES-256. -/
theorem aesCipher_fips197 :
    (aesCipher (List.range 16)).encrypt ((List.range 16).map (fun i => 17 * i))
      = [0x69, 0xc4, 0xe0, 0xd8, 0x6a, 0x7b, 0x04, 0x30,
         0xd8, 0xcd, 0xb7, 0x80, 0x70, 0xb4, 0xc5, 0x5a] ∧
    (aesCipher (List.range 24)).encrypt ((List.range 16).map (fun i => 17 * i))
      = [0xdd, 0xa9, 0x7c, 0xa4, 0x86, 0x4c, 0xdf, 0xe0,
         0x6e, 0xaf, 0x70, 0xa0, 0xec, 0x0d, 0x71, 0x91] ∧
    (aesCipher (List.range 32)).encrypt ((List.range 16).map (fun i => 17 * i))
      = [0x8e, 0xa2, 0xb7, 0xca, 0x51, 0x67, 0x45, 0xbf,
         0xea, 0xfc, 0x49, 0x90, 0x4b, 0x49, 0x60, 0x89] := by
  decide!

/-- The key material `New16(testKey)` derives, as far as the test vectors use it. -/
theorem digest16_eq :
    (UMAC16.zero.hash.init (aesCipher testKey)).map digest16
      = some [[7431026726305985499, 12269466806085308461, 10944737762092173028,
                9068919350961811399],
              [3077977314220867343, 3837400857745939394, 1004545995823749795,
                6047056094095336020],
              [3056683627165545365, 3826808987160393848, 984674037932513502,
                6044362797230848221],
              [41861555900890872, 73024395472174706, 119139300438749692, 101887477655054784],
              [23172727720, 31559910958, 52297791645, 18916721532, 21554482510, 4947780351,
                13086464482, 20431212525, 65429383294, 9515291744, 32680519337, 26387751731,
                2314391662, 30419951356, 43549200301, 26722586287],
              [779744353, 2806776746, 3376659053, 556709579]] := by
  decide!

/-- The key material `New8(testKey)` derives, as far as the test vectors use it. -/
theorem digest8_eq :
    (UMAC8.zero.hash.init (aesCipher testKey)).map digest8
      = some [[7431026726305985499, 12269466806085308461],
              [3077977314220867343, 3837400857745939394],
              [3056683627165545365, 3826808987160393848],
              [41861555900890872, 73024395472174706],
              [23172727720, 31559910958, 52297791645, 18916721532, 21554482510, 4947780351,
                13086464482, 20431212525],
              [779744353, 2806776746]] := by
  decide!

/-- The pads of `testNonce` under the PDF key derived from `testKey`. -/
theorem testPad_eq :
    pad16 (aesCipher (kdf (aesCipher testKey) 0 (List.replicate 16 0))) testNonce
      = [242, 67, 254, 140, 188, 102, 74, 107, 184, 101, 115, 187, 223, 211, 12, 48] ∧
    pad8 (aesCipher (kdf (aesCipher testKey) 0 (List.replicate 16 0))) testNonce
      = [242, 67, 254, 140, 188, 102, 74, 107] := by
  decide!

/-- The instance `New16(testKey)` with the key material the test vectors use. -/
theorem test_keys16 :
    ∃ u k, New16 testKey = some u ∧ u.Ready k ∧ u.hash.Hashed [] ∧
      digest16 u.hash
        = [[7431026726305985499, 12269466806085308461, 10944737762092173028,
              9068919350961811399],
           [3077977314220867343, 3837400857745939394, 1004545995823749795,
              6047056094095336020],
           [3056683627165545365, 3826808987160393848, 984674037932513502,
              6044362797230848221],
           [41861555900890872, 73024395472174706, 119139300438749692, 101887477655054784],
           [23172727720, 31559910958, 52297791645, 18916721532, 21554482510, 4947780351,
              13086464482, 20431212525, 65429383294, 9515291744, 32680519337, 26387751731,
              2314391662, 30419951356, 43549200301, 26722586287],
           [779744353, 2806776746, 3376659053, 556709579]] ∧
      pad16 k testNonce
        = [242, 67, 254, 140, 188, 102, 74, 107, 184, 101, 115, 187, 223, 211, 12, 48] := by
  obtain ⟨u, k, hn, hr, hh⟩ := New16_ok testKey (Or.inl rfl)
  obtain ⟨hi, hc⟩ := New16_keys testKey u hn
  have hd := digest16_eq
  rw [hi, Option.map_some', Option.some.injEq] at hd
  have hk := hr.2.1.symm.trans hc
  rw [Option.some.injEq] at hk
  refine ⟨u, k, hn, hr, hh, hd, ?_⟩
  rw [hk]
  exact testPad_eq.1

/-- The instance `New8(testKey)` with the key material the test vectors use. -/
theorem test_keys8 :
    ∃ u k, New8 testKey = some u ∧ u.Ready k ∧ u.hash.Hashed [] ∧
      digest8 u.hash
        = [[7431026726305985499, 12269466806085308461],
           [3077977314220867343, 3837400857745939394],
           [3056683627165545365, 3826808987160393848],
           [41861555900890872, 73024395472174706],
           [23172727720, 31559910958, 52297791645, 18916721532, 21554482510, 4947780351,
              13086464482, 20431212525],
           [779744353, 2806776746]] ∧
      pad8 k testNonce = [242, 67, 254, 140, 188, 102, 74, 107] := by
  obtain ⟨u, k, hn, hr, hh⟩ := New8_ok testKey (Or.inl rfl)
  obtain ⟨hi, hc⟩ := New8_keys testKey u hn
  have hd := digest8_eq
  rw [hi, Option.map_some', Option.some.injEq] at hd
  have hk := hr.2.1.symm.trans hc
  rw [Option.some.injEq] at hk
  refine ⟨u, k, hn, hr, hh, hd, ?_⟩
  rw [hk]
  exact testPad_eq.2

/-- The tag of one `Write` of `m` and `Sum(testNonce)` on the fresh instance of
`testKey`, from the hash output of `m`. -/
theorem test_tag16 (m tag : List Nat) (hm : m.length < 2 ^ 32)
    (h : ∀ u : uhash16,
      digest16 u
        = [[7431026726305985499, 12269466806085308461, 10944737762092173028,
              9068919350961811399],
           [3077977314220867343, 3837400857745939394, 1004545995823749795,
              6047056094095336020],
           [3056683627165545365, 3826808987160393848, 984674037932513502,
              6044362797230848221],
           [41861555900890872, 73024395472174706, 119139300438749692, 101887477655054784],
           [23172727720, 31559910958, 52297791645, 18916721532, 21554482510, 4947780351,
              13086464482, 20431212525, 65429383294, 9515291744, 32680519337, 26387751731,
              2314391662, 30419951356, 43549200301, 26722586287],
           [779744353, 2806776746, 3376659053, 556709579]] →
      xorTag (uhashRef16 u m)
          [242, 67, 254, 140, 188, 102, 74, 107, 184, 101, 115, 187, 223, 211, 12, 48] = tag) :
    tag16 testKey [m] testNonce = some tag := by
  obtain ⟨u, k, hn, hr, hh, hd, hp⟩ := test_keys16
  have e : [m].flatten = m := by simp
  have ht := UMAC16_tagOf_hashed u k [m] testNonce hh hr (by rw [e]; exact hm) (by decide)
    (New16_ipKeys _ u hn).ge
  rw [tag16, hn]
  simp only []
  rw [ht, e, hp, h u.hash hd]

/-- The tag of one `Write` of `m` and `Sum(testNonce)` on the fresh instance of
`testKey`, from the hash output of `m`. -/
theorem test_tag8 (m tag : List Nat) (hm : m.length < 2 ^ 32)
    (h : ∀ u : uhash8,
      digest8 u
        = [[7431026726305985499, 12269466806085308461],
           [3077977314220867343, 3837400857745939394],
           [3056683627165545365, 3826808987160393848],
           [41861555900890872, 73024395472174706],
           [23172727720, 31559910958, 52297791645, 18916721532, 21554482510, 4947780351,
              13086464482, 20431212525],
           [779744353, 2806776746]] →
      xorTag (uhashRef8 u m) [242, 67, 254, 140, 188, 102, 74, 107] = tag) :
    tag8 testKey [m] testNonce = some tag := by
  obtain ⟨u, k, hn, hr, hh, hd, hp⟩ := test_keys8
  have e : [m].flatten = m := by simp
  have ht := UMAC8_tagOf_hashed u k [m] testNonce hh hr (by rw [e]; exact hm) (by decide)
    (New8_ipKeys _ u hn).ge
  rw [tag8, hn]
  simp only []
  rw [ht, e, hp, h u.hash hd]

/-- The fields of a UMAC-64 hash state with the digest of `testKey`. -/
theorem digest8_fields (u : uhash8)
    (hd : digest8 u
        = [[7431026726305985499, 12269466806085308461],
           [3077977314220867343, 3837400857745939394],
           [3056683627165545365, 3826808987160393848],
           [41861555900890872, 73024395472174706],
           [23172727720, 31559910958, 52297791645, 18916721532, 21554482510, 4947780351,
              13086464482, 20431212525],
           [779744353, 2806776746]]) :
    nhRef 0 u.nh.key (List.replicate 1024 97) = 7431026726305985499 ∧
    nhRef 1 u.nh.key (List.replicate 1024 97) = 12269466806085308461 ∧
    nhRef 0 u.nh.key (List.replicate 3 97) = 3077977314220867343 ∧
    nhRef 1 u.nh.key (List.replicate 3 97) = 3837400857745939394 ∧
    nhRef 0 u.nh.key (List.replicate 0 97) = 3056683627165545365 ∧
    nhRef 1 u.nh.key (List.replicate 0 97) = 3826808987160393848 ∧
    u.polyKey.1 = 41861555900890872 ∧
    u.polyKey.2 = 73024395472174706 ∧
    u.ipKeys = [23172727720, 31559910958, 52297791645, 18916721532, 21554482510, 4947780351, 13086464482, 20431212525] ∧
    u.ipTrans.1 = 779744353 ∧
    u.ipTrans.2 = 2806776746 := by
  simp only [digest8, words2, nhRef8, List.cons.injEq, and_true] at hd
  obtain ⟨⟨a0, a1⟩, ⟨b0, b1⟩, ⟨c0, c1⟩, ⟨p0, p1⟩, hk, t0, t1⟩ := hd
  exact ⟨a0, a1, b0, b1, c0, c1, p0, p1, hk, t0, t1⟩

theorem test_vector8_0 :
    tag8 testKey [List.replicate 0 97] testNonce
      = some [0x4D, 0x61, 0xE4, 0xF5, 0xAA, 0xB9, 0x59, 0xC8] := by
  refine test_tag8 _ _ (by rw [List.length_replicate]; norm_num) fun u hd => ?_
  obtain ⟨a0, a1, b0, b1, c0, c1, p0, p1, hk, t0, t1⟩ := digest8_fields u hd
  rw [uhashRef8, if_pos ((List.length_replicate _ _).le.trans (by decide)), c0, c1, hk, t0, t1]
  decide!

theorem test_vector8_3 :
    tag8 testKey [List.replicate 3 97] testNonce
      = some [0x67, 0xC1, 0x70, 0x0C, 0xA3, 0x0B, 0x53, 0x2D] := by
  refine test_tag8 _ _ (by rw [List.length_replicate]; norm_num) fun u hd => ?_
  obtain ⟨a0, a1, b0, b1, c0, c1, p0, p1, hk, t0, t1⟩ := digest8_fields u hd
  rw [uhashRef8, if_pos ((List.length_replicate _ _).le.trans (by decide)), b0, b1, hk, t0, t1]
  decide!

theorem test_vector8_1024 :
    tag8 testKey [List.replicate 1024 97] testNonce
      = some [0x05, 0xCB, 0x94, 0x05, 0xEC, 0x38, 0xD9, 0xF0] := by
  refine test_tag8 _ _ (by rw [List.length_replicate]; norm_num) fun u hd => ?_
  obtain ⟨a0, a1, b0, b1, c0, c1, p0, p1, hk, t0, t1⟩ := digest8_fields u hd
  rw [uhashRef8, if_pos (List.length_replicate _ _).le, a0, a1, hk, t0, t1]
  decide!

theorem test_vector8_32768 :
    tag8 testKey [List.replicate 32768 97] testNonce
      = some [0x04, 0x8C, 0x54, 0x3C, 0xB7, 0x24, 0x43, 0xA4] := by
  refine test_tag8 _ _ (by rw [List.length_replicate]; norm_num) fun u hd => ?_
  obtain ⟨a0, a1, b0, b1, c0, c1, p0, p1, hk, t0, t1⟩ := digest8_fields u hd
  rw [uhashRef8_replicate u 32768 32 97 (by norm_num) (by norm_num), a0, a1, hk, p0, p1, t0, t1]
  decide!

/-- The fields of a UMAC-128 hash state with the digest of `testKey`. -/
theorem digest16_fields (u : uhash16)
    (hd : digest16 u
        = [[7431026726305985499, 12269466806085308461, 10944737762092173028,
              9068919350961811399],
           [3077977314220867343, 3837400857745939394, 1004545995823749795,
              6047056094095336020],
           [3056683627165545365, 3826808987160393848, 984674037932513502,
              6044362797230848221],
           [41861555900890872, 73024395472174706, 119139300438749692, 101887477655054784],
           [23172727720, 31559910958, 52297791645, 18916721532, 21554482510, 4947780351,
              13086464482, 20431212525, 65429383294, 9515291744, 32680519337, 26387751731,
              2314391662, 30419951356, 43549200301, 26722586287],
           [779744353, 2806776746, 3376659053, 556709579]]) :
    nhRef 0 u.nh.key (List.replicate 1024 97) = 7431026726305985499 ∧
    nhRef 1 u.nh.key (List.replicate 1024 97) = 12269466806085308461 ∧
    nhRef 2 u.nh.key (List.replicate 1024 97) = 10944737762092173028 ∧
    nhRef 3 u.nh.key (List.replicate 1024 97) = 9068919350961811399 ∧
    nhRef 0 u.nh.key (List.replicate 3 97) = 3077977314220867343 ∧
    nhRef 1 u.nh.key (List.replicate 3 97) = 3837400857745939394 ∧
    nhRef 2 u.nh.key (List.replicate 3 97) = 1004545995823749795 ∧
    nhRef 3 u.nh.key (List.replicate 3 97) = 6047056094095336020 ∧
    nhRef 0 u.nh.key (List.replicate 0 97) = 3056683627165545365 ∧
    nhRef 1 u.nh.key (List.replicate 0 97) = 3826808987160393848 ∧
    nhRef 2 u.nh.key (List.replicate 0 97) = 984674037932513502 ∧
    nhRef 3 u.nh.key (List.replicate 0 97) = 6044362797230848221 ∧
    u.polyKey.1 = 41861555900890872 ∧
    u.polyKey.2.1 = 73024395472174706 ∧
    u.polyKey.2.2.1 = 119139300438749692 ∧
    u.polyKey.2.2.2 = 101887477655054784 ∧
    u.ipKeys = [23172727720, 31559910958, 52297791645, 18916721532, 21554482510, 4947780351, 13086464482, 20431212525, 65429383294, 9515291744, 32680519337, 26387751731, 2314391662, 30419951356, 43549200301, 26722586287] ∧
    u.ipTrans.1 = 779744353 ∧
    u.ipTrans.2.1 = 2806776746 ∧
    u.ipTrans.2.2.1 = 3376659053 ∧
    u.ipTrans.2.2.2 = 556709579 := by
  simp only [digest16, words4, nhRef16, List.cons.injEq, and_true] at hd
  obtain ⟨⟨a0, a1, a2, a3⟩, ⟨b0, b1, b2, b3⟩, ⟨c0, c1, c2, c3⟩, ⟨p0, p1, p2, p3⟩, hk, t0, t1, t2, t3⟩ := hd
  exact ⟨a0, a1, a2, a3, b0, b1, b2, b3, c0, c1, c2, c3, p0, p1, p2, p3, hk, t0, t1, t2, t3⟩

theorem test_vector16_0 :
    tag16 testKey [List.replicate 0 97] testNonce
      = some [0x4D, 0x61, 0xE4, 0xF5, 0xAA, 0xB9, 0x59, 0xC8, 0xB8, 0x00, 0xA2, 0xBE, 0x54, 0x63, 0x02, 0xAD] := by
  refine test_tag16 _ _ (by rw [List.length_replicate]; norm_num) fun u hd => ?_
  obtain ⟨a0, a1, a2, a3, b0, b1, b2, b3, c0, c1, c2, c3, p0, p1, p2, p3, hk, t0, t1, t2, t3⟩ := digest16_fields u hd
  rw [uhashRef16, if_pos ((List.length_replicate _ _).le.trans (by decide)), c0, c1, c2, c3, hk, t0, t1, t2, t3]
  decide!

theorem test_vector16_3 :
    tag16 testKey [List.replicate 3 97] testNonce
      = some [0x67, 0xC1, 0x70, 0x0C, 0xA3, 0x0B, 0x53, 0x2D, 0xCD, 0x9B, 0x97, 0x06, 0x55, 0xB4, 0x7B, 0x45] := by
  refine test_tag16 _ _ (by rw [List.length_replicate]; norm_num) fun u hd => ?_
  obtain ⟨a0, a1, a2, a3, b0, b1, b2, b3, c0, c1, c2, c3, p0, p1, p2, p3, hk, t0, t1, t2, t3⟩ := digest16_fields u hd
  rw [uhashRef16, if_pos ((List.length_replicate _ _).le.trans (by decide)), b0, b1, b2, b3, hk, t0, t1, t2, t3]
  decide!

theorem test_vector16_1024 :
    tag16 testKey [List.replicate 1024 97] testNonce
      = some [0x05, 0xCB, 0x94, 0x05, 0xEC, 0x38, 0xD9, 0xF0, 0xB3, 0x56, 0xD9, 0xE6, 0xD5, 0xBC, 0x5D, 0x03] := by
  refine test_tag16 _ _ (by rw [List.length_replicate]; norm_num) fun u hd => ?_
  obtain ⟨a0, a1, a2, a3, b0, b1, b2, b3, c0, c1, c2, c3, p0, p1, p2, p3, hk, t0, t1, t2, t3⟩ := digest16_fields u hd
  rw [uhashRef16, if_pos (List.length_replicate _ _).le, a0, a1, a2, a3, hk, t0, t1, t2, t3]
  decide!

theorem test_vector16_32768 :
    tag16 testKey [List.replicate 32768 97] testNonce
      = some [0x04, 0x8C, 0x54, 0x3C, 0xB7, 0x24, 0x43, 0xA4, 0x60, 0x11, 0xA7, 0x64, 0x38, 0xBA, 0x2A, 0xF4] := by
  refine test_tag16 _ _ (by rw [List.length_replicate]; norm_num) fun u hd => ?_
  obtain ⟨a0, a1, a2, a3, b0, b1, b2, b3, c0, c1, c2, c3, p0, p1, p2, p3, hk, t0, t1, t2, t3⟩ := digest16_fields u hd
  rw [uhashRef16_replicate u 32768 32 97 (by norm_num) (by norm_num), a0, a1, a2, a3, hk, p0, p1, p2, p3, t0, t1, t2, t3]
  decide!

/-! ## The claims -/

/-- C1, amended to messages shorter than 2^32 bytes. Chunking invariance: for every
16-byte key, every 8-byte nonce `N` and every split `M1 ++ M2` of a message of
fewer than 2^32 bytes, a fresh instance given `Write(M1); Write(M2); Sum(N)`
returns a tag, and it is the tag a fresh instance returns for
`Write(M1 ++ M2); Sum(N)`; for `New8` and for `New16`, wherever the split falls. -/
theorem chunking_invariance (key N M1 M2 : List Nat) (hk : key.length = 16)
    (hN : N.length = 8) (hM : (M1 ++ M2).length < 2 ^ 32) :
    (∃ t, tag8 key [M1, M2] N = some t ∧ tag8 key [M1 ++ M2] N = some t) ∧
    (∃ t, tag16 key [M1, M2] N = some t ∧ tag16 key [M1 ++ M2] N = some t) := by
  have e1 : [M1, M2].flatten = M1 ++ M2 := by simp
  have e2 : [M1 ++ M2].flatten = M1 ++ M2 := by simp
  constructor
  · obtain ⟨u, k, h1, _, _, h4⟩ := tag8_eq key [M1, M2] N (Or.inl hk) (by rw [e1]; exact hM)
      (by omega)
    obtain ⟨v, j, g1, _, _, g4⟩ := tag8_eq key [M1 ++ M2] N (Or.inl hk)
      (by rw [e2]; exact hM) (by omega)
    rw [h1] at g1
    simp only [Option.some.injEq] at g1
    subst g1
    rw [e1] at h4
    rw [e2] at g4
    refine ⟨_, h4, ?_⟩
    rw [g4]
    have : pad8 j N = pad8 k N := by
      rename_i r1 _ r2 _
      have := r1.2.1.symm.trans r2.2.1
      simp only [Option.some.injEq] at this
      rw [this]
    rw [this]
  · obtain ⟨u, k, h1, _, _, h4⟩ := tag16_eq key [M1, M2] N (Or.inl hk) (by rw [e1]; exact hM)
      (by omega)
    obtain ⟨v, j, g1, _, _, g4⟩ := tag16_eq key [M1 ++ M2] N (Or.inl hk)
      (by rw [e2]; exact hM) (by omega)
    rw [h1] at g1
    simp only [Option.some.injEq] at g1
    subst g1
    rw [e1] at h4
    rw [e2] at g4
    refine ⟨_, h4, ?_⟩
    rw [g4]
    have : pad16 j N = pad16 k N := by
      rename_i r1 _ r2 _
      have := r1.2.1.symm.trans r2.2.1
      simp only [Option.some.injEq] at this
      rw [this]
    rw [this]

theorem chunking_invariance_witness :
    (∃ t, tag8 (List.replicate 16 0) [[97, 98, 99], [100, 101]] (List.replicate 8 0) = some t ∧
      tag8 (List.replicate 16 0) [[97, 98, 99] ++ [100, 101]] (List.replicate 8 0) = some t) ∧
    (∃ t, tag16 (List.replicate 16 0) [[97, 98, 99], [100, 101]] (List.replicate 8 0) = some t ∧
      tag16 (List.replicate 16 0) [[97, 98, 99] ++ [100, 101]] (List.replicate 8 0) = some t) :=
  chunking_invariance (List.replicate 16 0) (List.replicate 8 0) [97, 98, 99] [100, 101]
    (List.length_replicate _ _) (List.length_replicate _ _) (by norm_num)

/-- C1 as stated fails on a message of 2^32 bytes: written in one `Write` the call
panics (the 32-bit length is 0 and the NH context is handed the whole buffer),
written as 2^32 - 1024 bytes and then 1024 bytes `Sum` returns a tag. -/
theorem chunking_counterexample :
    tag8 (List.replicate 16 0) [List.replicate (2 ^ 32 - 1024) 0, List.replicate 1024 0]
        (List.replicate 8 0)
      ≠ tag8 (List.replicate 16 0) [List.replicate (2 ^ 32 - 1024) 0 ++ List.replicate 1024 0]
        (List.replicate 8 0) :=
  tag8_wrap_ne _ _ _ _ (Or.inl (List.length_replicate _ _)) (List.length_replicate _ _)
    (List.length_replicate _ _) (List.length_replicate 8 0).ge

/-- C2, amended to messages shorter than 2^32 bytes. Reference definition of the
hash layer: for every message `M` of fewer than 2^32 bytes fed by any sequence of
`Write` calls to a fresh instance, `final` returns `uhashRef8` (`uhashRef16`) of
`M`: for `|M| <= 1024` IP of the NH output of `M`, without the POLY keys or
accumulators; for `|M| > 1024` IP of the POLY accumulators, reduced into
`[0, p64)`, folded from 1 over the NH output of every complete 1024-byte chunk in
order and then of the last partial chunk when `|M|` is not a multiple of 1024. -/
theorem hash_layer_reference (key : List Nat) (ps : List (List Nat))
    (hk : key.length = 16 ∨ key.length = 24 ∨ key.length = 32)
    (hM : ps.flatten.length < 2 ^ 32) :
    (∃ u u1 h, New8 key = some u ∧ u.writeAll ps = some u1 ∧
      u1.hash.final u1.out = some (h, uhashRef8 u.hash ps.flatten)) ∧
    (∃ u u1 h, New16 key = some u ∧ u.writeAll ps = some u1 ∧
      u1.hash.final u1.out = some (h, uhashRef16 u.hash ps.flatten)) := by
  constructor
  · obtain ⟨u, k, h1, h2, h3⟩ := New8_ok key hk
    obtain ⟨u1, e1, e2, e3, e4, e5⟩ := UMAC8_writeAll_hashed ps u [] h3 (by simpa using hM)
    rw [List.nil_append] at e2
    obtain ⟨h, f1, _⟩ := uhash8_final_hashed u1.hash ps.flatten u1.out e2
      (by rw [e5]; exact h2.1) (by rw [e3.2.2.1]; exact (New8_ipKeys key u h1).ge)
    rw [uhashRef8_keys _ _ _ e3] at f1
    exact ⟨u, u1, h, h1, e1, f1⟩
  · obtain ⟨u, k, h1, h2, h3⟩ := New16_ok key hk
    obtain ⟨u1, e1, e2, e3, e4, e5⟩ := UMAC16_writeAll_hashed ps u [] h3 (by simpa using hM)
    rw [List.nil_append] at e2
    obtain ⟨h, f1, _⟩ := uhash16_final_hashed u1.hash ps.flatten u1.out e2
      (by rw [e5]; exact h2.1) (by rw [e3.2.2.1]; exact (New16_ipKeys key u h1).ge)
    rw [uhashRef16_keys _ _ _ e3] at f1
    exact ⟨u, u1, h, h1, e1, f1⟩

theorem hash_layer_reference_witness :
    (∃ u u1 h, New8 (List.replicate 16 0) = some u ∧
      u.writeAll [[97, 98, 99], [100, 101]] = some u1 ∧
      u1.hash.final u1.out
        = some (h, uhashRef8 u.hash [[97, 98, 99], [100, 101]].flatten)) ∧
    (∃ u u1 h, New16 (List.replicate 16 0) = some u ∧
      u.writeAll [[97, 98, 99], [100, 101]] = some u1 ∧
      u1.hash.final u1.out
        = some (h, uhashRef16 u.hash [[97, 98, 99], [100, 101]].flatten)) :=
  hash_layer_reference (List.replicate 16 0) [[97, 98, 99], [100, 101]]
    (Or.inl (List.length_replicate _ _)) (by norm_num)

/-- C2 as stated fails on a message of 2^32 bytes fed in one `Write`: `New16`
returns an instance and the `Write` panics, so the hash layer yields no output. -/
theorem hash_layer_counterexample :
    ∃ u, New16 (List.replicate 16 0) = some u ∧
      u.writeAll [List.replicate (2 ^ 32) 0] = none :=
  (New16_ok (List.replicate 16 0) (Or.inl (List.length_replicate _ _))).elim
    fun u hu => hu.elim fun _ h =>
      ⟨u, h.1, UMAC16_writeAll_wrap_none _ _ u h.1 (List.length_replicate _ _)⟩

/-- C3. Concrete end-to-end vectors: with key `"abcdefghijklmnop"`, nonce
`"abcdefgh"` and the message `'a'` repeated `L` times, `New16`, one `Write` and
`Sum` return `4D61E4F5AAB959C8B800A2BE546302AD` for `L = 0`,
`67C1700CA30B532DCD9B970655B47B45` for `L = 3`, `05CB9405EC38D9F0B356D9E6D5BC5D03`
for `L = 1024` and `048C543CB72443A46011A76438BA2AF4` for `L = 32768`, and `New8`
returns the first 8 bytes of each; the cipher is AES-128 as `aesCipher` models it. -/
theorem test_vectors :
    tag16 testKey [List.replicate 0 97] testNonce
      = some [0x4D, 0x61, 0xE4, 0xF5, 0xAA, 0xB9, 0x59, 0xC8,
               0xB8, 0x00, 0xA2, 0xBE, 0x54, 0x63, 0x02, 0xAD] ∧
    tag16 testKey [List.replicate 3 97] testNonce
      = some [0x67, 0xC1, 0x70, 0x0C, 0xA3, 0x0B, 0x53, 0x2D,
               0xCD, 0x9B, 0x97, 0x06, 0x55, 0xB4, 0x7B, 0x45] ∧
    tag16 testKey [List.replicate 1024 97] testNonce
      = some [0x05, 0xCB, 0x94, 0x05, 0xEC, 0x38, 0xD9, 0xF0,
               0xB3, 0x56, 0xD9, 0xE6, 0xD5, 0xBC, 0x5D, 0x03] ∧
    tag16 testKey [List.replicate 32768 97] testNonce
      = some [0x04, 0x8C, 0x54, 0x3C, 0xB7, 0x24, 0x43, 0xA4,
               0x60, 0x11, 0xA7, 0x64, 0x38, 0xBA, 0x2A, 0xF4] ∧
    tag8 testKey [List.replicate 0 97] testNonce
      = some [0x4D, 0x61, 0xE4, 0xF5, 0xAA, 0xB9, 0x59, 0xC8] ∧
    tag8 testKey [List.replicate 3 97] testNonce
      = some [0x67, 0xC1, 0x70, 0x0C, 0xA3, 0x0B, 0x53, 0x2D] ∧
    tag8 testKey [List.replicate 1024 97] testNonce
      = some [0x05, 0xCB, 0x94, 0x05, 0xEC, 0x38, 0xD9, 0xF0] ∧
    tag8 testKey [List.replicate 32768 97] testNonce
      = some [0x04, 0x8C, 0x54, 0x3C, 0xB7, 0x24, 0x43, 0xA4] :=
  ⟨test_vector16_0, test_vector16_3, test_vector16_1024, test_vector16_32768,
    test_vector8_0, test_vector8_3, test_vector8_1024, test_vector8_32768⟩

/-- C4. Reset equals fresh: for every state reachable from `New8(key)`
(`New16(key)`) by `Write`, `Sum` and `Reset` calls, after `Reset` every later run
of `Write` calls followed by `Sum(N)` has the outcome it has on the freshly
constructed instance with the same key, and for messages shorter than 2^32 bytes
with a nonce of at least 8 bytes that outcome is a tag. -/
theorem reset_equals_fresh (key : List Nat) (u8 f8 : UMAC8) (u16 f16 : UMAC16)
    (ps : List (List Nat)) (N : List Nat)
    (h8 : UMAC8.Reachable key u8) (hf8 : New8 key = some f8)
    (h16 : UMAC16.Reachable key u16) (hf16 : New16 key = some f16) :
    u8.Reset.tagOf ps N = f8.tagOf ps N ∧ u16.Reset.tagOf ps N = f16.tagOf ps N ∧
    (ps.flatten.length < 2 ^ 32 → 8 ≤ N.length →
      ∃ t8 t16, u8.Reset.tagOf ps N = some t8 ∧ u16.Reset.tagOf ps N = some t16) := by
  obtain ⟨k8, e8⟩ := UMAC8_reset_equiv_fresh key u8 f8 h8 hf8
  obtain ⟨k16, e16⟩ := UMAC16_reset_equiv_fresh key u16 f16 h16 hf16
  have a8 := UMAC8_tagOf_equiv k8 _ _ ps N e8
  have a16 := UMAC16_tagOf_equiv k16 _ _ ps N e16
  refine ⟨a8, a16, fun hM hN => ?_⟩
  obtain ⟨v8, j8, b1, b2, b3, b4⟩ := tag8_eq key ps N (New8_some_iff key f8 hf8) hM hN
  obtain ⟨v16, j16, c1, c2, c3, c4⟩ := tag16_eq key ps N (New16_some_iff key f16 hf16) hM hN
  rw [tag8, hf8] at b4
  rw [tag16, hf16] at c4
  exact ⟨_, _, a8.trans b4, a16.trans c4⟩

theorem reset_equals_fresh_witness :
    ∃ (f8 a8 u8 : UMAC8) (f16 a16 u16 : UMAC16) (s8 s16 : List Nat),
      New8 (List.replicate 16 0) = some f8 ∧ f8.Write [97, 98, 99] = some (a8, 3) ∧
      a8.Sum (List.replicate 8 0) = some (u8, s8) ∧
      New16 (List.replicate 16 0) = some f16 ∧ f16.Write [97, 98, 99] = some (a16, 3) ∧
      a16.Sum (List.replicate 8 0) = some (u16, s16) ∧
      u8.Reset.tagOf [[100]] (List.replicate 8 1) = f8.tagOf [[100]] (List.replicate 8 1) ∧
      u16.Reset.tagOf [[100]] (List.replicate 8 1) = f16.tagOf [[100]] (List.replicate 8 1) ∧
      ([[100]].flatten.length < 2 ^ 32 → 8 ≤ (List.replicate 8 1).length →
        ∃ t8 t16, u8.Reset.tagOf [[100]] (List.replicate 8 1) = some t8 ∧
          u16.Reset.tagOf [[100]] (List.replicate 8 1) = some t16) := by
  obtain ⟨f8, k8, n8, r8, i8⟩ := New8_ok (List.replicate 16 0)
    (Or.inl (List.length_replicate _ _))
  obtain ⟨a8, w8, x8, qa8, y8, z8⟩ := UMAC8_write_hashed f8 [] [97, 98, 99] i8 (by norm_num)
  obtain ⟨u8, s8, _⟩ := UMAC8_sum_hashed a8 k8 _ (List.replicate 8 0) x8
    (by unfold UMAC8.Ready; rw [y8, z8]; exact r8) (by rw [List.length_replicate])
    (by rw [qa8.2.2.1]; exact (New8_ipKeys _ f8 n8).ge)
  obtain ⟨f16, k16, n16, r16, i16⟩ := New16_ok (List.replicate 16 0)
    (Or.inl (List.length_replicate _ _))
  obtain ⟨a16, w16, x16, qa16, y16, z16⟩ := UMAC16_write_hashed f16 [] [97, 98, 99] i16
    (by norm_num)
  obtain ⟨u16, s16, _⟩ := UMAC16_sum_hashed a16 k16 _ (List.replicate 8 0) x16
    (by unfold UMAC16.Ready; rw [y16, z16]; exact r16) (by rw [List.length_replicate])
    (by rw [qa16.2.2.1]; exact (New16_ipKeys _ f16 n16).ge)
  exact ⟨f8, a8, u8, f16, a16, u16, _, _, n8, w8, s8, n16, w16, s16,
    reset_equals_fresh (List.replicate 16 0) u8 f8 u16 f16 [[100]] (List.replicate 8 1)
      (UMAC8.Reachable.sum a8 u8 _ _
        (UMAC8.Reachable.write f8 a8 _ _ (UMAC8.Reachable.fresh f8 n8) w8) s8) n8
      (UMAC16.Reachable.sum a16 u16 _ _
        (UMAC16.Reachable.write f16 a16 _ _ (UMAC16.Reachable.fresh f16 n16) w16) s16) n16⟩

/-- C5. Nonce independence of hashing: for every 16-byte key, every message and
every two 8-byte nonces `A` and `B`, whenever the two tags are returned,
`tag_A XOR tag_B = pad(A) XOR pad(B)`, where `pad` is what the PDF of the instance
XORs onto the hash output (`genXor8`, `genXor16`); the tags are returned for every
message shorter than 2^32 bytes. For both tag widths. -/
theorem nonce_independence (key : List Nat) (ps : List (List Nat)) (A B : List Nat)
    (hk : key.length = 16) (hA : A.length = 8) (hB : B.length = 8) :
    (∃ u k, New8 key = some u ∧ u.pdf.cip = some k ∧
      (∀ N o : List Nat, N.length = 8 → o.length = 8 →
        ∃ c, u.pdf.genXor8 N o = some (c, xorTag o (pad8 k N))) ∧
      (∀ tA tB, tag8 key ps A = some tA → tag8 key ps B = some tB →
        xorTag tA tB = xorTag (pad8 k A) (pad8 k B)) ∧
      (ps.flatten.length < 2 ^ 32 →
        ∃ tA tB, tag8 key ps A = some tA ∧ tag8 key ps B = some tB)) ∧
    (∃ u k, New16 key = some u ∧ u.pdf.cip = some k ∧
      (∀ N o : List Nat, N.length = 8 → o.length = 16 →
        ∃ c, u.pdf.genXor16 N o = some (c, xorTag o (pad16 k N))) ∧
      (∀ tA tB, tag16 key ps A = some tA → tag16 key ps B = some tB →
        xorTag tA tB = xorTag (pad16 k A) (pad16 k B)) ∧
      (ps.flatten.length < 2 ^ 32 →
        ∃ tA tB, tag16 key ps A = some tA ∧ tag16 key ps B = some tB)) := by
  constructor
  · obtain ⟨u, k, h1, h2, h3⟩ := New8_ok key (Or.inl hk)
    refine ⟨u, k, h1, h2.2.1, fun N o hN ho => ?_, fun tA tB eA eB => ?_, fun hM => ?_⟩
    · exact ⟨_, pdfCtx_genXor8_eq u.pdf k N o h2.2.1 h2.2.2.1 h2.2.2.2.1 h2.2.2.2.2 hN ho⟩
    · rw [tag8, h1] at eA eB
      obtain ⟨j, g1, g2⟩ := UMAC8_tag_xor key u ps A B tA tB h1 eA eB
      rw [h2.2.1] at g1
      simp only [Option.some.injEq] at g1
      rw [g1]; exact g2
    · obtain ⟨_, _, _, _, _, b4⟩ := tag8_eq key ps A (Or.inl hk) hM (by omega)
      obtain ⟨_, _, _, _, _, c4⟩ := tag8_eq key ps B (Or.inl hk) hM (by omega)
      exact ⟨_, _, b4, c4⟩
  · obtain ⟨u, k, h1, h2, h3⟩ := New16_ok key (Or.inl hk)
    refine ⟨u, k, h1, h2.2.1, fun N o hN ho => ?_, fun tA tB eA eB => ?_, fun hM => ?_⟩
    · exact ⟨_, pdfCtx_genXor16_eq u.pdf k N o h2.2.1 h2.2.2.1 h2.2.2.2.1 h2.2.2.2.2 hN ho⟩
    · rw [tag16, h1] at eA eB
      obtain ⟨j, g1, g2⟩ := UMAC16_tag_xor key u ps A B tA tB h1 eA eB
      rw [h2.2.1] at g1
      simp only [Option.some.injEq] at g1
      rw [g1]; exact g2
    · obtain ⟨_, _, _, _, _, b4⟩ := tag16_eq key ps A (Or.inl hk) hM (by omega)
      obtain ⟨_, _, _, _, _, c4⟩ := tag16_eq key ps B (Or.inl hk) hM (by omega)
      exact ⟨_, _, b4, c4⟩

theorem nonce_independence_witness :
    (∃ u k, New8 (List.replicate 16 0) = some u ∧ u.pdf.cip = some k ∧
      (∀ N o : List Nat, N.length = 8 → o.length = 8 →
        ∃ c, u.pdf.genXor8 N o = some (c, xorTag o (pad8 k N))) ∧
      (∀ tA tB, tag8 (List.replicate 16 0) [[97, 98, 99]] (List.replicate 8 0) = some tA →
        tag8 (List.replicate 16 0) [[97, 98, 99]] (List.replicate 8 1) = some tB →
        xorTag tA tB = xorTag (pad8 k (List.replicate 8 0)) (pad8 k (List.replicate 8 1))) ∧
      ([[97, 98, 99]].flatten.length < 2 ^ 32 →
        ∃ tA tB, tag8 (List.replicate 16 0) [[97, 98, 99]] (List.replicate 8 0) = some tA ∧
          tag8 (List.replicate 16 0) [[97, 98, 99]] (List.replicate 8 1) = some tB)) ∧
    (∃ u k, New16 (List.replicate 16 0) = some u ∧ u.pdf.cip = some k ∧
      (∀ N o : List Nat, N.length = 8 → o.length = 16 →
        ∃ c, u.pdf.genXor16 N o = some (c, xorTag o (pad16 k N))) ∧
      (∀ tA tB, tag16 (List.replicate 16 0) [[97, 98, 99]] (List.replicate 8 0) = some tA →
        tag16 (List.replicate 16 0) [[97, 98, 99]] (List.replicate 8 1) = some tB →
        xorTag tA tB = xorTag (pad16 k (List.replicate 8 0)) (pad16 k (List.replicate 8 1))) ∧
      ([[97, 98, 99]].flatten.length < 2 ^ 32 →
        ∃ tA tB, tag16 (List.replicate 16 0) [[97, 98, 99]] (List.replicate 8 0) = some tA ∧
          tag16 (List.replicate 16 0) [[97, 98, 99]] (List.replicate 8 1) = some tB)) :=
  nonce_independence (List.replicate 16 0) [[97, 98, 99]] (List.replicate 8 0)
    (List.replicate 8 1) (List.length_replicate _ _) (List.length_replicate _ _)
    (List.length_replicate _ _)

/-- C6, amended: `Sum` does reset the hash state. Whenever `Sum(nonce)` returns,
on a `UMAC8` or a `UMAC16` in any state, it leaves the message-length counter at
0, the NH context empty with zero accumulators and the POLY accumulators at 1, the
values `Reset` gives them; the next `Write` starts a new message. -/
theorem sum_resets_hash (u u2 : UMAC8) (v v2 : UMAC16) (b c t s : List Nat)
    (hu : u.Sum b = some (u2, t)) (hv : v.Sum c = some (v2, s)) :
    (u2.hash.msgLen = 0 ∧ u2.hash.nh.nextEmpty = 0 ∧ u2.hash.nh.hashed = 0 ∧
      u2.hash.nh.state = (0, 0) ∧ u2.hash.polyResult = (1, 1) ∧ u2.Reset = u2) ∧
    (v2.hash.msgLen = 0 ∧ v2.hash.nh.nextEmpty = 0 ∧ v2.hash.nh.hashed = 0 ∧
      v2.hash.nh.state = (0, 0, 0, 0) ∧ v2.hash.polyResult = (1, 1, 1, 1) ∧ v2.Reset = v2) := by
  obtain ⟨x, hx⟩ := UMAC8_sum_resets u u2 b t hu
  obtain ⟨y, hy⟩ := UMAC16_sum_resets v v2 c s hv
  obtain ⟨p8, h8, o8⟩ := u2
  obtain ⟨p16, h16, o16⟩ := v2
  simp only at hx hy
  subst hx hy
  exact ⟨⟨rfl, rfl, rfl, rfl, rfl, rfl⟩, ⟨rfl, rfl, rfl, rfl, rfl, rfl⟩⟩

theorem sum_resets_hash_witness :
    ∃ (f8 a8 u8 : UMAC8) (f16 a16 u16 : UMAC16) (s8 s16 : List Nat),
      New8 (List.replicate 16 0) = some f8 ∧ f8.Write [97, 98, 99] = some (a8, 3) ∧
      New16 (List.replicate 16 0) = some f16 ∧ f16.Write [97, 98, 99] = some (a16, 3) ∧
      a8.Sum (List.replicate 8 0) = some (u8, s8) ∧
      a16.Sum (List.replicate 8 0) = some (u16, s16) ∧
      (u8.hash.msgLen = 0 ∧ u8.hash.nh.nextEmpty = 0 ∧ u8.hash.nh.hashed = 0 ∧
        u8.hash.nh.state = (0, 0) ∧ u8.hash.polyResult = (1, 1) ∧ u8.Reset = u8) ∧
      (u16.hash.msgLen = 0 ∧ u16.hash.nh.nextEmpty = 0 ∧ u16.hash.nh.hashed = 0 ∧
        u16.hash.nh.state = (0, 0, 0, 0) ∧ u16.hash.polyResult = (1, 1, 1, 1) ∧
        u16.Reset = u16) := by
  obtain ⟨f8, k8, n8, r8, i8⟩ := New8_ok (List.replicate 16 0)
    (Or.inl (List.length_replicate _ _))
  obtain ⟨a8, w8, x8, qa8, y8, z8⟩ := UMAC8_write_hashed f8 [] [97, 98, 99] i8 (by norm_num)
  obtain ⟨u8, s8, _⟩ := UMAC8_sum_hashed a8 k8 _ (List.replicate 8 0) x8
    (by unfold UMAC8.Ready; rw [y8, z8]; exact r8) (by rw [List.length_replicate])
    (by rw [qa8.2.2.1]; exact (New8_ipKeys _ f8 n8).ge)
  obtain ⟨f16, k16, n16, r16, i16⟩ := New16_ok (List.replicate 16 0)
    (Or.inl (List.length_replicate _ _))
  obtain ⟨a16, w16, x16, qa16, y16, z16⟩ := UMAC16_write_hashed f16 [] [97, 98, 99] i16
    (by norm_num)
  obtain ⟨u16, s16, _⟩ := UMAC16_sum_hashed a16 k16 _ (List.replicate 8 0) x16
    (by unfold UMAC16.Ready; rw [y16, z16]; exact r16) (by rw [List.length_replicate])
    (by rw [qa16.2.2.1]; exact (New16_ipKeys _ f16 n16).ge)
  have := sum_resets_hash a8 u8 a16 u16 _ _ _ _ s8 s16
  exact ⟨f8, a8, u8, f16, a16, u16, _, _, n8, w8, n16, w16, s8, s16, this.1, this.2⟩

/-- C6 as stated fails: on a fresh `UMAC8` that was written three bytes, the
message-length counter and the NH fill level are 3 before `Sum` and 0 after it. -/
theorem sum_resets_counterexample :
    ∃ (f a u : UMAC8) (t : List Nat),
      New8 (List.replicate 16 0) = some f ∧ f.Write [97, 98, 99] = some (a, 3) ∧
      a.Sum (List.replicate 8 0) = some (u, t) ∧
      a.hash.msgLen = 3 ∧ a.hash.nh.nextEmpty = 3 ∧
      u.hash.msgLen = 0 ∧ u.hash.nh.nextEmpty = 0 := by
  obtain ⟨f, k, n, r, i⟩ := New8_ok (List.replicate 16 0) (Or.inl (List.length_replicate _ _))
  obtain ⟨a, w, x, qa, y, z⟩ := UMAC8_write_hashed f [] [97, 98, 99] i (by norm_num)
  obtain ⟨u, s, h, _⟩ := UMAC8_sum_hashed a k _ (List.replicate 8 0) x
    (by unfold UMAC8.Ready; rw [y, z]; exact r) (by rw [List.length_replicate])
    (by rw [qa.2.2.1]; exact (New8_ipKeys _ f n).ge)
  refine ⟨f, a, u, _, n, w, s, x.1, ?_, h.1, ?_⟩
  · have := x.2
    rw [if_pos (by norm_num)] at this
    exact this.1.2.2.2.1
  · have := h.2
    rw [if_pos (by norm_num)] at this
    exact this.1.2.2.2.1

/-- C7, amended: the key check is the one of `aes.NewCipher`. `New8(key)` and
`New16(key)` panic and return no instance exactly when the key is not 16, 24 or
32 bytes long; for every key of one of these lengths they return an instance. -/
theorem key_length_check (key : List Nat) :
    (New8 key = none ↔ ¬ (key.length = 16 ∨ key.length = 24 ∨ key.length = 32)) ∧
    (New16 key = none ↔ ¬ (key.length = 16 ∨ key.length = 24 ∨ key.length = 32)) ∧
    (key.length = 16 → (∃ u, New8 key = some u) ∧ ∃ v, New16 key = some v) := by
  refine ⟨⟨fun h hk => ?_, New8_none key⟩, ⟨fun h hk => ?_, New16_none key⟩, fun hk => ?_⟩
  · obtain ⟨u, _, hu, _⟩ := New8_ok key hk
    rw [h] at hu
    simp at hu
  · obtain ⟨u, _, hu, _⟩ := New16_ok key hk
    rw [h] at hu
    simp at hu
  · obtain ⟨u, _, hu, _⟩ := New8_ok key (Or.inl hk)
    obtain ⟨v, _, hv, _⟩ := New16_ok key (Or.inl hk)
    exact ⟨⟨u, hu⟩, ⟨v, hv⟩⟩

/-- C7 as stated fails on a 24-byte key: `New8` and `New16` return an instance. -/
theorem key_length_counterexample :
    (∃ u, New8 (List.replicate 24 0) = some u) ∧ ∃ v, New16 (List.replicate 24 0) = some v :=
  ⟨(New8_ok (List.replicate 24 0) (Or.inr (Or.inl (List.length_replicate _ _)))).elim
      fun u h => h.elim fun _ h => ⟨u, h.1⟩,
    (New16_ok (List.replicate 24 0) (Or.inr (Or.inl (List.length_replicate _ _)))).elim
      fun v h => h.elim fun _ h => ⟨v, h.1⟩⟩

/-- `Sum` is `SumOutcome` with the receiver of a panic dropped. -/
theorem UMAC8_sumOutcome_toOption (u : UMAC8) (b : List Nat) :
    (u.SumOutcome b).toOption = u.Sum b := by
  unfold UMAC8.SumOutcome UMAC8.Sum
  split
  · rfl
  · cases u.hash.final u.out with
    | none => rfl
    | some q =>
      obtain ⟨h, out⟩ := q
      simp only []
      cases u.pdf.genXor8 (b.take 8) out with
      | none => rfl
      | some r => rfl

/-- `Sum` is `SumOutcome` with the receiver of a panic dropped. -/
theorem UMAC16_sumOutcome_toOption (u : UMAC16) (b : List Nat) :
    (u.SumOutcome b).toOption = u.Sum b := by
  unfold UMAC16.SumOutcome UMAC16.Sum
  split
  · rfl
  · cases u.hash.final u.out with
    | none => rfl
    | some q =>
      obtain ⟨h, out⟩ := q
      simp only []
      cases u.pdf.genXor16 (b.take 8) out with
      | none => rfl
      | some r => rfl

/-- C8. Nonce length check: for every instance state and every nonce shorter than 8
bytes `Sum` panics, for `UMAC8` and for `UMAC16`, and it does so before finalizing
the hash, so the instance state is unchanged: the statement that panics is
statement 0 of the body, the bounds check `_ = b[7]`, which writes nothing, and the
receiver at the panic is the receiver of the call, whatever `final` would have done
to it. On every nonce `Sum` is this statement-by-statement run with the receiver of
a panic dropped; a call that reaches `final` and then panics ends at statement 2 or
3, not 0. -/
theorem nonce_length_check (u : UMAC8) (v : UMAC16) (b : List Nat) (hb : b.length < 8) :
    u.Sum b = none ∧ v.Sum b = none ∧
    u.SumOutcome b = Outcome.panic 0 u ∧ v.SumOutcome b = Outcome.panic 0 v ∧
    (∀ c, (u.SumOutcome c).toOption = u.Sum c) ∧
    (∀ c, (v.SumOutcome c).toOption = v.Sum c) ∧
    (∀ c n s, 8 ≤ c.length → u.SumOutcome c = Outcome.panic n s → n = 2 ∨ n = 3) ∧
    (∀ c n s, 8 ≤ c.length → v.SumOutcome c = Outcome.panic n s → n = 2 ∨ n = 3) := by
  refine ⟨?_, ?_, ?_, ?_, UMAC8_sumOutcome_toOption u, UMAC16_sumOutcome_toOption v, ?_, ?_⟩
  · rw [UMAC8.Sum, if_pos (by omega)]
  · rw [UMAC16.Sum, if_pos (by omega)]
  · rw [UMAC8.SumOutcome, if_pos (by omega)]
  · rw [UMAC16.SumOutcome, if_pos (by omega)]
  · intro c n s hc h
    rw [UMAC8.SumOutcome, if_neg (by omega)] at h
    split at h
    · simp only [Outcome.panic.injEq] at h
      exact Or.inl h.1.symm
    · split at h
      · simp only [Outcome.panic.injEq] at h
        exact Or.inr h.1.symm
      · simp at h
  · intro c n s hc h
    rw [UMAC16.SumOutcome, if_neg (by omega)] at h
    split at h
    · simp only [Outcome.panic.injEq] at h
      exact Or.inl h.1.symm
    · split at h
      · simp only [Outcome.panic.injEq] at h
        exact Or.inr h.1.symm
      · simp at h

theorem nonce_length_check_witness :
    UMAC8.zero.Sum [1, 2, 3, 4, 5, 6, 7] = none ∧ UMAC16.zero.Sum [1, 2, 3, 4, 5, 6, 7] = none ∧
    UMAC8.zero.SumOutcome [1, 2, 3, 4, 5, 6, 7] = Outcome.panic 0 UMAC8.zero ∧
    UMAC16.zero.SumOutcome [1, 2, 3, 4, 5, 6, 7] = Outcome.panic 0 UMAC16.zero ∧
    (∀ c, (UMAC8.zero.SumOutcome c).toOption = UMAC8.zero.Sum c) ∧
    (∀ c, (UMAC16.zero.SumOutcome c).toOption = UMAC16.zero.Sum c) ∧
    (∀ c n s, 8 ≤ c.length → UMAC8.zero.SumOutcome c = Outcome.panic n s → n = 2 ∨ n = 3) ∧
    (∀ c n s, 8 ≤ c.length → UMAC16.zero.SumOutcome c = Outcome.panic n s → n = 2 ∨ n = 3) :=
  nonce_length_check UMAC8.zero UMAC16.zero [1, 2, 3, 4, 5, 6, 7] (by decide)

/-- C9. POLY step correctness: for every 64-bit accumulator `A`, every key `K`
whose high and low 32-bit halves are both at most `0x01FFFFFF` and every input
`x < p64`, `poly64 A K x` is congruent to `A*K + x` modulo `p64 = 2^64 - 59`; the
intermediate `x` and the first value of `res` do not wrap 64 bits, and the result
differs from the exact value `res + xLo*2^32 + data` by one `p64` for each of the
at most two carries that the `+= 59` fixups compensate. -/
theorem poly64_step_correct (A K x : Nat) (hA : A < 2 ^ 64)
    (hKh : K / 2 ^ 32 ≤ 0x01FFFFFF) (hKl : K % 2 ^ 32 ≤ 0x01FFFFFF) (hx : x < p64) :
    poly64 A K x ≡ A * K + x [MOD p64] ∧
    poly64X A K < 2 ^ 64 ∧ poly64Res A K < 2 ^ 64 ∧
    ∃ c, c ≤ 2 ∧
      poly64 A K x + c * p64 = poly64Res A K + poly64X A K % 2 ^ 32 * 2 ^ 32 + x := by
  obtain ⟨h1, h2, h3, _⟩ := poly64_core A K x hA hKh hKl hx
  exact ⟨poly64_modEq A K x hA hKh hKl hx, by omega, by omega, h3⟩

theorem poly64_step_correct_witness :
    poly64 (2 ^ 64 - 1) 0x01FFFFFF01FFFFFF (p64 - 1)
      ≡ (2 ^ 64 - 1) * 0x01FFFFFF01FFFFFF + (p64 - 1) [MOD p64] ∧
    poly64X (2 ^ 64 - 1) 0x01FFFFFF01FFFFFF < 2 ^ 64 ∧
    poly64Res (2 ^ 64 - 1) 0x01FFFFFF01FFFFFF < 2 ^ 64 ∧
    ∃ c, c ≤ 2 ∧
      poly64 (2 ^ 64 - 1) 0x01FFFFFF01FFFFFF (p64 - 1) + c * p64
        = poly64Res (2 ^ 64 - 1) 0x01FFFFFF01FFFFFF
          + poly64X (2 ^ 64 - 1) 0x01FFFFFF01FFFFFF % 2 ^ 32 * 2 ^ 32 + (p64 - 1) :=
  poly64_step_correct (2 ^ 64 - 1) 0x01FFFFFF01FFFFFF (p64 - 1) (by norm_num) (by norm_num)
    (by norm_num) (by norm_num [p64])

/-- C10, amended: the escape feeds two POLY inputs, the marker `p64 - 1` and then
`x - 59`. For every 64-bit accumulator `A`, masked key `K` and 64-bit NH output `x`
whose high 32 bits equal `0xFFFFFFFF`, `polyHash` computes
`poly64(poly64(A, K, p64-1), K, x-59)`, which is congruent modulo `p64` to
`(A*K + (p64-1))*K + (x-59)`; with `K + 59` added it is congruent to `A*K*K + x`. -/
theorem polyHash_escape (A K x : Nat) (hA : A < 2 ^ 64)
    (hKh : K / 2 ^ 32 ≤ 0x01FFFFFF) (hKl : K % 2 ^ 32 ≤ 0x01FFFFFF) (hx : x < 2 ^ 64)
    (hhi : x / 2 ^ 32 % 2 ^ 32 = 0xFFFFFFFF) :
    polyHashStep A K x = poly64 (poly64 A K (p64 - 1)) K (x - 59) ∧
    polyHashStep A K x ≡ (A * K + (p64 - 1)) * K + (x - 59) [MOD p64] ∧
    polyHashStep A K x + K + 59 ≡ A * K * K + x [MOD p64] := by
  have hx59 : (x + 2 ^ 64 - 59) % 2 ^ 64 = x - 59 := by omega
  have e : polyHashStep A K x = poly64 (poly64 A K (p64 - 1)) K (x - 59) := by
    rw [polyHashStep, if_pos hhi, hx59]
  have hp : p64 = 2 ^ 64 - 59 := rfl
  have h1 := poly64_modEq A K (p64 - 1) hA hKh hKl (by rw [hp]; norm_num)
  have h2 := poly64_modEq (poly64 A K (p64 - 1)) K (x - 59) (poly64_lt _ _ _) hKh hKl
    (by rw [hp]; omega)
  have h3 : polyHashStep A K x ≡ (A * K + (p64 - 1)) * K + (x - 59) [MOD p64] := by
    rw [e]
    exact h2.trans ((h1.mul_right K).add_right _)
  refine ⟨e, h3, ?_⟩
  have h4 : (A * K + (p64 - 1)) * K + (x - 59) + K + 59 = A * K * K + x + p64 * K := by
    obtain ⟨y, hy⟩ : ∃ y, x = y + 59 := ⟨x - 59, by omega⟩
    obtain ⟨p, hpp⟩ : ∃ p, p64 = p + 1 := ⟨p64 - 1, by rw [hp]; norm_num⟩
    rw [hy, hpp]
    simp only [Nat.add_sub_cancel]
    ring
  have h5 : polyHashStep A K x + K + 59 ≡ A * K * K + x + p64 * K [MOD p64] := by
    rw [← h4]
    exact (h3.add_right K).add_right 59
  refine h5.trans ?_
  simp [Nat.ModEq]

theorem polyHash_escape_witness :
    polyHashStep 1 1 0xFFFFFFFF00000000
      = poly64 (poly64 1 1 (p64 - 1)) 1 (0xFFFFFFFF00000000 - 59) ∧
    polyHashStep 1 1 0xFFFFFFFF00000000
      ≡ (1 * 1 + (p64 - 1)) * 1 + (0xFFFFFFFF00000000 - 59) [MOD p64] ∧
    polyHashStep 1 1 0xFFFFFFFF00000000 + 1 + 59 ≡ 1 * 1 * 1 + 0xFFFFFFFF00000000 [MOD p64] :=
  polyHash_escape 1 1 0xFFFFFFFF00000000 (by norm_num) (by norm_num) (by norm_num)
    (by norm_num) (by norm_num)

/-- C10 as stated fails at `A = 1`, `K = 1`, `x = 0xFFFFFFFF00000000`: the two-step
update of `polyHash` is not congruent to `A*K + x` modulo `p64`. -/
theorem polyHash_escape_counterexample :
    polyHashStep 1 1 0xFFFFFFFF00000000
      = poly64 (poly64 1 1 (p64 - 1)) 1 (0xFFFFFFFF00000000 - 59) ∧
    ¬ (polyHashStep 1 1 0xFFFFFFFF00000000 ≡ 1 * 1 + 0xFFFFFFFF00000000 [MOD p64]) := by
  decide

/-! ## IP: the inner-product hash -/

theorem ipSum_lt (ks : List Nat) (x : Nat) (hk : ∀ i, i < 4 → ks.getD i 0 < p36) :
    ipSum ks x < 2 ^ 54 := by
  have h0 := hk 0 (by norm_num)
  have h1 := hk 1 (by norm_num)
  have h2 := hk 2 (by norm_num)
  have h3 := hk 3 (by norm_num)
  have hp : p36 = 2 ^ 36 - 5 := rfl
  have l0 := Nat.mod_lt (x / 2 ^ 48) (show 0 < 2 ^ 16 by norm_num)
  have l1 := Nat.mod_lt (x / 2 ^ 32) (show 0 < 2 ^ 16 by norm_num)
  have l2 := Nat.mod_lt (x / 2 ^ 16) (show 0 < 2 ^ 16 by norm_num)
  have l3 := Nat.mod_lt x (show 0 < 2 ^ 16 by norm_num)
  have m0 := Nat.mul_le_mul (Nat.le_of_lt h0) (Nat.le_of_lt l0)
  have m1 := Nat.mul_le_mul (Nat.le_of_lt h1) (Nat.le_of_lt l1)
  have m2 := Nat.mul_le_mul (Nat.le_of_lt h2) (Nat.le_of_lt l2)
  have m3 := Nat.mul_le_mul (Nat.le_of_lt h3) (Nat.le_of_lt l3)
  have e : p36 * 2 ^ 16 = 2 ^ 52 - 5 * 2 ^ 16 := by rw [hp]; norm_num
  rw [e] at m0 m1 m2 m3
  unfold ipSum
  omega

/-- The wrapping sum of the four steps of `ipAux` from 0 is the exact sum. -/
theorem ipAuxSteps_eq (ks : List Nat) (x : Nat) (hk : ∀ i, i < 4 → ks.getD i 0 < p36) :
    ipAuxSteps 0 ks x = ipSum ks x := by
  have hs := ipSum_lt ks x hk
  unfold ipSum at hs
  unfold ipAuxSteps ipSum
  simp only []
  generalize ks.getD 0 0 * (x / 2 ^ 48 % 2 ^ 16) = a at hs ⊢
  generalize ks.getD 1 0 * (x / 2 ^ 32 % 2 ^ 16) = b at hs ⊢
  generalize ks.getD 2 0 * (x / 2 ^ 16 % 2 ^ 16) = c at hs ⊢
  generalize ks.getD 3 0 * (x % 2 ^ 16) = d at hs ⊢
  omega

/-- On a slice of at least four keys below `p36`, `ipAux` from 0 returns the exact
sum. -/
theorem ipAux_eq (ks : List Nat) (x : Nat) (hlen : 4 ≤ ks.length)
    (hk : ∀ i, i < 4 → ks.getD i 0 < p36) : ipAux 0 ks x = some (ipSum ks x) := by
  rw [ipAux_some 0 ks x hlen, ipAuxSteps_eq ks x hk]

/-- `ipAux` panics exactly on a slice of fewer than four key words. -/
theorem ipAux_none_iff (t : Nat) (ks : List Nat) (x : Nat) :
    ipAux t ks x = none ↔ ks.length < 4 := by
  unfold ipAux
  split
  · rename_i h
    simp [h]
  · rename_i h
    simp only [reduceCtorEq, false_iff]
    exact h

/-- `ipReduceP36` reduces every sum below `2^54` modulo `p36` and keeps the low 32
bits. -/
theorem ipReduceP36_eq (s : Nat) (hs : s < 2 ^ 54) : ipReduceP36 s = s % p36 % 2 ^ 32 := by
  have hp : p36 = 2 ^ 36 - 5 := rfl
  have hd := Nat.div_add_mod s (2 ^ 36)
  have hr := Nat.mod_lt s (show 0 < 2 ^ 36 by norm_num)
  have hq : s / 2 ^ 36 < 2 ^ 18 := by omega
  unfold ipReduceP36
  simp only []
  generalize s / 2 ^ 36 = q at hd hq ⊢
  generalize s % 2 ^ 36 = r at hd hr ⊢
  have e1 : (r + 5 * q) % 2 ^ 64 = r + 5 * q := Nat.mod_eq_of_lt (by omega)
  simp only [e1]
  by_cases hc : r + 5 * q ≥ p36
  · rw [if_pos hc]
    have e2 : s = p36 * (q + 1) + (r + 5 * q - p36) := by rw [hp] at hc ⊢; omega
    have e3 : s % p36 = r + 5 * q - p36 := by
      rw [e2, Nat.mul_add_mod]
      exact Nat.mod_eq_of_lt (by rw [hp]; omega)
    rw [e3]
  · rw [if_neg hc]
    have e2 : s = p36 * q + (r + 5 * q) := by rw [hp]; omega
    have e3 : s % p36 = r + 5 * q := by
      rw [e2, Nat.mul_add_mod]
      exact Nat.mod_eq_of_lt (by omega)
    rw [e3]

/-- C11. IP hash correctness: for every 64-bit input `x` with 16-bit limbs
`x0..x3`, most significant first, and every slice of at least four IP keys, the
first four each below `p36 = 2^36 - 5`, `ipAux` returns the sum
`K0*x0 + K1*x1 + K2*x2 + K3*x3`, which does not overflow 64 bits (`ipAux` panics
exactly on a slice of fewer than four keys), and `ipReduceP36` of it is the low 32
bits of the sum modulo `p36`; the tag slice of a stream is this value XOR the
stream's `ipTrans` word in big-endian bytes, and `ipLong`, on a hash state holding
its eight (sixteen) IP keys, writes the slice of stream `j` at byte offset `4*j`
of `out`. -/
theorem ip_hash_correct (ks : List Nat) (x t : Nat) (u : uhash8) (v : uhash16)
    (o8 o16 : List Nat) (hlen : 4 ≤ ks.length) (hx : x < 2 ^ 64)
    (hk : ∀ i, i < 4 → ks.getD i 0 < p36)
    (h8 : o8.length = 8) (h16 : o16.length = 16)
    (hu : 8 ≤ u.ipKeys.length) (hv : 16 ≤ v.ipKeys.length) :
    x = (x / 2 ^ 48 % 2 ^ 16) * 2 ^ 48 + (x / 2 ^ 32 % 2 ^ 16) * 2 ^ 32
      + (x / 2 ^ 16 % 2 ^ 16) * 2 ^ 16 + x % 2 ^ 16 ∧
    ipSum ks x = ks.getD 0 0 * (x / 2 ^ 48 % 2 ^ 16) + ks.getD 1 0 * (x / 2 ^ 32 % 2 ^ 16)
      + ks.getD 2 0 * (x / 2 ^ 16 % 2 ^ 16) + ks.getD 3 0 * (x % 2 ^ 16) ∧
    ipSum ks x < 2 ^ 64 ∧ ipAux 0 ks x = some (ipSum ks x) ∧
    (∀ (s : Nat) (l : List Nat) (d : Nat), ipAux s l d = none ↔ l.length < 4) ∧
    (ipAux 0 ks x).map ipReduceP36 = some (ipSum ks x % p36 % 2 ^ 32) ∧
    ipSlice ks t x = bigEndianBytes32 ((ipSum ks x % p36 % 2 ^ 32) ^^^ t) ∧
    (∃ u2, u.ipLong o8
      = some (u2, ipSlice u.ipKeys u.ipTrans.1 u2.polyResult.1
          ++ ipSlice (u.ipKeys.drop 4) u.ipTrans.2 u2.polyResult.2)) ∧
    (∃ v2, v.ipLong o16
      = some (v2, ipSlice v.ipKeys v.ipTrans.1 v2.polyResult.1
          ++ ipSlice (v.ipKeys.drop 4) v.ipTrans.2.1 v2.polyResult.2.1
          ++ ipSlice (v.ipKeys.drop 8) v.ipTrans.2.2.1 v2.polyResult.2.2.1
          ++ ipSlice (v.ipKeys.drop 12) v.ipTrans.2.2.2 v2.polyResult.2.2.2)) := by
  have hs := ipSum_lt ks x hk
  have ha := ipAux_eq ks x hlen hk
  have hr : ipReduceP36 (ipSum ks x) = ipSum ks x % p36 % 2 ^ 32 := ipReduceP36_eq _ hs
  refine ⟨by omega, rfl, by omega, ha, fun s l d => ipAux_none_iff s l d, ?_, ?_,
    ⟨_, uhash8_ipLong_eq u o8 h8 hu⟩, ⟨_, uhash16_ipLong_eq v o16 h16 hv⟩⟩
  · rw [ha, Option.map_some', hr]
  · rw [ipSlice, ipAuxSteps_eq ks x hk, hr]

theorem ip_hash_correct_witness :
    0x0001000200030004 = (0x0001000200030004 / 2 ^ 48 % 2 ^ 16) * 2 ^ 48
      + (0x0001000200030004 / 2 ^ 32 % 2 ^ 16) * 2 ^ 32
      + (0x0001000200030004 / 2 ^ 16 % 2 ^ 16) * 2 ^ 16 + 0x0001000200030004 % 2 ^ 16 ∧
    ipSum [1, 2, 3, 4] 0x0001000200030004
      = [1, 2, 3, 4].getD 0 0 * (0x0001000200030004 / 2 ^ 48 % 2 ^ 16)
        + [1, 2, 3, 4].getD 1 0 * (0x0001000200030004 / 2 ^ 32 % 2 ^ 16)
        + [1, 2, 3, 4].getD 2 0 * (0x0001000200030004 / 2 ^ 16 % 2 ^ 16)
        + [1, 2, 3, 4].getD 3 0 * (0x0001000200030004 % 2 ^ 16) ∧
    ipSum [1, 2, 3, 4] 0x0001000200030004 < 2 ^ 64 ∧
    ipAux 0 [1, 2, 3, 4] 0x0001000200030004
      = some (ipSum [1, 2, 3, 4] 0x0001000200030004) ∧
    (∀ (s : Nat) (l : List Nat) (d : Nat), ipAux s l d = none ↔ l.length < 4) ∧
    (ipAux 0 [1, 2, 3, 4] 0x0001000200030004).map ipReduceP36
      = some (ipSum [1, 2, 3, 4] 0x0001000200030004 % p36 % 2 ^ 32) ∧
    ipSlice [1, 2, 3, 4] 7 0x0001000200030004
      = bigEndianBytes32 ((ipSum [1, 2, 3, 4] 0x0001000200030004 % p36 % 2 ^ 32) ^^^ 7) ∧
    (∃ u2, UMAC8.zero.hash.ipLong (List.replicate 8 0)
      = some (u2, ipSlice UMAC8.zero.hash.ipKeys UMAC8.zero.hash.ipTrans.1 u2.polyResult.1
          ++ ipSlice (UMAC8.zero.hash.ipKeys.drop 4) UMAC8.zero.hash.ipTrans.2
            u2.polyResult.2)) ∧
    (∃ v2, UMAC16.zero.hash.ipLong (List.replicate 16 0)
      = some (v2, ipSlice UMAC16.zero.hash.ipKeys UMAC16.zero.hash.ipTrans.1 v2.polyResult.1
          ++ ipSlice (UMAC16.zero.hash.ipKeys.drop 4) UMAC16.zero.hash.ipTrans.2.1
            v2.polyResult.2.1
          ++ ipSlice (UMAC16.zero.hash.ipKeys.drop 8) UMAC16.zero.hash.ipTrans.2.2.1
            v2.polyResult.2.2.1
          ++ ipSlice (UMAC16.zero.hash.ipKeys.drop 12) UMAC16.zero.hash.ipTrans.2.2.2
            v2.polyResult.2.2.2)) :=
  ip_hash_correct [1, 2, 3, 4] 0x0001000200030004 7 UMAC8.zero.hash UMAC16.zero.hash
    (List.replicate 8 0) (List.replicate 16 0) (by decide) (by norm_num) (by decide)
    (List.length_replicate _ _) (List.length_replicate _ _) (by decide) (by decide)

/-! ## Runs of NH `update` calls -/

/-- A run of `update` calls that feeds at most 1024 bytes in all returns, and the
context has absorbed the concatenation. -/
theorem nhCtx8_updateAll_absorbed (ps : List (List Nat)) (c : nhCtx8) (m : List Nat)
    (ha : c.Absorbed m) (hb : m.length + ps.flatten.length ≤ 1024) :
    ∃ c1, c.updateAll ps = some c1 ∧ c1.Absorbed (m ++ ps.flatten) ∧ c1.key = c.key := by
  induction ps generalizing c m with
  | nil =>
    refine ⟨c, rfl, ?_, rfl⟩
    simpa using ha
  | cons p ps ih =>
    simp only [List.flatten_cons, List.length_append] at hb
    obtain ⟨c1, e1, e2, e3⟩ := nhCtx8_update_absorbed c m p ha (by omega)
    obtain ⟨c2, f1, f2, f3⟩ := ih c1 (m ++ p) e2 (by rw [List.length_append]; omega)
    refine ⟨c2, ?_, ?_, f3.trans e3⟩
    · rw [nhCtx8.updateAll, e1]
      exact f1
    · simpa [List.append_assoc] using f2

/-- The invariant behind `Fed`: the context has absorbed some message of the counted
length. -/
theorem nhCtx8_fed_absorbed (c0 c : nhCtx8) (T : Nat) (hk : c0.key.length = 1040)
    (hd : c0.data.length = 64) (h : nhCtx8.Fed c0 c T) :
    ∃ m : List Nat, m.length = T ∧ T ≤ 1024 ∧ c.Absorbed m := by
  induction h with
  | start => exact ⟨[], rfl, by norm_num, nhCtx8_reset_absorbed c0 hk hd⟩
  | update c c1 buf T _ hT hu ih =>
    obtain ⟨m, h1, _, h3⟩ := ih
    obtain ⟨c2, e1, e2, _⟩ := nhCtx8_update_absorbed c m buf h3 (by omega)
    rw [hu] at e1
    simp only [Option.some.injEq] at e1
    subst e1
    exact ⟨m ++ buf, by rw [List.length_append, h1], hT, e2⟩
  | final c c1 r T _ hf ih =>
    obtain ⟨m, h1, h2, h3⟩ := ih
    obtain ⟨c2, e1, e2, _⟩ := nhCtx8_final_absorbed c m h3 (by omega)
    rw [hf] at e1
    simp only [Option.some.injEq, Prod.mk.injEq] at e1
    obtain ⟨e1, _⟩ := e1
    subst e1
    exact ⟨[], rfl, by norm_num, e2⟩
  | reset c T _ ih =>
    obtain ⟨m, _, _, h3⟩ := ih
    exact ⟨[], rfl, by norm_num, nhCtx8_reset_absorbed c h3.1 h3.2.1⟩

/-- A run of `update` calls that feeds at most 1024 bytes in all returns, and the
context has absorbed the concatenation. -/
theorem nhCtx16_updateAll_absorbed (ps : List (List Nat)) (c : nhCtx16) (m : List Nat)
    (ha : c.Absorbed m) (hb : m.length + ps.flatten.length ≤ 1024) :
    ∃ c1, c.updateAll ps = some c1 ∧ c1.Absorbed (m ++ ps.flatten) ∧ c1.key = c.key := by
  induction ps generalizing c m with
  | nil =>
    refine ⟨c, rfl, ?_, rfl⟩
    simpa using ha
  | cons p ps ih =>
    simp only [List.flatten_cons, List.length_append] at hb
    obtain ⟨c1, e1, e2, e3⟩ := nhCtx16_update_absorbed c m p ha (by omega)
    obtain ⟨c2, f1, f2, f3⟩ := ih c1 (m ++ p) e2 (by rw [List.length_append]; omega)
    refine ⟨c2, ?_, ?_, f3.trans e3⟩
    · rw [nhCtx16.updateAll, e1]
      exact f1
    · simpa [List.append_assoc] using f2

/-- The invariant behind `Fed`: the context has absorbed some message of the counted
length. -/
theorem nhCtx16_fed_absorbed (c0 c : nhCtx16) (T : Nat) (hk : c0.key.length = 1072)
    (hd : c0.data.length = 64) (h : nhCtx16.Fed c0 c T) :
    ∃ m : List Nat, m.length = T ∧ T ≤ 1024 ∧ c.Absorbed m := by
  induction h with
  | start => exact ⟨[], rfl, by norm_num, nhCtx16_reset_absorbed c0 hk hd⟩
  | update c c1 buf T _ hT hu ih =>
    obtain ⟨m, h1, _, h3⟩ := ih
    obtain ⟨c2, e1, e2, _⟩ := nhCtx16_update_absorbed c m buf h3 (by omega)
    rw [hu] at e1
    simp only [Option.some.injEq] at e1
    subst e1
    exact ⟨m ++ buf, by rw [List.length_append, h1], hT, e2⟩
  | final c c1 r T _ hf ih =>
    obtain ⟨m, h1, h2, h3⟩ := ih
    obtain ⟨c2, e1, e2, _⟩ := nhCtx16_final_absorbed c m h3 (by omega)
    rw [hf] at e1
    simp only [Option.some.injEq, Prod.mk.injEq] at e1
    obtain ⟨e1, _⟩ := e1
    subst e1
    exact ⟨[], rfl, by norm_num, e2⟩
  | reset c T _ ih =>
    obtain ⟨m, _, _, h3⟩ := ih
    exact ⟨[], rfl, by norm_num, nhCtx16_reset_absorbed c h3.1 h3.2.1⟩

/-- C12. Streaming NH equals the fixed-input helper: for every NH key and every
1024-byte chunk, starting from the reset NH state, the chunk fed by `update` in
one call or split across several calls (the elements of `ps`) and followed by
`final` yields exactly the words `hash(chunk, 1024, 1024, out)` yields, for two
and for four streams. -/
theorem nh_streaming_equals_hash (c : nhCtx8) (d : nhCtx16) (ps : List (List Nat))
    (hk : c.key.length = 1040) (hd : c.data.length = 64)
    (hk16 : d.key.length = 1072) (hd16 : d.data.length = 64)
    (hlen : ps.flatten.length = 1024) :
    (∃ c1 c2 r, c.reset.updateAll ps = some c1 ∧ c1.final = some (c2, r) ∧
      c.reset.hash ps.flatten 1024 1024 = some r) ∧
    (∃ d1 d2 r, d.reset.updateAll ps = some d1 ∧ d1.final = some (d2, r) ∧
      d.reset.hash ps.flatten 1024 1024 = some r) := by
  have ht : ps.flatten.take 1024 = ps.flatten := List.take_of_length_le (by omega)
  constructor
  · obtain ⟨c1, e1, e2, e3⟩ := nhCtx8_updateAll_absorbed ps c.reset []
      (nhCtx8_reset_absorbed c hk hd) (by simp [hlen])
    rw [List.nil_append] at e2
    obtain ⟨c2, f1, _⟩ := nhCtx8_final_absorbed c1 ps.flatten e2 (by omega)
    refine ⟨c1, c2, _, e1, f1, ?_⟩
    rw [nhCtx8_hash_eq c.reset ps.flatten hk (by omega), ht, e3]
  · obtain ⟨d1, e1, e2, e3⟩ := nhCtx16_updateAll_absorbed ps d.reset []
      (nhCtx16_reset_absorbed d hk16 hd16) (by simp [hlen])
    rw [List.nil_append] at e2
    obtain ⟨d2, f1, _⟩ := nhCtx16_final_absorbed d1 ps.flatten e2 (by omega)
    refine ⟨d1, d2, _, e1, f1, ?_⟩
    rw [nhCtx16_hash_eq d.reset ps.flatten hk16 (by omega), ht, e3]

theorem nh_streaming_equals_hash_witness :
    (∃ c1 c2 r, nhCtx8.zero.reset.updateAll [List.replicate 1000 1, List.replicate 24 2]
        = some c1 ∧ c1.final = some (c2, r) ∧
      nhCtx8.zero.reset.hash [List.replicate 1000 1, List.replicate 24 2].flatten 1024 1024
        = some r) ∧
    (∃ d1 d2 r, nhCtx16.zero.reset.updateAll [List.replicate 1000 1, List.replicate 24 2]
        = some d1 ∧ d1.final = some (d2, r) ∧
      nhCtx16.zero.reset.hash [List.replicate 1000 1, List.replicate 24 2].flatten 1024 1024
        = some r) :=
  nh_streaming_equals_hash nhCtx8.zero nhCtx16.zero [List.replicate 1000 1, List.replicate 24 2]
    (List.length_replicate _ _) (List.length_replicate _ _) (List.length_replicate _ _)
    (List.length_replicate _ _)
    (by simp only [List.flatten_cons, List.flatten_nil, List.append_nil, List.length_append,
      List.length_replicate])

/-- The exact NH sum as a sum over the blocks. -/
theorem nhSum_eq_sum (j : Nat) (k d : List Nat) (n : Nat) :
    nhSum j k d n = ∑ b in Finset.range n, nhBlock j k d b := by
  induction n with
  | zero => rfl
  | succ n ih => rw [nhSum, ih, Finset.sum_range_succ]

/-- One block of the NH sum, written out: four products of two 32-bit wrapping
sums. -/
theorem nhBlock_eq_sum (j : Nat) (k d : List Nat) (b : Nat) :
    nhBlock j k d b
      = ∑ p in Finset.range 4,
          ((k.getD (8 * b + 4 * j + p) 0 + d.getD (8 * b + p) 0) % 2 ^ 32)
            * ((k.getD (8 * b + 4 * j + p + 4) 0 + d.getD (8 * b + p + 4) 0) % 2 ^ 32) := by
  simp only [Finset.sum_range_succ, Finset.sum_range_zero, nhBlock, add32, Nat.add_zero,
    Nat.zero_add]

/-- C17. NH kernel: for key words `k`, data words `d` and byte length `dlen` with
enough key and data words, `nhAux` adds to `hp[j]`, for each of the `dlen / 32`
consecutive 32-byte blocks `b` and each stream `j`, the sum over `p < 4` of
`uint64(k[8b+4j+p] + d[8b+p]) * uint64(k[8b+4j+p+4] + d[8b+p+4])`, the additions
inside the factors wrapping at 32 bits and the accumulation at 64 bits; `nhAux8`
with its `kache` window computes streams 0 and 1 of `nhAux16`. -/
theorem nh_kernel (k d : List Nat) (hp : Words4) (dlen : Nat)
    (hd : 8 * (dlen / 32) ≤ d.length) (hk : 8 * (dlen / 32) + 4 ≤ k.length)
    (h1 : hp.1 < 2 ^ 64) (h2 : hp.2.1 < 2 ^ 64) (h3 : hp.2.2.1 < 2 ^ 64)
    (h4 : hp.2.2.2 < 2 ^ 64) :
    nhAux8 k d (hp.1, hp.2.1) dlen
      = some ((hp.1 + nhSum 0 k d (dlen / 32)) % 2 ^ 64,
              (hp.2.1 + nhSum 1 k d (dlen / 32)) % 2 ^ 64) ∧
    (8 * (dlen / 32) + 12 ≤ k.length →
      nhAux16 k d hp dlen
        = some ((hp.1 + nhSum 0 k d (dlen / 32)) % 2 ^ 64,
                (hp.2.1 + nhSum 1 k d (dlen / 32)) % 2 ^ 64,
                (hp.2.2.1 + nhSum 2 k d (dlen / 32)) % 2 ^ 64,
                (hp.2.2.2 + nhSum 3 k d (dlen / 32)) % 2 ^ 64)) ∧
    ∀ j, nhSum j k d (dlen / 32)
      = ∑ b in Finset.range (dlen / 32), ∑ p in Finset.range 4,
          ((k.getD (8 * b + 4 * j + p) 0 + d.getD (8 * b + p) 0) % 2 ^ 32)
            * ((k.getD (8 * b + 4 * j + p + 4) 0 + d.getD (8 * b + p + 4) 0) % 2 ^ 32) := by
  refine ⟨nhAux8_eq k d (hp.1, hp.2.1) dlen hd hk h1 h2,
    fun hk16 => nhAux16_eq k d hp dlen hd hk16 h1 h2 h3 h4, fun j => ?_⟩
  rw [nhSum_eq_sum]
  exact Finset.sum_congr rfl fun b _ => nhBlock_eq_sum j k d b

theorem nh_kernel_witness :
    nhAux8 (List.range 20) (List.range 8) (((1, 2, 3, 4) : Words4).1, ((1, 2, 3, 4) : Words4).2.1) 32
      = some ((((1, 2, 3, 4) : Words4).1 + nhSum 0 (List.range 20) (List.range 8) (32 / 32)) % 2 ^ 64,
              (((1, 2, 3, 4) : Words4).2.1 + nhSum 1 (List.range 20) (List.range 8) (32 / 32))
                % 2 ^ 64) ∧
    (8 * (32 / 32) + 12 ≤ (List.range 20).length →
      nhAux16 (List.range 20) (List.range 8) (1, 2, 3, 4) 32
        = some ((((1, 2, 3, 4) : Words4).1 + nhSum 0 (List.range 20) (List.range 8) (32 / 32))
                  % 2 ^ 64,
                (((1, 2, 3, 4) : Words4).2.1 + nhSum 1 (List.range 20) (List.range 8) (32 / 32))
                  % 2 ^ 64,
                (((1, 2, 3, 4) : Words4).2.2.1 + nhSum 2 (List.range 20) (List.range 8) (32 / 32))
                  % 2 ^ 64,
                (((1, 2, 3, 4) : Words4).2.2.2 + nhSum 3 (List.range 20) (List.range 8) (32 / 32))
                  % 2 ^ 64)) ∧
    ∀ j, nhSum j (List.range 20) (List.range 8) (32 / 32)
      = ∑ b in Finset.range (32 / 32), ∑ p in Finset.range 4,
          (((List.range 20).getD (8 * b + 4 * j + p) 0 + (List.range 8).getD (8 * b + p) 0)
              % 2 ^ 32)
            * (((List.range 20).getD (8 * b + 4 * j + p + 4) 0
                + (List.range 8).getD (8 * b + p + 4) 0) % 2 ^ 32) :=
  nh_kernel (List.range 20) (List.range 8) (1, 2, 3, 4) 32 (by decide) (by decide)
    (by decide) (by decide) (by decide) (by decide)

/-- C18. NH finalization: for every message `M` of at most 1024 bytes fed from
the reset state by any sequence of `update` calls (the elements of `ps`), `final`
writes `out[j] = NH_j(M') + 8*|M|` modulo `2^64` for each stream `j`, where `NH_j`
is the kernel sum from a zero accumulator at key offset 0 and `M'` is `M`
zero-padded to the next multiple of 32 bytes (one all-zero block of 32 bytes when
`M` is empty); `final` leaves the NH state equal to its own reset state, with the
key unchanged. -/
theorem nh_final_value (c : nhCtx8) (d : nhCtx16) (ps : List (List Nat))
    (hk : c.key.length = 1040) (hd : c.data.length = 64)
    (hk16 : d.key.length = 1072) (hd16 : d.data.length = 64)
    (hlen : ps.flatten.length ≤ 1024) :
    (∃ c1 c2, c.reset.updateAll ps = some c1 ∧
      c1.final = some (c2,
        ((nhSum 0 (toUint32 c.key) (toUint32 (nhPad ps.flatten))
            (nhPadLen ps.flatten.length / 32) + 8 * ps.flatten.length) % 2 ^ 64,
         (nhSum 1 (toUint32 c.key) (toUint32 (nhPad ps.flatten))
            (nhPadLen ps.flatten.length / 32) + 8 * ps.flatten.length) % 2 ^ 64)) ∧
      c2.reset = c2 ∧ c2.nextEmpty = 0 ∧ c2.hashed = 0 ∧ c2.state = (0, 0) ∧ c2.key = c.key) ∧
    (∃ d1 d2, d.reset.updateAll ps = some d1 ∧
      d1.final = some (d2,
        ((nhSum 0 (toUint32 d.key) (toUint32 (nhPad ps.flatten))
            (nhPadLen ps.flatten.length / 32) + 8 * ps.flatten.length) % 2 ^ 64,
         (nhSum 1 (toUint32 d.key) (toUint32 (nhPad ps.flatten))
            (nhPadLen ps.flatten.length / 32) + 8 * ps.flatten.length) % 2 ^ 64,
         (nhSum 2 (toUint32 d.key) (toUint32 (nhPad ps.flatten))
            (nhPadLen ps.flatten.length / 32) + 8 * ps.flatten.length) % 2 ^ 64,
         (nhSum 3 (toUint32 d.key) (toUint32 (nhPad ps.flatten))
            (nhPadLen ps.flatten.length / 32) + 8 * ps.flatten.length) % 2 ^ 64)) ∧
      d2.reset = d2 ∧ d2.nextEmpty = 0 ∧ d2.hashed = 0 ∧ d2.state = (0, 0, 0, 0) ∧ d2.key = d.key) := by
  constructor
  · obtain ⟨c1, e1, e2, e3⟩ := nhCtx8_updateAll_absorbed ps c.reset []
      (nhCtx8_reset_absorbed c hk hd) (by simpa using hlen)
    rw [List.nil_append] at e2
    obtain ⟨c2, f1, f2, f3⟩ := nhCtx8_final_absorbed c1 ps.flatten e2 hlen
    have e4 : c1.key = c.key := e3
    rw [e4] at f1
    obtain ⟨_, _, a3, a4, _, a6⟩ := f2
    have a7 : c2.state = (0, 0) := by
      rw [a6, a3]
      simp [nhState8, nhSum]
    refine ⟨c1, c2, e1, f1, ?_, a4, a3, a7, f3.trans e4⟩
    cases c2
    simp only [nhCtx8.reset] at *
    simp only [List.length_nil, Nat.zero_div, Nat.zero_mul, Nat.zero_mod] at a3 a4
    rw [a3, a4, a7]
  · obtain ⟨d1, e1, e2, e3⟩ := nhCtx16_updateAll_absorbed ps d.reset []
      (nhCtx16_reset_absorbed d hk16 hd16) (by simpa using hlen)
    rw [List.nil_append] at e2
    obtain ⟨d2, f1, f2, f3⟩ := nhCtx16_final_absorbed d1 ps.flatten e2 hlen
    have e4 : d1.key = d.key := e3
    rw [e4] at f1
    obtain ⟨_, _, a3, a4, _, a6⟩ := f2
    have a7 : d2.state = (0, 0, 0, 0) := by
      rw [a6, a3]
      simp [nhState16, nhSum]
    refine ⟨d1, d2, e1, f1, ?_, a4, a3, a7, f3.trans e4⟩
    cases d2
    simp only [nhCtx16.reset] at *
    simp only [List.length_nil, Nat.zero_div, Nat.zero_mul, Nat.zero_mod] at a3 a4
    rw [a3, a4, a7]

theorem nh_final_value_witness :
    (∃ c1 c2, nhCtx8.zero.reset.updateAll [[1, 2, 3], [4]] = some c1 ∧
      c1.final = some (c2,
        ((nhSum 0 (toUint32 nhCtx8.zero.key) (toUint32 (nhPad [[1, 2, 3], [4]].flatten))
            (nhPadLen [[1, 2, 3], [4]].flatten.length / 32)
            + 8 * [[1, 2, 3], [4]].flatten.length) % 2 ^ 64,
         (nhSum 1 (toUint32 nhCtx8.zero.key) (toUint32 (nhPad [[1, 2, 3], [4]].flatten))
            (nhPadLen [[1, 2, 3], [4]].flatten.length / 32)
            + 8 * [[1, 2, 3], [4]].flatten.length) % 2 ^ 64)) ∧
      c2.reset = c2 ∧ c2.nextEmpty = 0 ∧ c2.hashed = 0 ∧ c2.state = (0, 0) ∧
      c2.key = nhCtx8.zero.key) ∧
    (∃ d1 d2, nhCtx16.zero.reset.updateAll [[1, 2, 3], [4]] = some d1 ∧
      d1.final = some (d2,
        ((nhSum 0 (toUint32 nhCtx16.zero.key) (toUint32 (nhPad [[1, 2, 3], [4]].flatten))
            (nhPadLen [[1, 2, 3], [4]].flatten.length / 32)
            + 8 * [[1, 2, 3], [4]].flatten.length) % 2 ^ 64,
         (nhSum 1 (toUint32 nhCtx16.zero.key) (toUint32 (nhPad [[1, 2, 3], [4]].flatten))
            (nhPadLen [[1, 2, 3], [4]].flatten.length / 32)
            + 8 * [[1, 2, 3], [4]].flatten.length) % 2 ^ 64,
         (nhSum 2 (toUint32 nhCtx16.zero.key) (toUint32 (nhPad [[1, 2, 3], [4]].flatten))
            (nhPadLen [[1, 2, 3], [4]].flatten.length / 32)
            + 8 * [[1, 2, 3], [4]].flatten.length) % 2 ^ 64,
         (nhSum 3 (toUint32 nhCtx16.zero.key) (toUint32 (nhPad [[1, 2, 3], [4]].flatten))
            (nhPadLen [[1, 2, 3], [4]].flatten.length / 32)
            + 8 * [[1, 2, 3], [4]].flatten.length) % 2 ^ 64)) ∧
      d2.reset = d2 ∧ d2.nextEmpty = 0 ∧ d2.hashed = 0 ∧ d2.state = (0, 0, 0, 0) ∧
      d2.key = nhCtx16.zero.key) :=
  nh_final_value nhCtx8.zero nhCtx16.zero [[1, 2, 3], [4]]
    (List.length_replicate _ _) (List.length_replicate _ _) (List.length_replicate _ _)
    (List.length_replicate _ _) (by decide)

/-- C19. NH state invariant: in every NH state reached from reset by `update`
(at most 1024 bytes between two finals), `final` and `reset`, `nextEmpty < 64` and
`hashed` is a multiple of 64; after `T` bytes fed since the last reset,
`hashed = 64 * (T / 64)` and `nextEmpty = T mod 64`. -/
theorem nh_state_invariant (c0 c : nhCtx8) (d0 d : nhCtx16) (T U : Nat)
    (hk : c0.key.length = 1040) (hd : c0.data.length = 64)
    (hk16 : d0.key.length = 1072) (hd16 : d0.data.length = 64)
    (h : nhCtx8.Fed c0 c T) (h16 : nhCtx16.Fed d0 d U) :
    (c.nextEmpty < 64 ∧ c.hashed % 64 = 0 ∧ c.hashed = 64 * (T / 64) ∧
      c.nextEmpty = T % 64) ∧
    (d.nextEmpty < 64 ∧ d.hashed % 64 = 0 ∧ d.hashed = 64 * (U / 64) ∧
      d.nextEmpty = U % 64) := by
  obtain ⟨m, m1, _, _, _, a3, a4, _⟩ := nhCtx8_fed_absorbed c0 c T hk hd h
  obtain ⟨n, n1, _, _, _, b3, b4, _⟩ := nhCtx16_fed_absorbed d0 d U hk16 hd16 h16
  rw [m1] at a3 a4
  rw [n1] at b3 b4
  refine ⟨⟨?_, ?_, ?_, a4⟩, ⟨?_, ?_, ?_, b4⟩⟩ <;> omega

theorem nh_state_invariant_witness :
    ∃ c d, nhCtx8.Fed nhCtx8.zero c (0 + [1, 2, 3].length) ∧
      nhCtx16.Fed nhCtx16.zero d (0 + [1, 2, 3].length) ∧
      (c.nextEmpty < 64 ∧ c.hashed % 64 = 0 ∧ c.hashed = 64 * ((0 + [1, 2, 3].length) / 64) ∧
        c.nextEmpty = (0 + [1, 2, 3].length) % 64) ∧
      (d.nextEmpty < 64 ∧ d.hashed % 64 = 0 ∧ d.hashed = 64 * ((0 + [1, 2, 3].length) / 64) ∧
        d.nextEmpty = (0 + [1, 2, 3].length) % 64) :=
  have h8 : nhCtx8.Fed nhCtx8.zero _ (0 + [1, 2, 3].length) :=
    nhCtx8.Fed.update nhCtx8.zero.reset _ [1, 2, 3] 0 nhCtx8.Fed.start (by decide) rfl
  have h16 : nhCtx16.Fed nhCtx16.zero _ (0 + [1, 2, 3].length) :=
    nhCtx16.Fed.update nhCtx16.zero.reset _ [1, 2, 3] 0 nhCtx16.Fed.start (by decide) rfl
  ⟨_, _, h8, h16, nh_state_invariant nhCtx8.zero _ nhCtx16.zero _ _ _
    (List.length_replicate _ _) (List.length_replicate _ _) (List.length_replicate _ _)
    (List.length_replicate _ _) h8 h16⟩

/-- C16. Reset postcondition and frame: for every instance state, `Reset` sets the NH
accumulators, `nextEmpty` and `hashed` to 0, `msgLen` to 0 and every POLY accumulator
to 1, and leaves the NH key, the POLY keys, the IP keys, the IP trans values and the
whole PDF state (derived key, stored nonce, cache) unchanged; the same holds of
`uhash8.reset` and `uhash16.reset` on every hash state. -/
theorem reset_frame (u : UMAC8) (v : UMAC16) (h : uhash8) (g : uhash16) :
    (u.Reset.hash.nh.state = (0, 0) ∧ u.Reset.hash.nh.nextEmpty = 0 ∧
      u.Reset.hash.nh.hashed = 0 ∧ u.Reset.hash.msgLen = 0 ∧
      u.Reset.hash.polyResult = (1, 1) ∧
      u.Reset.hash.nh.key = u.hash.nh.key ∧ u.Reset.hash.polyKey = u.hash.polyKey ∧
      u.Reset.hash.ipKeys = u.hash.ipKeys ∧ u.Reset.hash.ipTrans = u.hash.ipTrans ∧
      u.Reset.pdf = u.pdf ∧ u.Reset.hash = u.hash.reset) ∧
    (v.Reset.hash.nh.state = (0, 0, 0, 0) ∧ v.Reset.hash.nh.nextEmpty = 0 ∧
      v.Reset.hash.nh.hashed = 0 ∧ v.Reset.hash.msgLen = 0 ∧
      v.Reset.hash.polyResult = (1, 1, 1, 1) ∧
      v.Reset.hash.nh.key = v.hash.nh.key ∧ v.Reset.hash.polyKey = v.hash.polyKey ∧
      v.Reset.hash.ipKeys = v.hash.ipKeys ∧ v.Reset.hash.ipTrans = v.hash.ipTrans ∧
      v.Reset.pdf = v.pdf ∧ v.Reset.hash = v.hash.reset) ∧
    (h.reset.nh.state = (0, 0) ∧ h.reset.nh.nextEmpty = 0 ∧ h.reset.nh.hashed = 0 ∧
      h.reset.msgLen = 0 ∧ h.reset.polyResult = (1, 1) ∧ h.reset.nh.key = h.nh.key ∧
      h.reset.polyKey = h.polyKey ∧ h.reset.ipKeys = h.ipKeys ∧
      h.reset.ipTrans = h.ipTrans) ∧
    (g.reset.nh.state = (0, 0, 0, 0) ∧ g.reset.nh.nextEmpty = 0 ∧ g.reset.nh.hashed = 0 ∧
      g.reset.msgLen = 0 ∧ g.reset.polyResult = (1, 1, 1, 1) ∧ g.reset.nh.key = g.nh.key ∧
      g.reset.polyKey = g.polyKey ∧ g.reset.ipKeys = g.ipKeys ∧
      g.reset.ipTrans = g.ipTrans) :=
  ⟨⟨rfl, rfl, rfl, rfl, rfl, rfl, rfl, rfl, rfl, rfl, rfl⟩,
   ⟨rfl, rfl, rfl, rfl, rfl, rfl, rfl, rfl, rfl, rfl, rfl⟩,
   ⟨rfl, rfl, rfl, rfl, rfl, rfl, rfl, rfl, rfl⟩,
   ⟨rfl, rfl, rfl, rfl, rfl, rfl, rfl, rfl, rfl⟩⟩

/-! ## The key invariants -/

theorem polyKeyMask_bounds (k : Nat) :
    (k &&& polyKeyMask) / 2 ^ 32 ≤ 0x01FFFFFF ∧ (k &&& polyKeyMask) % 2 ^ 32 ≤ 0x01FFFFFF := by
  constructor
  · have h : k &&& polyKeyMask ≤ polyKeyMask := Nat.and_le_right
    have h2 := Nat.div_le_div_right (c := 2 ^ 32) h
    have h3 : polyKeyMask / 2 ^ 32 = 0x01FFFFFF := by decide
    omega
  · have e : (k &&& polyKeyMask) % 2 ^ 32 = k &&& (polyKeyMask &&& (2 ^ 32 - 1)) := by
      rw [← Nat.and_pow_two_sub_one_eq_mod, Nat.and_assoc]
    have e2 : polyKeyMask &&& (2 ^ 32 - 1) = 0x01FFFFFF := by decide
    rw [e, e2]
    exact Nat.and_le_right

theorem ipKeysOfStream_lt (buf : List Nat) (i x : Nat) (h : x ∈ ipKeysOfStream buf i) :
    x < p36 := by
  have hp : 0 < p36 := by decide
  simp only [ipKeysOfStream, List.mem_cons, List.mem_singleton, List.not_mem_nil,
    or_false] at h
  rcases h with h | h | h | h <;> rw [h] <;> exact Nat.mod_lt _ hp

theorem uhash8_init_some (u : uhash8) (cip : Block) : ∃ h, u.init cip = some h := by
  have hl : (kdf cip 2 (List.replicate ((8 * 2 + 4) * 8) 0)).length = 160 := by
    rw [kdf_length, List.length_replicate]
  obtain ⟨k0, hk0⟩ := bigEndianUint64_some (kdf cip 2 (List.replicate ((8 * 2 + 4) * 8) 0))
    (by omega)
  obtain ⟨k1, hk1⟩ := bigEndianUint64_some
    ((kdf cip 2 (List.replicate ((8 * 2 + 4) * 8) 0)).drop 24)
    (by rw [List.length_drop]; omega)
  unfold uhash8.init
  simp only [hk0, hk1]
  exact ⟨_, rfl⟩

theorem uhash8_init_keys (u h : uhash8) (cip : Block) (hi : u.init cip = some h) :
    h.KeysOk := by
  unfold uhash8.init at hi
  simp only [] at hi
  split at hi
  · simp only [Option.some.injEq] at hi
    subst hi
    refine ⟨polyKeyMask_bounds _, polyKeyMask_bounds _, ?_⟩
    intro x hx
    simp only [List.mem_append] at hx
    rcases hx with hx | hx <;> exact ipKeysOfStream_lt _ _ _ hx
  · simp at hi

theorem uhash8_keysOk_of_sameKeys (u2 u : uhash8) (h : u2.SameKeys u) (hk : u.KeysOk) :
    u2.KeysOk := by
  obtain ⟨_, h2, h3, _⟩ := h
  unfold uhash8.KeysOk
  rw [h2, h3]
  exact hk

theorem UMAC8_sum_keys (u u2 : UMAC8) (b tag : List Nat) (h : u.Sum b = some (u2, tag)) :
    u2.hash.SameKeys u.hash := by
  unfold UMAC8.Sum at h
  split at h
  · simp at h
  · split at h
    · simp at h
    · rename_i hu o hf
      split at h
      · simp at h
      · simp only [Option.some.injEq, Prod.mk.injEq] at h
        obtain ⟨h1, _⟩ := h
        subst h1
        obtain ⟨v, v1, v2, _⟩ := uhash8_final_frame _ _ _ _ hf
        simp only []
        rw [v1]
        exact uhash8_SameKeys_trans ⟨rfl, rfl, rfl, rfl⟩ v2

theorem New8_keys_ok (key : List Nat) (u : UMAC8) (h : New8 key = some u) :
    u.hash.KeysOk := by
  unfold New8 at h
  split at h
  · simp at h
  · simp only [] at h
    split at h
    · simp at h
    · split at h
      · simp at h
      · rename_i hh hi
        simp only [Option.some.injEq] at h
        subst h
        exact uhash8_init_keys _ _ _ hi

theorem UMAC8_reachable_keys (key : List Nat) (u : UMAC8) (h : UMAC8.Reachable key u) :
    u.hash.KeysOk := by
  obtain ⟨u0, k, h1, _, _, _, h5, _⟩ := UMAC8_reachable_inv key u h
  exact uhash8_keysOk_of_sameKeys _ _ h5 (New8_keys_ok key u0 h1)

theorem uhash16_init_some (u : uhash16) (cip : Block) : ∃ h, u.init cip = some h := by
  have hl : (kdf cip 2 (List.replicate ((8 * 4 + 4) * 8) 0)).length = 288 := by
    rw [kdf_length, List.length_replicate]
  obtain ⟨k0, hk0⟩ := bigEndianUint64_some (kdf cip 2 (List.replicate ((8 * 4 + 4) * 8) 0))
    (by omega)
  obtain ⟨k1, hk1⟩ := bigEndianUint64_some
    ((kdf cip 2 (List.replicate ((8 * 4 + 4) * 8) 0)).drop 24)
    (by rw [List.length_drop]; omega)
  obtain ⟨k2, hk2⟩ := bigEndianUint64_some
    ((kdf cip 2 (List.replicate ((8 * 4 + 4) * 8) 0)).drop 48)
    (by rw [List.length_drop]; omega)
  obtain ⟨k3, hk3⟩ := bigEndianUint64_some
    ((kdf cip 2 (List.replicate ((8 * 4 + 4) * 8) 0)).drop 72)
    (by rw [List.length_drop]; omega)
  unfold uhash16.init
  simp only [hk0, hk1, hk2, hk3]
  exact ⟨_, rfl⟩

theorem uhash16_init_keys (u h : uhash16) (cip : Block) (hi : u.init cip = some h) :
    h.KeysOk := by
  unfold uhash16.init at hi
  simp only [] at hi
  split at hi
  · simp only [Option.some.injEq] at hi
    subst hi
    refine ⟨polyKeyMask_bounds _, polyKeyMask_bounds _, polyKeyMask_bounds _,
      polyKeyMask_bounds _, ?_⟩
    intro x hx
    simp only [List.mem_append] at hx
    rcases hx with ((hx | hx) | hx) | hx <;> exact ipKeysOfStream_lt _ _ _ hx
  · simp at hi

theorem uhash16_keysOk_of_sameKeys (u2 u : uhash16) (h : u2.SameKeys u) (hk : u.KeysOk) :
    u2.KeysOk := by
  obtain ⟨_, h2, h3, _⟩ := h
  unfold uhash16.KeysOk
  rw [h2, h3]
  exact hk

theorem UMAC16_sum_keys (u u2 : UMAC16) (b tag : List Nat) (h : u.Sum b = some (u2, tag)) :
    u2.hash.SameKeys u.hash := by
  unfold UMAC16.Sum at h
  split at h
  · simp at h
  · split at h
    · simp at h
    · rename_i hu o hf
      split at h
      · simp at h
      · simp only [Option.some.injEq, Prod.mk.injEq] at h
        obtain ⟨h1, _⟩ := h
        subst h1
        obtain ⟨v, v1, v2, _⟩ := uhash16_final_frame _ _ _ _ hf
        simp only []
        rw [v1]
        exact uhash16_SameKeys_trans ⟨rfl, rfl, rfl, rfl⟩ v2

theorem New16_keys_ok (key : List Nat) (u : UMAC16) (h : New16 key = some u) :
    u.hash.KeysOk := by
  unfold New16 at h
  split at h
  · simp at h
  · simp only [] at h
    split at h
    · simp at h
    · split at h
      · simp at h
      · rename_i hh hi
        simp only [Option.some.injEq] at h
        subst h
        exact uhash16_init_keys _ _ _ hi

theorem UMAC16_reachable_keys (key : List Nat) (u : UMAC16) (h : UMAC16.Reachable key u) :
    u.hash.KeysOk := by
  obtain ⟨u0, k, h1, _, _, _, h5, _⟩ := UMAC16_reachable_inv key u h
  exact uhash16_keysOk_of_sameKeys _ _ h5 (New16_keys_ok key u0 h1)

/-- C20. Key invariants: for every block cipher and both tag widths, `init` returns
and afterwards every POLY key has both its high and its low 32-bit half at most
`0x01FFFFFF` and every IP key is strictly below `p36 = 2^36 - 5`; `Write`, `Sum` and
`Reset` never change these keys; so the invariants hold in every state reachable
from `New8(key)` or `New16(key)`, and such states exist for every accepted key. -/
theorem key_invariants (cip : Block) (h0 : uhash8) (g0 : uhash16) (key : List Nat)
    (u : UMAC8) (v : UMAC16) (p b : List Nat) :
    (∃ h, h0.init cip = some h ∧ h.KeysOk) ∧
    (∃ g, g0.init cip = some g ∧ g.KeysOk) ∧
    (∀ u2 n, u.Write p = some (u2, n) →
      u2.hash.polyKey = u.hash.polyKey ∧ u2.hash.ipKeys = u.hash.ipKeys) ∧
    (∀ u2 tag, u.Sum b = some (u2, tag) →
      u2.hash.polyKey = u.hash.polyKey ∧ u2.hash.ipKeys = u.hash.ipKeys) ∧
    (u.Reset.hash.polyKey = u.hash.polyKey ∧ u.Reset.hash.ipKeys = u.hash.ipKeys) ∧
    (∀ v2 n, v.Write p = some (v2, n) →
      v2.hash.polyKey = v.hash.polyKey ∧ v2.hash.ipKeys = v.hash.ipKeys) ∧
    (∀ v2 tag, v.Sum b = some (v2, tag) →
      v2.hash.polyKey = v.hash.polyKey ∧ v2.hash.ipKeys = v.hash.ipKeys) ∧
    (v.Reset.hash.polyKey = v.hash.polyKey ∧ v.Reset.hash.ipKeys = v.hash.ipKeys) ∧
    (UMAC8.Reachable key u → u.hash.KeysOk) ∧
    (UMAC16.Reachable key v → v.hash.KeysOk) ∧
    (key.length = 16 ∨ key.length = 24 ∨ key.length = 32 →
      (∃ u0, New8 key = some u0 ∧ UMAC8.Reachable key u0) ∧
      (∃ v0, New16 key = some v0 ∧ UMAC16.Reachable key v0)) := by
  refine ⟨?_, ?_, ?_, ?_, ⟨rfl, rfl⟩, ?_, ?_, ⟨rfl, rfl⟩, ?_, ?_, ?_⟩
  · obtain ⟨h, hi⟩ := uhash8_init_some h0 cip
    exact ⟨h, hi, uhash8_init_keys _ _ _ hi⟩
  · obtain ⟨g, gi⟩ := uhash16_init_some g0 cip
    exact ⟨g, gi, uhash16_init_keys _ _ _ gi⟩
  · intro u2 n hw
    obtain ⟨_, _, f3, _⟩ := UMAC8_write_frame u u2 p n hw
    exact ⟨f3.2.1, f3.2.2.1⟩
  · intro u2 tag hs
    have f3 := UMAC8_sum_keys u u2 b tag hs
    exact ⟨f3.2.1, f3.2.2.1⟩
  · intro v2 n hw
    obtain ⟨_, _, f3, _⟩ := UMAC16_write_frame v v2 p n hw
    exact ⟨f3.2.1, f3.2.2.1⟩
  · intro v2 tag hs
    have f3 := UMAC16_sum_keys v v2 b tag hs
    exact ⟨f3.2.1, f3.2.2.1⟩
  · exact UMAC8_reachable_keys key u
  · exact UMAC16_reachable_keys key v
  · intro hk
    obtain ⟨u0, _, hu, _⟩ := New8_ok key hk
    obtain ⟨v0, _, hv, _⟩ := New16_ok key hk
    exact ⟨⟨u0, hu, UMAC8.Reachable.fresh u0 hu⟩, ⟨v0, hv, UMAC16.Reachable.fresh v0 hv⟩⟩

/-! ## The key-derivation function as a key stream -/

theorem kdfStream_length (cip : Block) (index n c : Nat) :
    (kdfStream cip index n c).length = 16 * n := by
  induction n generalizing c with
  | zero => rfl
  | succ n ih =>
    rw [kdfStream, List.length_append, cip.size_eq, ih]
    omega

theorem kdfStream_add (cip : Block) (index a b c : Nat) :
    kdfStream cip index (a + b) c = kdfStream cip index a c ++ kdfStream cip index b (c + a) := by
  induction a generalizing c with
  | zero => simp [kdfStream]
  | succ a ih =>
    have e : a + 1 + b = (a + b) + 1 := by omega
    rw [e, kdfStream, kdfStream, ih, List.append_assoc]
    have e2 : c + 1 + a = c + (a + 1) := by omega
    rw [e2]

theorem kdfStream_take (cip : Block) (index a b c len : Nat) (hab : a ≤ b)
    (hl : len ≤ 16 * a) :
    (kdfStream cip index b c).take len = (kdfStream cip index a c).take len := by
  obtain ⟨d, rfl⟩ := Nat.exists_eq_add_of_le hab
  rw [kdfStream_add, List.take_append_of_le_length (by rw [kdfStream_length]; exact hl)]

theorem kdfBlock_eq (index i : Nat) (h : i < 256) : kdfBlock index i = kdfCounter index i := by
  rw [kdfBlock, kdfCounter, Nat.mod_eq_of_lt h]

theorem copyAt_zero_short (dst src : List Nat) (h : dst.length ≤ src.length) :
    copyAt dst 0 src = src.take dst.length := by
  simp only [copyAt, copySlice, List.take_zero, List.nil_append, Nat.sub_zero, Nat.zero_add]
  rw [List.drop_of_length_le (by omega), List.append_nil]

theorem kdfLoop_eq (cip : Block) (index : Nat) (n i : Nat) (dst : List Nat)
    (h1 : 16 * n ≤ dst.length) (h2 : dst.length ≤ 16 * (n + 1)) (hi : i + n < 256) :
    kdfLoop cip index n i dst = (kdfStream cip index (n + 1) i).take dst.length := by
  induction n generalizing i dst with
  | zero =>
    rw [kdfLoop, kdfStream, kdfStream, List.append_nil, kdfBlock_eq index i (by omega)]
    by_cases h0 : 0 < dst.length
    · rw [if_pos h0, copyAt_zero_short _ _ (by rw [cip.size_eq]; omega)]
    · rw [if_neg h0]
      have : dst = [] := List.eq_nil_of_length_eq_zero (by omega)
      subst this
      rfl
  | succ n ih =>
    rw [kdfLoop, kdfStream, kdfBlock_eq index i (by omega)]
    have hh := copyAt_take dst (cip.encrypt (kdfCounter index i)) 0
      (by rw [cip.size_eq]; omega)
    rw [cip.size_eq, List.take_zero, List.nil_append] at hh
    rw [Nat.zero_add] at hh
    rw [hh, ih (i + 1) (dst.drop 16) (by rw [List.length_drop]; omega)
      (by rw [List.length_drop]; omega) (by omega)]
    have e : (cip.encrypt (kdfCounter index i)).take dst.length
        = cip.encrypt (kdfCounter index i) :=
      List.take_of_length_le (by rw [cip.size_eq]; omega)
    rw [List.take_append_eq_append_take, cip.size_eq, List.length_drop, e]

theorem kdf_eq_stream (cip : Block) (index : Nat) (dst : List Nat) (h : dst.length ≤ 4080) :
    kdf cip index dst = (kdfStream cip index 255 1).take dst.length := by
  by_cases h0 : dst.length = 0
  · have : dst = [] := List.eq_nil_of_length_eq_zero h0
    subst this
    rfl
  · rw [kdf, kdfLoop_eq cip index _ 1 dst (by omega) (by omega) (by omega)]
    exact (kdfStream_take cip index _ 255 1 dst.length (by omega) (by omega)).symm

/-- C13. KDF construction: for every block cipher `E`, every index `i` and every
buffer `dst` of `n ≤ 4080` bytes, `kdf(E, i, dst)` fills `dst` with the first `n`
bytes of `E(B_1) ‖ E(B_2) ‖ … ‖ E(B_255)`, where `B_c` is the 16-byte block whose
byte 7 is `i`, whose byte 15 is `c` and whose other bytes are zero; consequently the
output for a shorter buffer is a prefix of the output for a longer one with the same
index. -/
theorem kdf_construction (cip : Block) (index : Nat) (dst dst2 : List Nat)
    (hn : dst.length ≤ 4080) (h2 : dst2.length ≤ dst.length) :
    kdf cip index dst = (kdfStream cip index 255 1).take dst.length ∧
    (kdf cip index dst).length = dst.length ∧
    (∀ n c, kdfStream cip index (n + 1) c
      = cip.encrypt [0, 0, 0, 0, 0, 0, 0, index, 0, 0, 0, 0, 0, 0, 0, c]
        ++ kdfStream cip index n (c + 1)) ∧
    kdf cip index dst2 = (kdf cip index dst).take dst2.length := by
  refine ⟨kdf_eq_stream cip index dst hn, kdf_length cip index dst, fun n c => rfl, ?_⟩
  rw [kdf_eq_stream cip index dst hn, kdf_eq_stream cip index dst2 (by omega),
    List.take_take, Nat.min_eq_left h2]

theorem kdf_construction_witness :
    kdf (aesCipher testKey) 1 (List.replicate 40 0)
      = (kdfStream (aesCipher testKey) 1 255 1).take (List.replicate 40 0).length ∧
    (kdf (aesCipher testKey) 1 (List.replicate 40 0)).length = (List.replicate 40 0).length ∧
    (∀ n c, kdfStream (aesCipher testKey) 1 (n + 1) c
      = (aesCipher testKey).encrypt [0, 0, 0, 0, 0, 0, 0, 1, 0, 0, 0, 0, 0, 0, 0, c]
        ++ kdfStream (aesCipher testKey) 1 n (c + 1)) ∧
    kdf (aesCipher testKey) 1 (List.replicate 20 7)
      = (kdf (aesCipher testKey) 1 (List.replicate 40 0)).take (List.replicate 20 7).length :=
  kdf_construction (aesCipher testKey) 1 (List.replicate 40 0) (List.replicate 20 7)
    (by decide) (by decide)

/-! ## The pad generator in every reachable state -/

theorem pdfCtx_genXor8_general (c : pdfCtx) (k : Block) (nonce buf : List Nat)
    (hc : c.cip = some k) (hcl : c.cache.length = 16) (hnl : c.nonce.length = 16)
    (hz : c.nonce.drop 8 = List.replicate 8 0) (hn : nonce.length = 8)
    (hb : 8 ≤ buf.length) :
    c.genXor8 nonce buf
      = some ({ c with nonce := pdfBlock8 nonce, cache := k.encrypt (pdfBlock8 nonce) },
          xorBytes buf ((k.encrypt (pdfBlock8 nonce)).drop (nonce.getD 7 0 % 2 * 8))) := by
  rw [pdfCtx.genXor8, if_neg (by omega)]
  simp only []
  rw [pdfCtx_refresh8_eq c k nonce hc hcl hnl hz hn]

theorem pdfCtx_genXor8Always_eq (c : pdfCtx) (nonce buf : List Nat)
    (hnl : c.nonce.length = 16) : c.genXor8 nonce buf = c.genXor8Always nonce buf := by
  have hne : ∀ t : List Nat, t.length ≤ 4 → t ≠ c.nonce.drop 4 := by
    intro t ht h
    have := congrArg List.length h
    rw [List.length_drop, hnl] at this
    omega
  unfold pdfCtx.genXor8 pdfCtx.genXor8Always pdfCtx.refresh
  by_cases hb : buf.length ≤ 7
  · rw [if_pos hb, if_pos hb]
  · rw [if_neg hb, if_neg hb]
    simp only []
    rw [if_pos (Or.inl (hne _ (by
      rw [List.length_set, List.length_take, List.length_drop]; omega)))]
    cases c.cip <;> rfl

theorem pdfCtx_reachable8_inv (cip : Block) (c : pdfCtx) (h : c.Reachable8 cip) :
    ∃ k, aesNewCipher (kdf cip 0 (List.replicate 16 0)) = some k ∧ c.cip = some k ∧
      c.cache.length = 16 ∧ c.nonce.length = 16 ∧ c.nonce.drop 8 = List.replicate 8 0 := by
  induction h with
  | init c hi =>
    obtain ⟨p, k, hp, p1, p2, p3, p4⟩ := pdfCtx_init_ok cip
    rw [hi] at hp
    simp only [Option.some.injEq] at hp
    subst hp
    refine ⟨k, ?_, p1, p2, p3, p4⟩
    unfold pdfCtx.init at hi
    simp only [] at hi
    split at hi
    · simp at hi
    · rename_i k2 hk2
      simp only [Option.some.injEq] at hi
      subst hi
      simp only [Option.some.injEq] at p1
      subst p1
      exact hk2
  | genXor8 c c1 nonce buf out _ hn hg ih =>
    obtain ⟨k, h0, h1, h2, h3, h4⟩ := ih
    have hb : 8 ≤ buf.length := by
      by_contra hlt
      rw [pdfCtx.genXor8, if_pos (by omega)] at hg
      simp at hg
    rw [pdfCtx_genXor8_general c k nonce buf h1 h2 h3 h4 hn hb] at hg
    simp only [Option.some.injEq, Prod.mk.injEq] at hg
    obtain ⟨hg, _⟩ := hg
    subst hg
    refine ⟨k, h0, h1, k.size_eq _, ?_, ?_⟩
    · obtain ⟨a, b, c1, d, e, f, g, i, rfl⟩ := list_length_eight nonce hn
      rfl
    · obtain ⟨a, b, c1, d, e, f, g, i, rfl⟩ := list_length_eight nonce hn
      rfl

theorem xorBytes_take_eight (buf y : List Nat) (hb : 8 ≤ buf.length) (hy : 8 ≤ y.length) :
    (xorBytes buf y).take 8 = xorTag (buf.take 8) (y.take 8) := by
  rw [xorBytes, xorTag, List.take_append_of_le_length
    (by rw [List.length_zipWith]; omega), List.take_zipWith]

theorem pdf_half_length (k : Block) (src : List Nat) (n : Nat) (h : n % 2 * 8 ≤ 8) :
    8 ≤ ((k.encrypt src).drop (n % 2 * 8)).length := by
  rw [List.length_drop, k.size_eq]
  omega

/-- C14. PDF cache transparency for 64-bit tags: for every PDF state `c` reachable
from `init` by any sequence of `genXor8` calls and every nonce `N`, `genXor8(N, buf)`
returns and XORs onto the first eight bytes of `buf` the bytes `[8,16)` of the AES
output when `N[7]` is odd and the bytes `[0,8)` when `N[7]` is even, where the AES
output is `AES_K'` of the stored scrubbed-nonce block of `N`; for the eight-byte
buffer of an instance this is the whole result.  The result is the same in every
reachable state `d`, whatever nonces were used before, and it is the result of the
variant that always re-encrypts. -/
theorem pdf_cache_transparent (cip : Block) (c d : pdfCtx) (N buf : List Nat)
    (hc : c.Reachable8 cip) (hd : d.Reachable8 cip) (hN : N.length = 8)
    (hb : 8 ≤ buf.length) :
    ∃ k c1 out, aesNewCipher (kdf cip 0 (List.replicate 16 0)) = some k ∧
      c.genXor8 N buf = some (c1, out) ∧
      c1.cache = k.encrypt c1.nonce ∧ c1.nonce = pdfBlock8 N ∧
      out = xorBytes buf (c1.cache.drop (N.getD 7 0 % 2 * 8)) ∧
      (N.getD 7 0 % 2 = 1 → out.take 8 = xorTag (buf.take 8) (c1.cache.drop 8)) ∧
      (N.getD 7 0 % 2 = 0 → out.take 8 = xorTag (buf.take 8) (c1.cache.take 8)) ∧
      (buf.length = 8 → out = xorTag buf (pad8 k N)) ∧
      d.genXor8 N buf = some (c1, out) ∧
      c.genXor8Always N buf = some (c1, out) := by
  obtain ⟨k, c0, c1, c2, c3, c4⟩ := pdfCtx_reachable8_inv cip c hc
  obtain ⟨k2, d0, d1, d2, d3, d4⟩ := pdfCtx_reachable8_inv cip d hd
  rw [c0] at d0
  simp only [Option.some.injEq] at d0
  subst d0
  have hg := pdfCtx_genXor8_general c k N buf c1 c2 c3 c4 hN hb
  have hg2 := pdfCtx_genXor8_general d k N buf d1 d2 d3 d4 hN hb
  have hm : N.getD 7 0 % 2 * 8 ≤ 8 := by
    have := Nat.mod_lt (N.getD 7 0) (show 0 < 2 by norm_num)
    omega
  have hcd : ({ d with nonce := pdfBlock8 N, cache := k.encrypt (pdfBlock8 N) } : pdfCtx)
      = { c with nonce := pdfBlock8 N, cache := k.encrypt (pdfBlock8 N) } := by
    cases c
    cases d
    simp only [] at c1 d1
    subst c1
    subst d1
    rfl
  refine ⟨k, _, _, c0, hg, rfl, rfl, rfl, ?_, ?_, ?_, ?_, ?_⟩
  · intro h1
    simp only []
    have e : ((k.encrypt (pdfBlock8 N)).drop 8).take 8 = (k.encrypt (pdfBlock8 N)).drop 8 :=
      List.take_of_length_le (by rw [List.length_drop, k.size_eq])
    rw [h1, xorBytes_take_eight _ _ hb (by rw [List.length_drop, k.size_eq]), e]
  · intro h0
    simp only []
    rw [h0, xorBytes_take_eight _ _ hb (by rw [List.length_drop, k.size_eq]; omega)]
    rfl
  · intro h8
    have := pdfCtx_genXor8_eq c k N buf c1 c2 c3 c4 hN h8
    rw [hg] at this
    simp only [Option.some.injEq, Prod.mk.injEq, true_and] at this
    exact this
  · rw [hg2, hcd]
  · rw [← pdfCtx_genXor8Always_eq c N buf c3, hg]

theorem pdf_cache_transparent_witness :
    ∃ c d, pdfCtx.Reachable8 (aesCipher testKey) c ∧ pdfCtx.Reachable8 (aesCipher testKey) d ∧
      ∃ k c1 out, aesNewCipher (kdf (aesCipher testKey) 0 (List.replicate 16 0)) = some k ∧
        c.genXor8 [1, 2, 3, 4, 5, 6, 7, 9] (List.replicate 8 0) = some (c1, out) ∧
        c1.cache = k.encrypt c1.nonce ∧ c1.nonce = pdfBlock8 [1, 2, 3, 4, 5, 6, 7, 9] ∧
        out = xorBytes (List.replicate 8 0)
          (c1.cache.drop ([1, 2, 3, 4, 5, 6, 7, 9].getD 7 0 % 2 * 8)) ∧
        ([1, 2, 3, 4, 5, 6, 7, 9].getD 7 0 % 2 = 1 →
          out.take 8 = xorTag ((List.replicate 8 0).take 8) (c1.cache.drop 8)) ∧
        ([1, 2, 3, 4, 5, 6, 7, 9].getD 7 0 % 2 = 0 →
          out.take 8 = xorTag ((List.replicate 8 0).take 8) (c1.cache.take 8)) ∧
        ((List.replicate 8 0).length = 8 →
          out = xorTag (List.replicate 8 0) (pad8 k [1, 2, 3, 4, 5, 6, 7, 9])) ∧
        d.genXor8 [1, 2, 3, 4, 5, 6, 7, 9] (List.replicate 8 0) = some (c1, out) ∧
        c.genXor8Always [1, 2, 3, 4, 5, 6, 7, 9] (List.replicate 8 0) = some (c1, out) := by
  obtain ⟨c, k, hi, p1, p2, p3, p4⟩ := pdfCtx_init_ok (aesCipher testKey)
  have hc : pdfCtx.Reachable8 (aesCipher testKey) c := pdfCtx.Reachable8.init c hi
  have hd := pdfCtx.Reachable8.genXor8 c _ [9, 9, 9, 9, 9, 9, 9, 9] (List.replicate 8 0) _ hc rfl
    (pdfCtx_genXor8_general c k [9, 9, 9, 9, 9, 9, 9, 9] (List.replicate 8 0) p1 p2 p3 p4 rfl
      (by decide))
  exact ⟨c, _, hc, hd, pdf_cache_transparent (aesCipher testKey) c _ [1, 2, 3, 4, 5, 6, 7, 9]
    (List.replicate 8 0) hc hd rfl (by decide)⟩

/-- C15, amended: the zero bytes follow the nonce. PDF block layout for 64-bit tags:
for every reachable
PDF state and every 8-byte nonce `N`, the 16-byte block that `genXor8` encrypts is
`N[0..6] ‖ (N[7] & ~1)` followed by eight zero bytes: bytes 0..7 of the block hold
the nonce with the lowest bit of its last byte cleared, bytes 8..15 are zero. -/
theorem pdf_block_layout (cip : Block) (c : pdfCtx) (N buf : List Nat)
    (hc : c.Reachable8 cip) (hN : N.length = 8) (hb : 8 ≤ buf.length) :
    ∃ k c1 out, c.cip = some k ∧ c.genXor8 N buf = some (c1, out) ∧
      c1.cache = k.encrypt c1.nonce ∧
      c1.nonce = N.take 7 ++ [N.getD 7 0 / 2 * 2] ++ List.replicate 8 0 ∧
      c1.nonce.take 8 = N.take 7 ++ [N.getD 7 0 / 2 * 2] ∧
      c1.nonce.drop 8 = List.replicate 8 0 := by
  obtain ⟨k, _, c1, c2, c3, c4⟩ := pdfCtx_reachable8_inv cip c hc
  refine ⟨k, _, _, c1, pdfCtx_genXor8_general c k N buf c1 c2 c3 c4 hN hb, rfl, rfl, ?_, ?_⟩
  · obtain ⟨a, b, c1, d, e, f, g, i, rfl⟩ := list_length_eight N hN
    rfl
  · obtain ⟨a, b, c1, d, e, f, g, i, rfl⟩ := list_length_eight N hN
    rfl

theorem pdf_block_layout_witness :
    ∃ c, pdfCtx.Reachable8 (aesCipher testKey) c ∧
      ∃ k c1 out, c.cip = some k ∧
        c.genXor8 [1, 2, 3, 4, 5, 6, 7, 9] (List.replicate 8 0) = some (c1, out) ∧
        c1.cache = k.encrypt c1.nonce ∧
        c1.nonce = [1, 2, 3, 4, 5, 6, 7, 9].take 7 ++ [[1, 2, 3, 4, 5, 6, 7, 9].getD 7 0 / 2 * 2]
          ++ List.replicate 8 0 ∧
        c1.nonce.take 8
          = [1, 2, 3, 4, 5, 6, 7, 9].take 7 ++ [[1, 2, 3, 4, 5, 6, 7, 9].getD 7 0 / 2 * 2] ∧
        c1.nonce.drop 8 = List.replicate 8 0 := by
  obtain ⟨c, k, hi, _⟩ := pdfCtx_init_ok (aesCipher testKey)
  have hc : pdfCtx.Reachable8 (aesCipher testKey) c := pdfCtx.Reachable8.init c hi
  exact ⟨c, hc, pdf_block_layout (aesCipher testKey) c [1, 2, 3, 4, 5, 6, 7, 9]
    (List.replicate 8 0) hc rfl (by decide)⟩

/-- C15 as stated fails: the block that `genXor8` encrypts does not have its zero
bytes in front. In the state after `init`, for the nonce `1,2,3,4,5,6,7,9` the encrypted
block is `1,2,3,4,5,6,7,8` followed by eight zero bytes, not eight zero bytes followed
by `1,2,3,4,5,6,7,8`. -/
theorem pdf_block_layout_counterexample :
    ∃ c k c1 out, pdfCtx.zero.init (aesCipher testKey) = some c ∧ c.cip = some k ∧
      c.genXor8 [1, 2, 3, 4, 5, 6, 7, 9] (List.replicate 8 0) = some (c1, out) ∧
      c1.cache = k.encrypt c1.nonce ∧
      c1.nonce = [1, 2, 3, 4, 5, 6, 7, 8, 0, 0, 0, 0, 0, 0, 0, 0] ∧
      pdfBlockLeftPadded [1, 2, 3, 4, 5, 6, 7, 9]
        = [0, 0, 0, 0, 0, 0, 0, 0, 1, 2, 3, 4, 5, 6, 7, 8] ∧
      c1.nonce ≠ pdfBlockLeftPadded [1, 2, 3, 4, 5, 6, 7, 9] := by
  obtain ⟨c, k, hi, p1, p2, p3, p4⟩ := pdfCtx_init_ok (aesCipher testKey)
  refine ⟨c, k, _, _, hi, p1,
    pdfCtx_genXor8_general c k [1, 2, 3, 4, 5, 6, 7, 9] (List.replicate 8 0) p1 p2 p3 p4 rfl
      (by decide), rfl, rfl, rfl, ?_⟩
  simp only []
  decide

/-! ## The nonce comparison never reports a hit -/

theorem pdfCtx_refresh_of_hit (c : pdfCtx) (nonce t : List Nat) (h : c.miss nonce t = false) :
    c.refresh nonce t = some c := by
  have h2 : ¬ (t ≠ c.nonce.drop 4 ∨ nonce.take 4 ≠ c.nonce.take 4) := by
    simpa [pdfCtx.miss] using h
  rw [pdfCtx.refresh, if_neg h2]

theorem pdfCtx_refresh_of_miss (c : pdfCtx) (k : Block) (nonce t : List Nat)
    (hk : c.cip = some k) (h : c.miss nonce t = true) :
    c.refresh nonce t
      = some { c with
          nonce := copySlice (copySlice c.nonce 0 4 (nonce.take 4)) 4 8 t
          cache := copyAt c.cache 0
            (k.encrypt (copySlice (copySlice c.nonce 0 4 (nonce.take 4)) 4 8 t)) } := by
  have h2 : t ≠ c.nonce.drop 4 ∨ nonce.take 4 ≠ c.nonce.take 4 := by
    simpa [pdfCtx.miss] using h
  rw [pdfCtx.refresh, if_pos h2, hk]

theorem scrubbedTail_length (nonce : List Nat) : (scrubbedTail nonce).length ≤ 4 := by
  rw [scrubbedTail, List.length_set, List.length_take]
  omega

theorem pdfCtx_miss_always (c : pdfCtx) (nonce t : List Nat) (hn : c.nonce.length = 16)
    (ht : t.length ≤ 4) : c.miss nonce t = true := by
  have hne : t ≠ c.nonce.drop 4 := by
    intro h
    have := congrArg List.length h
    rw [List.length_drop, hn] at this
    omega
  simp [pdfCtx.miss, hne]

theorem pdfCtx_encryptCalls8_reachable (cip : Block) (c : pdfCtx) (nonce : List Nat)
    (h : c.Reachable8 cip) : c.encryptCalls8 nonce = 1 := by
  obtain ⟨k, _, _, _, h3, _⟩ := pdfCtx_reachable8_inv cip c h
  rw [pdfCtx.encryptCalls8, pdfCtx_miss_always c nonce _ h3 (scrubbedTail_length nonce)]
  rfl

/-- C21, the code at two adjacent nonces. After `init` and `genXor8` with the nonce
`1,2,3,4,5,6,7,8` the stored block begins with `1,2,3,4,5,6,7,8`, which is the
scrubbed form of the nonce `1,2,3,4,5,6,7,9`; yet `genXor8` with that nonce finds
`t` (4 bytes) different from `c.nonce[4:]` (12 bytes), the comparison reports a miss
and the block is encrypted again: the two pad generations do not share an AES
call. -/
theorem pdf_cache_adjacent_miss :
    ∃ c c1 out k, pdfCtx.zero.init (aesCipher testKey) = some c ∧
      c.genXor8 [1, 2, 3, 4, 5, 6, 7, 8] (List.replicate 8 0) = some (c1, out) ∧
      c1.cip = some k ∧
      c1.nonce = [1, 2, 3, 4, 5, 6, 7, 8, 0, 0, 0, 0, 0, 0, 0, 0] ∧
      [1, 2, 3, 4, 5, 6, 7, 9].take 4 ++ scrubbedTail [1, 2, 3, 4, 5, 6, 7, 9]
        = c1.nonce.take 8 ∧
      scrubbedTail [1, 2, 3, 4, 5, 6, 7, 9] = [5, 6, 7, 8] ∧
      c1.nonce.drop 4 = [5, 6, 7, 8, 0, 0, 0, 0, 0, 0, 0, 0] ∧
      c1.miss [1, 2, 3, 4, 5, 6, 7, 9] (scrubbedTail [1, 2, 3, 4, 5, 6, 7, 9]) = true ∧
      c1.encryptCalls8 [1, 2, 3, 4, 5, 6, 7, 9] = 1 ∧
      c1.refresh [1, 2, 3, 4, 5, 6, 7, 9] (scrubbedTail [1, 2, 3, 4, 5, 6, 7, 9])
        = some { c1 with cache := copyAt c1.cache 0 (k.encrypt c1.nonce) } := by
  obtain ⟨c, k, hi, p1, p2, p3, p4⟩ := pdfCtx_init_ok (aesCipher testKey)
  have hg := pdfCtx_genXor8_general c k [1, 2, 3, 4, 5, 6, 7, 8] (List.replicate 8 0)
    p1 p2 p3 p4 rfl (by decide)
  have hm : pdfCtx.miss
      { c with nonce := pdfBlock8 [1, 2, 3, 4, 5, 6, 7, 8],
               cache := k.encrypt (pdfBlock8 [1, 2, 3, 4, 5, 6, 7, 8]) }
      [1, 2, 3, 4, 5, 6, 7, 9] (scrubbedTail [1, 2, 3, 4, 5, 6, 7, 9]) = true :=
    pdfCtx_miss_always
      { c with nonce := pdfBlock8 [1, 2, 3, 4, 5, 6, 7, 8],
               cache := k.encrypt (pdfBlock8 [1, 2, 3, 4, 5, 6, 7, 8]) }
      [1, 2, 3, 4, 5, 6, 7, 9] (scrubbedTail [1, 2, 3, 4, 5, 6, 7, 9]) rfl (by decide)
  refine ⟨c, _, _, k, hi, hg, p1, rfl, rfl, rfl, rfl, hm, ?_, ?_⟩
  · rw [pdfCtx.encryptCalls8, hm]
    rfl
  · rw [pdfCtx_refresh_of_miss
      { c with nonce := pdfBlock8 [1, 2, 3, 4, 5, 6, 7, 8],
               cache := k.encrypt (pdfBlock8 [1, 2, 3, 4, 5, 6, 7, 8]) }
      k [1, 2, 3, 4, 5, 6, 7, 9] (scrubbedTail [1, 2, 3, 4, 5, 6, 7, 9]) p1 hm]
    simp only [Option.some.injEq, pdfCtx.mk.injEq, true_and]
    exact ⟨rfl, by decide⟩

/-! ## The length counter and the NH fill level -/

theorem flatten_take_length_le (ps : List (List Nat)) (n : Nat) :
    (ps.take n).flatten.length ≤ ps.flatten.length := by
  have h : ps.flatten = (ps.take n).flatten ++ (ps.drop n).flatten := by
    rw [← List.flatten_append, List.take_append_drop]
  rw [h, List.length_append]
  omega

theorem uhash8_hashed_coupling (u : uhash8) (m : List Nat) (hh : u.Hashed m) :
    u.msgLen = m.length ∧
    u.nh.hashed + u.nh.nextEmpty = (if m.length ≤ 1024 then m.length else m.length % 1024) ∧
    u.nh.hashed + u.nh.nextEmpty ≤ 1024 ∧ u.nh.key.length = 1040 ∧ u.nh.hashed % 64 = 0 ∧
    u.nh.nextEmpty < 64 := by
  obtain ⟨h1, h2⟩ := hh
  by_cases hm : m.length ≤ 1024
  · rw [if_pos hm] at h2
    obtain ⟨⟨a1, _, a3, a4, _, _⟩, _⟩ := h2
    rw [if_pos hm]
    refine ⟨h1, ?_, ?_, a1, ?_, ?_⟩ <;> omega
  · rw [if_neg hm] at h2
    obtain ⟨⟨a1, _, a3, a4, _, _⟩, _⟩ := h2
    rw [List.length_drop] at a3 a4
    rw [if_neg hm]
    refine ⟨h1, ?_, ?_, a1, ?_, ?_⟩ <;> omega

theorem UMAC8_start_hashed (key : List Nat) (u0 : UMAC8)
    (hs : New8 key = some u0 ∨ ∃ u, UMAC8.Reachable key u ∧ u0 = u.Reset) :
    ∃ k, u0.Ready k ∧ u0.hash.Hashed [] := by
  rcases hs with hs | ⟨u, hr, rfl⟩
  · obtain ⟨u1, k, h1, h2, h3⟩ := New8_ok key (New8_some_iff key u0 hs)
    rw [hs] at h1
    simp only [Option.some.injEq] at h1
    subst h1
    exact ⟨k, h2, h3⟩
  · obtain ⟨u1, k, _, _, h3, h4, h5, h6⟩ := UMAC8_reachable_inv key u hr
    refine ⟨k, h4, (uhash8_reset_hashed u.hash ?_ h6).1⟩
    rw [h5.1]
    exact h3.2.1.1

theorem UMAC8_start_ipKeys (key : List Nat) (u0 : UMAC8)
    (hs : New8 key = some u0 ∨ ∃ u, UMAC8.Reachable key u ∧ u0 = u.Reset) :
    u0.hash.ipKeys.length = 8 := by
  rcases hs with hs | ⟨u, hr, rfl⟩
  · exact New8_ipKeys key u0 hs
  · obtain ⟨u1, k, h1, _, _, _, h5, _⟩ := UMAC8_reachable_inv key u hr
    have := New8_ipKeys key u1 h1
    rw [← h5.2.2.1] at this
    exact this

theorem uhash16_hashed_coupling (u : uhash16) (m : List Nat) (hh : u.Hashed m) :
    u.msgLen = m.length ∧
    u.nh.hashed + u.nh.nextEmpty = (if m.length ≤ 1024 then m.length else m.length % 1024) ∧
    u.nh.hashed + u.nh.nextEmpty ≤ 1024 ∧ u.nh.key.length = 1072 ∧ u.nh.hashed % 64 = 0 ∧
    u.nh.nextEmpty < 64 := by
  obtain ⟨h1, h2⟩ := hh
  by_cases hm : m.length ≤ 1024
  · rw [if_pos hm] at h2
    obtain ⟨⟨a1, _, a3, a4, _, _⟩, _⟩ := h2
    rw [if_pos hm]
    refine ⟨h1, ?_, ?_, a1, ?_, ?_⟩ <;> omega
  · rw [if_neg hm] at h2
    obtain ⟨⟨a1, _, a3, a4, _, _⟩, _⟩ := h2
    rw [List.length_drop] at a3 a4
    rw [if_neg hm]
    refine ⟨h1, ?_, ?_, a1, ?_, ?_⟩ <;> omega

theorem UMAC16_start_hashed (key : List Nat) (u0 : UMAC16)
    (hs : New16 key = some u0 ∨ ∃ u, UMAC16.Reachable key u ∧ u0 = u.Reset) :
    ∃ k, u0.Ready k ∧ u0.hash.Hashed [] := by
  rcases hs with hs | ⟨u, hr, rfl⟩
  · obtain ⟨u1, k, h1, h2, h3⟩ := New16_ok key (New16_some_iff key u0 hs)
    rw [hs] at h1
    simp only [Option.some.injEq] at h1
    subst h1
    exact ⟨k, h2, h3⟩
  · obtain ⟨u1, k, _, _, h3, h4, h5, h6⟩ := UMAC16_reachable_inv key u hr
    refine ⟨k, h4, (uhash16_reset_hashed u.hash ?_ h6).1⟩
    rw [h5.1]
    exact h3.2.1.1

theorem UMAC16_start_ipKeys (key : List Nat) (u0 : UMAC16)
    (hs : New16 key = some u0 ∨ ∃ u, UMAC16.Reachable key u ∧ u0 = u.Reset) :
    u0.hash.ipKeys.length = 16 := by
  rcases hs with hs | ⟨u, hr, rfl⟩
  · exact New16_ipKeys key u0 hs
  · obtain ⟨u1, k, h1, _, _, _, h5, _⟩ := UMAC16_reachable_inv key u hr
    have := New16_ipKeys key u1 h1
    rw [← h5.2.2.1] at this
    exact this

/-- C23. Controller/NH coupling and bounds safety: on a fresh or reset instance, for
every sequence `ps` of `Write` calls of fewer than 2^32 bytes in total and every
number `n` of calls made so far, the first `n` calls all return; with `T` the bytes
written by them, `msgLen = T` and the NH context holds `T` bytes if `T ≤ 1024` and
`T mod 1024` bytes otherwise, so `hashed + nextEmpty ≤ 1024` and every key window
starting at `key[hashed:]` lies inside the key array of `1024 + 16*(S-1)` bytes; a
`Sum` with a nonce of at least 8 bytes that follows returns as well. -/
theorem write_coupling_safe (key : List Nat) (u0 : UMAC8) (v0 : UMAC16) (ps : List (List Nat))
    (n : Nat) (nonce : List Nat)
    (hs : New8 key = some u0 ∨ ∃ u, UMAC8.Reachable key u ∧ u0 = u.Reset)
    (hs16 : New16 key = some v0 ∨ ∃ v, UMAC16.Reachable key v ∧ v0 = v.Reset)
    (hT : ps.flatten.length < 2 ^ 32) (hN : 8 ≤ nonce.length) :
    (∃ u1, u0.writeAll (ps.take n) = some u1 ∧
      u1.hash.msgLen = (ps.take n).flatten.length ∧
      u1.hash.nh.hashed + u1.hash.nh.nextEmpty
        = (if (ps.take n).flatten.length ≤ 1024 then (ps.take n).flatten.length
           else (ps.take n).flatten.length % 1024) ∧
      u1.hash.nh.hashed + u1.hash.nh.nextEmpty ≤ 1024 ∧
      u1.hash.nh.key.length = 1024 + 16 * (2 - 1) ∧
      ∃ u2 tag, u1.Sum nonce = some (u2, tag)) ∧
    (∃ v1, v0.writeAll (ps.take n) = some v1 ∧
      v1.hash.msgLen = (ps.take n).flatten.length ∧
      v1.hash.nh.hashed + v1.hash.nh.nextEmpty
        = (if (ps.take n).flatten.length ≤ 1024 then (ps.take n).flatten.length
           else (ps.take n).flatten.length % 1024) ∧
      v1.hash.nh.hashed + v1.hash.nh.nextEmpty ≤ 1024 ∧
      v1.hash.nh.key.length = 1024 + 16 * (4 - 1) ∧
      ∃ v2 tag, v1.Sum nonce = some (v2, tag)) := by
  have hl := flatten_take_length_le ps n
  constructor
  · obtain ⟨k, hr, hh⟩ := UMAC8_start_hashed key u0 hs
    obtain ⟨u1, e1, e2, e3, e4, e5⟩ := UMAC8_writeAll_hashed (ps.take n) u0 [] hh
      (by simp only [List.length_nil]; omega)
    rw [List.nil_append] at e2
    obtain ⟨c1, c2, c3, c4, _, _⟩ := uhash8_hashed_coupling u1.hash _ e2
    have hr1 : u1.Ready k := by
      unfold UMAC8.Ready
      rw [e4, e5]
      exact hr
    obtain ⟨u2, f1, _⟩ := UMAC8_sum_hashed u1 k _ nonce e2 hr1 hN
      (by rw [e3.2.2.1]; exact (UMAC8_start_ipKeys key u0 hs).ge)
    exact ⟨u1, e1, c1, c2, c3, c4, u2, _, f1⟩
  · obtain ⟨k, hr, hh⟩ := UMAC16_start_hashed key v0 hs16
    obtain ⟨v1, e1, e2, e3, e4, e5⟩ := UMAC16_writeAll_hashed (ps.take n) v0 [] hh
      (by simp only [List.length_nil]; omega)
    rw [List.nil_append] at e2
    obtain ⟨c1, c2, c3, c4, _, _⟩ := uhash16_hashed_coupling v1.hash _ e2
    have hr1 : v1.Ready k := by
      unfold UMAC16.Ready
      rw [e4, e5]
      exact hr
    obtain ⟨v2, f1, _⟩ := UMAC16_sum_hashed v1 k _ nonce e2 hr1 hN
      (by rw [e3.2.2.1]; exact (UMAC16_start_ipKeys key v0 hs16).ge)
    exact ⟨v1, e1, c1, c2, c3, c4, v2, _, f1⟩

theorem write_coupling_safe_witness :
    ∃ u0 v0, New8 testKey = some u0 ∧ New16 testKey = some v0 ∧
    (∃ u1, u0.writeAll ([List.replicate 1000 1, List.replicate 100 2].take 2) = some u1 ∧
      u1.hash.msgLen = ([List.replicate 1000 1, List.replicate 100 2].take 2).flatten.length ∧
      u1.hash.nh.hashed + u1.hash.nh.nextEmpty
        = (if ([List.replicate 1000 1, List.replicate 100 2].take 2).flatten.length ≤ 1024
           then ([List.replicate 1000 1, List.replicate 100 2].take 2).flatten.length
           else ([List.replicate 1000 1, List.replicate 100 2].take 2).flatten.length % 1024) ∧
      u1.hash.nh.hashed + u1.hash.nh.nextEmpty ≤ 1024 ∧
      u1.hash.nh.key.length = 1024 + 16 * (2 - 1) ∧
      ∃ u2 tag, u1.Sum testNonce = some (u2, tag)) ∧
    (∃ v1, v0.writeAll ([List.replicate 1000 1, List.replicate 100 2].take 2) = some v1 ∧
      v1.hash.msgLen = ([List.replicate 1000 1, List.replicate 100 2].take 2).flatten.length ∧
      v1.hash.nh.hashed + v1.hash.nh.nextEmpty
        = (if ([List.replicate 1000 1, List.replicate 100 2].take 2).flatten.length ≤ 1024
           then ([List.replicate 1000 1, List.replicate 100 2].take 2).flatten.length
           else ([List.replicate 1000 1, List.replicate 100 2].take 2).flatten.length % 1024) ∧
      v1.hash.nh.hashed + v1.hash.nh.nextEmpty ≤ 1024 ∧
      v1.hash.nh.key.length = 1024 + 16 * (4 - 1) ∧
      ∃ v2 tag, v1.Sum testNonce = some (v2, tag)) := by
  obtain ⟨u0, _, hu, _⟩ := New8_ok testKey (Or.inl rfl)
  obtain ⟨v0, _, hv, _⟩ := New16_ok testKey (Or.inl rfl)
  exact ⟨u0, v0, hu, hv, write_coupling_safe testKey u0 v0
    [List.replicate 1000 1, List.replicate 100 2] 2 testNonce (Or.inl hu) (Or.inl hv)
    (by simp only [List.flatten_cons, List.flatten_nil, List.append_nil, List.length_append,
      List.length_replicate]; norm_num)
    (by decide)⟩

/-! ## Streams 0 and 1 of the 128-bit NH are the 64-bit NH -/

theorem getD_append_zero (a b : List Nat) (i : Nat) (h : i < a.length) :
    (a ++ b).getD i 0 = a.getD i 0 := by
  simp [List.getD_eq_getElem?_getD, List.getElem?_append_left h]

theorem nhAuxLoop_lanes (n : Nat) (k e d : List Nat) (hp : Words4) (he : e.length = 8) :
    nhAux8Loop n (k.take 4) k d (lanes2 hp) = (nhAux16Loop n (k ++ e) d hp).map lanes2 := by
  induction n generalizing k d hp with
  | zero => rfl
  | succ n ih =>
    rw [nhAux8Loop, nhAux16Loop]
    by_cases hc : d.length ≤ 7 ∨ k.length ≤ 11
    · rw [if_pos hc, if_pos (by rw [List.length_append, he]; omega)]
      rfl
    · rw [if_neg hc, if_neg (by rw [List.length_append, he]; omega)]
      have hk : 12 ≤ k.length := by omega
      have e8 : (k ++ e).drop 8 = k.drop 8 ++ e := List.drop_append_of_le_length (by omega)
      simp only []
      rw [e8, ← ih (k.drop 8) (d.drop 8)]
      simp only [lanes2, getD_take_zero k 4 0 (by omega), getD_take_zero k 4 1 (by omega),
        getD_take_zero k 4 2 (by omega), getD_take_zero k 4 3 (by omega),
        getD_append_zero k e 0 (by omega), getD_append_zero k e 1 (by omega),
        getD_append_zero k e 2 (by omega), getD_append_zero k e 3 (by omega),
        getD_append_zero k e 4 (by omega), getD_append_zero k e 5 (by omega),
        getD_append_zero k e 6 (by omega), getD_append_zero k e 7 (by omega),
        getD_append_zero k e 8 (by omega), getD_append_zero k e 9 (by omega),
        getD_append_zero k e 10 (by omega), getD_append_zero k e 11 (by omega)]

theorem nhAux_lanes (k e d : List Nat) (hp : Words4) (dlen : Nat) (he : e.length = 8)
    (hk : 4 ≤ k.length ∨ 32 ≤ dlen) :
    nhAux8 k d (lanes2 hp) dlen = (nhAux16 (k ++ e) d hp dlen).map lanes2 := by
  rw [nhAux8, nhAux16]
  by_cases h4 : k.length < 4
  · rw [if_pos h4]
    have hd : dlen / 32 = (dlen / 32 - 1) + 1 := by
      have : 1 ≤ dlen / 32 := by
        rcases hk with hk | hk
        · omega
        · exact (Nat.le_div_iff_mul_le (by norm_num)).2 (by omega)
      omega
    rw [hd, nhAux16Loop, if_pos (by rw [List.length_append, he]; omega)]
    rfl
  · rw [if_neg h4]
    exact nhAuxLoop_lanes _ k e d hp he

theorem nhKey_split (k : List Nat) (h : Nat) (hk : k.length = 1072) (hh : h % 64 = 0)
    (hle : h ≤ 1024) :
    toUint32 (k.drop h) = toUint32 ((k.take 1040).drop h) ++ toUint32 (k.drop 1040) ∧
      (toUint32 (k.drop 1040)).length = 8 ∧ 4 ≤ (toUint32 ((k.take 1040).drop h)).length := by
  have e : k.drop h = (k.take 1040).drop h ++ k.drop 1040 := by
    conv_lhs => rw [← List.take_append_drop 1040 k]
    exact List.drop_append_of_le_length (by rw [List.length_take]; omega)
  have hl : ((k.take 1040).drop h).length = 1040 - h := by
    rw [List.length_drop, List.length_take]; omega
  refine ⟨?_, ?_, ?_⟩
  · rw [e, toUint32_append _ _ (by rw [hl]; omega)]
  · rw [toUint32_length, List.length_drop, hk]
  · rw [toUint32_length, hl]; omega

/-- The accumulators `transform` computes, or `none` when it panics. -/
theorem nhCtx16_transform_lanes (k d : List Nat) (j h : Nat) (st : Words4) (buf : List Nat)
    (hk : k.length = 1072) (hh : h % 64 = 0) :
    nhCtx8.transform ⟨k.take 1040, d, j, h, lanes2 st⟩ buf
      = Option.map (fun s => (⟨k.take 1040, d, j, h, lanes2 s⟩ : nhCtx8))
          (if k.length < h then none
           else nhAux16 (toUint32 (k.drop h)) (toUint32 buf) st buf.length) := by
  rw [nhCtx8_transform_def]
  simp only []
  by_cases hle : h ≤ 1024
  · obtain ⟨e1, e2, e3⟩ := nhKey_split k h hk hh hle
    rw [if_neg (by rw [List.length_take]; omega), if_neg (by omega), e1,
      nhAux_lanes _ _ _ st _ e2 (Or.inl e3), Option.map_map]
    rfl
  · rw [if_pos (by rw [List.length_take]; omega), if_pos (by omega)]
    rfl

theorem nhCtx16_transform_lit (k d : List Nat) (j h : Nat) (st : Words4) (buf : List Nat) :
    nhCtx16.transform ⟨k, d, j, h, st⟩ buf
      = Option.map (fun s => (⟨k, d, j, h, s⟩ : nhCtx16))
          (if k.length < h then none
           else nhAux16 (toUint32 (k.drop h)) (toUint32 buf) st buf.length) :=
  nhCtx16_transform_def _ _

theorem nhCtx16_hash_proj (c : nhCtx16) (buf : List Nat) (a b : Nat) (hk : c.key.length = 1072) :
    c.proj.hash buf a b = (c.hash buf a b).map lanes2 := by
  obtain ⟨e1, e2, e3⟩ := nhKey_split c.key 0 hk rfl (by omega)
  rw [List.drop_zero, List.drop_zero] at e1
  rw [List.drop_zero] at e3
  unfold nhCtx8.hash nhCtx16.hash nhCtx16.proj
  simp only []
  rw [e1]
  exact nhAux_lanes _ _ _ (b * 8 % 2 ^ 64, b * 8 % 2 ^ 64, b * 8 % 2 ^ 64, b * 8 % 2 ^ 64) _ e2
    (Or.inl e3)

theorem nhCtx16_update_proj (c : nhCtx16) (buf : List Nat) (ha : c.Aligned) :
    c.proj.update buf = (c.update buf).map nhCtx16.proj ∧
      ∀ c2, c.update buf = some c2 → c2.Aligned := by
  obtain ⟨k, d, j, h, st⟩ := c
  obtain ⟨hk, hh⟩ := ha
  simp only [] at hk hh
  have hh64 : (h + 64) % 64 = 0 := by omega
  unfold nhCtx8.update nhCtx16.update nhCtx16.proj nhCtx16.Aligned
  by_cases hc : j + buf.length ≥ 64
  · simp only [hc, if_true]
    by_cases hj : j = 0
    · subst hj
      simp only [ne_eq, not_true_eq_false, if_false]
      by_cases hn : buf.length ≥ 64
      · simp only [hn, if_true, nhCtx16_transform_lanes _ _ _ _ _ _ hk hh,
          nhCtx16_transform_lit]
        generalize (if k.length < h then none else nhAux16 _ _ _ _) = X
        cases X with
        | none => exact ⟨rfl, fun _ hx => by simp at hx⟩
        | some s =>
          refine ⟨rfl, fun c2 hx => ?_⟩
          simp only [Option.map_some', Option.some.injEq] at hx
          subst hx
          exact ⟨hk, by simp only []; omega⟩
      · simp only [hn, if_false]
        refine ⟨rfl, fun c2 hx => ?_⟩
        simp only [Option.some.injEq] at hx
        subst hx
        exact ⟨hk, hh⟩
    · simp only [ne_eq, hj, not_false_eq_true, if_true]
      by_cases hd : d.length < j ∨ 64 < j
      · simp only [hd, if_true]
        exact ⟨rfl, fun _ hx => by simp at hx⟩
      · simp only [hd, if_false, nhCtx16_transform_lanes _ _ _ _ _ _ hk hh,
          nhCtx16_transform_lit]
        generalize (if k.length < h then none else nhAux16 _ _ _ _) = X
        cases X with
        | none => exact ⟨rfl, fun _ hx => by simp at hx⟩
        | some s =>
          simp only [Option.map_some']
          by_cases hn : buf.length - (64 - j) ≥ 64
          · simp only [hn, if_true, nhCtx16_transform_lanes _ _ _ _ _ _ hk hh64,
              nhCtx16_transform_lit]
            generalize (if k.length < h + 64 then none else nhAux16 _ _ _ _) = Y
            cases Y with
            | none => exact ⟨rfl, fun _ hx => by simp at hx⟩
            | some s2 =>
              refine ⟨rfl, fun c2 hx => ?_⟩
              simp only [Option.map_some', Option.some.injEq] at hx
              subst hx
              exact ⟨hk, by simp only []; omega⟩
          · simp only [hn, if_false]
            refine ⟨rfl, fun c2 hx => ?_⟩
            simp only [Option.some.injEq] at hx
            subst hx
            exact ⟨hk, hh64⟩
  · simp only [hc, if_false]
    by_cases hd : d.length < j
    · simp only [hd, if_true]
      exact ⟨rfl, fun _ hx => by simp at hx⟩
    · simp only [hd, if_false]
      refine ⟨rfl, fun c2 hx => ?_⟩
      simp only [Option.some.injEq] at hx
      subst hx
      exact ⟨hk, hh⟩

theorem nhCtx16_final_proj (c : nhCtx16) (ha : c.Aligned) :
    c.proj.final = (c.final).map (fun p => (p.1.proj, lanes2 p.2)) := by
  obtain ⟨k, d, j, h, st⟩ := c
  obtain ⟨hk, hh⟩ := ha
  simp only [] at hk hh
  unfold nhCtx8.final nhCtx16.final nhCtx16.proj
  by_cases hj : j = 0
  · subst hj
    simp only [ne_eq, not_true_eq_false, if_false]
    by_cases h0 : h = 0
    · subst h0
      simp only [if_true]
      by_cases hd : (copyAt d 0 (List.replicate 32 0)).length < 32
      · simp only [hd, if_true]
        rfl
      · simp only [hd, if_false, nhCtx16_transform_lanes _ _ _ _ _ _ hk hh,
          nhCtx16_transform_lit]
        generalize (if k.length < 0 then none else nhAux16 _ _ _ _) = X
        cases X with
        | none => rfl
        | some s => rfl
    · simp only [h0, if_false]
      rfl
  · simp only [ne_eq, hj, not_false_eq_true, if_true]
    by_cases hd : d.length < j
    · simp only [hd, if_true]
      rfl
    · simp only [hd, if_false]
      by_cases hd2 : (copyAt d j (List.replicate (j + 31 - (j + 31) % 32 - j) 0)).length
          < j + 31 - (j + 31) % 32
      · simp only [hd2, if_true]
        rfl
      · simp only [hd2, if_false, nhCtx16_transform_lanes _ _ _ _ _ _ hk hh,
          nhCtx16_transform_lit]
        generalize (if k.length < h then none else nhAux16 _ _ _ _) = X
        cases X with
        | none => rfl
        | some s => rfl

theorem nhCtx16_final_aligned (c c2 : nhCtx16) (r : Words4) (ha : c.Aligned)
    (h : c.final = some (c2, r)) : c2.Aligned := by
  obtain ⟨f1, _, _, f4, _⟩ := nhCtx16_final_frame c c2 r h
  exact ⟨by rw [f1]; exact ha.1, by rw [f4]⟩

theorem nhCtx16_reset_proj (c : nhCtx16) : c.reset.proj = c.proj.reset := rfl

theorem nhCtx16_reset_aligned (c : nhCtx16) (ha : c.Aligned) : c.reset.Aligned :=
  ⟨ha.1, rfl⟩

/-! ## The hash layer of the 64-bit variant as a projection -/

theorem ipAuxSteps_take (t : Nat) (l : List Nat) (x n : Nat) (hn : 4 ≤ n) :
    ipAuxSteps t (l.take n) x = ipAuxSteps t l x := by
  simp only [ipAuxSteps, getD_take_zero l n 0 (by omega), getD_take_zero l n 1 (by omega),
    getD_take_zero l n 2 (by omega), getD_take_zero l n 3 (by omega)]

theorem ipSlice_take (l : List Nat) (t x : Nat) :
    ipSlice (l.take 8) t x = ipSlice l t x ∧
      ipSlice ((l.take 8).drop 4) t x = ipSlice (l.drop 4) t x := by
  constructor
  · rw [ipSlice, ipSlice, ipAuxSteps_take 0 l x 8 (by omega)]
  · have e : (l.take 8).drop 4 = (l.drop 4).take 4 := by
      rw [List.drop_take]
    rw [ipSlice, ipSlice, e, ipAuxSteps_take 0 _ x 4 (by omega)]

theorem uhash16_polyHash_proj (u : uhash16) (r : Words4) :
    (u.polyHash r).proj = u.proj.polyHash (lanes2 r) := rfl

theorem uhash16_updateLoop_proj (n : Nat) (u : uhash16) (buf : List Nat) (bl : Nat)
    (hk : u.nh.key.length = 1072) :
    uhash8.updateLoop n u.proj buf bl
      = (uhash16.updateLoop n u buf bl).map (fun p => (p.1.proj, p.2)) := by
  induction n generalizing u buf bl with
  | zero => rfl
  | succ n ih =>
    rw [uhash8.updateLoop, uhash16.updateLoop]
    have e : u.proj.nh.hash buf 1024 1024 = (u.nh.hash buf 1024 1024).map lanes2 :=
      nhCtx16_hash_proj u.nh buf 1024 1024 hk
    rw [e]
    cases u.nh.hash buf 1024 1024 with
    | none => rfl
    | some r =>
      simp only [Option.map_some']
      by_cases hb : buf.length < 1024
      · rw [if_pos hb, if_pos hb]
        rfl
      · rw [if_neg hb, if_neg hb]
        exact ih (uhash16.polyHash { u with msgLen := (u.msgLen + 1024) % 2 ^ 32 } r) _ _ hk

theorem uhash16_update_tail_proj (u : uhash16) (buf : List Nat) (bl : Nat)
    (ha : u.nh.Aligned) :
    (if bl ≠ 0 then
        match u.proj.nh.update buf with
        | none => none
        | some nh => some ({ u.proj with nh := nh, msgLen := (u.proj.msgLen + bl) % 2 ^ 32 } : uhash8)
      else some u.proj)
      = Option.map uhash16.proj
          (if bl ≠ 0 then
            match u.nh.update buf with
            | none => none
            | some nh => some ({ u with nh := nh, msgLen := (u.msgLen + bl) % 2 ^ 32 } : uhash16)
          else some u) ∧
      ∀ u2, (if bl ≠ 0 then
            match u.nh.update buf with
            | none => none
            | some nh => some ({ u with nh := nh, msgLen := (u.msgLen + bl) % 2 ^ 32 } : uhash16)
          else some u) = some u2 → u2.nh.Aligned := by
  obtain ⟨p1, p2⟩ := nhCtx16_update_proj u.nh buf ha
  have e : u.proj.nh = u.nh.proj := rfl
  by_cases hb : bl ≠ 0
  · simp only [hb, if_true, e, p1, ne_eq, not_false_eq_true]
    cases hX : u.nh.update buf with
    | none => exact ⟨rfl, fun _ hx => by simp at hx⟩
    | some nh =>
      refine ⟨rfl, fun u2 hx => ?_⟩
      simp only [Option.some.injEq] at hx
      subst hx
      exact p2 nh hX
  · simp only [hb, if_false]
    refine ⟨rfl, fun u2 hx => ?_⟩
    simp only [Option.some.injEq] at hx
    subst hx
    exact ha

theorem uhash16_update_loop_proj (u : uhash16) (n : Nat) (buf : List Nat) (bl : Nat)
    (ha : u.nh.Aligned) :
    (match uhash8.updateLoop n u.proj buf bl with
      | none => none
      | some (u, buf, bufLen) =>
        if bufLen ≠ 0 then
          match u.nh.update buf with
          | none => none
          | some nh => some ({ u with nh := nh, msgLen := (u.msgLen + bufLen) % 2 ^ 32 } : uhash8)
        else some u)
      = Option.map uhash16.proj
          (match uhash16.updateLoop n u buf bl with
            | none => none
            | some (u, buf, bufLen) =>
              if bufLen ≠ 0 then
                match u.nh.update buf with
                | none => none
                | some nh =>
                  some ({ u with nh := nh, msgLen := (u.msgLen + bufLen) % 2 ^ 32 } : uhash16)
              else some u) ∧
      ∀ u2, (match uhash16.updateLoop n u buf bl with
            | none => none
            | some (u, buf, bufLen) =>
              if bufLen ≠ 0 then
                match u.nh.update buf with
                | none => none
                | some nh =>
                  some ({ u with nh := nh, msgLen := (u.msgLen + bufLen) % 2 ^ 32 } : uhash16)
              else some u) = some u2 → u2.nh.Aligned := by
  rw [uhash16_updateLoop_proj n u buf bl ha.1]
  cases hL : uhash16.updateLoop n u buf bl with
  | none => exact ⟨rfl, fun _ hx => by simp at hx⟩
  | some q =>
    obtain ⟨u1, b1, l1⟩ := q
    have a1 : u1.nh.Aligned := by
      rw [(uhash16_updateLoop_frame n u u1 buf b1 bl l1 hL).2]
      exact ha
    exact uhash16_update_tail_proj u1 b1 l1 a1

theorem uhash16_update_proj (u : uhash16) (buf : List Nat) (ha : u.nh.Aligned) :
    u.proj.update buf = (u.update buf).map uhash16.proj ∧
      ∀ u2, u.update buf = some u2 → u2.nh.Aligned := by
  obtain ⟨nh, pk, pr, ik, it, ml⟩ := u
  simp only [] at ha
  unfold uhash8.update uhash16.update uhash16.proj
  simp only []
  generalize (if ml = 1024 then 1024 else ml % 1024) = bh
  by_cases c1 : (ml + buf.length % 2 ^ 32) % 2 ^ 32 ≤ 1024
  · rw [if_pos c1, if_pos c1]
    obtain ⟨p1, p2⟩ := nhCtx16_update_proj nh buf ha
    rw [p1]
    cases hX : nh.update buf with
    | none => exact ⟨rfl, fun _ hx => by simp at hx⟩
    | some nh1 =>
      refine ⟨rfl, fun u2 hx => ?_⟩
      simp only [Option.some.injEq] at hx
      subst hx
      exact p2 nh1 hX
  · rw [if_neg c1, if_neg c1]
    by_cases cA : (bh + buf.length % 2 ^ 32) % 2 ^ 32 ≥ 1024
    · rw [if_pos cA, if_pos cA]
      by_cases c0 : bh ≠ 0
      · rw [if_pos c0, if_pos c0]
        by_cases cl : buf.length < 1024 - bh
        · rw [if_pos cl, if_pos cl]
          exact ⟨rfl, fun _ hx => by simp at hx⟩
        · rw [if_neg cl, if_neg cl]
          obtain ⟨p1, p2⟩ := nhCtx16_update_proj nh (buf.take (1024 - bh)) ha
          rw [p1]
          cases hX : nh.update (buf.take (1024 - bh)) with
          | none => exact ⟨rfl, fun _ hx => by simp at hx⟩
          | some nh1 =>
            have a1 := p2 nh1 hX
            simp only [Option.map_some']
            rw [nhCtx16_final_proj nh1 a1]
            cases hY : nh1.final with
            | none => exact ⟨rfl, fun _ hx => by simp at hx⟩
            | some q =>
              obtain ⟨nh2, r⟩ := q
              have a2 := nhCtx16_final_aligned nh1 nh2 r a1 hY
              exact uhash16_update_loop_proj
                (uhash16.polyHash ⟨nh2, pk, pr, ik, it, (ml + (1024 - bh)) % 2 ^ 32⟩ r)
                ((buf.length % 2 ^ 32 + 2 ^ 32 - (1024 - bh)) % 2 ^ 32 / 1024)
                (buf.drop (1024 - bh)) ((buf.length % 2 ^ 32 + 2 ^ 32 - (1024 - bh)) % 2 ^ 32) a2
      · rw [if_neg c0, if_neg c0]
        exact uhash16_update_loop_proj ⟨nh, pk, pr, ik, it, ml⟩ (buf.length % 2 ^ 32 / 1024)
          buf (buf.length % 2 ^ 32) ha
    · rw [if_neg cA, if_neg cA]
      exact uhash16_update_tail_proj ⟨nh, pk, pr, ik, it, ml⟩ buf (buf.length % 2 ^ 32) ha

theorem slices_take_eight (a b c d : List Nat) (ha : a.length = 4) (hb : b.length = 4) :
    (a ++ b ++ c ++ d).take 8 = a ++ b := by
  rw [List.append_assoc (a ++ b), List.take_append_of_le_length
    (by rw [List.length_append]; omega), List.take_of_length_le
    (by rw [List.length_append]; omega)]

theorem uhash16_proj_ipKeys (u : uhash16) (hik : 16 ≤ u.ipKeys.length) :
    8 ≤ u.proj.ipKeys.length := by
  show 8 ≤ (u.ipKeys.take 8).length
  rw [List.length_take]
  omega

theorem uhash16_ipLong_proj (u : uhash16) (o8 o16 : List Nat) (h8 : o8.length = 8)
    (h16 : o16.length = 16) (hik : 16 ≤ u.ipKeys.length) :
    u.proj.ipLong o8 = (u.ipLong o16).map (fun p => (p.1.proj, p.2.take 8)) := by
  rw [uhash8_ipLong_eq _ _ h8 (uhash16_proj_ipKeys u hik), uhash16_ipLong_eq _ _ h16 hik]
  simp only [Option.map_some', Option.some.injEq, Prod.mk.injEq]
  refine ⟨rfl, ?_⟩
  rw [slices_take_eight _ _ _ _ (ipSlice_length _ _ _) (ipSlice_length _ _ _)]
  have e1 := (ipSlice_take u.ipKeys u.ipTrans.1 (reduceP64 u.polyResult.1)).1
  have e2 := (ipSlice_take u.ipKeys u.ipTrans.2.1 (reduceP64 u.polyResult.2.1)).2
  rw [← e1, ← e2]
  rfl

theorem uhash16_ipShort_proj (u : uhash16) (r : Words4) (o8 o16 : List Nat)
    (h8 : o8.length = 8) (h16 : o16.length = 16)
    (h1 : r.1 < 2 ^ 64) (h2 : r.2.1 < 2 ^ 64) (h3 : r.2.2.1 < 2 ^ 64) (h4 : r.2.2.2 < 2 ^ 64)
    (hik : 16 ≤ u.ipKeys.length) :
    u.proj.ipShort (toBytes [(lanes2 r).1, (lanes2 r).2]) o8
      = (u.ipShort (toBytes [r.1, r.2.1, r.2.2.1, r.2.2.2]) o16).map (List.take 8) := by
  rw [uhash8_ipShort_eq _ (lanes2 r) _ h8 h1 h2 (uhash16_proj_ipKeys u hik),
    uhash16_ipShort_eq _ r _ h16 h1 h2 h3 h4 hik]
  simp only [Option.map_some', Option.some.injEq]
  rw [slices_take_eight _ _ _ _ (ipSlice_length _ _ _) (ipSlice_length _ _ _)]
  have e1 := (ipSlice_take u.ipKeys u.ipTrans.1 r.1).1
  have e2 := (ipSlice_take u.ipKeys u.ipTrans.2.1 r.2.1).2
  rw [← e1, ← e2]
  rfl

theorem uhash16_ipLong_reset_proj (u : uhash16) (o8 o16 : List Nat) (h8 : o8.length = 8)
    (h16 : o16.length = 16) (hik : 16 ≤ u.ipKeys.length) :
    (match u.proj.ipLong o8 with
      | none => none
      | some (u, out) => some (u.reset, out))
      = Option.map (fun p => (uhash16.proj p.1, p.2.take 8))
          (match u.ipLong o16 with
            | none => none
            | some (u, out) => some (u.reset, out)) := by
  rw [uhash16_ipLong_proj u o8 o16 h8 h16 hik]
  cases u.ipLong o16 with
  | none => rfl
  | some q => rfl

theorem uhash16_ipShort_reset_proj (u : uhash16) (r : Words4) (o8 o16 : List Nat)
    (h8 : o8.length = 8) (h16 : o16.length = 16)
    (h1 : r.1 < 2 ^ 64) (h2 : r.2.1 < 2 ^ 64) (h3 : r.2.2.1 < 2 ^ 64) (h4 : r.2.2.2 < 2 ^ 64)
    (hik : 16 ≤ u.ipKeys.length) :
    (match (match u.proj.ipShort (toBytes [(lanes2 r).1, (lanes2 r).2]) o8 with
        | none => none
        | some out => some (u.proj, out)) with
      | none => none
      | some (u, out) => some (u.reset, out))
      = Option.map (fun p => (uhash16.proj p.1, p.2.take 8))
          (match (match u.ipShort (toBytes [r.1, r.2.1, r.2.2.1, r.2.2.2]) o16 with
              | none => none
              | some out => some (u, out)) with
            | none => none
            | some (u, out) => some (u.reset, out)) := by
  rw [uhash16_ipShort_proj u r o8 o16 h8 h16 h1 h2 h3 h4 hik]
  cases u.ipShort (toBytes [r.1, r.2.1, r.2.2.1, r.2.2.2]) o16 with
  | none => rfl
  | some q => rfl

theorem uhash16_final_proj (u : uhash16) (o8 o16 : List Nat) (ha : u.nh.Aligned)
    (h8 : o8.length = 8) (h16 : o16.length = 16) (hik : 16 ≤ u.ipKeys.length) :
    u.proj.final o8 = (u.final o16).map (fun p => (p.1.proj, p.2.take 8)) := by
  obtain ⟨nh, pk, pr, ik, it, ml⟩ := u
  simp only [] at ha hik
  have hf := nhCtx16_final_proj nh ha
  unfold uhash8.final uhash16.final
  have e1 : (uhash16.proj ⟨nh, pk, pr, ik, it, ml⟩).msgLen = ml := rfl
  have e2 : (uhash16.proj ⟨nh, pk, pr, ik, it, ml⟩).nh = nh.proj := rfl
  simp only [e1, e2, hf]
  by_cases c1 : ml > 1024
  · simp only [c1, if_true]
    by_cases c2 : ml % 1024 ≠ 0
    · simp only [c2, if_true, ne_eq, not_false_eq_true]
      cases hY : nh.final with
      | none => rfl
      | some q =>
        obtain ⟨nh2, r⟩ := q
        exact uhash16_ipLong_reset_proj (uhash16.polyHash ⟨nh2, pk, pr, ik, it, ml⟩ r) o8 o16
          h8 h16 hik
    · simp only [c2, if_false]
      exact uhash16_ipLong_reset_proj ⟨nh, pk, pr, ik, it, ml⟩ o8 o16 h8 h16 hik
  · simp only [c1, if_false]
    cases hY : nh.final with
    | none => rfl
    | some q =>
      obtain ⟨nh2, r⟩ := q
      obtain ⟨_, _, _, _, _, r1, r2, r3, r4⟩ := nhCtx16_final_frame nh nh2 r hY
      exact uhash16_ipShort_reset_proj ⟨nh2, pk, pr, ik, it, ml⟩ r o8 o16 h8 h16 r1 r2 r3 r4 hik

theorem uhash16_final_aligned (u u2 : uhash16) (out o : List Nat) (ha : u.nh.Aligned)
    (h : u.final out = some (u2, o)) : u2.nh.Aligned := by
  obtain ⟨v, v1, v2, _⟩ := uhash16_final_frame u u2 out o h
  rw [v1]
  exact ⟨by rw [← ha.1, ← v2.1]; rfl, rfl⟩

/-! ## The keys of the 64-bit variant are prefixes of those of the 128-bit variant -/

theorem toUint64_take (l : List Nat) (k : Nat) :
    toUint64 (l.take (8 * k)) = (toUint64 l).take k := by
  induction k generalizing l with
  | zero => simp [toUint64]
  | succ k ih =>
    match l with
    | [] => simp [toUint64]
    | [_] => simp [toUint64]
    | [_, _] => simp [toUint64]
    | [_, _, _] => simp [toUint64]
    | [_, _, _, _] => simp [toUint64]
    | [_, _, _, _, _] => simp [toUint64]
    | [_, _, _, _, _, _] => simp [toUint64]
    | [_, _, _, _, _, _, _] => simp [toUint64]
    | a :: b :: c :: d :: e :: f :: g :: h :: r =>
      have e8 : 8 * (k + 1) = 8 * k + 1 + 1 + 1 + 1 + 1 + 1 + 1 + 1 := by ring
      rw [e8]
      simp only [List.take_succ_cons, toUint64]
      rw [ih r]

theorem bigEndianUint64_take (l : List Nat) (n : Nat) (hn : 8 ≤ n) :
    bigEndianUint64 (l.take n) = bigEndianUint64 l := by
  obtain ⟨m, rfl⟩ := Nat.exists_eq_add_of_le hn
  match l with
  | [] => rw [List.take_of_length_le (by simp only [List.length_cons, List.length_nil]; omega)]
  | [_] => rw [List.take_of_length_le (by simp only [List.length_cons, List.length_nil]; omega)]
  | [_, _] => rw [List.take_of_length_le (by simp only [List.length_cons, List.length_nil]; omega)]
  | [_, _, _] => rw [List.take_of_length_le (by simp only [List.length_cons, List.length_nil]; omega)]
  | [_, _, _, _] => rw [List.take_of_length_le (by simp only [List.length_cons, List.length_nil]; omega)]
  | [_, _, _, _, _] => rw [List.take_of_length_le (by simp only [List.length_cons, List.length_nil]; omega)]
  | [_, _, _, _, _, _] => rw [List.take_of_length_le (by simp only [List.length_cons, List.length_nil]; omega)]
  | [_, _, _, _, _, _, _] => rw [List.take_of_length_le (by simp only [List.length_cons, List.length_nil]; omega)]
  | a :: b :: c :: d :: e :: f :: g :: h :: r =>
    have e8 : 8 + m = m + 1 + 1 + 1 + 1 + 1 + 1 + 1 + 1 := by ring
    rw [e8]
    simp only [List.take_succ_cons, bigEndianUint64]

theorem bytesOfWords32_take (l : List Nat) (n : Nat) :
    (bytesOfWords32 l).take (4 * n) = bytesOfWords32 (l.take n) := by
  induction n generalizing l with
  | zero => simp [bytesOfWords32]
  | succ n ih =>
    match l with
    | [] => simp [bytesOfWords32]
    | a :: r =>
      have e4 : 4 * (n + 1) = 4 * n + 1 + 1 + 1 + 1 := by ring
      have := ih r
      simp only [bytesOfWords32, List.flatMap_cons, bytesOfUint32, List.cons_append,
        List.nil_append, List.take_succ_cons, e4] at this ⊢
      rw [this]

theorem kdf_take (cip : Block) (index : Nat) (a b : List Nat) (hab : a.length ≤ b.length)
    (hb : b.length ≤ 4080) : kdf cip index a = (kdf cip index b).take a.length := by
  rw [kdf_eq_stream cip index b hb, kdf_eq_stream cip index a (by omega), List.take_take,
    Nat.min_eq_left hab]

theorem nhCtx16_init_proj (cip : Block) :
    nhCtx8.zero.init cip = (nhCtx16.zero.init cip).proj := by
  have hK : kdf cip 1 (List.replicate 1040 0)
      = (kdf cip 1 (List.replicate 1072 0)).take (4 * 260) := by
    have := kdf_take cip 1 (List.replicate 1040 0) (List.replicate 1072 0)
      (by simp only [List.length_replicate]; omega) (by simp only [List.length_replicate]; omega)
    rwa [List.length_replicate] at this
  have hl16 : (kdf cip 1 (List.replicate 1072 0)).length = 1072 := by
    rw [kdf_length, List.length_replicate]
  have hl8 : ((kdf cip 1 (List.replicate 1072 0)).take (4 * 260)).length = 1040 := by
    rw [List.length_take, hl16]
    rfl
  simp only [nhCtx8.init, nhCtx16.init, nhCtx8.zero, nhCtx16.zero, nhCtx8.reset, nhCtx16.reset,
    nhCtx16.proj, lanes2, hK]
  have e1 : List.drop (4 * (toUint32 ((kdf cip 1 (List.replicate 1072 0)).take (4 * 260))).length)
      ((kdf cip 1 (List.replicate 1072 0)).take (4 * 260)) = [] :=
    List.drop_of_length_le (by rw [toUint32_length, hl8])
  have e2 : List.drop (4 * (toUint32 (kdf cip 1 (List.replicate 1072 0))).length)
      (kdf cip 1 (List.replicate 1072 0)) = [] :=
    List.drop_of_length_le (by rw [toUint32_length, hl16])
  rw [e1, e2, List.append_nil, List.append_nil, toUint32_take,
    show (1040 : Nat) = 4 * 260 from rfl, bytesOfWords32_take, List.map_take]

theorem ipKeysOfStream_take (buf : List Nat) (i : Nat) (hi : i < 2) :
    ipKeysOfStream (buf.take 160) i = ipKeysOfStream buf i := by
  have e : (buf.take 160).drop ((8 * i + 4) * 8)
      = (buf.drop ((8 * i + 4) * 8)).take (8 * (16 - 8 * i)) := by
    rw [List.drop_take]
    congr 1
    omega
  simp only [ipKeysOfStream]
  rw [e, toUint64_take, getD_take_zero _ _ 0 (by omega), getD_take_zero _ _ 1 (by omega),
    getD_take_zero _ _ 2 (by omega), getD_take_zero _ _ 3 (by omega)]

theorem ipKeysOfStream_length (buf : List Nat) (i : Nat) : (ipKeysOfStream buf i).length = 4 :=
  rfl

theorem uhash16_init_proj (u : uhash16) (cip : Block) :
    u.proj.init cip = (u.init cip).map uhash16.proj := by
  have hB : kdf cip 2 (List.replicate ((8 * 2 + 4) * 8) 0)
      = (kdf cip 2 (List.replicate ((8 * 4 + 4) * 8) 0)).take 160 := by
    have := kdf_take cip 2 (List.replicate ((8 * 2 + 4) * 8) 0)
      (List.replicate ((8 * 4 + 4) * 8) 0)
      (by simp only [List.length_replicate]; omega) (by simp only [List.length_replicate]; omega)
    rwa [List.length_replicate] at this
  generalize hB16 : kdf cip 2 (List.replicate ((8 * 4 + 4) * 8) 0) = B at hB
  have hBl : B.length = 288 := by rw [← hB16, kdf_length, List.length_replicate]
  have hC : kdf cip 3 (B.take 160) = (kdf cip 3 B).take 160 := by
    have := kdf_take cip 3 (B.take 160) B (by rw [List.length_take]; omega) (by omega)
    rwa [List.length_take, hBl] at this
  generalize hC16 : kdf cip 3 B = C at hC
  have hCl : C.length = 288 := by rw [← hC16, kdf_length, hBl]
  have hD : kdf cip 4 ((C.take 160).take (2 * 4)) = (kdf cip 4 (C.take (4 * 4))).take (4 * 2) := by
    have := kdf_take cip 4 ((C.take 160).take (2 * 4)) (C.take (4 * 4))
      (by simp only [List.length_take]; omega) (by simp only [List.length_take]; omega)
    rwa [List.length_take, List.length_take, hCl] at this
  obtain ⟨k0, hk0⟩ := bigEndianUint64_some B (by omega)
  obtain ⟨k1, hk1⟩ := bigEndianUint64_some (B.drop 24) (by rw [List.length_drop]; omega)
  obtain ⟨k2, hk2⟩ := bigEndianUint64_some (B.drop 48) (by rw [List.length_drop]; omega)
  obtain ⟨k3, hk3⟩ := bigEndianUint64_some (B.drop 72) (by rw [List.length_drop]; omega)
  have hk0x : bigEndianUint64 (B.take 160) = some k0 := by
    rw [bigEndianUint64_take _ _ (by omega), hk0]
  have hk1x : bigEndianUint64 ((B.take 160).drop 24) = some k1 := by
    rw [List.drop_take, bigEndianUint64_take _ _ (by omega), hk1]
  unfold uhash8.init uhash16.init
  simp only [hB, hB16, hC, hC16, hD, hk0, hk1, hk2, hk3, hk0x, hk1x, Option.map_some',
    Option.some.injEq]
  simp only [uhash16.proj, uhash8.mk.injEq, lanes2, true_and]
  refine ⟨nhCtx16_init_proj cip, ?_, ?_⟩
  · rw [ipKeysOfStream_take C 0 (by omega), ipKeysOfStream_take C 1 (by omega),
      List.append_assoc, List.append_assoc, ← List.append_assoc (ipKeysOfStream C 0),
      List.take_append_of_le_length (by
        rw [List.length_append, ipKeysOfStream_length, ipKeysOfStream_length]),
      List.take_of_length_le (by
        rw [List.length_append, ipKeysOfStream_length, ipKeysOfStream_length])]
  · rw [toUint32_take, getD_take_zero _ _ 0 (by omega), getD_take_zero _ _ 1 (by omega)]
    exact ⟨rfl, trivial⟩

/-! ## The instances in lockstep -/

theorem take_eight_snoc (b : List Nat) (hb : 8 ≤ b.length) :
    b.take 8 = b.take 7 ++ [b.getD 7 0] := by
  rw [List.take_succ, List.getD_eq_getElem?_getD, List.getElem?_eq_getElem (by omega)]
  rfl

theorem pad8_eq_pad16_take (k : Block) (b : List Nat) (hb : 8 ≤ b.length)
    (he : b.getD 7 0 % 2 = 0) : pad8 k b = (pad16 k b).take 8 := by
  have e : b.getD 7 0 / 2 * 2 = b.getD 7 0 := by omega
  rw [pad8, pad16, pdfBlock8, he, e, ← take_eight_snoc b hb]
  rfl

theorem xorTag_take (a b : List Nat) (n : Nat) :
    (xorTag a b).take n = xorTag (a.take n) (b.take n) := by
  rw [xorTag, xorTag, List.take_zipWith]

theorem UMAC8_sum_of_final (u : UMAC8) (k : Block) (b o : List Nat) (hu : uhash8)
    (hr : u.Ready k) (hb : 8 ≤ b.length) (hf : u.hash.final u.out = some (hu, o))
    (ho : o.length = 8) :
    ∃ u2, u.Sum b = some (u2, xorTag o (pad8 k b)) ∧ u2.hash = hu ∧ u2.Ready k := by
  obtain ⟨r1, r2, r3, r4, r5⟩ := hr
  have hx := pdfCtx_genXor8_eq u.pdf k (b.take 8) o r2 r3 r4 r5
    (by rw [List.length_take]; omega) ho
  rw [pad8_take] at hx
  refine ⟨{ pdf := { u.pdf with
                       nonce := pdfBlock8 (b.take 8)
                       cache := k.encrypt (pdfBlock8 (b.take 8)) }
            hash := hu
            out := xorTag o (pad8 k b) }, ?_, rfl, ?_⟩
  · rw [UMAC8.Sum, if_neg (by omega), hf]
    simp only []
    rw [hx]
  · refine ⟨?_, r2, k.size_eq _, (pdfBlock8_props _ (by rw [List.length_take]; omega)).1,
      (pdfBlock8_props _ (by rw [List.length_take]; omega)).2⟩
    simp only [xorTag, List.length_zipWith, ho, pad8_length]
    rfl

theorem UMAC16_sum_of_final (u : UMAC16) (k : Block) (b o : List Nat) (hu : uhash16)
    (hr : u.Ready k) (hb : 8 ≤ b.length) (hf : u.hash.final u.out = some (hu, o))
    (ho : o.length = 16) :
    ∃ u2, u.Sum b = some (u2, xorTag o (pad16 k b)) ∧ u2.hash = hu ∧ u2.Ready k := by
  obtain ⟨r1, r2, r3, r4, r5⟩ := hr
  have hx := pdfCtx_genXor16_eq u.pdf k (b.take 8) o r2 r3 r4 r5
    (by rw [List.length_take]; omega) ho
  rw [pad16_take] at hx
  refine ⟨{ pdf := { u.pdf with
                       nonce := (b.take 8).take 8 ++ List.replicate 8 0
                       cache := k.encrypt ((b.take 8).take 8 ++ List.replicate 8 0) }
            hash := hu
            out := xorTag o (pad16 k b) }, ?_, rfl, ?_⟩
  · rw [UMAC16.Sum, if_neg (by omega), hf]
    simp only []
    rw [hx]
  · refine ⟨?_, r2, k.size_eq _, (pdfBlock16_props _ (by rw [List.length_take]; omega)).1,
      (pdfBlock16_props _ (by rw [List.length_take]; omega)).2⟩
    simp only [xorTag, List.length_zipWith, ho, pad16_length]
    rfl

theorem uhash8_init_congr (u u2 : uhash8) (cip : Block) (h : u.msgLen = u2.msgLen) :
    u.init cip = u2.init cip := by
  unfold uhash8.init
  simp only []
  split <;> simp [h]

theorem New_proj (key : List Nat) :
    (New8 key = none ∧ New16 key = none) ∨
      ∃ u v k, New8 key = some u ∧ New16 key = some v ∧ UMAC16.Proj k v u ∧ u.pdf = v.pdf := by
  by_cases hk : key.length = 16 ∨ key.length = 24 ∨ key.length = 32
  · right
    obtain ⟨cip, hc⟩ := aesNewCipher_some key hk
    obtain ⟨p, k, hp, p1, p2, p3, p4⟩ := pdfCtx_init_ok cip
    obtain ⟨g, hg⟩ := uhash16_init_some UMAC16.zero.hash cip
    have h8 : UMAC8.zero.hash.init cip = some g.proj := by
      rw [uhash8_init_congr UMAC8.zero.hash UMAC16.zero.hash.proj cip rfl,
        uhash16_init_proj, hg]
      rfl
    have hnh : g.nh = nhCtx16.zero.init cip := by
      unfold uhash16.init at hg
      simp only [] at hg
      split at hg
      · simp only [Option.some.injEq] at hg
        rw [← hg]
      · simp at hg
    obtain ⟨n1, _, _, n4, _⟩ := nhCtx16_init_props cip
    refine ⟨{ UMAC8.zero with pdf := p, hash := g.proj }, { UMAC16.zero with pdf := p, hash := g },
      k, ?_, ?_, ⟨rfl, ?_, ⟨rfl, p1, p2, p3, p4⟩, ⟨rfl, p1, p2, p3, p4⟩,
        (uhash16_init_ipKeys _ _ _ hg).ge⟩, rfl⟩
    · rw [New8, hc]
      simp only []
      have : UMAC8.zero.pdf = pdfCtx.zero := rfl
      rw [this, hp]
      simp only []
      rw [h8]
    · rw [New16, hc]
      simp only []
      have : UMAC16.zero.pdf = pdfCtx.zero := rfl
      rw [this, hp]
      simp only []
      rw [hg]
    · simp only []
      rw [hnh]
      exact ⟨n1, by rw [n4]⟩
  · left
    exact ⟨New8_none key hk, New16_none key hk⟩

theorem UMAC16_write_proj (k : Block) (v : UMAC16) (u : UMAC8) (p : List Nat)
    (h : UMAC16.Proj k v u) :
    (u.Write p = none ∧ v.Write p = none) ∨
      ∃ u2 v2 n, u.Write p = some (u2, n) ∧ v.Write p = some (v2, n) ∧ UMAC16.Proj k v2 u2 := by
  obtain ⟨h1, h2, h3, h4, h5⟩ := h
  obtain ⟨q1, q2⟩ := uhash16_update_proj v.hash p h2
  unfold UMAC8.Write UMAC16.Write
  rw [h1, q1]
  cases hX : v.hash.update p with
  | none => left; exact ⟨rfl, rfl⟩
  | some g =>
    right
    have hw : v.Write p = some ({ v with hash := g }, p.length) := by
      rw [UMAC16.Write, hX]
    obtain ⟨_, _, f3, _⟩ := UMAC16_write_frame v _ p _ hw
    exact ⟨_, _, _, rfl, rfl, rfl, q2 g hX, h3, h4, by rw [f3.2.2.1]; exact h5⟩

theorem UMAC16_writeAll_proj (k : Block) (ps : List (List Nat)) (v : UMAC16) (u : UMAC8)
    (h : UMAC16.Proj k v u) :
    (u.writeAll ps = none ∧ v.writeAll ps = none) ∨
      ∃ u2 v2, u.writeAll ps = some u2 ∧ v.writeAll ps = some v2 ∧ UMAC16.Proj k v2 u2 := by
  induction ps generalizing u v with
  | nil => right; exact ⟨u, v, rfl, rfl, h⟩
  | cons p ps ih =>
    rw [UMAC8.writeAll, UMAC16.writeAll]
    obtain (⟨e1, e2⟩ | ⟨u2, v2, n, e1, e2, e3⟩) := UMAC16_write_proj k v u p h
    · left; rw [e1, e2]; exact ⟨rfl, rfl⟩
    · rw [e1, e2]
      exact ih v2 u2 e3

theorem UMAC16_sum_proj (k : Block) (v : UMAC16) (u : UMAC8) (b : List Nat)
    (h : UMAC16.Proj k v u) :
    (u.Sum b = none ∧ v.Sum b = none) ∨
      ∃ u2 v2 t8 t16, u.Sum b = some (u2, t8) ∧ v.Sum b = some (v2, t16) ∧
        UMAC16.Proj k v2 u2 ∧ t16.length = 16 ∧ (b.getD 7 0 % 2 = 0 → t8 = t16.take 8) := by
  obtain ⟨h1, h2, h3, h4, h5⟩ := h
  by_cases hb : b.length ≤ 7
  · left
    rw [UMAC8.Sum, UMAC16.Sum, if_pos hb, if_pos hb]
    exact ⟨rfl, rfl⟩
  · have hf := uhash16_final_proj v.hash u.out v.out h2 h3.1 h4.1 h5
    rw [← h1] at hf
    cases hX : v.hash.final v.out with
    | none =>
      left
      rw [hX] at hf
      rw [UMAC8.Sum, UMAC16.Sum, if_neg hb, if_neg hb, hX, hf]
      exact ⟨rfl, rfl⟩
    | some q =>
      obtain ⟨g, o⟩ := q
      right
      rw [hX] at hf
      simp only [Option.map_some'] at hf
      obtain ⟨w, w1, w2, _, wl⟩ := uhash16_final_frame v.hash g v.out o hX
      have ol : o.length = 16 := wl h4.1
      obtain ⟨v2, s1, s2, s3⟩ := UMAC16_sum_of_final v k b o g h4 (by omega) hX ol
      obtain ⟨u2, t1, t2, t3⟩ := UMAC8_sum_of_final u k b (o.take 8) g.proj h3 (by omega) hf
        (by rw [List.length_take]; omega)
      refine ⟨u2, v2, _, _, t1, s1, ⟨?_, ?_, t3, s3, ?_⟩, ?_, ?_⟩
      · rw [t2, s2]
      · rw [s2]
        exact uhash16_final_aligned v.hash g v.out o h2 hX
      · rw [s2, w1]
        show 16 ≤ w.ipKeys.length
        rw [w2.2.2.1]
        exact h5
      · simp only [xorTag, List.length_zipWith, ol, pad16_length]
        rfl
      · intro he
        rw [xorTag_take, pad8_eq_pad16_take k b (by omega) he]

theorem tag8_eq_tag16_take (key : List Nat) (ps : List (List Nat)) (b : List Nat)
    (he : b.getD 7 0 % 2 = 0) :
    tag8 key ps b = (tag16 key ps b).map (List.take 8) := by
  unfold tag8 tag16
  obtain (⟨e1, e2⟩ | ⟨u, v, k, e1, e2, hp, _⟩) := New_proj key
  · rw [e1, e2]
    rfl
  · rw [e1, e2]
    simp only []
    unfold UMAC8.tagOf UMAC16.tagOf
    obtain (⟨w1, w2⟩ | ⟨u1, v1, w1, w2, hp1⟩) := UMAC16_writeAll_proj k ps v u hp
    · rw [w1, w2]
      rfl
    · rw [w1, w2]
      simp only []
      obtain (⟨s1, s2⟩ | ⟨u2, v2, t8, t16, s1, s2, _, _, ht⟩) := UMAC16_sum_proj k v1 u1 b hp1
      · rw [s1, s2]
        rfl
      · rw [s1, s2]
        simp only [Option.map_some']
        rw [ht he]

/-- C22. UMAC-64 is a prefix of UMAC-128: for every key, every message (any sequence
of `Write` calls) and every 8-byte nonce whose last byte is even, the outcome of
`New8`, the `Write` calls and `Sum` is the outcome of `New16`, the same `Write` calls
and `Sum`, with the tag cut to its first 8 bytes; for a 16-byte key and a message
shorter than 2^32 bytes both tags are returned.  The instances `New8` and `New16`
build hold the same PDF state, and the NH key, POLY keys, IP keys and IP trans values
of the 64-bit instance are the first 1040 bytes, streams 0 and 1, the first 8 keys
and streams 0 and 1 of those of the 128-bit instance. -/
theorem umac64_prefix_of_umac128 (key : List Nat) (ps : List (List Nat)) (nonce : List Nat)
    (hN : nonce.length = 8) (he : nonce.getD 7 0 % 2 = 0) :
    tag8 key ps nonce = (tag16 key ps nonce).map (List.take 8) ∧
    (key.length = 16 → ps.flatten.length < 2 ^ 32 →
      ∃ t, tag16 key ps nonce = some t ∧ t.length = 16 ∧
        tag8 key ps nonce = some (t.take 8)) ∧
    (key.length = 16 →
      ∃ u v, New8 key = some u ∧ New16 key = some v ∧ u.pdf = v.pdf ∧
        u.hash.nh.key = v.hash.nh.key.take 1040 ∧
        u.hash.polyKey = (v.hash.polyKey.1, v.hash.polyKey.2.1) ∧
        u.hash.ipKeys = v.hash.ipKeys.take 8 ∧
        u.hash.ipTrans = (v.hash.ipTrans.1, v.hash.ipTrans.2.1)) := by
  have h1 := tag8_eq_tag16_take key ps nonce he
  refine ⟨h1, fun hk h32 => ?_, fun hk => ?_⟩
  · obtain ⟨u, k, _, _, _, ht⟩ := tag16_eq key ps nonce (Or.inl hk) h32 (by omega)
    refine ⟨_, ht, ?_, ?_⟩
    · simp only [xorTag, List.length_zipWith, uhashRef16_length, pad16_length]
      rfl
    · rw [h1, ht]
      rfl
  · obtain (⟨e1, _⟩ | ⟨u, v, k, e1, e2, hp, hpdf⟩) := New_proj key
    · obtain ⟨u, _, hu, _⟩ := New8_ok key (Or.inl hk)
      rw [e1] at hu
      simp at hu
    · refine ⟨u, v, e1, e2, hpdf, ?_, ?_, ?_, ?_⟩ <;> rw [hp.1] <;> rfl

theorem umac64_prefix_of_umac128_witness :
    tag8 testKey [[1, 2, 3], [4, 5]] testNonce
      = (tag16 testKey [[1, 2, 3], [4, 5]] testNonce).map (List.take 8) ∧
    (testKey.length = 16 → [[1, 2, 3], [4, 5]].flatten.length < 2 ^ 32 →
      ∃ t, tag16 testKey [[1, 2, 3], [4, 5]] testNonce = some t ∧ t.length = 16 ∧
        tag8 testKey [[1, 2, 3], [4, 5]] testNonce = some (t.take 8)) ∧
    (testKey.length = 16 →
      ∃ u v, New8 testKey = some u ∧ New16 testKey = some v ∧ u.pdf = v.pdf ∧
        u.hash.nh.key = v.hash.nh.key.take 1040 ∧
        u.hash.polyKey = (v.hash.polyKey.1, v.hash.polyKey.2.1) ∧
        u.hash.ipKeys = v.hash.ipKeys.take 8 ∧
        u.hash.ipTrans = (v.hash.ipTrans.1, v.hash.ipTrans.2.1)) :=
  umac64_prefix_of_umac128 testKey [[1, 2, 3], [4, 5]] testNonce rfl (by decide)

end Umac
